import Mathlib

/-!
# AppleWin debug server: request parsing and JSON building

A shallow embedding of `source/debugserver/HttpRequest.cpp` and
`source/debugserver/JsonBuilder.{h,cpp}`.

* A `std::string` is the list of its bytes, each byte a natural number
  (`0 .. 255`); `static_cast<char>` is written `% 256`.
* `std::map<std::string, std::string>` is an association list kept in
  ascending key order; `operator[]` assignment is `mapInsert`, `find` is
  `mapFind`.
* Character classes (`isspace`, `tolower`) are those of the "C" locale.
-/

namespace DebugServer

/-- The bytes of a `std::string`. -/
abbrev Bytes := List Nat

/-- A text literal as bytes, one byte per character code. -/
def str (s : String) : Bytes := s.toList.map Char.toNat

/-! ## Library functions used by the source -/

/-- Source: `std::isspace` in the "C" locale: space, `\t`, `\n`, `\v`, `\f`, `\r`. -/
def isSpace (c : Nat) : Bool := c == 32 || (9 ≤ c && c ≤ 13)

/-- Source: `std::tolower` in the "C" locale. -/
def toLowerByte (c : Nat) : Nat := if 65 ≤ c ∧ c ≤ 90 then c + 32 else c

/-- Value of a hexadecimal digit character, if it is one. -/
def hexVal (c : Nat) : Option Nat :=
  if 48 ≤ c ∧ c ≤ 57 then some (c - 48)
  else if 97 ≤ c ∧ c ≤ 102 then some (c - 87)
  else if 65 ≤ c ∧ c ≤ 70 then some (c - 55)
  else none

/-- Whether `pat` stands at the front of the text. -/
def startsWith : Bytes → Bytes → Bool
  | [], _ => true
  | _ :: _, [] => false
  | p :: ps, c :: cs => p == c && startsWith ps cs

/-- Source: `std::string::find(pat)`: index of the first occurrence, `none` for `npos`. -/
def find (pat : Bytes) : Bytes → Option Nat
  | [] => if pat.isEmpty then some 0 else none
  | c :: cs => if startsWith pat (c :: cs) then some 0 else (find pat cs).map (· + 1)

/-- The digit loop of `strtol`: accumulated value and number of digits read. -/
def parseHexDigits : Bytes → Nat → Nat → Nat × Nat
  | [], acc, n => (acc, n)
  | c :: cs, acc, n =>
    match hexVal c with
    | some d => parseHexDigits cs (acc * 16 + d) (n + 1)
    | none => (acc, n)

/-- Source: `strtol(buf, &endPtr, 16)` of the C library on a NUL-terminated buffer
whose text is `s`: leading white space, an optional sign, an optional `0x`
or `0X` in front of a digit, then hexadecimal digits. Returns the value and
`endPtr - buf`, the number of characters consumed (`0` when nothing was
converted). A NUL inside `s` stops every phase, as it does in C. -/
def strtol16 (s : Bytes) : Int × Nat :=
  let ws := (s.takeWhile isSpace).length
  let s1 := s.dropWhile isSpace
  let neg : Bool := s1.head? == some 45
  let sg := if s1.head? == some 45 || s1.head? == some 43 then 1 else 0
  let s2 := s1.drop sg
  let px :=
    match s2 with
    | 48 :: x :: d :: _ => if (x == 120 || x == 88) && (hexVal d).isSome then 2 else 0
    | _ => 0
  let r := parseHexDigits (s2.drop px) 0 0
  if r.2 = 0 then (0, 0)
  else (if neg then -(r.1 : Int) else (r.1 : Int), ws + sg + px + r.2)

/-- Source: `iss >> word` on a `std::istringstream` holding `s`: skips leading white
space and reads up to the next white space. `none` when the stream ends
before any character is read (the extraction fails); otherwise the word and
the rest of the stream. -/
def extractWord (s : Bytes) : Option (Bytes × Bytes) :=
  let t := s.dropWhile isSpace
  if t.isEmpty then none
  else some (t.takeWhile (fun c => !isSpace c), t.dropWhile (fun c => !isSpace c))

/-! ## `std::map<std::string, std::string>` -/

/-- A string-keyed map, as the list of its entries. -/
abbrev StrMap := List (Bytes × Bytes)

/-- Source: `std::string::operator<`: lexicographic order on bytes. -/
def strLt : Bytes → Bytes → Bool
  | [], [] => false
  | [], _ :: _ => true
  | _ :: _, [] => false
  | a :: as, b :: bs => a < b || (a == b && strLt as bs)

/-- Source: `m[k] = v`: replaces the value of an existing key, otherwise inserts the
entry at its place in key order. -/
def mapInsert (k v : Bytes) : StrMap → StrMap
  | [] => [(k, v)]
  | (k', v') :: m =>
    if k = k' then (k, v) :: m
    else if strLt k k' then (k, v) :: (k', v') :: m
    else (k', v') :: mapInsert k v m

/-- Source: `m.find(k)`: the value stored under `k`, `none` for `end()`. -/
def mapFind (k : Bytes) : StrMap → Option Bytes
  | [] => none
  | (k', v') :: m => if k = k' then some v' else mapFind k m

/-! ## HttpRequest.cpp -/

/-- The fields of `HttpRequest`; the default value is the state after `Clear()`. -/
structure HttpRequest where
  m_method : Bytes := []
  m_path : Bytes := []
  m_query : Bytes := []
  m_version : Bytes := []
  m_body : Bytes := []
  m_headers : StrMap := []
  m_queryParams : StrMap := []
deriving DecidableEq, Repr

/-- Source: `HttpRequest::Trim`: the first loop advances `start` over leading white
space, the second moves `end` back over trailing white space but not below
`start`. -/
def Trim (s : Bytes) : Bytes :=
  ((s.dropWhile isSpace).reverse.dropWhile isSpace).reverse

/-- Source: `HttpRequest::ToLower`. -/
def ToLower (s : Bytes) : Bytes := s.map toLowerByte

/-- Source: `HttpRequest::UrlDecode`. The loop over `i` is a recursion over the text
from `i` on: `str[i] == '%' && i + 2 < str.length()` says that the text
starts with `%` and two more characters; the last case is every other
character, a `%` near the end included. -/
def UrlDecode : Bytes → Bytes
  | [] => []
  | 37 :: a :: b :: rest =>
    if (strtol16 [a, b]).2 = 2 then
      ((strtol16 [a, b]).1 % 256).toNat :: UrlDecode rest
    else 37 :: UrlDecode (a :: b :: rest)
  | c :: rest => if c = 43 then 32 :: UrlDecode rest else c :: UrlDecode rest

/-- The body of the loop of `ParseQueryString` for one `pair`. -/
def queryPair (m : StrMap) (pair : Bytes) : StrMap :=
  if pair.isEmpty then m
  else
    match find [61] pair with
    | some eqPos => mapInsert (UrlDecode (pair.take eqPos)) (UrlDecode (pair.drop (eqPos + 1))) m
    | none => mapInsert (UrlDecode pair) [] m

/-- The loop of `ParseQueryString` as one pass over the characters from
`pos` on: `pair` collects the characters up to the next `&` (the text
`query.substr(pos, ampPos - pos)`), which is then handled by `queryPair`. -/
def queryLoop (m : StrMap) (pair : Bytes) : Bytes → StrMap
  | [] => queryPair m pair
  | c :: cs => if c = 38 then queryLoop (queryPair m pair) [] cs else queryLoop m (pair ++ [c]) cs

/-- Source: `HttpRequest::ParseQueryString`. -/
def ParseQueryString (r : HttpRequest) (queryString : Bytes) : HttpRequest :=
  if queryString.isEmpty then r
  else { r with m_queryParams := queryLoop r.m_queryParams [] queryString }

/-- Source: `HttpRequest::ParseRequestLine`. Both extraction attempts read
the same `line`, so the second one reads the same method and target as the
first; the version is the third word when there is one and `HTTP/0.9`
otherwise. An extraction that finds no word leaves its string as it was. -/
def ParseRequestLine (r : HttpRequest) (line : Bytes) : Bool × HttpRequest :=
  match extractWord line with
  | none => (false, r)
  | some (method, s1) =>
    match extractWord s1 with
    | none => (false, { r with m_method := method })
    | some (pathWithQuery, s2) =>
      let version :=
        match extractWord s2 with
        | some (v, _) => v
        | none => str "HTTP/0.9"
      let r1 := { r with m_method := method, m_version := version }
      let r2 :=
        match find [63] pathWithQuery with
        | some queryPos =>
          ParseQueryString
            { r1 with m_path := pathWithQuery.take queryPos,
                      m_query := pathWithQuery.drop (queryPos + 1) }
            (pathWithQuery.drop (queryPos + 1))
        | none => { r1 with m_path := pathWithQuery }
      let r3 := { r2 with m_path := UrlDecode r2.m_path }
      (!r3.m_method.isEmpty && !r3.m_path.isEmpty, r3)

/-- The body of the loop of `ParseHeaders` for one line read by `std::getline`. -/
def headerLine (m : StrMap) (line0 : Bytes) : StrMap :=
  let line := if line0.getLast? = some 13 then line0.dropLast else line0
  if line.isEmpty then m
  else
    match find [58] line with
    | some colonPos =>
      mapInsert (ToLower (Trim (line.take colonPos))) (Trim (line.drop (colonPos + 1))) m
    | none => m

/-- The `std::getline` loop of `ParseHeaders` as one pass over the
characters: `line` collects the characters up to the next `\n`. At the end
of the text a last line is read only if it has at least one character. -/
def headersLoop (m : StrMap) (line : Bytes) : Bytes → StrMap
  | [] => if line.isEmpty then m else headerLine m line
  | c :: cs => if c = 10 then headersLoop (headerLine m line) [] cs else headersLoop m (line ++ [c]) cs

/-- Source: `HttpRequest::ParseHeaders`. -/
def ParseHeaders (r : HttpRequest) (headerSection : Bytes) : HttpRequest :=
  { r with m_headers := headersLoop r.m_headers [] headerSection }

/-- The position `headerEnd` computed at the start of `Parse`. -/
def headerEndOf (data : Bytes) : Nat :=
  match find (str "\r\n\r\n") data with
  | some i => i
  | none =>
    match find (str "\n\n") data with
    | some i => i
    | none => data.length

/-- The position `firstLineEnd` computed in `Parse`. -/
def firstLineEndOf (headerSection : Bytes) : Nat :=
  match find (str "\r\n") headerSection with
  | some i => i
  | none =>
    match find (str "\n") headerSection with
    | some i => i
    | none => headerSection.length

/-- Source: `HttpRequest::Parse(const std::string&)`: the returned flag and the
state of the object afterwards. -/
def Parse (data : Bytes) : Bool × HttpRequest :=
  let r0 : HttpRequest := {}
  if data.isEmpty then (false, r0)
  else
    let headerEnd := headerEndOf data
    let headerSection := data.take headerEnd
    let firstLineEnd := firstLineEndOf headerSection
    let requestLine := headerSection.take firstLineEnd
    match ParseRequestLine r0 requestLine with
    | (false, r) => (false, r)
    | (true, r1) =>
      let r2 :=
        if firstLineEnd < headerSection.length then
          let hs1 := if headerSection.get? firstLineEnd = some 13 then firstLineEnd + 1 else firstLineEnd
          let hs2 := if hs1 < headerSection.length ∧ headerSection.get? hs1 = some 10 then hs1 + 1 else hs1
          ParseHeaders r1 (headerSection.drop hs2)
        else r1
      let r3 :=
        if headerEnd + 4 ≤ data.length then
          let bodyStart := if data.get? headerEnd = some 10 then headerEnd + 2 else headerEnd + 4
          if bodyStart < data.length then { r2 with m_body := data.drop bodyStart } else r2
        else r2
      (true, r3)

/-- Source: `HttpRequest::GetQueryParam`. -/
def GetQueryParam (r : HttpRequest) (key defaultValue : Bytes) : Bytes :=
  match mapFind key r.m_queryParams with
  | some v => v
  | none => defaultValue

/-- Source: `HttpRequest::HasQueryParam`. -/
def HasQueryParam (r : HttpRequest) (key : Bytes) : Bool :=
  (mapFind key r.m_queryParams).isSome

/-- Source: `HttpRequest::GetHeader`. -/
def GetHeader (r : HttpRequest) (key defaultValue : Bytes) : Bytes :=
  match mapFind (ToLower key) r.m_headers with
  | some v => v
  | none => defaultValue

/-- Source: `HttpRequest::HasHeader`. -/
def HasHeader (r : HttpRequest) (key : Bytes) : Bool :=
  (mapFind (ToLower key) r.m_headers).isSome

/-! ## JsonBuilder.cpp, JsonBuilder.h -/

/-- The digit `%x` prints for `d < 16`. -/
def hexDigitLower (d : Nat) : Nat := if d < 10 then 48 + d else 87 + d

/-- The text `snprintf(buf, sizeof(buf), "\\u%04x", c)` leaves in `buf` for an
`unsigned char` value `c`: a backslash, `u` and four hexadecimal digits. -/
def snprintfU04x (c : Nat) : Bytes :=
  [92, 117, hexDigitLower (c / 4096 % 16), hexDigitLower (c / 256 % 16),
    hexDigitLower (c / 16 % 16), hexDigitLower (c % 16)]

/-- The `switch (c)` of `JsonBuilder::EscapeString`: the text appended to
`result` for the character `c`. -/
def escapeChar (c : Nat) : Bytes :=
  if c = 34 then [92, 34]
  else if c = 92 then [92, 92]
  else if c = 8 then [92, 98]
  else if c = 12 then [92, 102]
  else if c = 10 then [92, 110]
  else if c = 13 then [92, 114]
  else if c = 9 then [92, 116]
  else if c < 32 then snprintfU04x c
  else [c]

/-- Source: `JsonBuilder::EscapeString`: the loop `for (char c : str)` appending to `result`. -/
def EscapeString (s : Bytes) : Bytes :=
  s.foldl (fun result c => result ++ escapeChar c) []

/-- The fields of `JsonBuilder`; the default value is the state after
`Clear()`. The two vectors are used as stacks: the head of the list is
`back()`. -/
structure JsonBuilder where
  m_stream : Bytes := []
  m_stack : List Nat := []
  m_needComma : List Bool := []
deriving DecidableEq, Repr

namespace JsonBuilder

/-- Source: `JsonBuilder::ToString`. -/
def ToString (b : JsonBuilder) : Bytes := b.m_stream

/-- Source: `JsonBuilder::AddCommaIfNeeded`. -/
def AddCommaIfNeeded (b : JsonBuilder) : JsonBuilder :=
  match b.m_needComma with
  | true :: rest => { b with m_stream := b.m_stream ++ [44], m_needComma := false :: rest }
  | _ => b

/-- The statement `if (!m_needComma.empty()) m_needComma.back() = true;`. -/
def setNeedComma (b : JsonBuilder) : JsonBuilder :=
  match b.m_needComma with
  | _ :: rest => { b with m_needComma := true :: rest }
  | [] => b

/-- The common part of `BeginObject` and `BeginArray`. -/
def beginScope (bracket : Nat) (b : JsonBuilder) : JsonBuilder :=
  let b1 := AddCommaIfNeeded b
  { m_stream := b1.m_stream ++ [bracket],
    m_stack := bracket :: b1.m_stack,
    m_needComma := false :: b1.m_needComma }

/-- The common part of `EndObject` and `EndArray`. -/
def endScope (bracket : Nat) (b : JsonBuilder) : JsonBuilder :=
  setNeedComma
    { m_stream := b.m_stream ++ [bracket],
      m_stack := b.m_stack.tail,
      m_needComma := b.m_needComma.tail }

/-- Source: `JsonBuilder::BeginObject`. -/
def BeginObject (b : JsonBuilder) : JsonBuilder := beginScope 123 b

/-- Source: `JsonBuilder::EndObject`. -/
def EndObject (b : JsonBuilder) : JsonBuilder := endScope 125 b

/-- Source: `JsonBuilder::BeginArray`. -/
def BeginArray (b : JsonBuilder) : JsonBuilder := beginScope 91 b

/-- Source: `JsonBuilder::EndArray`. -/
def EndArray (b : JsonBuilder) : JsonBuilder := endScope 93 b

/-- Source: `JsonBuilder::Key`. -/
def Key (b : JsonBuilder) (key : Bytes) : JsonBuilder :=
  let b1 := AddCommaIfNeeded b
  { b1 with m_stream := b1.m_stream ++ [34] ++ EscapeString key ++ [34, 58] }

/-- The shape shared by every scalar `Value` overload, `Null` and
`RawValue`: a separator if needed, the text of the value, then the flag. -/
def writeValue (b : JsonBuilder) (text : Bytes) : JsonBuilder :=
  let b1 := AddCommaIfNeeded b
  setNeedComma { b1 with m_stream := b1.m_stream ++ text }

/-- Source: `JsonBuilder::Value(const std::string&)`. -/
def ValueString (b : JsonBuilder) (val : Bytes) : JsonBuilder :=
  writeValue b ([34] ++ EscapeString val ++ [34])

/-- The text `m_stream << val` writes for an integer: its decimal digits. -/
def decimal (val : Int) : Bytes := str (toString val)

/-- Source: `JsonBuilder::Value` for the integer types. -/
def ValueInt (b : JsonBuilder) (val : Int) : JsonBuilder := writeValue b (decimal val)

/-- Source: `JsonBuilder::Value(bool)`. -/
def ValueBool (b : JsonBuilder) (val : Bool) : JsonBuilder :=
  writeValue b (if val then str "true" else str "false")

/-- Source: `JsonBuilder::Null`. -/
def Null (b : JsonBuilder) : JsonBuilder := writeValue b (str "null")

/-- Source: `JsonBuilder::RawValue`. -/
def RawValue (b : JsonBuilder) (jsonValue : Bytes) : JsonBuilder := writeValue b jsonValue

/-- Source: `JsonBuilder::Add(key, int)`: `Key(key).Value(val)`. -/
def AddInt (b : JsonBuilder) (key : Bytes) (val : Int) : JsonBuilder := ValueInt (Key b key) val

/-- Source: `JsonBuilder::Add(key, const std::string&)`: `Key(key).Value(val)`. -/
def AddString (b : JsonBuilder) (key val : Bytes) : JsonBuilder := ValueString (Key b key) val

end JsonBuilder

/-! ## Value trees and their emission through the builder -/

/-- A JSON value tree: scalars, arrays, and objects with string keys. The
scalar `raw` carries its text as written by `RawValue`; it also stands for a
floating-point `Value`, whose text the stream produces. -/
inductive JVal where
  | string (s : Bytes)
  | int (i : Int)
  | bool (b : Bool)
  | null
  | raw (text : Bytes)
  | array (elems : List JVal)
  | object (members : List (Bytes × JVal))

mutual
/-- The builder calls that emit a value tree in document order. -/
def emit : JVal → JsonBuilder → JsonBuilder
  | .string s, b => b.ValueString s
  | .int i, b => b.ValueInt i
  | .bool v, b => b.ValueBool v
  | .null, b => b.Null
  | .raw t, b => b.RawValue t
  | .array elems, b => (emitElems elems b.BeginArray).EndArray
  | .object members, b => (emitMembers members b.BeginObject).EndObject
/-- The calls for the elements of an array, in order. -/
def emitElems : List JVal → JsonBuilder → JsonBuilder
  | [], b => b
  | x :: xs, b => emitElems xs (emit x b)
/-- The calls for the members of an object: `Key`, then the value. -/
def emitMembers : List (Bytes × JVal) → JsonBuilder → JsonBuilder
  | [], b => b
  | (k, v) :: ms, b => emitMembers ms (emit v (b.Key k))
end

mutual
/-- The compact serialization of a value tree: siblings are separated by
exactly one comma, and no comma follows an opening bracket. -/
def compact : JVal → Bytes
  | .string s => [34] ++ EscapeString s ++ [34]
  | .int i => JsonBuilder.decimal i
  | .bool v => if v then str "true" else str "false"
  | .null => str "null"
  | .raw t => t
  | .array elems => [91] ++ compactElems elems ++ [93]
  | .object members => [123] ++ compactMembers members ++ [125]
/-- The elements of an array, comma-separated. -/
def compactElems : List JVal → Bytes
  | [] => []
  | [x] => compact x
  | x :: y :: xs => compact x ++ [44] ++ compactElems (y :: xs)
/-- The members of an object, comma-separated, each as `"key":value`. -/
def compactMembers : List (Bytes × JVal) → Bytes
  | [] => []
  | [(k, v)] => [34] ++ EscapeString k ++ [34, 58] ++ compact v
  | (k, v) :: m :: ms =>
    [34] ++ EscapeString k ++ [34, 58] ++ compact v ++ [44] ++ compactMembers (m :: ms)
end

/-! ## The standard JSON string unescape (RFC 8259, section 7) -/

/-- UTF-8 encoding of a code point below 0x10000. -/
def utf8Encode (cp : Nat) : Bytes :=
  if cp < 128 then [cp]
  else if cp < 2048 then [192 + cp / 64, 128 + cp % 64]
  else [224 + cp / 4096, 128 + cp / 64 % 64, 128 + cp % 64]

/-- The character a two-character escape `\e` stands for. -/
def simpleEscape (e : Nat) : Option Nat :=
  if e = 34 then some 34
  else if e = 92 then some 92
  else if e = 47 then some 47
  else if e = 98 then some 8
  else if e = 102 then some 12
  else if e = 110 then some 10
  else if e = 114 then some 13
  else if e = 116 then some 9
  else none

/-- The code point of four hexadecimal digits. -/
def hex4 (a b c d : Nat) : Option Nat :=
  match hexVal a, hexVal b, hexVal c, hexVal d with
  | some x, some y, some z, some w => some (((x * 16 + y) * 16 + z) * 16 + w)
  | _, _, _, _ => none

/-- Standard JSON string unescape of the text between the quotes of a string
literal: `\"`, `\\`, `\/`, `\b`, `\f`, `\n`, `\r`, `\t` and `\uXXXX` are
decoded, every other character stands for itself. The text is rejected
(`none`) if it holds a bare quote, a raw control character below 0x20, or a
malformed escape. -/
def jsonUnescape : Bytes → Option Bytes
  | [] => some []
  | 92 :: 117 :: a :: b :: c :: d :: rest =>
    match hex4 a b c d with
    | some cp => (jsonUnescape rest).map (utf8Encode cp ++ ·)
    | none => none
  | 92 :: e :: rest =>
    match simpleEscape e with
    | some x => (jsonUnescape rest).map (x :: ·)
    | none => none
  | c :: rest =>
    if c = 92 ∨ c = 34 ∨ c < 32 then none
    else (jsonUnescape rest).map (c :: ·)

/-! ## Reference definitions taken from the specification -/

/-- The standard escaping of one byte: backslash and double quote get a
backslash in front, the bytes 0x08, 0x0C, 0x0A, 0x0D, 0x09 become `\b`,
`\f`, `\n`, `\r`, `\t`, every other byte below 0x20 becomes `\u00` and its
two hexadecimal digits, every other byte is copied. -/
def stdEscapeByte (c : Nat) : Bytes :=
  if c = 92 then [92, 92]
  else if c = 34 then [92, 34]
  else if c = 8 then [92, 98]
  else if c = 12 then [92, 102]
  else if c = 10 then [92, 110]
  else if c = 13 then [92, 114]
  else if c = 9 then [92, 116]
  else if c < 32 then [92, 117, 48, 48, hexDigitLower (c / 16), hexDigitLower (c % 16)]
  else [c]

/-- The standard escaping applied byte by byte, in order. -/
def stdEscape : Bytes → Bytes
  | [] => []
  | c :: cs => stdEscapeByte c ++ stdEscape cs

/-- Whether a text has no unescaped double quote: a backslash takes the
character after it with it, and outside such a pair no quote occurs. -/
def noBareQuote : Bytes → Bool
  | [] => true
  | 92 :: _ :: rest => noBareQuote rest
  | c :: rest => c != 34 && noBareQuote rest

/-- The upper-case hexadecimal digit of `d < 16`. -/
def hexDigitUpper (d : Nat) : Nat := if d < 10 then 48 + d else 55 + d

/-- The text that writes each byte as `%` followed by its two hexadecimal
digits. An entry is a byte with the letter case of its high and of its low
digit (`true` for upper case), so every mix of cases is covered. -/
def pctWrite : List (Nat × Bool × Bool) → Bytes
  | [] => []
  | (b, hi, lo) :: rest =>
    37 :: (if hi then hexDigitUpper (b / 16) else hexDigitLower (b / 16))
      :: (if lo then hexDigitUpper (b % 16) else hexDigitLower (b % 16)) :: pctWrite rest

/-- Whether a text holds something `UrlDecode` rewrites: a `+`, or a `%`
followed by two characters that `strtol` consumes as a hexadecimal number. -/
def hasEscape : Bytes → Bool
  | [] => false
  | 37 :: a :: b :: rest => (strtol16 [a, b]).2 == 2 || hasEscape (a :: b :: rest)
  | c :: rest => c == 43 || hasEscape rest

/-- Whether `c` is an upper-case letter. -/
def isUpperByte (c : Nat) : Bool := 65 ≤ c && c ≤ 90

/-- Whether two keys differ at most in letter case: same length, and at each
place the same byte or the two cases of one letter. -/
def sameIgnoringCase : Bytes → Bytes → Bool
  | [], [] => true
  | a :: as, b :: bs =>
    (a == b || (isUpperByte a && b == a + 32) || (isUpperByte b && a == b + 32))
      && sameIgnoringCase as bs
  | _, _ => false

/-- The lines of a text: the pieces between line feeds. -/
def splitLines : Bytes → List Bytes
  | [] => [[]]
  | c :: cs =>
    if c = 10 then [] :: splitLines cs
    else
      match splitLines cs with
      | l :: ls => (c :: l) :: ls
      | [] => [[c]]

/-- A text without its trailing white space. -/
def dropTrailingSpace : Bytes → Bytes
  | [] => []
  | c :: cs =>
    match dropTrailingSpace cs with
    | [] => if isSpace c then [] else [c]
    | t :: ts => c :: t :: ts

/-- A text trimmed of surrounding white space. -/
def trimmed (s : Bytes) : Bytes := dropTrailingSpace (s.dropWhile isSpace)

/-- The header a line stands for: a line that contains a colon is split at
its first colon and both sides are trimmed. A carriage return ending the
line belongs to the line terminator. -/
def headerOfLine (line0 : Bytes) : Option (Bytes × Bytes) :=
  let line := if line0.getLast? = some 13 then line0.dropLast else line0
  if 58 ∈ line then
    some (trimmed (line.takeWhile (· != 58)), trimmed ((line.dropWhile (· != 58)).drop 1))
  else none

/-- The value of the last header whose name is `k` in any letter case. -/
def lastHeader (k : Bytes) : List (Bytes × Bytes) → Option Bytes
  | [] => none
  | (n, v) :: hs =>
    match lastHeader k hs with
    | some w => some w
    | none => if sameIgnoringCase n k then some v else none

/-- Header lookup as the specification words it: the last line of the block
that holds a header named `k`, in any letter case, gives the value. -/
def refHeader (block k : Bytes) : Option Bytes :=
  lastHeader k ((splitLines block).filterMap headerOfLine)

/-- The separator a scope with the comma flags `nc` asks for before its next element. -/
def sepOf (nc : List Bool) : Bytes :=
  match nc with
  | true :: _ => [44]
  | _ => []

/-- The comma flags after an element was written in the current scope. -/
def markOf (nc : List Bool) : List Bool :=
  match nc with
  | _ :: rest => true :: rest
  | [] => []

/-- The comma flags after `AddCommaIfNeeded`. -/
def resetOf (nc : List Bool) : List Bool :=
  match nc with
  | _ :: rest => false :: rest
  | [] => []

/-- The text of the elements of a scope whose flag is `f`: nothing for no
element, otherwise the separator the flag asks for and the elements. -/
def elemsText (f : Bool) (xs : List JVal) : Bytes :=
  if xs.isEmpty then [] else (if f then [44] else []) ++ compactElems xs

/-- The text of the members of a scope whose flag is `f`. -/
def membersText (f : Bool) (ms : List (Bytes × JVal)) : Bytes :=
  if ms.isEmpty then [] else (if f then [44] else []) ++ compactMembers ms

/-! ## The request grammar and its encoding -/

/-- The parts of a request of the supported grammar. -/
structure RequestParts where
  method : Bytes
  path : Bytes
  query : List (Bytes × Bytes)
  headers : List (Bytes × Bytes)
  version : Bytes
  body : Bytes

/-- Unreserved characters of a URL: letters, digits, `-`, `.`, `_`, `~`. -/
def isUnreserved (c : Nat) : Bool :=
  (48 ≤ c && c ≤ 57) || (65 ≤ c && c ≤ 90) || (97 ≤ c && c ≤ 122) ||
    c == 45 || c == 46 || c == 95 || c == 126

/-- Percent-encoding of a text: a byte is kept if it is unreserved (or a
`/`, when `slash` is set, as in a path), and written as `%XX` otherwise. -/
def pctEncode (slash : Bool) : Bytes → Bytes
  | [] => []
  | c :: cs =>
    (if isUnreserved c || (slash && c == 47) then [c]
      else [37, hexDigitUpper (c / 16), hexDigitUpper (c % 16)]) ++ pctEncode slash cs

/-- The query string of a list of pairs: `key=value` joined by `&`. -/
def encodeQuery : List (Bytes × Bytes) → Bytes
  | [] => []
  | [(k, v)] => pctEncode false k ++ 61 :: pctEncode false v
  | (k, v) :: p :: ps =>
    pctEncode false k ++ 61 :: pctEncode false v ++ 38 :: encodeQuery (p :: ps)

/-- The request target: the path, then `?` and the query string if there are pairs. -/
def encodeTarget (path : Bytes) (query : List (Bytes × Bytes)) : Bytes :=
  pctEncode true path ++ (if query.isEmpty then [] else 63 :: encodeQuery query)

/-- The header lines, each `name: value` ended by CRLF. -/
def encodeHeaders : List (Bytes × Bytes) → Bytes
  | [] => []
  | (n, v) :: hs => n ++ 58 :: 32 :: v ++ 13 :: 10 :: encodeHeaders hs

/-- The message of a request, written with CRLF line endings. -/
def encodeRequest (r : RequestParts) : Bytes :=
  r.method ++ 32 :: encodeTarget r.path r.query ++ 32 :: r.version ++ 13 :: 10 ::
    encodeHeaders r.headers ++ 13 :: 10 :: r.body

/-- A non-empty text without white space. -/
def isToken (s : Bytes) : Bool := !s.isEmpty && s.all (fun c => !isSpace c)

/-- A text of bytes. -/
def isByteString (s : Bytes) : Bool := s.all (fun c => decide (c < 256))

/-- A header of the grammar: no colon in the name, no line feed in the name
or the value, and no white space around either. -/
def validHeader (h : Bytes × Bytes) : Bool :=
  h.1.all (fun c => c != 58 && c != 10) && h.2.all (fun c => c != 10) &&
    Trim h.1 == h.1 && Trim h.2 == h.2

/-- The supported request grammar. -/
def inGrammar (r : RequestParts) : Bool :=
  isToken r.method && !r.path.isEmpty && isByteString r.path &&
    r.query.all (fun p => isByteString p.1 && isByteString p.2) &&
    isToken r.version && r.headers.all validHeader

/-- The value of the last pair whose key is `k`. -/
def lastValue (k : Bytes) : List (Bytes × Bytes) → Option Bytes
  | [] => none
  | (k', v) :: ps =>
    match lastValue k ps with
    | some w => some w
    | none => if k' = k then some v else none

/-- The characters an encoded text is made of. -/
def isEncChar (slash : Bool) (c : Nat) : Bool :=
  isUnreserved c || (slash && c == 47) || c == 37

/-- The request line of a request. -/
def encodeRequestLine (r : RequestParts) : Bytes :=
  r.method ++ 32 :: encodeTarget r.path r.query ++ 32 :: r.version

/-- The header lines, each preceded by the CRLF that ends the line before it. -/
def headerLinesPre : List (Bytes × Bytes) → Bytes
  | [] => []
  | (n, v) :: hs => 13 :: 10 :: (n ++ 58 :: 32 :: v) ++ headerLinesPre hs

/-- The request `GET /status HTTP/1.1` with the header `Host: x` and no body. -/
def statusRequest : RequestParts :=
  { method := str "GET", path := str "/status", query := [],
    headers := [(str "Host", str "x")], version := str "HTTP/1.1", body := [] }

/-! ## Pretty printing (JsonBuilder.cpp) -/

namespace JsonBuilder

/-- Source: `JsonBuilder::WriteIndent`: `depth * indentSize` spaces, none when the
product is not positive. -/
def WriteIndent (depth indentSize : Int) : Bytes :=
  List.replicate (depth * indentSize).toNat 32

/-- The look-ahead of `FormatPretty` after an opening bracket: whether the
next character that is neither a space nor a tab is a closing bracket. -/
def nextIsClose (rest : Bytes) : Bool :=
  match rest.dropWhile (fun c => c == 32 || c == 9) with
  | x :: _ => x == 125 || x == 93
  | [] => false

/-- The loop of `JsonBuilder::FormatPretty` over the text from index `i` on,
with the loop variables `depth`, `inString`, `escaped` and `prevChar`;
returns what is written to `out`. -/
def formatPrettyLoop (indentSize : Int) : Int → Bool → Bool → Nat → Bytes → Bytes
  | _, _, _, _, [] => []
  | depth, inString, escaped, prevChar, c :: rest =>
    if escaped then c :: formatPrettyLoop indentSize depth inString false c rest
    else if c = 92 ∧ inString = true then
      c :: formatPrettyLoop indentSize depth inString true c rest
    else if c = 34 then c :: formatPrettyLoop indentSize depth (!inString) false c rest
    else if inString then c :: formatPrettyLoop indentSize depth inString false c rest
    else if c = 123 ∨ c = 91 then
      c :: ((if nextIsClose rest then [] else 10 :: WriteIndent (depth + 1) indentSize) ++
        formatPrettyLoop indentSize (depth + 1) inString escaped c rest)
    else if c = 125 ∨ c = 93 then
      (if prevChar ≠ 123 ∧ prevChar ≠ 91 then 10 :: WriteIndent (depth - 1) indentSize else [])
        ++ c :: formatPrettyLoop indentSize (depth - 1) inString escaped c rest
    else if c = 44 then
      c :: 10 :: (WriteIndent depth indentSize ++
        formatPrettyLoop indentSize depth inString escaped c rest)
    else if c = 58 then c :: 32 :: formatPrettyLoop indentSize depth inString escaped c rest
    else if c = 32 ∨ c = 9 ∨ c = 10 ∨ c = 13 then
      formatPrettyLoop indentSize depth inString escaped prevChar rest
    else c :: formatPrettyLoop indentSize depth inString escaped c rest

/-- Source: `JsonBuilder::FormatPretty`. -/
def FormatPretty (json : Bytes) (indentSize : Int) : Bytes :=
  formatPrettyLoop indentSize 0 false false 0 json

/-- Source: `JsonBuilder::ToPrettyString`. -/
def ToPrettyString (b : JsonBuilder) (indent : Int) : Bytes :=
  FormatPretty b.ToString indent

end JsonBuilder

/-- A JSON text without the white space (space, tab, line feed, carriage
return) that lies outside its string literals. A double quote opens or
closes a literal; inside a literal a backslash takes the next character with
it. `inString` and `escaped` say where the text starts. -/
def stripOutsideLoop : Bool → Bool → Bytes → Bytes
  | _, _, [] => []
  | inString, escaped, c :: rest =>
    if escaped then c :: stripOutsideLoop inString false rest
    else if c = 92 ∧ inString = true then c :: stripOutsideLoop inString true rest
    else if c = 34 then c :: stripOutsideLoop (!inString) false rest
    else if inString then c :: stripOutsideLoop inString false rest
    else if c = 32 ∨ c = 9 ∨ c = 10 ∨ c = 13 then stripOutsideLoop inString escaped rest
    else c :: stripOutsideLoop inString escaped rest

/-- A JSON text without the white space outside its string literals. -/
def stripOutside (json : Bytes) : Bytes := stripOutsideLoop false false json

/-- The string literals of a JSON text, in order, each as the bytes between
its quotes; `cur` holds the literal being read. A literal left open at the
end of the text is returned as well. -/
def stringLiteralsLoop : Bool → Bool → Bytes → Bytes → List Bytes
  | inString, _, cur, [] => if inString then [cur] else []
  | inString, escaped, cur, c :: rest =>
    if escaped then stringLiteralsLoop inString false (cur ++ [c]) rest
    else if c = 92 ∧ inString = true then stringLiteralsLoop inString true (cur ++ [c]) rest
    else if c = 34 then
      if inString then cur :: stringLiteralsLoop false false [] rest
      else stringLiteralsLoop true false [] rest
    else if inString then stringLiteralsLoop inString false (cur ++ [c]) rest
    else stringLiteralsLoop inString escaped cur rest

/-- The string literals of a JSON text. -/
def stringLiterals (json : Bytes) : List Bytes := stringLiteralsLoop false false [] json

/-! ## HttpResponse.cpp -/

/-- The fields of `HttpResponse`. -/
structure HttpResponse where
  m_statusCode : Int
  m_statusReason : Bytes
  m_headers : StrMap
  m_body : Bytes
deriving DecidableEq, Repr

namespace HttpResponse

/-- Source: `HttpResponse::GetStatusText`. -/
def GetStatusText (code : Int) : Bytes :=
  if code = 100 then str "Continue"
  else if code = 101 then str "Switching Protocols"
  else if code = 200 then str "OK"
  else if code = 201 then str "Created"
  else if code = 202 then str "Accepted"
  else if code = 204 then str "No Content"
  else if code = 301 then str "Moved Permanently"
  else if code = 302 then str "Found"
  else if code = 303 then str "See Other"
  else if code = 304 then str "Not Modified"
  else if code = 307 then str "Temporary Redirect"
  else if code = 308 then str "Permanent Redirect"
  else if code = 400 then str "Bad Request"
  else if code = 401 then str "Unauthorized"
  else if code = 403 then str "Forbidden"
  else if code = 404 then str "Not Found"
  else if code = 405 then str "Method Not Allowed"
  else if code = 406 then str "Not Acceptable"
  else if code = 408 then str "Request Timeout"
  else if code = 409 then str "Conflict"
  else if code = 410 then str "Gone"
  else if code = 413 then str "Payload Too Large"
  else if code = 414 then str "URI Too Long"
  else if code = 415 then str "Unsupported Media Type"
  else if code = 429 then str "Too Many Requests"
  else if code = 500 then str "Internal Server Error"
  else if code = 501 then str "Not Implemented"
  else if code = 502 then str "Bad Gateway"
  else if code = 503 then str "Service Unavailable"
  else if code = 504 then str "Gateway Timeout"
  else if code = 505 then str "HTTP Version Not Supported"
  else str "Unknown"

/-- Source: `HttpResponse::SetHeader`. -/
def SetHeader (r : HttpResponse) (key value : Bytes) : HttpResponse :=
  { r with m_headers := mapInsert key value r.m_headers }

/-- Source: `HttpResponse::HttpResponse()`: status 200 and the two default headers. -/
def new : HttpResponse :=
  SetHeader
    (SetHeader { m_statusCode := 200, m_statusReason := str "OK", m_headers := [], m_body := [] }
      (str "Server") (str "AppleWin-DebugServer/1.0"))
    (str "Connection") (str "close")

/-- Source: `HttpResponse::SetStatus`; an empty `reason` is the default argument. -/
def SetStatus (r : HttpResponse) (code : Int) (reason : Bytes) : HttpResponse :=
  { r with m_statusCode := code,
           m_statusReason := if reason.isEmpty then GetStatusText code else reason }

/-- Source: `HttpResponse::SetContentType`. -/
def SetContentType (r : HttpResponse) (contentType : Bytes) : HttpResponse :=
  SetHeader r (str "Content-Type") contentType

/-- Source: `HttpResponse::SetContentLength`. -/
def SetContentLength (r : HttpResponse) (length : Nat) : HttpResponse :=
  SetHeader r (str "Content-Length") (JsonBuilder.decimal length)

/-- Source: `HttpResponse::EnableCORS`. -/
def EnableCORS (r : HttpResponse) (origin : Bytes) : HttpResponse :=
  SetHeader
    (SetHeader (SetHeader r (str "Access-Control-Allow-Origin") origin)
      (str "Access-Control-Allow-Methods") (str "GET, POST, OPTIONS"))
    (str "Access-Control-Allow-Headers") (str "Content-Type, Accept")

/-- Source: `HttpResponse::SetCacheControl`. -/
def SetCacheControl (r : HttpResponse) (directive : Bytes) : HttpResponse :=
  SetHeader r (str "Cache-Control") directive

/-- Source: `HttpResponse::DisableCache`. -/
def DisableCache (r : HttpResponse) : HttpResponse :=
  SetHeader
    (SetHeader (SetCacheControl r (str "no-cache, no-store, must-revalidate"))
      (str "Pragma") (str "no-cache"))
    (str "Expires") (str "0")

/-- Source: `HttpResponse::SetBody`. -/
def SetBody (r : HttpResponse) (body : Bytes) : HttpResponse := { r with m_body := body }

/-- Source: `HttpResponse::AppendBody`. -/
def AppendBody (r : HttpResponse) (data : Bytes) : HttpResponse :=
  { r with m_body := r.m_body ++ data }

/-- Source: `HttpResponse::SendHTML`. -/
def SendHTML (r : HttpResponse) (html : Bytes) : HttpResponse :=
  SetBody (SetContentType r (str "text/html; charset=utf-8")) html

/-- Source: `HttpResponse::SendJSON`. -/
def SendJSON (r : HttpResponse) (json : Bytes) : HttpResponse :=
  SetBody (SetContentType r (str "application/json; charset=utf-8")) json

/-- Source: `HttpResponse::SendText`. -/
def SendText (r : HttpResponse) (text : Bytes) : HttpResponse :=
  SetBody (SetContentType r (str "text/plain; charset=utf-8")) text

/-- Source: `HttpResponse::SendError`. -/
def SendError (r : HttpResponse) (code : Int) (message : Bytes) : HttpResponse :=
  SetBody (SetContentType (SetStatus r code []) (str "text/html; charset=utf-8"))
    (str "<!DOCTYPE html>\n" ++ str "<html>\n" ++
      str "<head><title>" ++ JsonBuilder.decimal code ++ str " " ++ GetStatusText code ++
        str "</title></head>\n" ++
      str "<body>\n" ++
      str "<h1>" ++ JsonBuilder.decimal code ++ str " " ++ GetStatusText code ++ str "</h1>\n" ++
      str "<p>" ++ message ++ str "</p>\n" ++
      str "<hr>\n" ++
      str "<p><small>AppleWin Debug Server</small></p>\n" ++
      str "</body>\n" ++
      str "</html>\n")

/-- Source: `HttpResponse::Redirect`. -/
def Redirect (r : HttpResponse) (url : Bytes) (code : Int) : HttpResponse :=
  SetBody
    (SetContentType (SetHeader (SetStatus r code []) (str "Location") url)
      (str "text/html; charset=utf-8"))
    (str "<!DOCTYPE html>\n" ++ str "<html>\n" ++
      str "<head><title>Redirect</title></head>\n" ++
      str "<body>\n" ++
      str "<p>Redirecting to <a href=\"" ++ url ++ str "\">" ++ url ++ str "</a></p>\n" ++
      str "</body>\n" ++
      str "</html>\n")

/-- Source: `HttpResponse::Clear`. -/
def Clear (_r : HttpResponse) : HttpResponse := new

/-- Source: `HttpResponse::Build`, with the text of `GetCurrentTimestamp()` as the
parameter `now`. The writes to the stream `response` in their order; the
loop over `m_headers` visits the entries in map order. -/
def Build (r : HttpResponse) (now : Bytes) : Bytes :=
  let response : Bytes := []
  let response := response ++ str "HTTP/1.1 " ++ JsonBuilder.decimal r.m_statusCode ++ str " "
    ++ r.m_statusReason ++ str "\r\n"
  let response := response ++ str "Date: " ++ now ++ str "\r\n"
  let response :=
    if !r.m_body.isEmpty ∧ mapFind (str "Content-Length") r.m_headers = none then
      response ++ str "Content-Length: " ++ JsonBuilder.decimal r.m_body.length ++ str "\r\n"
    else response
  let response :=
    r.m_headers.foldl (fun response header => response ++ header.1 ++ str ": " ++ header.2
      ++ str "\r\n") response
  let response := response ++ str "\r\n"
  response ++ r.m_body

end HttpResponse

/-- A call of one of the mutators of `HttpResponse`. -/
inductive ResponseOp where
  | SetStatus (code : Int) (reason : Bytes)
  | SetHeader (key value : Bytes)
  | SetContentType (contentType : Bytes)
  | SetContentLength (length : Nat)
  | EnableCORS (origin : Bytes)
  | SetCacheControl (directive : Bytes)
  | DisableCache
  | SetBody (body : Bytes)
  | AppendBody (data : Bytes)
  | SendHTML (html : Bytes)
  | SendJSON (json : Bytes)
  | SendText (text : Bytes)
  | SendError (code : Int) (message : Bytes)
  | Redirect (url : Bytes) (code : Int)
  | Clear

/-- The response after one mutator call. -/
def ResponseOp.apply (r : HttpResponse) : ResponseOp → HttpResponse
  | .SetStatus code reason => r.SetStatus code reason
  | .SetHeader key value => r.SetHeader key value
  | .SetContentType ct => r.SetContentType ct
  | .SetContentLength n => r.SetContentLength n
  | .EnableCORS origin => r.EnableCORS origin
  | .SetCacheControl d => r.SetCacheControl d
  | .DisableCache => r.DisableCache
  | .SetBody body => r.SetBody body
  | .AppendBody data => r.AppendBody data
  | .SendHTML html => r.SendHTML html
  | .SendJSON json => r.SendJSON json
  | .SendText text => r.SendText text
  | .SendError code message => r.SendError code message
  | .Redirect url code => r.Redirect url code
  | .Clear => r.Clear

/-- A response as a program can hold it: the constructed object after any
sequence of mutator calls. -/
def responseAfter (ops : List ResponseOp) : HttpResponse :=
  ops.foldl ResponseOp.apply HttpResponse.new

/-- Whether the keys of a map are in strictly ascending order. -/
def keysAscending : StrMap → Bool
  | [] => true
  | [_] => true
  | a :: b :: rest => strLt a.1 b.1 && keysAscending (b :: rest)

/-- The header fields `Build` writes, as names and values in their order:
`Date`, the computed `Content-Length` if the body is not empty and no header
of that name is stored, then the stored headers. -/
def responseFields (r : HttpResponse) (now : Bytes) : List (Bytes × Bytes) :=
  (str "Date", now) ::
    ((if !r.m_body.isEmpty ∧ mapFind (str "Content-Length") r.m_headers = none then
        [(str "Content-Length", JsonBuilder.decimal r.m_body.length)]
      else []) ++ r.m_headers)

/-- The exceptions `std::stoul` throws. -/
inductive StoulError where
  | invalid_argument
  | out_of_range
deriving DecidableEq, Repr

/-- The decimal digits. -/
def isDigit (c : Nat) : Bool := 48 ≤ c && c ≤ 57

/-- Source: `std::stoul(s)` of the C++ library (base 10) with `ULONG_MAX` as a
parameter: `strtoul` on `s.c_str()` skips leading white space, reads an
optional sign and the decimal digits; `std::invalid_argument` is thrown when
no digit is read, `std::out_of_range` when the value does not fit. A minus
sign negates the value in `unsigned long`. -/
def stoul (ulongMax : Nat) (s : Bytes) : Except StoulError Nat :=
  let text := s.takeWhile (· != 0)
  let s1 := text.dropWhile isSpace
  let neg : Bool := s1.head? == some 45
  let s2 := if s1.head? == some 45 || s1.head? == some 43 then s1.tail else s1
  let digits := s2.takeWhile isDigit
  if digits.isEmpty then .error .invalid_argument
  else
    let v := digits.foldl (fun acc d => acc * 10 + (d - 48)) 0
    if ulongMax < v then .error .out_of_range
    else .ok (if neg then (ulongMax + 1 - v) % (ulongMax + 1) else v)

/-- The test `ReadRequest` makes after each successful `recv`, on the data
read so far: whether the request is complete and the loop is left. An
exception of `std::stoul` is not caught here. `sizeMod` is the number of
values of `size_t`. -/
def requestComplete (ulongMax sizeMod : Nat) (data : Bytes) : Except StoulError Bool :=
  match find (str "\r\n\r\n") data with
  | none => .ok false
  | some headerEnd =>
    let clPos :=
      match find (str "Content-Length:") data with
      | some p => some p
      | none => find (str "content-length:") data
    match clPos with
    | none => .ok true
    | some p =>
      if p < headerEnd then
        let valueStart := p + 15 + ((data.drop (p + 15)).takeWhile (fun c => c == 32 || c == 9)).length
        match find (str "\r\n") (data.drop valueStart) with
        | none => .ok false
        | some valueLen =>
          match stoul ulongMax ((data.drop valueStart).take valueLen) with
          | .error e => .error e
          | .ok contentLength =>
            .ok (decide ((headerEnd + 4 + contentLength) % sizeMod ≤ data.length))
      else .ok true

/-- What one turn of the loop of `ReadRequest` meets: the wait for data times
out, `recv` returns the bytes `chunk`, `recv` returns 0 (the client closed
the connection), or `recv` fails, with an error that says to try again or
with another one. -/
inductive RecvEvent where
  | timedOut
  | received (chunk : Bytes)
  | closed
  | wouldBlock
  | failed

/-- Source: `HttpServer::ReadRequest` over the events of the connection in
their order (after the last one the wait times out), from the `data` read so
far: the text returned, or the exception that leaves the function. -/
def ReadRequest (m_maxRequestSize ulongMax sizeMod : Nat) :
    List RecvEvent → Bytes → Except StoulError Bytes
  | [], data => .ok data
  | event :: events, data =>
    if data.length < m_maxRequestSize then
      match event with
      | .timedOut => .ok data
      | .received chunk =>
        match requestComplete ulongMax sizeMod (data ++ chunk) with
        | .error e => .error e
        | .ok true => .ok (data ++ chunk)
        | .ok false => ReadRequest m_maxRequestSize ulongMax sizeMod events (data ++ chunk)
      | .closed => .ok data
      | .wouldBlock => ReadRequest m_maxRequestSize ulongMax sizeMod events data
      | .failed => .ok data
    else .ok data

/-! ## HttpServer.cpp: handling one client -/

/-- How a call of the request handler ends, with the state of the object
`response` at that moment: it returns, it throws a `std::exception` whose
`what()` is the given text, or it throws something else. -/
inductive HandlerResult where
  | returned (response : HttpResponse)
  | threwStd (what : Bytes) (response : HttpResponse)
  | threwOther (response : HttpResponse)

/-- The type `HttpServer::RequestHandler`. -/
abbrev RequestHandler := HttpRequest → HttpResponse → HandlerResult

/-- A call `HandleClient` makes on the client socket. -/
inductive SocketCall where
  | SendResponse (data : Bytes)
  | CloseSocket
deriving DecidableEq, Repr

/-- The statements of `HttpServer::HandleClient` after its first one, from
the text `requestData` that `ReadRequest` returned: the calls made on the
client socket, in their order. `m_handler` is `none` for an empty
`std::function`; `now` is the time `Build` reads. -/
def handleRequestData (m_handler : Option RequestHandler) (now : Bytes) (requestData : Bytes) :
    List SocketCall :=
  if requestData.isEmpty then [.CloseSocket]
  else
    match Parse requestData with
    | (false, _) =>
      [.SendResponse ((HttpResponse.new.SendError 400 (str "Invalid HTTP request")).Build now),
        .CloseSocket]
    | (true, request) =>
      if request.m_method = str "OPTIONS" then
        [.SendResponse
            ((((HttpResponse.new.SetStatus 204 []).EnableCORS (str "*")).SetHeader
              (str "Access-Control-Max-Age") (str "86400")).Build now),
          .CloseSocket]
      else
        let response := (HttpResponse.new.EnableCORS (str "*")).DisableCache
        let response :=
          match m_handler with
          | some handler =>
            match handler request response with
            | .returned resp => resp
            | .threwStd what resp => resp.SendError 500 (str "Internal error: " ++ what)
            | .threwOther resp => resp.SendError 500 (str "Unknown internal error")
          | none => response.SendError 503 (str "No handler configured")
        [.SendResponse (response.Build now), .CloseSocket]

/-- Source: `HttpServer::HandleClient` over the events of the connection:
`ReadRequest` first, then the statements that follow it. The result is the
calls made on the client socket, in their order, or the exception that
leaves `HandleClient` and `AcceptLoop`, neither of which has a handler
around `ReadRequest`; after an exception nothing is sent and the socket is
not closed. The sizes are `DEFAULT_MAX_REQUEST_SIZE` and those of a 64-bit
platform. -/
def HandleClient (m_handler : Option RequestHandler) (now : Bytes) (events : List RecvEvent) :
    Except StoulError (List SocketCall) :=
  match ReadRequest (64 * 1024) (2 ^ 64 - 1) (2 ^ 64) events [] with
  | .error e => .error e
  | .ok requestData => .ok (handleRequestData m_handler now requestData)

/-! ## SimpleTemplate.cpp

The loops of the template engine scan a text from a position `pos` on and
never read what lies before it, so each loop is written over the text from
`pos` on (`rest`). A loop takes a number of iterations it may still make;
the callers give it more than the length of the text, which every iteration
shortens. `RenderInternal` calls itself through the block passes; it takes
the depth of calls it may still make and returns `none` when that is used
up. -/

/-- The fields of `SimpleTemplate`. `m_partialProvider` is `none` for an
empty `std::function`. -/
structure SimpleTemplate where
  m_template : Bytes := []
  m_variables : StrMap := []
  m_arrays : List (Bytes × List StrMap) := []
  m_conditions : List (Bytes × Bool) := []
  m_partialProvider : Option (Bytes → Bytes) := none
  m_lastError : Bytes := []

/-- The lookup `find` of a `std::map` with string keys, for any kind of value. -/
def assocFind {β : Type} (k : Bytes) : List (Bytes × β) → Option β
  | [] => none
  | (k', v) :: m => if k = k' then some v else assocFind k m

/-- The smaller of two positions, `none` standing for `npos`, the largest value. -/
def posMin (a b : Option Nat) : Option Nat :=
  match a, b with
  | some x, some y => some (min x y)
  | some x, none => some x
  | none, b => b

namespace SimpleTemplate

/-- The characters `SimpleTemplate::Trim` removes: space, tab, line feed, carriage return. -/
def isBlank (c : Nat) : Bool := c == 32 || c == 9 || c == 10 || c == 13

/-- Source: `SimpleTemplate::Trim`: the text from its first to its last character
that is not blank, empty if there is none. -/
def Trim (s : Bytes) : Bytes :=
  ((s.dropWhile isBlank).reverse.dropWhile isBlank).reverse

/-- The loop of `FindEndTag`; `rest` is the text from `pos` on. The result
is `none` if the iterations are used up, `some none` for `npos`. -/
def findEndTagLoop (endTag openTag1 openTag2 openTag3 : Bytes) :
    Nat → Nat → Bytes → Nat → Option (Option Nat)
  | 0, _, _, _ => none
  | fuel + 1, pos, rest, depth =>
    if rest.isEmpty ∨ depth = 0 then some none
    else
      match find endTag rest with
      | none => some none
      | some nextEnd =>
        let foundEnd : Option (Option Nat) :=
          if depth - 1 = 0 then some (some (pos + nextEnd))
          else
            findEndTagLoop endTag openTag1 openTag2 openTag3 fuel
              (pos + (nextEnd + endTag.length)) (rest.drop (nextEnd + endTag.length)) (depth - 1)
        match posMin (find openTag1 rest) (posMin (find openTag2 rest) (find openTag3 rest)) with
        | some nextOpen =>
          if nextOpen < nextEnd then
            let next :=
              match find (str "\x7d\x7d") (rest.drop nextOpen) with
              | some tagEnd => nextOpen + tagEnd + 2
              | none => nextOpen + 4
            findEndTagLoop endTag openTag1 openTag2 openTag3 fuel
              (pos + next) (rest.drop next) (depth + 1)
          else foundEnd
        | none => foundEnd

/-- Source: `SimpleTemplate::FindEndTag`. -/
def FindEndTag (text : Bytes) (startPos : Nat) (tagName : Bytes) : Option (Option Nat) :=
  findEndTagLoop (str "\x7b\x7b/" ++ tagName ++ str "\x7d\x7d") (str "\x7b\x7b#" ++ tagName ++ str "\x7d\x7d")
    (str "\x7b\x7b?" ++ tagName ++ str "\x7d\x7d") (str "\x7b\x7b!" ++ tagName ++ str "\x7d\x7d")
    (text.length + 1) startPos (text.drop startPos) 1

/-- Whether `ProcessVariables` takes a tag for a block tag and leaves it in place. -/
def isBlockTag (tag : Bytes) : Bool :=
  match tag with
  | [] => false
  | c :: _ => c == 35 || c == 47 || c == 63 || c == 33 || c == 62

/-- The loop of `ProcessVariables`; `rest` is the text from `pos` on. -/
def processVariablesLoop (vars : StrMap) : Nat → Bytes → Bytes → Option Bytes
  | 0, _, _ => none
  | fuel + 1, rest, result =>
    if rest.isEmpty then some result
    else
      match find (str "\x7b\x7b") rest with
      | none => some (result ++ rest)
      | some start =>
        let result := result ++ rest.take start
        match find (str "\x7d\x7d") (rest.drop start) with
        | none => some (result ++ rest.drop start)
        | some tagLen =>
          let tag := Trim ((rest.drop (start + 2)).take (tagLen - 2))
          if isBlockTag tag then
            processVariablesLoop vars fuel (rest.drop (start + tagLen + 2))
              (result ++ (rest.drop start).take (tagLen + 2))
          else
            processVariablesLoop vars fuel (rest.drop (start + tagLen + 2))
              (match mapFind tag vars with
                | some value => result ++ value
                | none => result)

/-- Source: `SimpleTemplate::ProcessVariables`. -/
def ProcessVariables (text : Bytes) (vars : StrMap) : Option Bytes :=
  processVariablesLoop vars (text.length + 1) text []

/-- The type of `RenderInternal` as the block passes call it: the template
text, the variables and the current `m_lastError` give the rendered text
and the new `m_lastError`, or `none` if the calls do not end. -/
abbrev Renderer := Bytes → StrMap → Bytes → Option (Bytes × Bytes)

/-- The loop `for (size_t i = 0; i < items.size(); ++i)` of `ProcessArrays`
over the items from index `i` on; `size` is `items.size()`. -/
def renderItems (render : Renderer) (blockContent : Bytes) (contextVars : StrMap) (size : Nat) :
    List StrMap → Nat → Bytes → Bytes → Option (Bytes × Bytes)
  | [], _, result, err => some (result, err)
  | item :: items, i, result, err =>
    let itemVars := item.foldl (fun m kv => mapInsert kv.1 kv.2 m) contextVars
    let itemVars := mapInsert (str "_index") (JsonBuilder.decimal i) itemVars
    let itemVars := mapInsert (str "_index1") (JsonBuilder.decimal (i + 1)) itemVars
    let itemVars := mapInsert (str "_first") (if i = 0 then str "true" else []) itemVars
    let itemVars := mapInsert (str "_last") (if i = size - 1 then str "true" else []) itemVars
    match render blockContent itemVars err with
    | none => none
    | some (out, err) =>
      renderItems render blockContent contextVars size items (i + 1) (result ++ out) err

/-- The loop of `ProcessArrays`; `rest` is the text from `pos` on. -/
def processArraysLoop (t : SimpleTemplate) (render : Renderer) (contextVars : StrMap) :
    Nat → Bytes → Bytes → Bytes → Option (Bytes × Bytes)
  | 0, _, _, _ => none
  | fuel + 1, rest, result, err =>
    if rest.isEmpty then some (result, err)
    else
      match find (str "\x7b\x7b#") rest with
      | none => some (result ++ rest, err)
      | some start =>
        let result := result ++ rest.take start
        match find (str "\x7d\x7d") (rest.drop start) with
        | none => some (result ++ rest.drop start, err)
        | some tagLen =>
          let arrayName := Trim ((rest.drop (start + 3)).take (tagLen - 3))
          let blockStart := start + tagLen + 2
          match FindEndTag rest blockStart arrayName with
          | none => none
          | some none =>
            some (result ++ rest.drop start, str "Unclosed array block: " ++ arrayName)
          | some (some blockEnd) =>
            let blockContent := (rest.drop blockStart).take (blockEnd - blockStart)
            let rendered : Option (Bytes × Bytes) :=
              match assocFind arrayName t.m_arrays with
              | some items =>
                if items.isEmpty then some (result, err)
                else renderItems render blockContent contextVars items.length items 0 result err
              | none => some (result, err)
            match rendered with
            | none => none
            | some (result, err) =>
              let pos :=
                match find (str "\x7d\x7d") (rest.drop blockEnd) with
                | some endTagPos => blockEnd + endTagPos + 2
                | none => rest.length
              processArraysLoop t render contextVars fuel (rest.drop pos) result err

/-- Source: `SimpleTemplate::ProcessArrays`. -/
def ProcessArrays (t : SimpleTemplate) (render : Renderer) (text : Bytes) (contextVars : StrMap)
    (err : Bytes) : Option (Bytes × Bytes) :=
  processArraysLoop t render contextVars (text.length + 1) text [] err

/-- The value `condValue` computed in `ProcessConditions` for a condition name. -/
def conditionValue (t : SimpleTemplate) (contextVars : StrMap) (condName : Bytes) : Bool :=
  match assocFind condName t.m_conditions with
  | some value => value
  | none =>
    match mapFind condName contextVars with
    | some value => !value.isEmpty && value != str "false" && value != str "0"
    | none => false

/-- One of the two loops of `ProcessConditions`: the loop over the positive
blocks `{{?` for `negated = false`, the loop over the negated blocks `{{!`
for `negated = true`; the two differ in the marker, in the error text and in
the test `if (condValue)` against `if (!condValue)`. `rest` is `result`
from `pos` on and `done` is `result` before `pos`. -/
def processConditionsLoop (t : SimpleTemplate) (render : Renderer) (contextVars : StrMap)
    (negated : Bool) : Nat → Bytes → Bytes → Bytes → Option (Bytes × Bytes)
  | 0, _, _, _ => none
  | fuel + 1, rest, done, err =>
    if rest.isEmpty then some (done ++ rest, err)
    else
      match find (if negated then str "\x7b\x7b!" else str "\x7b\x7b?") rest with
      | none => some (done ++ rest, err)
      | some start =>
        match find (str "\x7d\x7d") (rest.drop start) with
        | none => some (done ++ rest, err)
        | some tagLen =>
          let condName := Trim ((rest.drop (start + 3)).take (tagLen - 3))
          let blockStart := start + tagLen + 2
          match FindEndTag rest blockStart condName with
          | none => none
          | some none =>
            processConditionsLoop t render contextVars negated fuel (rest.drop blockStart)
              (done ++ rest.take blockStart)
              ((if negated then str "Unclosed negated condition block: "
                else str "Unclosed condition block: ") ++ condName)
          | some (some blockEnd) =>
            let blockContent := (rest.drop blockStart).take (blockEnd - blockStart)
            let condValue := conditionValue t contextVars condName
            let fullBlockEnd :=
              match find (str "\x7d\x7d") (rest.drop blockEnd) with
              | some endTagEnd => blockEnd + endTagEnd + 2
              | none => rest.length
            if condValue != negated then
              match render blockContent contextVars err with
              | none => none
              | some (rendered, err) =>
                processConditionsLoop t render contextVars negated fuel
                  (rest.drop fullBlockEnd) (done ++ rest.take start ++ rendered) err
            else
              processConditionsLoop t render contextVars negated fuel
                (rest.drop fullBlockEnd) (done ++ rest.take start) err

/-- Source: `SimpleTemplate::ProcessConditions`: the loop over the positive
blocks, then the loop over the negated blocks on its result. -/
def ProcessConditions (t : SimpleTemplate) (render : Renderer) (text : Bytes)
    (contextVars : StrMap) (err : Bytes) : Option (Bytes × Bytes) :=
  match processConditionsLoop t render contextVars false (text.length + 1) text [] err with
  | none => none
  | some (result, err) =>
    processConditionsLoop t render contextVars true (result.length + 1) result [] err

/-- The loop of `ProcessPartials`; `rest` is the text from `pos` on. -/
def processPartialsLoop (provider : Bytes → Bytes) (render : Renderer) (contextVars : StrMap) :
    Nat → Bytes → Bytes → Bytes → Option (Bytes × Bytes)
  | 0, _, _, _ => none
  | fuel + 1, rest, result, err =>
    if rest.isEmpty then some (result, err)
    else
      match find (str "\x7b\x7b>") rest with
      | none => some (result ++ rest, err)
      | some start =>
        let result := result ++ rest.take start
        match find (str "\x7d\x7d") (rest.drop start) with
        | none => some (result ++ rest.drop start, err)
        | some tagLen =>
          let partialName := Trim ((rest.drop (start + 3)).take (tagLen - 3))
          let partialContent := provider partialName
          let rendered : Option (Bytes × Bytes) :=
            if !partialContent.isEmpty then
              match render partialContent contextVars err with
              | none => none
              | some (out, err) => some (result ++ out, err)
            else some (result, err)
          match rendered with
          | none => none
          | some (result, err) =>
            processPartialsLoop provider render contextVars fuel
              (rest.drop (start + tagLen + 2)) result err

/-- Source: `SimpleTemplate::ProcessPartials`. -/
def ProcessPartials (t : SimpleTemplate) (render : Renderer) (text : Bytes)
    (contextVars : StrMap) (err : Bytes) : Option (Bytes × Bytes) :=
  match t.m_partialProvider with
  | none => some (text, err)
  | some provider =>
    processPartialsLoop provider render contextVars (text.length + 1) text [] err

/-- The body of `RenderInternal`: partials, arrays, conditions, then
variables; `render` stands for the calls of `RenderInternal` made by the
block passes. -/
def renderPasses (t : SimpleTemplate) (render : Renderer) : Renderer :=
  fun templateStr vars err =>
    match ProcessPartials t render templateStr vars err with
    | none => none
    | some (result, err) =>
      match ProcessArrays t render result vars err with
      | none => none
      | some (result, err) =>
        match ProcessConditions t render result vars err with
        | none => none
        | some (result, err) =>
          match ProcessVariables result vars with
          | none => none
          | some result => some (result, err)

/-- Source: `SimpleTemplate::RenderInternal`, with the depth of calls it may make. -/
def RenderInternal (t : SimpleTemplate) : Nat → Renderer
  | 0 => fun _ _ _ => none
  | fuel + 1 => renderPasses t (RenderInternal t fuel)

/-- Source: `SimpleTemplate::Render()`: the rendered text and the object
afterwards, or `none` if `RenderInternal` needs a greater depth of calls
than `fuel`. -/
def Render (fuel : Nat) (t : SimpleTemplate) : Option (Bytes × SimpleTemplate) :=
  match RenderInternal t fuel t.m_template t.m_variables t.m_lastError with
  | none => none
  | some (out, err) => some (out, { t with m_lastError := err })

end SimpleTemplate

/-! ## Templates given by their pieces

Reference definitions for the claims on `SimpleTemplate`: a template text
written as literal texts and markers, and what the claims say it renders to. -/

/-- Whether `{{` occurs in a text. -/
def hasOpen : Bytes → Bool
  | [] => false
  | [_] => false
  | a :: b :: rest => (a == 123 && b == 123) || hasOpen (b :: rest)

/-- Whether a text has no brace. -/
def braceFree (s : Bytes) : Bool := s.all (fun c => c != 123 && c != 125)

/-- The text of a marker: `{{`, what stands in the marker, `}}`. -/
def markerText (body : Bytes) : Bytes := 123 :: 123 :: (body ++ [125, 125])

/-- The text of a block tag of kind `k` (`#`, `?`, `!` or `/`) for a name. -/
def tagText (k : Nat) (name : Bytes) : Bytes := markerText (k :: name)

/-- Whether a text, standing after a literal text, cannot complete a `{`
that ends the literal into the start `{{k` of a tag: it is empty, or
starts with `{{`, or does not start with `{`. -/
def tagSafe : Bytes → Bool
  | [] => true
  | [c] => c != 123
  | a :: b :: _ => a != 123 || b == 123

/-- The pieces of a template before its last literal text: pairs of a
literal text and the name written in the marker that follows it. -/
abbrev Pieces := List (Bytes × Bytes)

/-- The template text of the pieces `ps` followed by the literal text `last`. -/
def piecesText : Pieces → Bytes → Bytes
  | [], last => last
  | (lit, name) :: ps, last => lit ++ markerText name ++ piecesText ps last

/-- Whether the pieces are literal texts and plain variable markers: no
literal text contains `{{` or ends with `{` (which would change where the
marker after it starts), no name has a brace, and no name starts, after
trimming, with one of the block characters `#`, `/`, `?`, `!`, `>`. -/
def plainPieces (ps : Pieces) : Bool :=
  ps.all (fun p => !hasOpen p.1 && p.1.getLast? != some 123 && braceFree p.2 &&
    !SimpleTemplate.isBlockTag (SimpleTemplate.Trim p.2))

/-- What the pieces render to according to the specification: each literal
text unchanged, each marker replaced by the value bound to its name, by
nothing if the name is unbound. -/
def substPieces (vars : StrMap) : Pieces → Bytes → Bytes
  | [], last => last
  | (lit, name) :: ps, last =>
    lit ++ (mapFind (SimpleTemplate.Trim name) vars).getD [] ++ substPieces vars ps last

/-- The truth of a condition name as the specification words it: the
explicitly set condition if one was set, otherwise whether a context
variable of that name exists, is not empty and is neither `false` nor `0`. -/
def truth (conditions : List (Bytes × Bool)) (vars : StrMap) (c : Bytes) : Bool :=
  match assocFind c conditions with
  | some b => b
  | none =>
    match mapFind c vars with
    | some v => !v.isEmpty && v != str "false" && v != str "0"
    | none => false

/-- What the pieces render to when the names are looked up by `lookup`:
each literal text unchanged, each marker replaced by the value of its
name, by nothing if it has none. -/
def substWith (lookup : Bytes → Option Bytes) : Pieces → Bytes → Bytes
  | [], last => last
  | (lit, name) :: ps, last =>
    lit ++ (lookup (SimpleTemplate.Trim name)).getD [] ++ substWith lookup ps last

/-- The context of the rendering number `i` of an array block of `size`
items as the specification words it: the loop variables `_index`, `_index1`,
`_first` and `_last`, then the variables of the item, then the enclosing
context. -/
def itemContext (context item : StrMap) (i size : Nat) (key : Bytes) : Option Bytes :=
  if key = str "_index" then some (JsonBuilder.decimal i)
  else if key = str "_index1" then some (JsonBuilder.decimal (i + 1))
  else if key = str "_first" then some (if i = 0 then str "true" else [])
  else if key = str "_last" then some (if i = size - 1 then str "true" else [])
  else
    match mapFind key item with
    | some v => some v
    | none => mapFind key context

/-- The renderings of a block body for the items from number `i` on, one after the other. -/
def renderingsFrom (context : StrMap) (size : Nat) (ps : Pieces) (last : Bytes) :
    List StrMap → Nat → Bytes
  | [], _ => []
  | item :: items, i =>
    substWith (itemContext context item i size) ps last ++
      renderingsFrom context size ps last items (i + 1)

/-- What an array block with the body `ps`, `last` renders to according to
the specification: one rendering of the body per item, in item order. -/
def arrayRendering (context : StrMap) (items : List StrMap) (ps : Pieces) (last : Bytes) :
    Bytes :=
  renderingsFrom context items.length ps last items 0

/-- A template whose array block body ends in the literal text `{x}}`, with
an item value `{`. -/
def rescannedTemplate : SimpleTemplate :=
  { m_template := str "\x7b\x7b#a\x7d\x7d\x7b\x7bu\x7d\x7d\x7bx\x7d\x7d\x7b\x7b/a\x7d\x7d"
    m_variables := [(str "x", str "INJECTED")]
    m_arrays := [(str "a", [[(str "u", str "\x7b")]])] }

/-- A template with an array block over two items. -/
def registersTemplate : SimpleTemplate :=
  { m_template := str "\x7b\x7b#regs\x7d\x7d\x7b\x7bname\x7d\x7d=\x7b\x7bvalue\x7d\x7d;\x7b\x7b/regs\x7d\x7d"
    m_arrays := [(str "regs", [[(str "name", str "A"), (str "value", str "$00")],
      [(str "name", str "X"), (str "value", str "$01")]])] }

/-- The text `m_lastError` starts with for an unclosed block of kind `k`
(`#`, `?`, otherwise `!`). -/
def unclosedError (k : Nat) : Bytes :=
  if k = 35 then str "Unclosed array block: "
  else if k = 63 then str "Unclosed condition block: "
  else str "Unclosed negated condition block: "

/-- A template with an array block that is never closed. -/
def unclosedTemplate : SimpleTemplate :=
  { m_template := str "\x7b\x7b#a\x7d\x7dHi \x7b\x7bn\x7d\x7d"
    m_variables := [(str "n", str "Bob")] }

/-- The template of the scenario of the specification: `Hi {{n}}` with `n` bound to `Bob`. -/
def greetingTemplate : SimpleTemplate :=
  { m_template := str "Hi \x7b\x7bn\x7d\x7d"
    m_variables := [(str "n", str "Bob")] }

/-- A block body in which the blocks of one name are properly nested: a
text without tags of that name, or such a text, an open tag of kind `k`, the
body of that block, its close tag, and the body that follows. -/
inductive Body where
  | plain (text : Bytes) : Body
  | block (text : Bytes) (k : Nat) (inner rest : Body) : Body

/-- Whether none of the four tags of the name `n` occurs in a text. -/
def tagFree (n t : Bytes) : Bool :=
  (find (tagText 47 n) t).isNone && (find (tagText 35 n) t).isNone &&
    (find (tagText 63 n) t).isNone && (find (tagText 33 n) t).isNone

/-- The text of a block body for the name `n`. -/
def Body.flatten (n : Bytes) : Body → Bytes
  | .plain text => text
  | .block text k inner rest =>
    text ++ (tagText k n ++ (inner.flatten n ++ (tagText 47 n ++ rest.flatten n)))

/-- Whether a block body is well formed for the name `n`: its texts are
free of tags of that name and its open tags are of the kinds `#`, `?`, `!`. -/
def Body.wellFormed (n : Bytes) : Body → Bool
  | .plain text => tagFree n text
  | .block text k inner rest =>
    tagFree n text && (k == 35 || k == 63 || k == 33) && inner.wellFormed n &&
      rest.wellFormed n

/-- The number of iterations `FindEndTag` makes over a block body and the
close tag after it. -/
def Body.iterations : Body → Nat
  | .plain _ => 1
  | .block _ _ inner rest => 1 + inner.iterations + rest.iterations

/-- A template with an array block whose item value holds the marker text `{{x}}`. -/
def markerValueTemplate : SimpleTemplate :=
  { m_template := str "\x7b\x7b#a\x7d\x7d\x7b\x7bv\x7d\x7d\x7b\x7b/a\x7d\x7d"
    m_variables := [(str "x", str "X!")]
    m_arrays := [(str "a", [[(str "v", str "\x7b\x7bx\x7d\x7d")]])] }

/-- A template with one variable marker whose value holds the marker text `{{x}}`. -/
def topLevelValueTemplate : SimpleTemplate :=
  { m_template := str "v=\x7b\x7bv\x7d\x7d."
    m_variables := [(str "v", str "\x7b\x7bx\x7d\x7d"), (str "x", str "X!")] }

/-- A request handler that throws a `std::exception` with the message `boom`. -/
def throwingHandler : RequestHandler := fun _ response => .threwStd (str "boom") response

/-- A request handler that answers every request with the text `ok`. -/
def okHandler : RequestHandler := fun _ response => .returned (response.SendText (str "ok"))

/-! ## HttpServer.cpp and DebugServerManager.cpp: start and stop

The listeners are modelled by the fields `Start` and `Stop` read and write.
What the operating system is asked to do is returned as a list of effects.
Exceptions of the library (no memory, no thread) are left out, and so is
what the accept thread writes to `m_lastError` while it runs. -/

/-- An effect of starting and stopping: a socket is left listening, a
socket is closed, a line is written to `std::cout`. -/
inductive ServerEffect where
  | listening (socket : Nat)
  | closed (socket : Nat)
  | printed (line : Bytes)
deriving DecidableEq, Repr

/-- The fields of `HttpServer` that `Start` and `Stop` use. `m_serverSocket`
is `none` for `INVALID_SOCKET_VALUE`; `m_acceptThread` says whether the thread
is joinable. The default value is the state after the constructor. -/
structure HttpServer where
  m_serverSocket : Option Nat := none
  m_running : Bool := false
  m_shouldStop : Bool := false
  m_acceptThread : Bool := false
  m_lastError : Bytes := []
deriving DecidableEq, Repr

/-- How `HttpServer::InitSocket` ends: with the listening socket, or with
`false` after `CleanupSocket()`, having set `m_lastError` to a text or (when
`SetSocketReuseAddr` fails) left it as it was. -/
inductive InitOutcome where
  | ok (socket : Nat)
  | failed (error : Option Bytes)
deriving DecidableEq, Repr

namespace HttpServer

/-- Source: `HttpServer::Start`, with the outcome of `InitSocket()`. -/
def Start (s : HttpServer) (init : InitOutcome) : Bool × HttpServer × List ServerEffect :=
  if s.m_running then (false, { s with m_lastError := str "Server is already running" }, [])
  else
    match init with
    | .failed error =>
      (false, { s with m_serverSocket := none, m_lastError := error.getD s.m_lastError }, [])
    | .ok socket =>
      (true, { s with m_serverSocket := some socket, m_shouldStop := false, m_running := true,
                      m_acceptThread := true }, [.listening socket])

/-- Source: `HttpServer::CleanupSocket`. -/
def CleanupSocket (s : HttpServer) : HttpServer × List ServerEffect :=
  match s.m_serverSocket with
  | some socket => ({ s with m_serverSocket := none }, [.closed socket])
  | none => (s, [])

/-- Source: `HttpServer::Stop`. -/
def Stop (s : HttpServer) : HttpServer × List ServerEffect :=
  if !s.m_running then (s, [])
  else
    let s := { s with m_shouldStop := true }
    let (s, effects) := s.CleanupSocket
    let s := if s.m_acceptThread then { s with m_acceptThread := false } else s
    ({ s with m_running := false }, effects)

end HttpServer

/-- The effects of destroying the object a `std::unique_ptr<HttpServer>`
holds, when it is assigned or reset: `~HttpServer()` calls `Stop()`. -/
def destroyServer : Option HttpServer → List ServerEffect
  | some s => s.Stop.2
  | none => []

/-- The fields of `DebugServerManager` that `Start` and `Stop` use; the
default value is the state after the constructor. -/
structure DebugServerManager where
  m_enabled : Bool := true
  m_bindAddress : Bytes := str "127.0.0.1"
  m_running : Bool := false
  m_lastError : Bytes := []
  m_machineServer : Option HttpServer := none
  m_cpuServer : Option HttpServer := none
  m_ioServer : Option HttpServer := none
  m_memoryServer : Option HttpServer := none
deriving DecidableEq, Repr

namespace DebugServerManager

/-- Source: `if (server) { server->Stop(); server.reset(); }` in `Stop`: the effects. -/
def stopServer : Option HttpServer → List ServerEffect
  | some s => s.Stop.2 ++ destroyServer (some s.Stop.1)
  | none => []

/-- Source: `DebugServerManager::Stop`. -/
def Stop (m : DebugServerManager) : DebugServerManager × List ServerEffect :=
  if !m.m_running ∧ m.m_machineServer = none ∧ m.m_cpuServer = none ∧ m.m_ioServer = none ∧
      m.m_memoryServer = none then (m, [])
  else
    ({ m with m_machineServer := none, m_cpuServer := none, m_ioServer := none,
              m_memoryServer := none, m_running := false },
      stopServer m.m_machineServer ++ stopServer m.m_cpuServer ++ stopServer m.m_ioServer ++
        stopServer m.m_memoryServer ++ [.printed (str "AppleWin Debug Server stopped.")])

/-- Source: one step of `Start`: `CreateServer`, the assignment to the
member (which destroys the object it held), `Start()` on the new server with
the outcome of its `InitSocket()`, and the line added to `m_lastError` when it
fails. Returns the new server, the new `m_lastError`, whether it started, and
the effects. -/
def startServer (name : Bytes) (old : Option HttpServer) (lastError : Bytes)
    (init : InitOutcome) : HttpServer × Bytes × Bool × List ServerEffect :=
  let started := HttpServer.Start {} init
  (started.2.1,
    if started.1 then lastError
    else lastError ++ name ++ str " server failed: " ++ started.2.1.m_lastError ++ str "\n",
    started.1, destroyServer old ++ started.2.2)

/-- Source: `DebugServerManager::Start`, with the outcomes of `InitSocket()`
of the four listeners in the order they are started: machine, CPU, IO,
memory. -/
def Start (m : DebugServerManager) (machine cpu io memory : InitOutcome) :
    Bool × DebugServerManager × List ServerEffect :=
  if !m.m_enabled then (false, { m with m_lastError := str "Debug server is disabled" }, [])
  else if m.m_running then (true, m, [])
  else
    let s1 := startServer (str "Machine") m.m_machineServer [] machine
    let s2 := startServer (str "CPU") m.m_cpuServer s1.2.1 cpu
    let s3 := startServer (str "IO") m.m_ioServer s2.2.1 io
    let s4 := startServer (str "Memory") m.m_memoryServer s3.2.1 memory
    let m1 : DebugServerManager :=
      { m with m_lastError := s4.2.1, m_machineServer := some s1.1, m_cpuServer := some s2.1,
               m_ioServer := some s3.1, m_memoryServer := some s4.1 }
    let effects := s1.2.2.2 ++ s2.2.2.2 ++ s3.2.2.2 ++ s4.2.2.2
    if s1.2.2.1 && s2.2.2.1 && s3.2.2.1 && s4.2.2.1 then
      (true, { m1 with m_running := true },
        effects ++
          [.printed (str "AppleWin Debug Server started:"),
            .printed (str "  Machine Info: http://" ++ m.m_bindAddress ++ str ":65501/"),
            .printed (str "  I/O Info:     http://" ++ m.m_bindAddress ++ str ":65502/"),
            .printed (str "  CPU Info:     http://" ++ m.m_bindAddress ++ str ":65503/"),
            .printed (str "  Memory Info:  http://" ++ m.m_bindAddress ++ str ":65504/")])
    else (false, m1.Stop.1, effects ++ m1.Stop.2)

end DebugServerManager

/-- Whether a listener started. -/
def InitOutcome.started : InitOutcome → Bool
  | .ok _ => true
  | .failed _ => false

/-- The line `Start` adds to `m_lastError` for a listener, as the
specification words it: one line for a listener that failed, nothing for one
that started. -/
def failureLine (name : Bytes) : InitOutcome → Bytes
  | .ok _ => []
  | .failed error => name ++ str " server failed: " ++ error.getD [] ++ str "\n"

/-- The sockets the listeners that started listen on. -/
def startedSockets : List InitOutcome → List Nat
  | [] => []
  | .ok socket :: rest => socket :: startedSockets rest
  | .failed _ :: rest => startedSockets rest

/-! ## DebugStreamProvider.cpp -/

namespace DebugStreamProvider

/-- Source: `DebugStreamProvider::FormatLine`: the writes to the stream
`json` in their order; the loop over `extra` visits the entries in map
order. -/
def FormatLine (cat sec fld val : Bytes) (extra : StrMap) : Bytes :=
  let json : Bytes := str "\x7b\"emu\":\"apple\""
    ++ str ",\"cat\":\"" ++ cat ++ str "\""
    ++ str ",\"sec\":\"" ++ sec ++ str "\""
    ++ str ",\"fld\":\"" ++ fld ++ str "\""
    ++ str ",\"val\":\"" ++ val ++ str "\""
  let json :=
    extra.foldl (fun json kv => json ++ str ",\"" ++ kv.1 ++ str "\":\"" ++ kv.2 ++ str "\"") json
  json ++ str "\x7d"

/-- Source: `DebugStreamProvider::GetErrorMessage`; `extra` is the default argument. -/
def GetErrorMessage (error : Bytes) : Bytes :=
  FormatLine (str "sys") (str "error") (str "msg") error []

/-- The `switch (c)` of `DebugStreamProvider::EscapeJson`: the text appended
to `result` for the character `c`; a control character is written as `\u`
and four hexadecimal digits (`std::hex`, `std::setw(4)`, `std::setfill('0')`). -/
def escapeJsonChar (c : Nat) : Bytes :=
  if c = 34 then [92, 34]
  else if c = 92 then [92, 92]
  else if c = 8 then [92, 98]
  else if c = 12 then [92, 102]
  else if c = 10 then [92, 110]
  else if c = 13 then [92, 114]
  else if c = 9 then [92, 116]
  else if c < 32 then
    [92, 117, hexDigitLower (c / 4096 % 16), hexDigitLower (c / 256 % 16),
      hexDigitLower (c / 16 % 16), hexDigitLower (c % 16)]
  else [c]

/-- Source: `DebugStreamProvider::EscapeJson`, which the callers of
`FormatLine` for disassembly and memory text apply to the value. -/
def EscapeJson (s : Bytes) : Bytes :=
  s.foldl (fun result c => result ++ escapeJsonChar c) []

end DebugStreamProvider

/-! ## CPUInfoProvider.cpp: GetDisassembly

The memory image `mem` of the emulator is a parameter: a function from the
index to the byte read there, also for an index outside the image, where the
C++ read has no defined value. `regs.pc` and the breakpoints of the debugger
are parameters too. Besides the lines, the model returns the indices of
`mem` that are read, in their order. -/

/-- The upper-case hexadecimal digits of `value`, `width` of them (`%02X`, `%04X`). -/
def hexUpper : Nat → Nat → Bytes
  | 0, _ => []
  | width + 1, value => hexUpper width (value / 16) ++ [hexDigitUpper (value % 16)]

/-- Source: `InfoProvider::ToHex8`. -/
def ToHex8 (value : Nat) : Bytes := hexUpper 2 (value % 256)

/-- Source: `InfoProvider::ToHex16`. -/
def ToHex16 (value : Nat) : Bytes := hexUpper 4 (value % 65536)

/-- Source: `InfoProvider::ToHex8Prefixed`. -/
def ToHex8Prefixed (value : Nat) : Bytes := str "$" ++ ToHex8 value

/-- Source: `InfoProvider::ToHex16Prefixed`. -/
def ToHex16Prefixed (value : Nat) : Bytes := str "$" ++ ToHex16 value

namespace CPUInfoProvider

/-- Source: the table `mnemonics` of `GetDisassembly`. -/
def mnemonics : List String :=
  [
    "BRK", "ORA", "???", "???", "???", "ORA", "ASL", "???",
    "PHP", "ORA", "ASL", "???", "???", "ORA", "ASL", "???",
    "BPL", "ORA", "???", "???", "???", "ORA", "ASL", "???",
    "CLC", "ORA", "???", "???", "???", "ORA", "ASL", "???",
    "JSR", "AND", "???", "???", "BIT", "AND", "ROL", "???",
    "PLP", "AND", "ROL", "???", "BIT", "AND", "ROL", "???",
    "BMI", "AND", "???", "???", "???", "AND", "ROL", "???",
    "SEC", "AND", "???", "???", "???", "AND", "ROL", "???",
    "RTI", "EOR", "???", "???", "???", "EOR", "LSR", "???",
    "PHA", "EOR", "LSR", "???", "JMP", "EOR", "LSR", "???",
    "BVC", "EOR", "???", "???", "???", "EOR", "LSR", "???",
    "CLI", "EOR", "???", "???", "???", "EOR", "LSR", "???",
    "RTS", "ADC", "???", "???", "???", "ADC", "ROR", "???",
    "PLA", "ADC", "ROR", "???", "JMP", "ADC", "ROR", "???",
    "BVS", "ADC", "???", "???", "???", "ADC", "ROR", "???",
    "SEI", "ADC", "???", "???", "???", "ADC", "ROR", "???",
    "???", "STA", "???", "???", "STY", "STA", "STX", "???",
    "DEY", "???", "TXA", "???", "STY", "STA", "STX", "???",
    "BCC", "STA", "???", "???", "STY", "STA", "STX", "???",
    "TYA", "STA", "TXS", "???", "???", "STA", "???", "???",
    "LDY", "LDA", "LDX", "???", "LDY", "LDA", "LDX", "???",
    "TAY", "LDA", "TAX", "???", "LDY", "LDA", "LDX", "???",
    "BCS", "LDA", "???", "???", "LDY", "LDA", "LDX", "???",
    "CLV", "LDA", "TSX", "???", "LDY", "LDA", "LDX", "???",
    "CPY", "CMP", "???", "???", "CPY", "CMP", "DEC", "???",
    "INY", "CMP", "DEX", "???", "CPY", "CMP", "DEC", "???",
    "BNE", "CMP", "???", "???", "???", "CMP", "DEC", "???",
    "CLD", "CMP", "???", "???", "???", "CMP", "DEC", "???",
    "CPX", "SBC", "???", "???", "CPX", "SBC", "INC", "???",
    "INX", "SBC", "NOP", "???", "CPX", "SBC", "INC", "???",
    "BEQ", "SBC", "???", "???", "???", "SBC", "INC", "???",
    "SED", "SBC", "???", "???", "???", "SBC", "INC", "???"]

/-- Source: the table `lengths` of `GetDisassembly`. -/
def lengths : List Nat :=
  [
    1, 2, 1, 1, 1, 2, 2, 1, 1, 2, 1, 1, 1, 3, 3, 1,
    2, 2, 1, 1, 1, 2, 2, 1, 1, 3, 1, 1, 1, 3, 3, 1,
    3, 2, 1, 1, 2, 2, 2, 1, 1, 2, 1, 1, 3, 3, 3, 1,
    2, 2, 1, 1, 1, 2, 2, 1, 1, 3, 1, 1, 1, 3, 3, 1,
    1, 2, 1, 1, 1, 2, 2, 1, 1, 2, 1, 1, 3, 3, 3, 1,
    2, 2, 1, 1, 1, 2, 2, 1, 1, 3, 1, 1, 1, 3, 3, 1,
    1, 2, 1, 1, 1, 2, 2, 1, 1, 2, 1, 1, 3, 3, 3, 1,
    2, 2, 1, 1, 1, 2, 2, 1, 1, 3, 1, 1, 1, 3, 3, 1,
    1, 2, 1, 1, 2, 2, 2, 1, 1, 1, 1, 1, 3, 3, 3, 1,
    2, 2, 1, 1, 2, 2, 2, 1, 1, 3, 1, 1, 1, 3, 1, 1,
    2, 2, 2, 1, 2, 2, 2, 1, 1, 2, 1, 1, 3, 3, 3, 1,
    2, 2, 1, 1, 2, 2, 2, 1, 1, 3, 1, 1, 3, 3, 3, 1,
    2, 2, 1, 1, 2, 2, 2, 1, 1, 2, 1, 1, 3, 3, 3, 1,
    2, 2, 1, 1, 1, 2, 2, 1, 1, 3, 1, 1, 1, 3, 3, 1,
    2, 2, 1, 1, 2, 2, 2, 1, 1, 2, 1, 1, 3, 3, 3, 1,
    2, 2, 1, 1, 1, 2, 2, 1, 1, 3, 1, 1, 1, 3, 3, 1]

/-- Source: `CPUInfoProvider::DisasmLine`. -/
structure DisasmLine where
  address : Nat
  addressHex : Bytes
  bytes : Bytes
  mnemonic : Bytes
  operand : Bytes
  isCurrentPC : Bool
  hasBreakpoint : Bool
deriving DecidableEq, Repr

/-- The body of the loop of `GetDisassembly` for the address `addr`: the
line, the indices of `mem` read, and the length `len` by which `addr` moves. -/
def disasmLine (mem : Nat → Nat) (pc : Nat) (breakpointAt : Nat → Bool) (addr : Nat) :
    DisasmLine × List Nat × Nat :=
  let opcode := mem addr % 256
  let reads := [addr]
  let bytes := ToHex8 opcode
  let mnemonic := str (mnemonics.getD opcode "")
  let len := lengths.getD opcode 0
  let operand : Bytes := []
  let (bytes, operand, reads) :=
    if 2 ≤ len ∧ addr + 1 ≤ 0xFFFF then
      let op1 := mem (addr + 1) % 256
      (bytes ++ str " " ++ ToHex8 op1, if len = 2 then ToHex8Prefixed op1 else operand,
        reads ++ [addr + 1])
    else (bytes, operand, reads)
  let (bytes, operand, reads) :=
    if 3 ≤ len ∧ addr + 2 ≤ 0xFFFF then
      let op2 := mem (addr + 2) % 256
      let op1 := mem (addr + 1) % 256
      (bytes ++ str " " ++ ToHex8 op2, ToHex16Prefixed ((op1 ||| (op2 <<< 8)) % 65536),
        reads ++ [addr + 2, addr + 1])
    else (bytes, operand, reads)
  let (operand, reads) :=
    if mnemonic.head? = some 66 ∧ mnemonic ≠ str "BIT" ∧ mnemonic ≠ str "BRK" ∧ len = 2 then
      let raw := mem (addr + 1) % 256
      let offset : Int := if raw < 128 then raw else (raw : Int) - 256
      (ToHex16Prefixed (((addr : Int) + 2 + offset) % 65536).toNat, reads ++ [addr + 1])
    else (operand, reads)
  ({ address := addr, addressHex := ToHex16Prefixed addr, bytes := bytes, mnemonic := mnemonic,
     operand := operand, isCurrentPC := addr == pc, hasBreakpoint := breakpointAt addr },
    reads, len)

/-- The loop of `GetDisassembly` for the iterations that are left; `addr`
is a `uint16_t`, so `addr <= 0xFFFF` holds and `addr += len` wraps. -/
def disasmLoop (mem : Nat → Nat) (pc : Nat) (breakpointAt : Nat → Bool) :
    Nat → Nat → List DisasmLine × List Nat
  | 0, _ => ([], [])
  | n + 1, addr =>
    let line := disasmLine mem pc breakpointAt addr
    let rest := disasmLoop mem pc breakpointAt n ((addr + line.2.2) % 65536)
    (line.1 :: rest.1, line.2.1 ++ rest.2)

/-- Source: `CPUInfoProvider::GetDisassembly`: the lines and the indices of
`mem` read. -/
def GetDisassembly (mem : Nat → Nat) (pc : Nat) (breakpointAt : Nat → Bool) (startAddr : Nat)
    (lines : Int) : List DisasmLine × List Nat :=
  disasmLoop mem pc breakpointAt lines.toNat (startAddr % 65536)

end CPUInfoProvider

/-- A memory image with the opcode of `BPL` (0x10) at the last address 0xFFFF. -/
def branchAtTop (index : Nat) : Nat := if index = 0xFFFF then 0x10 else 0

/-! ## Reading a serialized response back

Reference definitions for the claim on `Content-Length`: the header fields
a reader finds in the bytes `Build` returns. -/

/-- Whether no value of the variables holds a brace. -/
def inertValues (vars : StrMap) : Bool := vars.all (fun kv => braceFree kv.2)

/-- What follows a literal text of such a template: a plain variable marker
`{{name}}`, an open tag `{{k name}}` of kind `k` (`#`, `?` or `!`) that is
never closed, or the closed block `{{k c}}X{{/c}}` of kind `k`. -/
inductive Part where
  | marker (name : Bytes)
  | openTag (k : Nat) (name : Bytes)
  | block (k : Nat) (c X : Bytes)
deriving DecidableEq, Repr

/-- The parts of a template before its last literal text, each with the
literal text that stands before it. -/
abbrev Parts := List (Bytes × Part)

/-- The template text of a part. -/
def Part.text : Part → Bytes
  | .marker name => markerText name
  | .openTag k name => tagText k name
  | .block k c X => tagText k c ++ (X ++ tagText 47 c)

/-- The template text of the parts `ps` followed by the literal text `last`. -/
def partsText : Parts → Bytes → Bytes
  | [], last => last
  | (lit, x) :: ps, last => lit ++ (x.text ++ partsText ps last)

/-- Whether a part is an open tag of kind `#`: the arrays pass stops there
and leaves the array blocks after it as they are. -/
def Part.stops : Part → Bool
  | .openTag k _ => k == 35
  | _ => false

/-- The text `X` written `n` times. -/
def copies (X : Bytes) : Nat → Bytes
  | 0 => []
  | n + 1 => X ++ copies X n

/-- What the pass for its kind makes of the closed block `{{k c}}X{{/c}}`
around a literal text: an array block gives its text once for each item of
the array `c`, a conditional block its text if the condition `c` holds, a
negated block its text if the condition does not hold. -/
def blockValue (t : SimpleTemplate) (vars : StrMap) (k : Nat) (c X : Bytes) : Bytes :=
  if k = 35 then copies X ((assocFind c t.m_arrays).getD []).length
  else if k = 63 then (if truth t.m_conditions vars c then X else [])
  else (if truth t.m_conditions vars c then [] else X)

/-- The number of the pass that handles the blocks of kind `k`: the arrays
pass is the first, the loop over the positive blocks the second, the loop
over the negated blocks the third. -/
def passOf (k : Nat) : Nat := if k = 35 then 1 else if k = 63 then 2 else 3

/-- The text of a part after the first `s` passes; `live` tells whether the
arrays pass reaches the part, that is, whether no open tag of kind `#` stands
before it. -/
def Part.staged (t : SimpleTemplate) (vars : StrMap) (s : Nat) (live : Bool) : Part → Bytes
  | .marker name => markerText name
  | .openTag k name => tagText k name
  | .block k c X =>
    if passOf k ≤ s ∧ (k ≠ 35 ∨ live = true) then blockValue t vars k c X
    else tagText k c ++ (X ++ tagText 47 c)

/-- The template text after the first `s` passes. -/
def stagedText (t : SimpleTemplate) (vars : StrMap) (s : Nat) : Bool → Parts → Bytes → Bytes
  | _, [], last => last
  | live, (lit, x) :: ps, last =>
    lit ++ (x.staged t vars s live ++ stagedText t vars s (live && !x.stops) ps last)

/-- What a part renders to: a marker to the value bound to its name (to
nothing if it is unbound), an open tag to itself, a closed block to what its
pass makes of it, except that an array block after an open tag of kind `#`
stays as it is written. -/
def Part.output (t : SimpleTemplate) (vars : StrMap) (live : Bool) : Part → Bytes
  | .marker name => (mapFind (SimpleTemplate.Trim name) vars).getD []
  | .openTag k name => tagText k name
  | .block k c X =>
    if k ≠ 35 ∨ live = true then blockValue t vars k c X
    else tagText k c ++ (X ++ tagText 47 c)

/-- What the parts followed by `last` render to; `live` tells whether no
open tag of kind `#` stands before them. -/
def partsOutput (t : SimpleTemplate) (vars : StrMap) : Bool → Parts → Bytes → Bytes
  | _, [], last => last
  | live, (lit, x) :: ps, last =>
    lit ++ (x.output t vars live ++ partsOutput t vars (live && !x.stops) ps last)

/-- Whether a literal text has no `{{` and does not end with `{`. -/
def okLiteral (lit : Bytes) : Bool := !hasOpen lit && lit.getLast? != some 123

/-- Whether a part is well formed: the name of a marker has no brace and is
no block tag; an open tag is of kind `#`, `?` or `!` and its name has no
brace; a closed block is of kind `#`, `?` or `!`, its name has no brace and
no blank at its ends, and its text has no brace. -/
def Part.wellFormed : Part → Bool
  | .marker name => braceFree name && !SimpleTemplate.isBlockTag (SimpleTemplate.Trim name)
  | .openTag k name => (k == 35 || k == 63 || k == 33) && braceFree name
  | .block k c X =>
    (k == 35 || k == 63 || k == 33) && braceFree c && SimpleTemplate.Trim c == c && braceFree X

/-- The names of the closed blocks among the parts. -/
def blockNames : Parts → List Bytes
  | [] => []
  | (_, .block _ c _) :: ps => c :: blockNames ps
  | _ :: ps => blockNames ps

/-- The trimmed names of the open tags among the parts. -/
def openNames : Parts → List Bytes
  | [] => []
  | (_, .openTag _ name) :: ps => SimpleTemplate.Trim name :: openNames ps
  | _ :: ps => openNames ps

/-- Whether the parts are well formed and no open tag is closed: no closed
block bears the name of an open tag, so no close tag for it occurs. -/
def wellFormedParts (ps : Parts) : Bool :=
  ps.all (fun p => okLiteral p.1 && p.2.wellFormed) &&
    (openNames ps).all (fun n => !(blockNames ps).contains n)

/-- What the arrays pass leaves in `m_lastError`: it stops at the first
open tag of kind `#`. -/
def arrayError : Parts → Bytes → Bytes
  | [], err => err
  | (_, .openTag k name) :: ps, err =>
    if k = 35 then unclosedError 35 ++ SimpleTemplate.Trim name else arrayError ps err
  | (_, .marker _) :: ps, err => arrayError ps err
  | (_, .block _ _ _) :: ps, err => arrayError ps err

/-- What a loop of the conditions pass leaves in `m_lastError`: each open
tag of its kind `k` overwrites it. -/
def errorAfter (k : Nat) : Parts → Bytes → Bytes
  | [], err => err
  | (_, .openTag k' name) :: ps, err =>
    errorAfter k ps (if k' = k then unclosedError k ++ SimpleTemplate.Trim name else err)
  | (_, .marker _) :: ps, err => errorAfter k ps err
  | (_, .block _ _ _) :: ps, err => errorAfter k ps err

/-- What rendering leaves in `m_lastError`: the passes run in the order
arrays, positive conditions, negated conditions, and a later one overwrites
what an earlier one recorded. -/
def partsError (ps : Parts) (err : Bytes) : Bytes :=
  errorAfter 33 ps (errorAfter 63 ps (arrayError ps err))

/-- Whether a loop that looks for the tag start `{{k` passes over a text:
the tag start does not occur in it and it does not end with `{`. -/
def skippable (k : Nat) (pre : Bytes) : Bool :=
  (find [123, 123, k] pre).isNone && pre.getLast? != some 123

/-- A template with an array block that is never closed and a conditional
block after it. -/
def unclosedThenBlockTemplate : SimpleTemplate :=
  { m_template := str "\x7b\x7b#a\x7d\x7d\x7b\x7b?c\x7d\x7dX\x7b\x7b/c\x7d\x7d"
    m_conditions := [(str "c", true)] }

/-- A template with two blocks that are never closed. -/
def twoUnclosedTemplate : SimpleTemplate :=
  { m_template := str "\x7b\x7b?a\x7d\x7d\x7b\x7b#b\x7d\x7d" }

/-- A template with an array block before and after an array block that is
never closed, a marker, a conditional block and a negated block that is
never closed. -/
def unclosedBlocksTemplate : SimpleTemplate :=
  { m_template := str "\x7b\x7b#r\x7d\x7dab\x7b\x7b/r\x7d\x7d\x7b\x7b#a\x7d\x7dHi \x7b\x7bn\x7d\x7d\x7b\x7b?c\x7d\x7d!\x7b\x7b/c\x7d\x7d\x7b\x7b#r\x7d\x7dab\x7b\x7b/r\x7d\x7d\x7b\x7b!d\x7d\x7d."
    m_variables := [(str "n", str "Bob")]
    m_arrays := [(str "r", [[], []])]
    m_conditions := [(str "c", true)] }

/-- The parts of `unclosedBlocksTemplate` before its last literal text. -/
def unclosedBlocksParts : Parts :=
  [([], .block 35 (str "r") (str "ab")), ([], .openTag 35 (str "a")),
    (str "Hi ", .marker (str "n")), ([], .block 63 (str "c") (str "!")),
    ([], .block 35 (str "r") (str "ab")), ([], .openTag 33 (str "d"))]

/-! # Theorems -/

/-! ## String escaping -/

theorem escapeChar_eq (c : Nat) : escapeChar c = stdEscapeByte c := by
  unfold escapeChar stdEscapeByte snprintfU04x
  by_cases h1 : c = 34
  · subst h1; simp
  by_cases h2 : c = 92
  · subst h2; simp
  simp only [h1, h2, if_false]
  repeat' split
  all_goals first | rfl | skip
  rename_i h
  have e1 : c / 4096 % 16 = 0 := by omega
  have e2 : c / 256 % 16 = 0 := by omega
  have e3 : c / 16 % 16 = c / 16 := by omega
  rw [e1, e2, e3]; rfl

theorem foldl_escape (s acc : Bytes) :
    s.foldl (fun result c => result ++ escapeChar c) acc = acc ++ stdEscape s := by
  induction s generalizing acc with
  | nil => simp [stdEscape]
  | cons c cs ih => rw [List.foldl_cons, ih, escapeChar_eq, stdEscape, List.append_assoc]

theorem EscapeString_eq_stdEscape (s : Bytes) : EscapeString s = stdEscape s := by
  simp [EscapeString, foldl_escape]

theorem stdEscapeByte_ge (c b : Nat) (hb : b ∈ stdEscapeByte c) : 32 ≤ b := by
  unfold stdEscapeByte hexDigitLower at hb
  repeat' split at hb
  all_goals simp at hb
  all_goals omega

theorem stdEscape_ge (s : Bytes) (b : Nat) (hb : b ∈ stdEscape s) : 32 ≤ b := by
  induction s with
  | nil => simp [stdEscape] at hb
  | cons c cs ih =>
    rw [stdEscape, List.mem_append] at hb
    rcases hb with h | h
    · exact stdEscapeByte_ge c b h
    · exact ih h

theorem noBareQuote_cons_plain (c : Nat) (rest : Bytes) (h1 : c ≠ 92) :
    noBareQuote (c :: rest) = (c != 34 && noBareQuote rest) := by
  rw [noBareQuote]
  intro x r h; exact absurd h h1

theorem noBareQuote_stdEscapeByte (c : Nat) (rest : Bytes) :
    noBareQuote (stdEscapeByte c ++ rest) = noBareQuote rest := by
  unfold stdEscapeByte
  repeat' split
  all_goals first
    | (simp [noBareQuote]; done)
    | skip
  · rename_i h
    interval_cases c <;> simp_all [noBareQuote, hexDigitLower]
  · rename_i h1 h2 h3 h4 h5 h6 h7 h8
    rw [List.singleton_append, noBareQuote_cons_plain c rest h1]
    simp [h2]

theorem noBareQuote_stdEscape (s : Bytes) : noBareQuote (stdEscape s) = true := by
  induction s with
  | nil => rfl
  | cons c cs ih => rw [stdEscape, noBareQuote_stdEscapeByte, ih]

theorem jsonUnescape_cons_plain (c : Nat) (rest : Bytes) (h1 : c ≠ 92) :
    jsonUnescape (c :: rest) = if c = 92 ∨ c = 34 ∨ c < 32 then none
    else (jsonUnescape rest).map (c :: ·) := by
  rw [jsonUnescape]
  · intro a b c' d r h; exact absurd h h1
  · intro e r h; exact absurd h h1

theorem jsonUnescape_stdEscapeByte (c : Nat) (rest : Bytes) :
    jsonUnescape (stdEscapeByte c ++ rest) = (jsonUnescape rest).map (c :: ·) := by
  unfold stdEscapeByte
  repeat' split
  all_goals first
    | (subst_vars; simp [jsonUnescape, simpleEscape]; done)
    | skip
  · rename_i h
    interval_cases c <;> simp_all [jsonUnescape, hex4, hexVal, hexDigitLower, utf8Encode]
  · rename_i h1 h2 h3 h4 h5 h6 h7 h8
    simp only [List.singleton_append]
    rw [jsonUnescape_cons_plain c rest h1]
    simp; omega

theorem jsonUnescape_stdEscape (s : Bytes) : jsonUnescape (stdEscape s) = some s := by
  induction s with
  | nil => rfl
  | cons c cs ih => rw [stdEscape, jsonUnescape_stdEscapeByte, ih]; rfl

/-- C9: string escaping is reversible. For every byte string `s`, the
standard JSON string unescape applied to `EscapeString s` returns `s`; in
particular `EscapeString` is injective. -/
theorem escapeString_reversible :
    (∀ s : Bytes, jsonUnescape (EscapeString s) = some s) ∧
      Function.Injective EscapeString := by
  have h : ∀ s : Bytes, jsonUnescape (EscapeString s) = some s := fun s => by
    rw [EscapeString_eq_stdEscape, jsonUnescape_stdEscape]
  refine ⟨h, fun a b hab => ?_⟩
  have := h a
  rw [hab, h b] at this
  exact (Option.some.inj this).symm

/-- C10: `EscapeString` equals the standard escaping applied byte by byte,
in order (`stdEscape`); so its result holds no byte below 0x20 and no
unescaped double quote. -/
theorem escapeString_standard (s : Bytes) :
    EscapeString s = stdEscape s ∧
      (∀ b ∈ EscapeString s, 32 ≤ b) ∧
      noBareQuote (EscapeString s) = true := by
  refine ⟨EscapeString_eq_stdEscape s, ?_, ?_⟩
  · intro b hb
    rw [EscapeString_eq_stdEscape] at hb
    exact stdEscape_ge s b hb
  · rw [EscapeString_eq_stdEscape, noBareQuote_stdEscape]

/-! ## Percent-decoding -/

theorem UrlDecode_pct (a b : Nat) (rest : Bytes) :
    UrlDecode (37 :: a :: b :: rest) =
      if (strtol16 [a, b]).2 = 2 then ((strtol16 [a, b]).1 % 256).toNat :: UrlDecode rest
      else 37 :: UrlDecode (a :: b :: rest) := by
  rw [UrlDecode]

theorem UrlDecode_cons_ne (c : Nat) (rest : Bytes) (h : c ≠ 37) :
    UrlDecode (c :: rest) = if c = 43 then 32 :: UrlDecode rest else c :: UrlDecode rest := by
  rw [UrlDecode]
  intro a b r hc; exact absurd hc h

theorem hexVal_not_space (h x : Nat) (hx : hexVal h = some x) :
    isSpace h = false ∧ h ≠ 45 ∧ h ≠ 43 := by
  unfold hexVal at hx
  unfold isSpace
  repeat' split at hx
  all_goals simp at hx ⊢
  all_goals omega

theorem strtol16_two_digits (h l x y : Nat) (hx : hexVal h = some x) (hy : hexVal l = some y) :
    strtol16 [h, l] = (((x * 16 + y : Nat) : Int), 2) := by
  obtain ⟨h1, h2, h3⟩ := hexVal_not_space h x hx
  simp [strtol16, List.takeWhile, List.dropWhile, h1, h2, h3, parseHexDigits, hx, hy]

theorem hexVal_hexDigitUpper (d : Nat) (h : d < 16) : hexVal (hexDigitUpper d) = some d := by
  unfold hexDigitUpper hexVal
  interval_cases d <;> simp

theorem hexVal_hexDigitLower (d : Nat) (h : d < 16) : hexVal (hexDigitLower d) = some d := by
  unfold hexDigitLower hexVal
  interval_cases d <;> simp

theorem UrlDecode_pctWrite (es : List (Nat × Bool × Bool)) (h : ∀ e ∈ es, e.1 < 256) :
    UrlDecode (pctWrite es) = es.map (·.1) := by
  induction es with
  | nil => rfl
  | cons e es ih =>
    obtain ⟨b, hi, lo⟩ := e
    have hb : b < 256 := h (b, hi, lo) (List.mem_cons_self _ _)
    have h1 : hexVal (if hi then hexDigitUpper (b / 16) else hexDigitLower (b / 16))
        = some (b / 16) := by
      split
      · exact hexVal_hexDigitUpper _ (by omega)
      · exact hexVal_hexDigitLower _ (by omega)
    have h2 : hexVal (if lo then hexDigitUpper (b % 16) else hexDigitLower (b % 16))
        = some (b % 16) := by
      split
      · exact hexVal_hexDigitUpper _ (by omega)
      · exact hexVal_hexDigitLower _ (by omega)
    rw [pctWrite, UrlDecode_pct, strtol16_two_digits _ _ _ _ h1 h2]
    simp only [if_true, List.map_cons]
    rw [ih (fun e he => h e (List.mem_cons_of_mem _ he))]
    congr 1
    omega

theorem UrlDecode_of_no_escape (t : Bytes) (h : hasEscape t = false) : UrlDecode t = t := by
  induction t using UrlDecode.induct with
  | case1 => rfl
  | case2 a b rest hc ih =>
    rw [hasEscape] at h
    simp at h
    exact absurd hc h.1
  | case3 a b rest hc ih =>
    rw [hasEscape] at h
    simp at h
    rw [UrlDecode_pct, if_neg hc, ih h.2]
  | case4 rest hne ih =>
    simp [hasEscape] at h
  | case5 c rest hne hc ih =>
    rw [hasEscape] at h
    · simp at h
      rw [UrlDecode, if_neg hc, ih h.2]
      exact hne
    · exact hne

/-- C7: `UrlDecode` decodes every `%XX` sequence. For every byte string,
given as the list of its bytes (each below 256) with a letter case chosen for
each hexadecimal digit, decoding the text that writes each byte as `%` and
its two hexadecimal digits returns exactly the bytes. -/
theorem urlDecode_decodes_every_escape (es : List (Nat × Bool × Bool))
    (h : ∀ e ∈ es, e.1 < 256) :
    UrlDecode (pctWrite es) = es.map (·.1) :=
  UrlDecode_pctWrite es h

/-- Witness for C7: the bytes `A`, 0xFF, 0x00, 0x2B written as `%41%fF%00%2b`. -/
theorem urlDecode_decodes_every_escape_witness :
    (∀ e ∈ [(65, true, true), (255, false, true), (0, true, false), (43, true, false)],
        e.1 < 256) ∧
      pctWrite [(65, true, true), (255, false, true), (0, true, false), (43, true, false)]
        = str "%41%fF%00%2b" ∧
      UrlDecode (pctWrite [(65, true, true), (255, false, true), (0, true, false),
        (43, true, false)]) = [65, 255, 0, 43] :=
  ⟨by decide, by decide, urlDecode_decodes_every_escape _ (by decide)⟩

/-- C8, counterexample: decoding is not idempotent. `%2541` decodes to `%41`,
which decodes to `A`. -/
theorem urlDecode_not_idempotent :
    UrlDecode (str "%2541") = str "%41" ∧ UrlDecode (str "%41") = str "A" ∧
      UrlDecode (UrlDecode (str "%2541")) ≠ UrlDecode (str "%2541") := by
  decide

/-- C8, amended: percent-decoding is idempotent on text whose decoded form
holds nothing left to decode. For every `s` such that `UrlDecode s` has no
`+` and no `%` followed by two characters that convert as a hexadecimal
number, `UrlDecode (UrlDecode s) = UrlDecode s`. -/
theorem urlDecode_idempotent_when_decoded (s : Bytes)
    (h : hasEscape (UrlDecode s) = false) :
    UrlDecode (UrlDecode s) = UrlDecode s :=
  UrlDecode_of_no_escape (UrlDecode s) h

/-- Witness for C8, amended: `a%20b%zz` decodes to `a b%zz`, which decodes to itself. -/
theorem urlDecode_idempotent_when_decoded_witness :
    hasEscape (UrlDecode (str "a%20b%zz")) = false ∧
      UrlDecode (str "a%20b%zz") = str "a b%zz" ∧
      UrlDecode (UrlDecode (str "a%20b%zz")) = UrlDecode (str "a%20b%zz") :=
  ⟨by decide, by decide, urlDecode_idempotent_when_decoded _ (by decide)⟩

/-! ## Searching for one character -/

theorem find_single (c : Nat) (s : Bytes) :
    find [c] s = if c ∈ s then some (s.takeWhile (· != c)).length else none := by
  induction s with
  | nil => simp [find]
  | cons x xs ih =>
    rw [find, ih]
    by_cases hx : c = x
    · subst hx; simp [startsWith, List.takeWhile]
    · have hx' : (x != c) = true := by simp; exact fun h => hx h.symm
      simp [startsWith, hx, List.takeWhile, hx']

theorem take_length_takeWhile (p : Nat → Bool) (s : Bytes) :
    s.take (s.takeWhile p).length = s.takeWhile p := by
  induction s with
  | nil => rfl
  | cons x xs ih =>
    by_cases hx : p x
    · simp [List.takeWhile, hx, ih]
    · simp [List.takeWhile, hx]

theorem drop_length_takeWhile (p : Nat → Bool) (s : Bytes) :
    s.drop (s.takeWhile p).length = s.dropWhile p := by
  induction s with
  | nil => rfl
  | cons x xs ih =>
    by_cases hx : p x
    · simp [List.takeWhile, List.dropWhile, hx, ih]
    · simp [List.takeWhile, List.dropWhile, hx]

/-! ## The string map -/

theorem mapFind_mapInsert (k k' v : Bytes) (m : StrMap) :
    mapFind k (mapInsert k' v m) = if k = k' then some v else mapFind k m := by
  induction m with
  | nil => simp [mapInsert, mapFind]
  | cons e m ih =>
    obtain ⟨k0, v0⟩ := e
    unfold mapInsert
    by_cases h1 : k' = k0
    · subst h1
      simp only [if_true, mapFind]
      by_cases h : k = k' <;> simp [h]
    · simp only [h1, if_false]
      by_cases h2 : strLt k' k0 = true
      · simp only [h2, if_true, mapFind]
      · simp only [h2, mapFind, ih]
        by_cases h3 : k = k0
        · subst h3
          simp only [if_true]
          rw [if_neg (fun h => h1 h.symm)]
        · simp [h3]

/-! ## Header parsing -/

theorem dropWhile_append_singleton (p : Nat → Bool) (xs : Bytes) (c : Nat) :
    List.dropWhile p (xs ++ [c]) =
      if List.dropWhile p xs = [] then (if p c then [] else [c])
      else List.dropWhile p xs ++ [c] := by
  induction xs with
  | nil => simp [List.dropWhile]; split <;> simp_all
  | cons x xs ih =>
    by_cases hx : p x
    · simp [List.dropWhile, hx, ih]
    · simp [List.dropWhile, hx]

theorem reverse_dropWhile_reverse (s : Bytes) :
    (s.reverse.dropWhile isSpace).reverse = dropTrailingSpace s := by
  induction s with
  | nil => rfl
  | cons c cs ih =>
    rw [List.reverse_cons, dropWhile_append_singleton, dropTrailingSpace, ← ih]
    by_cases h : List.dropWhile isSpace cs.reverse = []
    · simp only [h, if_true, List.reverse_nil]
      split <;> simp
    · simp only [h, if_false, List.reverse_append, List.reverse_singleton, List.singleton_append]
      cases h' : (List.dropWhile isSpace cs.reverse).reverse with
      | nil => exact absurd (List.reverse_eq_nil_iff.1 h') h
      | cons t ts => rfl

theorem Trim_eq_trimmed (s : Bytes) : Trim s = trimmed s := by
  unfold Trim trimmed
  exact reverse_dropWhile_reverse _

theorem headerLine_eq (m : StrMap) (line0 : Bytes) :
    headerLine m line0 =
      match headerOfLine line0 with
      | some e => mapInsert (ToLower e.1) e.2 m
      | none => m := by
  unfold headerLine headerOfLine
  simp only []
  generalize (if line0.getLast? = some 13 then line0.dropLast else line0) = line
  rw [find_single]
  by_cases hc : 58 ∈ line
  · have hne : line.isEmpty = false := by
      cases line with
      | nil => simp at hc
      | cons x xs => rfl
    simp only [hc, if_true, hne, Bool.false_eq_true, if_false]
    rw [take_length_takeWhile, Trim_eq_trimmed, Trim_eq_trimmed, ← List.drop_drop,
      drop_length_takeWhile]
  · simp only [hc, if_false]
    split <;> rfl

theorem splitLines_ne_nil (s : Bytes) : splitLines s ≠ [] := by
  cases s with
  | nil => simp [splitLines]
  | cons c cs =>
    rw [splitLines]
    split
    · simp
    · split <;> simp

theorem headerLine_nil (m : StrMap) : headerLine m [] = m := by
  simp [headerLine]

theorem headersLoop_eq (m : StrMap) (line text : Bytes) :
    headersLoop m line text =
      (match splitLines text with
        | l :: ls => (line ++ l) :: ls
        | [] => [line]).foldl headerLine m := by
  induction text generalizing m line with
  | nil =>
    simp only [headersLoop, splitLines, List.append_nil, List.foldl_cons, List.foldl_nil]
    split
    · rename_i h
      cases line with
      | nil => exact (headerLine_nil m).symm
      | cons x xs => simp at h
    · rfl
  | cons c cs ih =>
    rw [headersLoop, splitLines]
    by_cases hc : c = 10
    · simp only [hc, if_true, List.append_nil, List.foldl_cons]
      rw [ih]
      cases h : splitLines cs with
      | nil => exact absurd h (splitLines_ne_nil cs)
      | cons l ls => simp
    · simp only [hc, if_false]
      rw [ih]
      cases h : splitLines cs with
      | nil => exact absurd h (splitLines_ne_nil cs)
      | cons l ls => simp

theorem foldl_headerLine (m : StrMap) (lines : List Bytes) :
    lines.foldl headerLine m =
      (lines.filterMap headerOfLine).foldl (fun m e => mapInsert (ToLower e.1) e.2 m) m := by
  induction lines generalizing m with
  | nil => rfl
  | cons l ls ih =>
    rw [List.foldl_cons, ih, headerLine_eq, List.filterMap_cons]
    cases headerOfLine l <;> rfl

theorem ParseHeaders_headers (r : HttpRequest) (block : Bytes) :
    (ParseHeaders r block).m_headers =
      ((splitLines block).filterMap headerOfLine).foldl
        (fun m e => mapInsert (ToLower e.1) e.2 m) r.m_headers := by
  unfold ParseHeaders
  simp only []
  rw [headersLoop_eq, ← foldl_headerLine]
  cases h : splitLines block with
  | nil => exact absurd h (splitLines_ne_nil block)
  | cons l ls => simp

theorem toLowerByte_eq_iff (a b : Nat) :
    toLowerByte a = toLowerByte b ↔
      (a == b || (isUpperByte a && b == a + 32) || (isUpperByte b && a == b + 32)) = true := by
  unfold toLowerByte isUpperByte
  simp only [Bool.or_eq_true, Bool.and_eq_true, beq_iff_eq, decide_eq_true_eq]
  constructor
  · intro h; split at h <;> split at h <;> omega
  · intro h; split <;> split <;> omega

theorem sameIgnoringCase_iff (a b : Bytes) :
    sameIgnoringCase a b = true ↔ ToLower a = ToLower b := by
  induction a generalizing b with
  | nil => cases b <;> simp [sameIgnoringCase, ToLower]
  | cons x xs ih =>
    cases b with
    | nil => simp [sameIgnoringCase, ToLower]
    | cons y ys =>
      rw [sameIgnoringCase, Bool.and_eq_true, ih ys, ← toLowerByte_eq_iff]
      simp [ToLower]

theorem mapFind_foldl_headers (k : Bytes) (es : List (Bytes × Bytes)) (m : StrMap) :
    mapFind (ToLower k) (es.foldl (fun m e => mapInsert (ToLower e.1) e.2 m) m) =
      match lastHeader k es with
      | some v => some v
      | none => mapFind (ToLower k) m := by
  induction es generalizing m with
  | nil => rfl
  | cons e es ih =>
    obtain ⟨n, v⟩ := e
    rw [List.foldl_cons, ih, lastHeader]
    cases lastHeader k es with
    | some w => rfl
    | none =>
      simp only [mapFind_mapInsert]
      by_cases h : sameIgnoringCase n k = true
      · have h' := ((sameIgnoringCase_iff n k).1 h).symm
        simp [h, h']
      · have h' : ¬ ToLower k = ToLower n := fun e => h ((sameIgnoringCase_iff n k).2 e.symm)
        simp [h, h']

theorem mapFind_ParseHeaders (r : HttpRequest) (block k : Bytes) :
    mapFind (ToLower k) (ParseHeaders r block).m_headers =
      match refHeader block k with
      | some v => some v
      | none => mapFind (ToLower k) r.m_headers := by
  rw [ParseHeaders_headers, mapFind_foldl_headers]
  rfl

/-- C6: header parsing equals the reference `refHeader` (each line that
contains a colon is split at its first colon, both sides trimmed, the last
line with a name equal up to letter case wins). For every header block
parsed into a request `r`: `GetHeader` and `HasHeader` answer as the
reference does, falling back on what `r` held before (nothing, for the
cleared request of `Parse`), and they give the same answer for two keys
that differ only in letter case. -/
theorem parseHeaders_matches_reference (r : HttpRequest) (block k k' d : Bytes) :
    GetHeader (ParseHeaders r block) k d =
        (match refHeader block k with
          | some v => v
          | none => GetHeader r k d) ∧
      HasHeader (ParseHeaders r block) k = ((refHeader block k).isSome || HasHeader r k) ∧
      (sameIgnoringCase k k' = true →
        GetHeader (ParseHeaders r block) k d = GetHeader (ParseHeaders r block) k' d ∧
        HasHeader (ParseHeaders r block) k = HasHeader (ParseHeaders r block) k') := by
  refine ⟨?_, ?_, ?_⟩
  · unfold GetHeader
    rw [mapFind_ParseHeaders]
    cases refHeader block k <;> rfl
  · unfold HasHeader
    rw [mapFind_ParseHeaders]
    cases refHeader block k <;> simp
  · intro h
    have e := (sameIgnoringCase_iff k k').1 h
    unfold GetHeader HasHeader
    rw [e]
    exact ⟨rfl, rfl⟩

/-! ## The body of a parsed request -/

theorem str_crlfcrlf : str "\r\n\r\n" = [13, 10, 13, 10] := by decide

theorem str_crlf : str "\r\n" = [13, 10] := by decide

theorem str_lf : str "\n" = [10] := by decide

theorem str_lflf : str "\n\n" = [10, 10] := by decide

theorem find_some_startsWith (pat s : Bytes) (i : Nat) (h : find pat s = some i) :
    startsWith pat (s.drop i) = true := by
  induction s generalizing i with
  | nil =>
    rw [find] at h
    split at h
    · cases pat with
      | nil => rfl
      | cons p ps => simp at *
    · simp at h
  | cons c cs ih =>
    rw [find] at h
    split at h
    · rename_i hs
      injection h with h
      subst h
      exact hs
    · cases hf : find pat cs with
      | none => simp [hf] at h
      | some j =>
        simp [hf] at h
        subst h
        exact ih j hf

theorem startsWith_crlfcrlf (t : Bytes) (h : startsWith [13, 10, 13, 10] t = true) :
    ∃ rest, t = 13 :: 10 :: 13 :: 10 :: rest := by
  rcases t with _ | ⟨a, _ | ⟨b, _ | ⟨c, _ | ⟨d, rest⟩⟩⟩⟩ <;> simp [startsWith] at h
  obtain ⟨h1, h2, h3, h4⟩ := h
  exact ⟨rest, by rw [← h1, ← h2, ← h3, ← h4]⟩

theorem ParseQueryString_body (r : HttpRequest) (q : Bytes) :
    (ParseQueryString r q).m_body = r.m_body := by
  unfold ParseQueryString
  split <;> rfl

theorem ParseRequestLine_body (r : HttpRequest) (line : Bytes) :
    (ParseRequestLine r line).2.m_body = r.m_body := by
  unfold ParseRequestLine
  split
  · rfl
  · split
    · rfl
    · simp only []
      split
      · exact ParseQueryString_body _ _
      · rfl

theorem ite_body (c : Prop) [Decidable c] (a b : HttpRequest) (x : Bytes)
    (ha : a.m_body = x) (hb : b.m_body = x) : (if c then a else b).m_body = x := by
  split <;> assumption

theorem Parse_body_crlf (data : Bytes) (i : Nat)
    (hf : find (str "\r\n\r\n") data = some i) (hp : (Parse data).1 = true) :
    (Parse data).2.m_body = data.drop (i + 4) := by
  have hE : headerEndOf data = i := by simp [headerEndOf, hf]
  rw [str_crlfcrlf] at hf
  obtain ⟨rest, hrest⟩ := startsWith_crlfcrlf _ (find_some_startsWith _ _ _ hf)
  have hlen : i + 4 ≤ data.length := by
    have := congrArg List.length hrest
    simp at this
    omega
  have hget : data.get? i = some 13 := by
    have := congrArg List.head? hrest
    simpa [List.head?_drop] using this
  unfold Parse at hp ⊢
  simp only [hE] at hp ⊢
  split at hp
  · simp at hp
  · rename_i hne
    simp only [hne]
    have hb := ParseRequestLine_body {}
      (List.take (firstLineEndOf (List.take i data)) (List.take i data))
    generalize ParseRequestLine {}
      (List.take (firstLineEndOf (List.take i data)) (List.take i data)) = res at hp hb ⊢
    obtain ⟨ok, r1⟩ := res
    cases ok with
    | false => simp at hp
    | true =>
      simp only [hlen, hget, if_true]
      have h10 : ¬ ((some 13 : Option Nat) = some 10) := by decide
      simp only [h10, if_false]
      have hb' : r1.m_body = [] := hb
      by_cases hlt : i + 4 < data.length
      · simp [hlt]
      · have hd : List.drop (i + 4) data = [] := List.drop_eq_nil_of_le (by omega)
        simp only [hlt, if_false, hd]
        exact ite_body _ _ _ _ (by simp [ParseHeaders, hb']) hb'

/-- C3, counterexample: the body does not follow `Content-Length`. An
accepted request without that header has the body `abc`; an accepted request
announcing one byte has the body `abc`, not the one byte `a`. -/
theorem parse_body_ignores_content_length :
    (Parse (str "GET / HTTP/1.1\r\nHost: x\r\n\r\nabc")).1 = true ∧
      HasHeader (Parse (str "GET / HTTP/1.1\r\nHost: x\r\n\r\nabc")).2
        (str "Content-Length") = false ∧
      (Parse (str "GET / HTTP/1.1\r\nHost: x\r\n\r\nabc")).2.m_body = str "abc" ∧
      (Parse (str "GET / HTTP/1.1\r\nHost: x\r\n\r\nabc")).2.m_body ≠ [] ∧
      (Parse (str "POST / HTTP/1.1\r\nContent-Length: 1\r\n\r\nabc")).1 = true ∧
      GetHeader (Parse (str "POST / HTTP/1.1\r\nContent-Length: 1\r\n\r\nabc")).2
        (str "Content-Length") [] = str "1" ∧
      (Parse (str "POST / HTTP/1.1\r\nContent-Length: 1\r\n\r\nabc")).2.m_body ≠ str "a" := by
  decide

/-- C3, amended: the parsed body is everything after the blank line,
whatever `Content-Length` says. For every input that `Parse` accepts and in
which `\r\n\r\n` occurs, first at index `i`, `GetBody()` is exactly the bytes
of the input from index `i + 4` on. -/
theorem parse_body_is_rest_after_blank_line (data : Bytes) (i : Nat)
    (hf : find (str "\r\n\r\n") data = some i) (hp : (Parse data).1 = true) :
    (Parse data).2.m_body = data.drop (i + 4) :=
  Parse_body_crlf data i hf hp

/-- Witness for C3, amended: a request announcing three bytes, followed by `abc`. -/
theorem parse_body_is_rest_after_blank_line_witness :
    find (str "\r\n\r\n") (str "POST /x HTTP/1.1\r\nContent-Length: 3\r\n\r\nabc") = some 35 ∧
      (Parse (str "POST /x HTTP/1.1\r\nContent-Length: 3\r\n\r\nabc")).1 = true ∧
      (Parse (str "POST /x HTTP/1.1\r\nContent-Length: 3\r\n\r\nabc")).2.m_body =
        (str "POST /x HTTP/1.1\r\nContent-Length: 3\r\n\r\nabc").drop (35 + 4) :=
  ⟨by decide, by decide,
    parse_body_is_rest_after_blank_line _ 35 (by decide) (by decide)⟩

/-- C4, the code at the failing input `GET /a+b?c+d=e+f HTTP/1.1`: the `+`
of the query is parsed as a space, and so is the `+` of the path, which
`GetPath()` returns as `/a b`. -/
theorem parse_plus_in_path_becomes_space :
    (Parse (str "GET /a+b?c+d=e+f HTTP/1.1\r\n\r\n")).1 = true ∧
      GetQueryParam (Parse (str "GET /a+b?c+d=e+f HTTP/1.1\r\n\r\n")).2 (str "c d") []
        = str "e f" ∧
      (Parse (str "GET /a+b?c+d=e+f HTTP/1.1\r\n\r\n")).2.m_path = str "/a b" ∧
      (Parse (str "GET /a+b?c+d=e+f HTTP/1.1\r\n\r\n")).2.m_path ≠ str "/a+b" := by
  decide

/-- C5, the code at the failing input: the same request with a one-byte
body, written with LF and with CRLF line endings. Method, path and headers
agree, but the LF form loses the body. -/
theorem parse_lf_loses_one_byte_body :
    (Parse (str "POST /x HTTP/1.1\nContent-Length: 1\n\na")).1 = true ∧
      (Parse (str "POST /x HTTP/1.1\r\nContent-Length: 1\r\n\r\na")).1 = true ∧
      (Parse (str "POST /x HTTP/1.1\nContent-Length: 1\n\na")).2.m_method =
        (Parse (str "POST /x HTTP/1.1\r\nContent-Length: 1\r\n\r\na")).2.m_method ∧
      (Parse (str "POST /x HTTP/1.1\nContent-Length: 1\n\na")).2.m_path =
        (Parse (str "POST /x HTTP/1.1\r\nContent-Length: 1\r\n\r\na")).2.m_path ∧
      (Parse (str "POST /x HTTP/1.1\nContent-Length: 1\n\na")).2.m_headers =
        (Parse (str "POST /x HTTP/1.1\r\nContent-Length: 1\r\n\r\na")).2.m_headers ∧
      (Parse (str "POST /x HTTP/1.1\r\nContent-Length: 1\r\n\r\na")).2.m_body = str "a" ∧
      (Parse (str "POST /x HTTP/1.1\nContent-Length: 1\n\na")).2.m_body = [] ∧
      (Parse (str "POST /x HTTP/1.1\nContent-Length: 1\n\nab")).2.m_body = str "ab" := by
  decide

/-! ## The builder -/

theorem writeValue_eq (b : JsonBuilder) (text : Bytes) :
    b.writeValue text =
      { m_stream := b.m_stream ++ sepOf b.m_needComma ++ text,
        m_stack := b.m_stack,
        m_needComma := markOf b.m_needComma } := by
  obtain ⟨s, st, nc⟩ := b
  rcases nc with _ | ⟨f, rest⟩
  · simp [JsonBuilder.writeValue, JsonBuilder.AddCommaIfNeeded, JsonBuilder.setNeedComma, sepOf, markOf]
  · cases f <;>
      simp [JsonBuilder.writeValue, JsonBuilder.AddCommaIfNeeded, JsonBuilder.setNeedComma, sepOf, markOf]

theorem beginScope_eq (br : Nat) (b : JsonBuilder) :
    JsonBuilder.beginScope br b =
      { m_stream := b.m_stream ++ sepOf b.m_needComma ++ [br],
        m_stack := br :: b.m_stack,
        m_needComma := false :: resetOf b.m_needComma } := by
  obtain ⟨s, st, nc⟩ := b
  rcases nc with _ | ⟨f, rest⟩
  · simp [JsonBuilder.beginScope, JsonBuilder.AddCommaIfNeeded, sepOf, resetOf]
  · cases f <;> simp [JsonBuilder.beginScope, JsonBuilder.AddCommaIfNeeded, sepOf, resetOf]

theorem Key_eq (b : JsonBuilder) (k : Bytes) :
    b.Key k =
      { m_stream := b.m_stream ++ sepOf b.m_needComma ++ ([34] ++ EscapeString k ++ [34, 58]),
        m_stack := b.m_stack,
        m_needComma := resetOf b.m_needComma } := by
  obtain ⟨s, st, nc⟩ := b
  rcases nc with _ | ⟨f, rest⟩
  · simp [JsonBuilder.Key, JsonBuilder.AddCommaIfNeeded, sepOf, resetOf]
  · cases f <;> simp [JsonBuilder.Key, JsonBuilder.AddCommaIfNeeded, sepOf, resetOf]

theorem endScope_eq (br : Nat) (s : Bytes) (st : List Nat) (top : Nat) (f : Bool)
    (nc : List Bool) :
    JsonBuilder.endScope br { m_stream := s, m_stack := top :: st, m_needComma := f :: nc } =
      { m_stream := s ++ [br], m_stack := st, m_needComma := markOf nc } := by
  rcases nc with _ | ⟨g, rest⟩ <;> simp [JsonBuilder.endScope, JsonBuilder.setNeedComma, markOf]

theorem markOf_resetOf (nc : List Bool) : markOf (resetOf nc) = markOf nc := by
  rcases nc with _ | ⟨f, rest⟩ <;> rfl

theorem sepOf_resetOf (nc : List Bool) : sepOf (resetOf nc) = [] := by
  rcases nc with _ | ⟨f, rest⟩ <;> rfl

mutual
theorem emit_eq : ∀ (v : JVal) (b : JsonBuilder),
    emit v b =
      { m_stream := b.m_stream ++ sepOf b.m_needComma ++ compact v,
        m_stack := b.m_stack,
        m_needComma := markOf b.m_needComma }
  | .string s, b => by rw [emit, compact, JsonBuilder.ValueString, writeValue_eq]
  | .int i, b => by rw [emit, compact, JsonBuilder.ValueInt, writeValue_eq]
  | .bool v, b => by rw [emit, compact, JsonBuilder.ValueBool, writeValue_eq]
  | .null, b => by rw [emit, compact, JsonBuilder.Null, writeValue_eq]
  | .raw t, b => by rw [emit, compact, JsonBuilder.RawValue, writeValue_eq]
  | .array elems, b => by
    rw [emit, compact, JsonBuilder.BeginArray, beginScope_eq,
      emitElems_eq elems _ false (resetOf b.m_needComma) rfl, JsonBuilder.EndArray,
      endScope_eq, markOf_resetOf]
    simp only [elemsText]
    cases elems <;> simp [compactElems, List.append_assoc]
  | .object members, b => by
    rw [emit, compact, JsonBuilder.BeginObject, beginScope_eq,
      emitMembers_eq members _ false (resetOf b.m_needComma) rfl, JsonBuilder.EndObject,
      endScope_eq, markOf_resetOf]
    simp only [membersText]
    cases members <;> simp [compactMembers, List.append_assoc]
theorem emitElems_eq : ∀ (xs : List JVal) (b : JsonBuilder) (f : Bool) (rest : List Bool),
    b.m_needComma = f :: rest →
    emitElems xs b =
      { m_stream := b.m_stream ++ elemsText f xs,
        m_stack := b.m_stack,
        m_needComma := (f || !xs.isEmpty) :: rest }
  | [], b, f, rest, h => by
    obtain ⟨s, st, nc⟩ := b
    simp only at h
    simp [emitElems, elemsText, h]
  | x :: xs, b, f, rest, h => by
    rw [emitElems, emit_eq x b, emitElems_eq xs _ true rest (by rw [h]; rfl), h]
    cases xs with
    | nil => cases f <;> simp [elemsText, compactElems, sepOf]
    | cons y ys => cases f <;> simp [elemsText, compactElems, sepOf, List.append_assoc]
theorem emitMembers_eq : ∀ (ms : List (Bytes × JVal)) (b : JsonBuilder) (f : Bool)
    (rest : List Bool),
    b.m_needComma = f :: rest →
    emitMembers ms b =
      { m_stream := b.m_stream ++ membersText f ms,
        m_stack := b.m_stack,
        m_needComma := (f || !ms.isEmpty) :: rest }
  | [], b, f, rest, h => by
    obtain ⟨s, st, nc⟩ := b
    simp only at h
    simp [emitMembers, membersText, h]
  | (k, v) :: ms, b, f, rest, h => by
    rw [emitMembers, Key_eq, emit_eq v _,
      emitMembers_eq ms _ true rest (by simp only [markOf_resetOf, h]; rfl), h]
    simp only [sepOf_resetOf]
    cases ms with
    | nil => cases f <;> simp [membersText, compactMembers, sepOf, List.append_assoc]
    | cons m ms' =>
      obtain ⟨k', v'⟩ := m
      cases f <;> simp [membersText, compactMembers, sepOf, List.append_assoc]
end

/-- C2: builder separators. Emitting any JSON value tree through the
builder in document order appends its compact serialization (`compact`: no
comma after an opening bracket, exactly one comma between siblings),
preceded by a comma exactly when the enclosing scope already holds an
element, and leaves the scope stack as it was; on a fresh builder the output
is exactly the compact serialization with all scopes closed. The calls
BeginObject, Add("a",1), Add("b",2), EndObject yield `{"a":1,"b":2}`. -/
theorem builder_emits_compact_serialization :
    (∀ (v : JVal) (b : JsonBuilder),
        (emit v b).ToString = b.ToString ++ sepOf b.m_needComma ++ compact v ∧
        (emit v b).m_stack = b.m_stack ∧
        (emit v b).m_needComma = markOf b.m_needComma) ∧
      (∀ v : JVal, emit v {} = { m_stream := compact v, m_stack := [], m_needComma := [] }) ∧
      (∀ (x y : JVal) (xs : List JVal),
        compact (.array []) = [91, 93] ∧
        compact (.array [x]) = [91] ++ compact x ++ [93] ∧
        compactElems (x :: y :: xs) = compact x ++ [44] ++ compactElems (y :: xs)) ∧
      (((((({} : JsonBuilder).BeginObject).AddInt (str "a") 1).AddInt (str "b") 2).EndObject).ToString
        = str "\x7b\"a\":1,\"b\":2\x7d") := by
  refine ⟨fun v b => ?_, fun v => ?_, fun x y xs => ?_, by decide⟩
  · rw [emit_eq]
    exact ⟨rfl, rfl, rfl⟩
  · rw [emit_eq]
    simp [sepOf, markOf]
  · simp [compact, compactElems]

/-! ## Parsing an encoded request -/



theorem hexDigitUpper_unreserved (d : Nat) (h : d < 16) : isUnreserved (hexDigitUpper d) = true := by
  unfold hexDigitUpper isUnreserved
  interval_cases d <;> simp

theorem pctEncode_chars (slash : Bool) (s : Bytes) (hs : isByteString s = true) :
    ∀ c ∈ pctEncode slash s, isEncChar slash c = true := by
  induction s with
  | nil => simp [pctEncode]
  | cons x xs ih =>
    simp only [isByteString, List.all_cons, Bool.and_eq_true, decide_eq_true_eq] at hs
    intro c hc
    rw [pctEncode, List.mem_append] at hc
    rcases hc with hc | hc
    · split at hc
      · rename_i hk
        simp at hc
        subst hc
        simp only [isEncChar, Bool.or_eq_true]
        left
        simpa using hk
      · simp at hc
        rcases hc with hc | hc | hc
        · subst hc; simp [isEncChar]
        · subst hc
          simp [isEncChar, hexDigitUpper_unreserved (x / 16) (by omega)]
        · subst hc
          simp [isEncChar, hexDigitUpper_unreserved (x % 16) (by omega)]
    · exact ih (by simpa [isByteString] using hs.2) c hc

theorem isEncChar_props (slash : Bool) (c : Nat) (h : isEncChar slash c = true) :
    isSpace c = false ∧ c ≠ 63 ∧ c ≠ 38 ∧ c ≠ 61 ∧ c ≠ 43 ∧ c ≠ 10 := by
  unfold isEncChar isUnreserved at h
  unfold isSpace
  simp only [Bool.or_eq_true, Bool.and_eq_true, decide_eq_true_eq, beq_iff_eq] at h
  simp only [Bool.or_eq_false_iff, Bool.and_eq_false_iff, decide_eq_false_iff_not, beq_eq_false_iff_ne]
  omega

theorem UrlDecode_pctEncode (slash : Bool) (s : Bytes) (hs : isByteString s = true) :
    UrlDecode (pctEncode slash s) = s := by
  induction s with
  | nil => rfl
  | cons x xs ih =>
    simp only [isByteString, List.all_cons, Bool.and_eq_true, decide_eq_true_eq] at hs
    have ih' := ih (by simpa [isByteString] using hs.2)
    rw [pctEncode]
    split
    · rename_i hk
      have hx : isEncChar slash x = true := by
        simp only [isEncChar, Bool.or_eq_true]
        left
        simpa using hk
      have hp := isEncChar_props slash x hx
      have h37 : x ≠ 37 := by
        intro h
        subst h
        simp [isUnreserved] at hk
      rw [List.singleton_append, UrlDecode_cons_ne _ _ h37, if_neg hp.2.2.2.2.1, ih']
    · have h1 := hexVal_hexDigitUpper (x / 16) (by omega)
      have h2 := hexVal_hexDigitUpper (x % 16) (by omega)
      simp only [List.cons_append, List.nil_append]
      rw [UrlDecode_pct, strtol16_two_digits _ _ _ _ h1 h2]
      simp only [if_true]
      rw [ih']
      congr 1
      omega

theorem takeWhile_append_stop (p : Nat → Bool) (a b : Bytes) (c : Nat)
    (ha : ∀ x ∈ a, p x = true) (hc : p c = false) :
    List.takeWhile p (a ++ c :: b) = a := by
  induction a with
  | nil => simp [List.takeWhile, hc]
  | cons x xs ih =>
    have hx := ha x (List.mem_cons_self _ _)
    rw [List.cons_append, List.takeWhile_cons, if_pos hx,
      ih (fun y hy => ha y (List.mem_cons_of_mem _ hy))]

theorem dropWhile_append_stop (p : Nat → Bool) (a b : Bytes) (c : Nat)
    (ha : ∀ x ∈ a, p x = true) (hc : p c = false) :
    List.dropWhile p (a ++ c :: b) = c :: b := by
  induction a with
  | nil => simp [List.dropWhile, hc]
  | cons x xs ih =>
    have hx := ha x (List.mem_cons_self _ _)
    rw [List.cons_append, List.dropWhile_cons, if_pos hx,
      ih (fun y hy => ha y (List.mem_cons_of_mem _ hy))]

theorem takeWhile_all (p : Nat → Bool) (a : Bytes) (ha : ∀ x ∈ a, p x = true) :
    List.takeWhile p a = a := by
  induction a with
  | nil => rfl
  | cons x xs ih =>
    have hx := ha x (List.mem_cons_self _ _)
    rw [List.takeWhile_cons, if_pos hx, ih (fun y hy => ha y (List.mem_cons_of_mem _ hy))]

theorem dropWhile_all (p : Nat → Bool) (a : Bytes) (ha : ∀ x ∈ a, p x = true) :
    List.dropWhile p a = [] := by
  induction a with
  | nil => rfl
  | cons x xs ih =>
    have hx := ha x (List.mem_cons_self _ _)
    rw [List.dropWhile_cons, if_pos hx, ih (fun y hy => ha y (List.mem_cons_of_mem _ hy))]

theorem queryLoop_append (m : StrMap) (pair seg rest : Bytes) (h : 38 ∉ seg) :
    queryLoop m pair (seg ++ rest) = queryLoop m (pair ++ seg) rest := by
  induction seg generalizing pair with
  | nil => simp
  | cons x xs ih =>
    have hx : x ≠ 38 := fun e => h (by simp [e])
    have hxs : 38 ∉ xs := fun e => h (List.mem_cons_of_mem _ e)
    rw [List.cons_append, queryLoop, if_neg hx, ih _ hxs]
    simp

theorem queryPair_encoded (m : StrMap) (k v : Bytes)
    (hk : isByteString k = true) (hv : isByteString v = true) :
    queryPair m (pctEncode false k ++ 61 :: pctEncode false v) = mapInsert k v m := by
  have hk61 : ∀ x ∈ pctEncode false k, (x != 61) = true := by
    intro x hx
    have := (isEncChar_props false x (pctEncode_chars false k hk x hx)).2.2.2.1
    simpa using this
  unfold queryPair
  have hne : (pctEncode false k ++ 61 :: pctEncode false v).isEmpty = false := by
    cases pctEncode false k <;> rfl
  rw [find_single]
  simp only [hne, Bool.false_eq_true, if_false, List.mem_append, List.mem_cons, true_or, or_true,
    if_true]
  rw [take_length_takeWhile, ← List.drop_drop, drop_length_takeWhile,
    takeWhile_append_stop _ _ _ _ hk61 (by simp), dropWhile_append_stop _ _ _ _ hk61 (by simp)]
  simp only [List.drop_succ_cons, List.drop_zero]
  rw [UrlDecode_pctEncode _ _ hk, UrlDecode_pctEncode _ _ hv]

theorem pair_no_amp (k v : Bytes) (hk : isByteString k = true) (hv : isByteString v = true) :
    38 ∉ pctEncode false k ++ 61 :: pctEncode false v := by
  intro h
  rw [List.mem_append, List.mem_cons] at h
  rcases h with h | h | h
  · exact (isEncChar_props false 38 (pctEncode_chars false k hk 38 h)).2.2.1 rfl
  · simp at h
  · exact (isEncChar_props false 38 (pctEncode_chars false v hv 38 h)).2.2.1 rfl

theorem queryLoop_encodeQuery (m : StrMap) (ps : List (Bytes × Bytes))
    (h : ps.all (fun p => isByteString p.1 && isByteString p.2) = true) :
    queryLoop m [] (encodeQuery ps) = ps.foldl (fun m p => mapInsert p.1 p.2 m) m := by
  induction ps generalizing m with
  | nil => simp [encodeQuery, queryLoop, queryPair]
  | cons p ps ih =>
    obtain ⟨k, v⟩ := p
    simp only [List.all_cons, Bool.and_eq_true] at h
    obtain ⟨⟨hk, hv⟩, hps⟩ := h
    cases ps with
    | nil =>
      rw [encodeQuery]
      have := queryLoop_append m [] (pctEncode false k ++ 61 :: pctEncode false v) []
        (pair_no_amp k v hk hv)
      rw [List.append_nil] at this
      rw [this, List.nil_append, queryLoop, queryPair_encoded m k v hk hv]
      rfl
    | cons q qs =>
      rw [encodeQuery]
      rw [queryLoop_append m [] _ _ (pair_no_amp k v hk hv), List.nil_append, queryLoop,
        if_pos rfl, queryPair_encoded m k v hk hv, ih _ (by simpa using hps)]
      rfl

theorem mapFind_foldl_pairs (k : Bytes) (ps : List (Bytes × Bytes)) (m : StrMap) :
    mapFind k (ps.foldl (fun m p => mapInsert p.1 p.2 m) m) =
      match lastValue k ps with
      | some v => some v
      | none => mapFind k m := by
  induction ps generalizing m with
  | nil => rfl
  | cons p ps ih =>
    obtain ⟨k', v⟩ := p
    rw [List.foldl_cons, ih, lastValue]
    cases lastValue k ps with
    | some w => rfl
    | none =>
      simp only [mapFind_mapInsert]
      by_cases h : k = k'
      · subst h; simp
      · have h' : ¬ k' = k := fun e => h e.symm
        simp [h, h']

theorem isToken_iff (s : Bytes) :
    isToken s = true ↔ s ≠ [] ∧ ∀ x ∈ s, isSpace x = false := by
  unfold isToken
  cases s with
  | nil => simp
  | cons c cs => simp

theorem extractWord_space (s : Bytes) : extractWord (32 :: s) = extractWord s := by
  unfold extractWord
  have : List.dropWhile isSpace (32 :: s) = List.dropWhile isSpace s := by
    rw [List.dropWhile_cons, if_pos (by decide)]
  simp only [this]

theorem dropWhile_space_token (tok rest : Bytes) (h : isToken tok = true) :
    List.dropWhile isSpace (tok ++ rest) = tok ++ rest := by
  obtain ⟨hne, hall⟩ := (isToken_iff tok).1 h
  cases tok with
  | nil => exact absurd rfl hne
  | cons c cs =>
    have hc := hall c (List.mem_cons_self _ _)
    rw [List.cons_append, List.dropWhile_cons, if_neg (by simp [hc])]

theorem extractWord_token_mid (tok rest : Bytes) (h : isToken tok = true) :
    extractWord (tok ++ 32 :: rest) = some (tok, 32 :: rest) := by
  obtain ⟨hne, hall⟩ := (isToken_iff tok).1 h
  unfold extractWord
  simp only [dropWhile_space_token tok _ h]
  have hp : ∀ x ∈ tok, (fun c => !isSpace c) x = true := fun x hx => by simp [hall x hx]
  rw [takeWhile_append_stop _ _ _ _ hp (by decide), dropWhile_append_stop _ _ _ _ hp (by decide)]
  cases tok with
  | nil => exact absurd rfl hne
  | cons c cs => rfl

theorem extractWord_token_end (tok : Bytes) (h : isToken tok = true) :
    extractWord tok = some (tok, []) := by
  obtain ⟨hne, hall⟩ := (isToken_iff tok).1 h
  unfold extractWord
  have := dropWhile_space_token tok [] h
  rw [List.append_nil] at this
  simp only [this]
  have hp : ∀ x ∈ tok, (fun c => !isSpace c) x = true := fun x hx => by simp [hall x hx]
  rw [takeWhile_all _ _ hp, dropWhile_all _ _ hp]
  cases tok with
  | nil => exact absurd rfl hne
  | cons c cs => rfl

theorem encodeQuery_chars (ps : List (Bytes × Bytes))
    (h : ps.all (fun p => isByteString p.1 && isByteString p.2) = true) :
    ∀ c ∈ encodeQuery ps, isSpace c = false := by
  induction ps with
  | nil => simp [encodeQuery]
  | cons p ps ih =>
    obtain ⟨k, v⟩ := p
    simp only [List.all_cons, Bool.and_eq_true] at h
    obtain ⟨⟨hk, hv⟩, hps⟩ := h
    have hkc : ∀ c ∈ pctEncode false k, isSpace c = false := fun c hc =>
      (isEncChar_props false c (pctEncode_chars false k hk c hc)).1
    have hvc : ∀ c ∈ pctEncode false v, isSpace c = false := fun c hc =>
      (isEncChar_props false c (pctEncode_chars false v hv c hc)).1
    intro c hc
    cases ps with
    | nil =>
      rw [encodeQuery, List.mem_append, List.mem_cons] at hc
      rcases hc with hc | hc | hc
      · exact hkc c hc
      · subst hc; decide
      · exact hvc c hc
    | cons q qs =>
      rw [encodeQuery, List.mem_append, List.mem_append, List.mem_cons, List.mem_cons] at hc
      rcases hc with (hc | hc | hc) | hc | hc
      · exact hkc c hc
      · subst hc; decide
      · exact hvc c hc
      · subst hc; decide
      · exact ih (by simpa using hps) c hc

theorem pctEncode_ne_nil (slash : Bool) (s : Bytes) (h : s ≠ []) : pctEncode slash s ≠ [] := by
  cases s with
  | nil => exact absurd rfl h
  | cons c cs =>
    rw [pctEncode]
    split <;> simp

theorem encodeTarget_token (path : Bytes) (query : List (Bytes × Bytes))
    (hp : path ≠ []) (hpb : isByteString path = true)
    (hq : query.all (fun p => isByteString p.1 && isByteString p.2) = true) :
    isToken (encodeTarget path query) = true := by
  rw [isToken_iff]
  constructor
  · unfold encodeTarget
    intro h
    exact pctEncode_ne_nil true path hp (List.append_eq_nil.1 h).1
  · intro c hc
    unfold encodeTarget at hc
    rw [List.mem_append] at hc
    rcases hc with hc | hc
    · exact (isEncChar_props true c (pctEncode_chars true path hpb c hc)).1
    · split at hc
      · simp at hc
      · rw [List.mem_cons] at hc
        rcases hc with hc | hc
        · subst hc; decide
        · exact encodeQuery_chars query hq c hc

theorem encodeQuery_ne_nil (ps : List (Bytes × Bytes)) (h : ps ≠ []) : encodeQuery ps ≠ [] := by
  match ps, h with
  | [(k, v)], _ => rw [encodeQuery]; simp
  | (k, v) :: p :: ps, _ => rw [encodeQuery]; simp

theorem ParseRequestLine_encoded (r : RequestParts) (h : inGrammar r = true) :
    ParseRequestLine {} (encodeRequestLine r) =
      (true, { m_method := r.method, m_path := r.path, m_query := encodeQuery r.query,
               m_version := r.version,
               m_queryParams := r.query.foldl (fun m p => mapInsert p.1 p.2 m) [] }) := by
  unfold inGrammar at h
  simp only [Bool.and_eq_true, Bool.not_eq_true', List.isEmpty_eq_false] at h
  obtain ⟨⟨⟨⟨⟨hm, hp⟩, hpb⟩, hq⟩, hv⟩, hh⟩ := h
  have ht := encodeTarget_token r.path r.query (by simpa using hp) hpb hq
  have e : encodeRequestLine r = r.method ++ 32 :: (encodeTarget r.path r.query ++ 32 :: r.version) := by
    simp [encodeRequestLine]
  unfold ParseRequestLine
  rw [e, extractWord_token_mid _ _ hm]
  simp only [extractWord_space]
  rw [extractWord_token_mid _ _ ht]
  simp only [extractWord_space, extractWord_token_end _ hv]
  have hpc63 : ∀ x ∈ pctEncode true r.path, (x != 63) = true := by
    intro x hx
    have := (isEncChar_props true x (pctEncode_chars true r.path hpb x hx)).2.1
    simpa using this
  have hmne : r.method.isEmpty = false := by
    have := ((isToken_iff r.method).1 hm).1
    cases hmm : r.method with
    | nil => exact absurd hmm this
    | cons c cs => rfl
  have hpne : r.path.isEmpty = false := by simpa using hp
  cases hqe : r.query with
  | nil =>
    have h63 : 63 ∉ encodeTarget r.path [] := by
      intro hc
      simp only [encodeTarget, List.isEmpty_nil, if_true, List.append_nil] at hc
      have := hpc63 63 hc
      simp at this
    rw [find_single, if_neg h63]
    simp [encodeTarget, UrlDecode_pctEncode true r.path hpb, hmne, hpne, encodeQuery]
  | cons q qs =>
    have hqne : (q :: qs).isEmpty = false := rfl
    have et : encodeTarget r.path (q :: qs) = pctEncode true r.path ++ 63 :: encodeQuery (q :: qs) := by
      simp [encodeTarget]
    have hqne' : (encodeQuery (q :: qs)).isEmpty = false := by
      have := encodeQuery_ne_nil (q :: qs) (by simp)
      cases hh : encodeQuery (q :: qs) with
      | nil => exact absurd hh this
      | cons c cs => rfl
    rw [et, find_single]
    simp only [List.mem_append, List.mem_cons, true_or, or_true, if_true]
    rw [take_length_takeWhile, ← List.drop_drop, drop_length_takeWhile,
      takeWhile_append_stop _ _ _ _ hpc63 (by simp), dropWhile_append_stop _ _ _ _ hpc63 (by simp)]
    simp only [List.drop_succ_cons, List.drop_zero]
    rw [hqe] at hq
    simp [ParseQueryString, hqne', queryLoop_encodeQuery [] (q :: qs) hq,
      UrlDecode_pctEncode true r.path hpb, hmne, hpne]

theorem crlf_encodeHeaders (hs : List (Bytes × Bytes)) :
    13 :: 10 :: encodeHeaders hs = headerLinesPre hs ++ [13, 10] := by
  induction hs with
  | nil => rfl
  | cons h hs ih =>
    obtain ⟨n, v⟩ := h
    rw [encodeHeaders, headerLinesPre]
    simp only [List.append_assoc, List.cons_append]
    rw [ih]

theorem find_skip (a : Nat) (ps line rest : Bytes) (h10 : 10 ∉ line)
    (hrest : rest.head? ≠ some 10) :
    find (a :: 10 :: ps) (line ++ rest) = (find (a :: 10 :: ps) rest).map (· + line.length) := by
  induction line with
  | nil => simp
  | cons c cs ih =>
    have hcs : 10 ∉ cs := fun e => h10 (List.mem_cons_of_mem _ e)
    have hno : startsWith (a :: 10 :: ps) (c :: (cs ++ rest)) = false := by
      rw [startsWith]
      cases cs with
      | nil =>
        cases rest with
        | nil => simp [startsWith]
        | cons x xs =>
          have : x ≠ 10 := fun e => hrest (by simp [e])
          simp [startsWith, this, Ne.symm this]
      | cons x xs =>
        have : x ≠ 10 := fun e => h10 (by simp [e])
        simp [startsWith, this, Ne.symm this]
    rw [List.cons_append, find, hno, ih hcs]
    cases find (a :: 10 :: ps) rest <;> simp
    omega

theorem validHeader_iff (n v : Bytes) :
    validHeader (n, v) = true ↔
      (58 ∉ n ∧ 10 ∉ n) ∧ 10 ∉ v ∧ Trim n = n ∧ Trim v = v := by
  unfold validHeader
  simp only [Bool.and_eq_true, List.all_eq_true, bne_iff_ne, beq_iff_eq]
  constructor
  · rintro ⟨⟨⟨h1, h2⟩, h3⟩, h4⟩
    exact ⟨⟨fun e => (h1 58 e).1 rfl, fun e => (h1 10 e).2 rfl⟩, fun e => h2 10 e rfl, h3, h4⟩
  · rintro ⟨⟨h1, h1'⟩, h2, h3, h4⟩
    refine ⟨⟨⟨fun x hx => ⟨fun e => h1 (e ▸ hx), fun e => h1' (e ▸ hx)⟩, fun x hx e => h2 (e ▸ hx)⟩,
      h3⟩, h4⟩

theorem headerText_no_lf (n v : Bytes) (h : validHeader (n, v) = true) :
    10 ∉ n ++ 58 :: 32 :: v := by
  obtain ⟨⟨_, h1⟩, h2, _, _⟩ := (validHeader_iff n v).1 h
  intro hc
  rw [List.mem_append, List.mem_cons, List.mem_cons] at hc
  rcases hc with hc | hc | hc | hc
  · exact h1 hc
  · simp at hc
  · simp at hc
  · exact h2 hc

theorem headerText_two (n v : Bytes) (h : 10 ∉ n ++ 58 :: 32 :: v) :
    ∃ a b t, n ++ 58 :: 32 :: v = a :: b :: t ∧ b ≠ 10 := by
  rcases n with _ | ⟨a, _ | ⟨b, t⟩⟩
  · exact ⟨58, 32, v, rfl, by decide⟩
  · exact ⟨a, 58, 32 :: v, rfl, by decide⟩
  · refine ⟨a, b, t ++ 58 :: 32 :: v, rfl, ?_⟩
    intro e
    exact h (by simp [e])

theorem headerLinesPre_head (hs : List (Bytes × Bytes)) (body : Bytes) :
    (headerLinesPre hs ++ 13 :: 10 :: 13 :: 10 :: body).head? = some 13 := by
  cases hs with
  | nil => rfl
  | cons h hs => obtain ⟨n, v⟩ := h; rfl

theorem find_blank_line_headers (hs : List (Bytes × Bytes)) (body : Bytes)
    (h : hs.all validHeader = true) :
    find [13, 10, 13, 10] (headerLinesPre hs ++ 13 :: 10 :: 13 :: 10 :: body) =
      some (headerLinesPre hs).length := by
  induction hs with
  | nil => simp [headerLinesPre, find, startsWith]
  | cons e hs ih =>
    obtain ⟨n, v⟩ := e
    simp only [List.all_cons, Bool.and_eq_true] at h
    have hlf := headerText_no_lf n v h.1
    obtain ⟨a, b, t, e2, hb⟩ := headerText_two n v hlf
    have hno0 : startsWith [13, 10, 13, 10]
        (13 :: 10 :: ((n ++ 58 :: 32 :: v) ++
          (headerLinesPre hs ++ 13 :: 10 :: 13 :: 10 :: body))) = false := by
      rw [e2]
      simp [startsWith, hb, Ne.symm hb]
    have hno1 : startsWith [13, 10, 13, 10]
        (10 :: ((n ++ 58 :: 32 :: v) ++
          (headerLinesPre hs ++ 13 :: 10 :: 13 :: 10 :: body))) = false := by
      simp [startsWith]
    have e3 : headerLinesPre ((n, v) :: hs) ++ 13 :: 10 :: 13 :: 10 :: body =
        13 :: 10 :: ((n ++ 58 :: 32 :: v) ++
          (headerLinesPre hs ++ 13 :: 10 :: 13 :: 10 :: body)) := by
      simp [headerLinesPre]
    rw [e3, find, hno0, find, hno1,
      find_skip 13 [13, 10] _ _ hlf (by rw [headerLinesPre_head]; decide), ih h.2]
    simp [headerLinesPre]
    omega

theorem dropWhile_head_not (p : Nat → Bool) (l : Bytes) (c : Nat) (rest : Bytes)
    (h : List.dropWhile p l = c :: rest) : p c = false := by
  induction l with
  | nil => simp at h
  | cons x xs ih =>
    rw [List.dropWhile_cons] at h
    split at h
    · exact ih h
    · rename_i hx
      injection h with h1 _
      subst h1
      simpa using hx

theorem Trim_getLast (v : Bytes) (c : Nat) (h : Trim v = v) (hc : v.getLast? = some c) :
    isSpace c = false := by
  unfold Trim at h
  have hr : List.dropWhile isSpace (List.dropWhile isSpace v).reverse = v.reverse := by
    have := congrArg List.reverse h
    simpa using this
  have hh : v.reverse.head? = some c := by simpa using hc
  cases hv : v.reverse with
  | nil => rw [hv] at hh; simp at hh
  | cons x xs =>
    rw [hv] at hh hr
    injection hh with hh
    have hxc : x = c := by simpa using hh
    rw [hxc] at hr
    exact dropWhile_head_not _ _ _ _ hr

theorem headerText_getLast (n v : Bytes) (h : validHeader (n, v) = true) :
    (n ++ 58 :: 32 :: v).getLast? ≠ some 13 := by
  obtain ⟨_, _, _, hv⟩ := (validHeader_iff n v).1 h
  intro hc
  rcases List.eq_nil_or_concat v with hv0 | ⟨v', c, hv1⟩
  · subst hv0
    have : (n ++ [58, 32]).getLast? = some 32 := by
      rw [show n ++ [58, 32] = (n ++ [58]) ++ [32] by simp, List.getLast?_append]
      rfl
    rw [this] at hc
    exact absurd hc (by decide)
  · have e : n ++ 58 :: 32 :: v = (n ++ 58 :: 32 :: v') ++ [c] := by
      rw [hv1]; simp
    have hc' : ((n ++ 58 :: 32 :: v') ++ [c]).getLast? = some c := by
      rw [List.getLast?_append]; rfl
    rw [e, hc'] at hc
    injection hc with hc
    have : v.getLast? = some c := by rw [hv1]; simp
    have := Trim_getLast v c hv this
    rw [hc] at this
    exact absurd this (by decide)

theorem headerOfLine_core (n v line0 : Bytes) (h : validHeader (n, v) = true)
    (hl : (if line0.getLast? = some 13 then line0.dropLast else line0) = n ++ 58 :: 32 :: v) :
    headerOfLine line0 = some (n, v) := by
  obtain ⟨⟨hn, _⟩, _, htn, htv⟩ := (validHeader_iff n v).1 h
  unfold headerOfLine
  simp only [hl]
  have hp : ∀ x ∈ n, (fun c => c != 58) x = true := fun x hx => by
    simp only [bne_iff_ne]
    intro e
    exact hn (e ▸ hx)
  rw [if_pos (by simp), takeWhile_append_stop _ _ _ _ hp (by simp),
    dropWhile_append_stop _ _ _ _ hp (by simp)]
  simp only [List.drop_succ_cons, List.drop_zero]
  have e1 : trimmed n = n := by rw [← Trim_eq_trimmed, htn]
  have e2 : trimmed (32 :: v) = v := by
    have : trimmed (32 :: v) = trimmed v := by
      unfold trimmed
      rw [List.dropWhile_cons, if_pos (by decide)]
    rw [this, ← Trim_eq_trimmed, htv]
  rw [e1, e2]

theorem splitLines_no_lf (line : Bytes) (h : 10 ∉ line) : splitLines line = [line] := by
  induction line with
  | nil => rfl
  | cons c cs ih =>
    have hc : c ≠ 10 := fun e => h (by simp [e])
    rw [splitLines, if_neg hc, ih (fun e => h (List.mem_cons_of_mem _ e))]

theorem splitLines_line (line rest : Bytes) (h : 10 ∉ line) :
    splitLines (line ++ 10 :: rest) = line :: splitLines rest := by
  induction line with
  | nil => simp [splitLines]
  | cons c cs ih =>
    have hc : c ≠ 10 := fun e => h (by simp [e])
    rw [List.cons_append, splitLines, if_neg hc, ih (fun e => h (List.mem_cons_of_mem _ e))]

theorem header_entries (hs : List (Bytes × Bytes)) (n v : Bytes)
    (h : validHeader (n, v) = true) (hhs : hs.all validHeader = true) :
    (splitLines ((n ++ 58 :: 32 :: v) ++ headerLinesPre hs)).filterMap headerOfLine =
      (n, v) :: hs := by
  induction hs generalizing n v with
  | nil =>
    have hlf := headerText_no_lf n v h
    rw [headerLinesPre, List.append_nil, splitLines_no_lf _ hlf]
    simp only [List.filterMap_cons, List.filterMap_nil]
    rw [headerOfLine_core n v _ h (by rw [if_neg (headerText_getLast n v h)])]
  | cons e hs ih =>
    obtain ⟨n', v'⟩ := e
    simp only [List.all_cons, Bool.and_eq_true] at hhs
    have hlf := headerText_no_lf n v h
    have hlf' : 10 ∉ (n ++ 58 :: 32 :: v) ++ [13] := by
      intro hc
      rw [List.mem_append] at hc
      rcases hc with hc | hc
      · exact hlf hc
      · simp at hc
    have e1 : (n ++ 58 :: 32 :: v) ++ headerLinesPre ((n', v') :: hs) =
        ((n ++ 58 :: 32 :: v) ++ [13]) ++ 10 :: ((n' ++ 58 :: 32 :: v') ++ headerLinesPre hs) := by
      simp [headerLinesPre]
    rw [e1, splitLines_line _ _ hlf', List.filterMap_cons, ih n' v' hhs.1 hhs.2]
    rw [headerOfLine_core n v _ h (by
      rw [if_pos (by rw [List.getLast?_append]; rfl), List.dropLast_concat])]

theorem encodeRequest_eq (r : RequestParts) :
    encodeRequest r =
      encodeRequestLine r ++ (headerLinesPre r.headers ++ 13 :: 10 :: 13 :: 10 :: r.body) := by
  have := crlf_encodeHeaders r.headers
  have e : 13 :: 10 :: (encodeHeaders r.headers ++ 13 :: 10 :: r.body) =
      headerLinesPre r.headers ++ 13 :: 10 :: 13 :: 10 :: r.body := by
    rw [← List.cons_append, ← List.cons_append, this]
    simp
  unfold encodeRequest encodeRequestLine
  simp only [List.append_assoc, List.cons_append]
  rw [e]

theorem encodeRequestLine_no_lf (r : RequestParts) (h : inGrammar r = true) :
    10 ∉ encodeRequestLine r := by
  unfold inGrammar at h
  simp only [Bool.and_eq_true, Bool.not_eq_true', List.isEmpty_eq_false] at h
  obtain ⟨⟨⟨⟨⟨hm, hp⟩, hpb⟩, hq⟩, hv⟩, hh⟩ := h
  have ht := encodeTarget_token r.path r.query (by simpa using hp) hpb hq
  have h1 := ((isToken_iff _).1 hm).2
  have h2 := ((isToken_iff _).1 ht).2
  have h3 := ((isToken_iff _).1 hv).2
  intro hc
  unfold encodeRequestLine at hc
  simp only [List.mem_append, List.mem_cons] at hc
  rcases hc with (hc | hc | hc) | hc | hc
  · exact absurd (h1 10 hc) (by decide)
  · simp at hc
  · exact absurd (h2 10 hc) (by decide)
  · simp at hc
  · exact absurd (h3 10 hc) (by decide)

theorem headerEndOf_encoded (r : RequestParts) (h : inGrammar r = true) :
    headerEndOf (encodeRequest r) =
      (encodeRequestLine r ++ headerLinesPre r.headers).length := by
  have hh : r.headers.all validHeader = true := by
    unfold inGrammar at h
    simp only [Bool.and_eq_true] at h
    exact h.2
  unfold headerEndOf
  rw [str_crlfcrlf, encodeRequest_eq,
    find_skip 13 [13, 10] _ _ (encodeRequestLine_no_lf r h)
      (by rw [headerLinesPre_head]; decide),
    find_blank_line_headers _ _ hh]
  simp
  omega

theorem firstLineEndOf_encoded (r : RequestParts) (h : inGrammar r = true) :
    firstLineEndOf (encodeRequestLine r ++ headerLinesPre r.headers) =
      (encodeRequestLine r).length := by
  have hlf := encodeRequestLine_no_lf r h
  unfold firstLineEndOf
  rw [str_crlf, str_lf]
  cases hs : r.headers with
  | nil =>
    rw [headerLinesPre, find_skip 13 [] _ _ hlf (by simp), List.append_nil, find_single,
      if_neg hlf]
    simp [find]
  | cons e es =>
    obtain ⟨n, v⟩ := e
    rw [find_skip 13 [] _ _ hlf (by simp [headerLinesPre])]
    simp [headerLinesPre, find, startsWith]

theorem get?_append_length (a b : Bytes) : (a ++ b).get? a.length = b.head? := by
  induction a with
  | nil => cases b <;> rfl
  | cons x xs ih => simpa using ih

theorem get?_append_length_succ (a b : Bytes) (x : Nat) :
    (a ++ x :: b).get? (a.length + 1) = b.head? := by
  induction a with
  | nil => cases b <;> rfl
  | cons y ys ih => simpa using ih

theorem drop_append_length_add (a b : Bytes) (k : Nat) :
    (a ++ b).drop (a.length + k) = b.drop k := by
  induction a with
  | nil => simp
  | cons y ys ih =>
    rw [List.cons_append, List.length_cons, Nat.add_right_comm, List.drop_succ_cons, ih]

theorem parsed_headers_encoded (r1 : HttpRequest) (L : Bytes) (hs : List (Bytes × Bytes))
    (hh : hs.all validHeader = true) (h0 : r1.m_headers = []) :
    (if L.length < (L ++ headerLinesPre hs).length then
        ParseHeaders r1
          (List.drop
            (if (if (L ++ headerLinesPre hs).get? L.length = some 13 then L.length + 1
                  else L.length) < (L ++ headerLinesPre hs).length ∧
                (L ++ headerLinesPre hs).get?
                  (if (L ++ headerLinesPre hs).get? L.length = some 13 then L.length + 1
                    else L.length) = some 10
              then (if (L ++ headerLinesPre hs).get? L.length = some 13 then L.length + 1
                    else L.length) + 1
              else if (L ++ headerLinesPre hs).get? L.length = some 13 then L.length + 1
                else L.length)
            (L ++ headerLinesPre hs))
      else r1) =
      { r1 with m_headers := hs.foldl (fun m e => mapInsert (ToLower e.1) e.2 m) [] } := by
  cases hs with
  | nil =>
    simp only [headerLinesPre, List.append_nil, lt_irrefl, if_false, List.foldl_nil]
    rw [← h0]
  | cons e es =>
    obtain ⟨n, v⟩ := e
    simp only [List.all_cons, Bool.and_eq_true] at hh
    have eH : headerLinesPre ((n, v) :: es) =
        13 :: 10 :: ((n ++ 58 :: 32 :: v) ++ headerLinesPre es) := by
      simp [headerLinesPre]
    rw [eH]
    have g0 : (L ++ 13 :: 10 :: ((n ++ 58 :: 32 :: v) ++ headerLinesPre es)).get? L.length
        = some 13 := by rw [get?_append_length]; rfl
    have g1 : (L ++ 13 :: 10 :: ((n ++ 58 :: 32 :: v) ++ headerLinesPre es)).get? (L.length + 1)
        = some 10 := by rw [get?_append_length_succ]; rfl
    have hlen : L.length + 1 <
        (L ++ 13 :: 10 :: ((n ++ 58 :: 32 :: v) ++ headerLinesPre es)).length := by
      simp
    have hlen0 : L.length <
        (L ++ 13 :: 10 :: ((n ++ 58 :: 32 :: v) ++ headerLinesPre es)).length := by
      simp
    simp only [g0, if_true, g1, hlen, hlen0, and_self]
    rw [show L.length + 1 + 1 = L.length + 2 by rfl, drop_append_length_add]
    simp only [List.drop_succ_cons, List.drop_zero]
    have hp := ParseHeaders_headers r1 ((n ++ 58 :: 32 :: v) ++ headerLinesPre es)
    rw [header_entries es n v hh.1 hh.2, h0] at hp
    rw [← hp]
    rfl

theorem Parse_encoded (r : RequestParts) (h : inGrammar r = true) :
    Parse (encodeRequest r) =
      (true,
        { m_method := r.method, m_path := r.path, m_query := encodeQuery r.query,
          m_version := r.version, m_body := r.body,
          m_headers := r.headers.foldl (fun m e => mapInsert (ToLower e.1) e.2 m) [],
          m_queryParams := r.query.foldl (fun m p => mapInsert p.1 p.2 m) [] }) := by
  have hh : r.headers.all validHeader = true := by
    unfold inGrammar at h
    simp only [Bool.and_eq_true] at h
    exact h.2
  have hdata := encodeRequest_eq r
  have hE := headerEndOf_encoded r h
  have hF := firstLineEndOf_encoded r h
  have hP := ParseRequestLine_encoded r h
  have hne : (encodeRequest r).isEmpty = false := by
    rw [hdata]
    cases encodeRequestLine r <;> cases headerLinesPre r.headers <;> rfl
  have htake : (encodeRequest r).take (encodeRequestLine r ++ headerLinesPre r.headers).length
      = encodeRequestLine r ++ headerLinesPre r.headers := by
    rw [hdata, ← List.append_assoc, List.take_left]
  have htake2 : (encodeRequestLine r ++ headerLinesPre r.headers).take (encodeRequestLine r).length
      = encodeRequestLine r := List.take_left _ _
  have hlen : (encodeRequest r).length =
      (encodeRequestLine r ++ headerLinesPre r.headers).length + 4 + r.body.length := by
    rw [hdata]
    simp
    omega
  have hget : (encodeRequest r).get? (encodeRequestLine r ++ headerLinesPre r.headers).length
      = some 13 := by
    rw [hdata, ← List.append_assoc, get?_append_length]
    rfl
  have hdrop : (encodeRequest r).drop
      ((encodeRequestLine r ++ headerLinesPre r.headers).length + 4) = r.body := by
    rw [hdata, ← List.append_assoc, drop_append_length_add]
    rfl
  unfold Parse
  simp only [hne, Bool.false_eq_true, if_false, hE, htake, hF, htake2, hP]
  rw [parsed_headers_encoded _ _ _ hh rfl]
  have h10 : ¬ ((some 13 : Option Nat) = some 10) := by decide
  simp only [hget, h10, if_false, hdrop]
  rw [if_pos (by omega)]
  by_cases hb : r.body = []
  · rw [if_neg (by rw [hlen, hb]; simp), hb]
  · rw [if_pos (by
      rw [hlen]
      have : 0 < r.body.length := List.length_pos.2 hb
      omega)]

/-- C1: request round trip. For every request of the supported grammar
(`inGrammar`: a white-space-free method and version, a non-empty path, query
pairs and headers, any body; path and query percent-encoded) written with
CRLF line endings, `Parse` succeeds and gives back the method, the path, the
version and the body; the query map holds for each key the value of its last
pair, and the header lookups give for each name, in any letter case, the
value of its last header. -/
theorem parse_round_trip (r : RequestParts) (h : inGrammar r = true) :
    (Parse (encodeRequest r)).1 = true ∧
      (Parse (encodeRequest r)).2.m_method = r.method ∧
      (Parse (encodeRequest r)).2.m_path = r.path ∧
      (Parse (encodeRequest r)).2.m_version = r.version ∧
      (∀ k, mapFind k (Parse (encodeRequest r)).2.m_queryParams = lastValue k r.query) ∧
      (∀ k d, GetQueryParam (Parse (encodeRequest r)).2 k d = (lastValue k r.query).getD d) ∧
      (∀ k d, GetHeader (Parse (encodeRequest r)).2 k d = (lastHeader k r.headers).getD d) ∧
      (∀ k, HasHeader (Parse (encodeRequest r)).2 k = (lastHeader k r.headers).isSome) ∧
      (Parse (encodeRequest r)).2.m_body = r.body := by
  rw [Parse_encoded r h]
  have hq : ∀ k, mapFind k (r.query.foldl (fun m p => mapInsert p.1 p.2 m) []) =
      lastValue k r.query := by
    intro k
    rw [mapFind_foldl_pairs]
    cases lastValue k r.query <;> rfl
  have hh : ∀ k, mapFind (ToLower k)
      (r.headers.foldl (fun m e => mapInsert (ToLower e.1) e.2 m) []) =
      lastHeader k r.headers := by
    intro k
    rw [mapFind_foldl_headers]
    cases lastHeader k r.headers <;> rfl
  refine ⟨rfl, rfl, rfl, rfl, hq, ?_, ?_, ?_, rfl⟩
  · intro k d
    simp only [GetQueryParam, hq]
    cases lastValue k r.query <;> rfl
  · intro k d
    simp only [GetHeader, hh]
    cases lastHeader k r.headers <;> rfl
  · intro k
    simp only [HasHeader, hh]

/-- Witness for C1: the message `GET /status HTTP/1.1`, `Host: x`, blank line
parses to method `GET`, path `/status`, version `HTTP/1.1`, empty body. -/
theorem parse_round_trip_witness :
    inGrammar statusRequest = true ∧
      encodeRequest statusRequest = str "GET /status HTTP/1.1\r\nHost: x\r\n\r\n" ∧
      ((Parse (encodeRequest statusRequest)).1 = true ∧
        (Parse (encodeRequest statusRequest)).2.m_method = str "GET" ∧
        (Parse (encodeRequest statusRequest)).2.m_path = str "/status" ∧
        (Parse (encodeRequest statusRequest)).2.m_version = str "HTTP/1.1" ∧
        (∀ k, mapFind k (Parse (encodeRequest statusRequest)).2.m_queryParams =
          lastValue k statusRequest.query) ∧
        (∀ k d, GetQueryParam (Parse (encodeRequest statusRequest)).2 k d =
          (lastValue k statusRequest.query).getD d) ∧
        (∀ k d, GetHeader (Parse (encodeRequest statusRequest)).2 k d =
          (lastHeader k statusRequest.headers).getD d) ∧
        (∀ k, HasHeader (Parse (encodeRequest statusRequest)).2 k =
          (lastHeader k statusRequest.headers).isSome) ∧
        (Parse (encodeRequest statusRequest)).2.m_body = []) :=
  ⟨by decide, by decide, parse_round_trip statusRequest (by decide)⟩

/-! ## Pretty printing -/

theorem stripOutsideLoop_ws (ws x : Bytes)
    (h : ∀ c ∈ ws, c = 32 ∨ c = 9 ∨ c = 10 ∨ c = 13) :
    stripOutsideLoop false false (ws ++ x) = stripOutsideLoop false false x := by
  induction ws with
  | nil => rfl
  | cons c cs ih =>
    have hc := h c (List.mem_cons_self _ _)
    have h92 : c ≠ 92 := by omega
    have h34 : c ≠ 34 := by omega
    rw [List.cons_append, stripOutsideLoop]
    simp only [Bool.false_eq_true, if_false, h34, and_false, hc, if_true]
    exact ih (fun y hy => h y (List.mem_cons_of_mem _ hy))

theorem stringLiteralsLoop_ws (ws x cur : Bytes)
    (h : ∀ c ∈ ws, c = 32 ∨ c = 9 ∨ c = 10 ∨ c = 13) :
    stringLiteralsLoop false false cur (ws ++ x) = stringLiteralsLoop false false cur x := by
  induction ws with
  | nil => rfl
  | cons c cs ih =>
    have hc := h c (List.mem_cons_self _ _)
    have h34 : c ≠ 34 := by omega
    rw [List.cons_append, stringLiteralsLoop]
    simp only [Bool.false_eq_true, if_false, h34, and_false]
    exact ih (fun y hy => h y (List.mem_cons_of_mem _ hy))

theorem WriteIndent_ws (depth indentSize : Int) :
    ∀ c ∈ 10 :: JsonBuilder.WriteIndent depth indentSize, c = 32 ∨ c = 9 ∨ c = 10 ∨ c = 13 := by
  intro c hc
  rw [List.mem_cons] at hc
  rcases hc with hc | hc
  · omega
  · left
    exact List.eq_of_mem_replicate hc

theorem indent_or_nil_ws (p : Prop) [Decidable p] (depth indentSize : Int) :
    ∀ c ∈ (if p then [] else 10 :: JsonBuilder.WriteIndent depth indentSize),
      c = 32 ∨ c = 9 ∨ c = 10 ∨ c = 13 := by
  split
  · intro c hc; simp at hc
  · exact WriteIndent_ws depth indentSize

theorem stripOutsideLoop_formatPrettyLoop (indentSize : Int) (json : Bytes) :
    ∀ (depth : Int) (inString escaped : Bool) (prevChar : Nat),
      stripOutsideLoop inString escaped
          (JsonBuilder.formatPrettyLoop indentSize depth inString escaped prevChar json) =
        stripOutsideLoop inString escaped json := by
  induction json with
  | nil => intro _ _ _ _; rfl
  | cons c rest ih =>
    intro depth inString escaped prevChar
    rw [JsonBuilder.formatPrettyLoop]
    by_cases h1 : escaped = true
    · simp only [h1, if_true]
      rw [stripOutsideLoop, stripOutsideLoop]
      simp only [if_true, ih]
    have he : escaped = false := by simpa using h1
    subst he
    simp only [Bool.false_eq_true, if_false]
    by_cases h2 : c = 92 ∧ inString = true
    · simp only [h2, and_self, if_true]
      rw [stripOutsideLoop, stripOutsideLoop]
      simp only [Bool.false_eq_true, if_false, and_self, if_true, ih]
    simp only [h2, if_false]
    by_cases h3 : c = 34
    · simp only [h3, if_true]
      rw [stripOutsideLoop, stripOutsideLoop]
      have : ¬ ((34 : Nat) = 92 ∧ inString = true) := by simp
      simp only [Bool.false_eq_true, if_false, this, if_true, ih]
    simp only [h3, if_false]
    by_cases h4 : inString = true
    · simp only [h4, if_true]
      rw [stripOutsideLoop, stripOutsideLoop]
      have : ¬ (c = 92 ∧ True) := by simpa [h4] using h2
      simp only [Bool.false_eq_true, if_false, h3, if_true, ih]
      simp [this]
    have hi : inString = false := by simpa using h4
    subst hi
    simp only [Bool.false_eq_true, if_false]
    have hstrip : ∀ (x : Bytes), (¬ (c = 32 ∨ c = 9 ∨ c = 10 ∨ c = 13)) →
        stripOutsideLoop false false (c :: x) = c :: stripOutsideLoop false false x := by
      intro x hw
      rw [stripOutsideLoop]
      simp only [Bool.false_eq_true, if_false, and_false, h3, hw]
    by_cases h5 : c = 123 ∨ c = 91
    · simp only [h5, if_true]
      have hw : ¬ (c = 32 ∨ c = 9 ∨ c = 10 ∨ c = 13) := by omega
      rw [hstrip _ hw, hstrip _ hw, stripOutsideLoop_ws _ _ (indent_or_nil_ws _ _ _), ih]
    simp only [h5, if_false]
    by_cases h6 : c = 125 ∨ c = 93
    · simp only [h6, if_true]
      have hw : ¬ (c = 32 ∨ c = 9 ∨ c = 10 ∨ c = 13) := by omega
      have hws : ∀ c ∈ (if prevChar ≠ 123 ∧ prevChar ≠ 91 then
          10 :: JsonBuilder.WriteIndent (depth - 1) indentSize else []),
          c = 32 ∨ c = 9 ∨ c = 10 ∨ c = 13 := by
        split
        · exact WriteIndent_ws _ _
        · intro c hc; simp at hc
      rw [stripOutsideLoop_ws _ _ hws, hstrip _ hw, hstrip _ hw, ih]
    simp only [h6, if_false]
    by_cases h7 : c = 44
    · simp only [h7, if_true]
      have hw : ¬ ((44 : Nat) = 32 ∨ (44 : Nat) = 9 ∨ (44 : Nat) = 10 ∨ (44 : Nat) = 13) := by
        omega
      subst h7
      rw [hstrip _ hw, hstrip _ hw, ← List.cons_append,
        stripOutsideLoop_ws _ _ (WriteIndent_ws _ _), ih]
    simp only [h7, if_false]
    by_cases h8 : c = 58
    · simp only [h8, if_true]
      have hw : ¬ ((58 : Nat) = 32 ∨ (58 : Nat) = 9 ∨ (58 : Nat) = 10 ∨ (58 : Nat) = 13) := by
        omega
      subst h8
      rw [hstrip _ hw, hstrip _ hw]
      have := stripOutsideLoop_ws [32]
        (JsonBuilder.formatPrettyLoop indentSize depth false false 58 rest) (by simp)
      rw [List.singleton_append] at this
      rw [this, ih]
    simp only [h8, if_false]
    by_cases h9 : c = 32 ∨ c = 9 ∨ c = 10 ∨ c = 13
    · simp only [h9, if_true]
      rw [ih]
      have := stripOutsideLoop_ws [c] rest (by simpa using h9)
      rw [List.singleton_append] at this
      rw [this]
    · simp only [h9, if_false]
      rw [hstrip _ h9, hstrip _ h9, ih]

theorem stringLiteralsLoop_formatPrettyLoop (indentSize : Int) (json : Bytes) :
    ∀ (depth : Int) (inString escaped : Bool) (prevChar : Nat) (cur : Bytes),
      stringLiteralsLoop inString escaped cur
          (JsonBuilder.formatPrettyLoop indentSize depth inString escaped prevChar json) =
        stringLiteralsLoop inString escaped cur json := by
  induction json with
  | nil => intro _ _ _ _ _; rfl
  | cons c rest ih =>
    intro depth inString escaped prevChar cur
    rw [JsonBuilder.formatPrettyLoop]
    by_cases h1 : escaped = true
    · simp only [h1, if_true]
      rw [stringLiteralsLoop, stringLiteralsLoop]
      simp only [if_true, ih]
    have he : escaped = false := by simpa using h1
    subst he
    simp only [Bool.false_eq_true, if_false]
    by_cases h2 : c = 92 ∧ inString = true
    · simp only [h2, and_self, if_true]
      rw [stringLiteralsLoop, stringLiteralsLoop]
      simp only [Bool.false_eq_true, if_false, and_self, if_true, ih]
    simp only [h2, if_false]
    by_cases h3 : c = 34
    · simp only [h3, if_true]
      rw [stringLiteralsLoop, stringLiteralsLoop]
      have : ¬ ((34 : Nat) = 92 ∧ inString = true) := by simp
      simp only [Bool.false_eq_true, if_false, this, if_true]
      cases inString
      · simp only [Bool.false_eq_true, if_false]
        exact ih _ _ _ _ _
      · simp only [if_true]
        have := ih depth false false 34 []
        simp only [Bool.not_true] at this ⊢
        rw [this]
    simp only [h3, if_false]
    by_cases h4 : inString = true
    · simp only [h4, if_true]
      rw [stringLiteralsLoop, stringLiteralsLoop]
      have : ¬ (c = 92 ∧ True) := by simpa [h4] using h2
      simp only [Bool.false_eq_true, if_false, h3, if_true, ih]
      simp [this]
    have hi : inString = false := by simpa using h4
    subst hi
    simp only [Bool.false_eq_true, if_false]
    have hlit : ∀ (x : Bytes), stringLiteralsLoop false false cur (c :: x) =
        stringLiteralsLoop false false cur x := by
      intro x
      rw [stringLiteralsLoop]
      simp only [Bool.false_eq_true, if_false, and_false, h3]
    by_cases h5 : c = 123 ∨ c = 91
    · simp only [h5, if_true]
      rw [hlit, hlit, stringLiteralsLoop_ws _ _ _ (indent_or_nil_ws _ _ _), ih]
    simp only [h5, if_false]
    by_cases h6 : c = 125 ∨ c = 93
    · simp only [h6, if_true]
      have hws : ∀ c ∈ (if prevChar ≠ 123 ∧ prevChar ≠ 91 then
          10 :: JsonBuilder.WriteIndent (depth - 1) indentSize else []),
          c = 32 ∨ c = 9 ∨ c = 10 ∨ c = 13 := by
        split
        · exact WriteIndent_ws _ _
        · intro c hc; simp at hc
      rw [stringLiteralsLoop_ws _ _ _ hws, hlit, hlit, ih]
    simp only [h6, if_false]
    by_cases h7 : c = 44
    · simp only [h7, if_true]
      subst h7
      rw [hlit, hlit, ← List.cons_append,
        stringLiteralsLoop_ws _ _ _ (WriteIndent_ws _ _), ih]
    simp only [h7, if_false]
    by_cases h8 : c = 58
    · simp only [h8, if_true]
      subst h8
      rw [hlit, hlit]
      have := stringLiteralsLoop_ws [32]
        (JsonBuilder.formatPrettyLoop indentSize depth false false 58 rest) cur (by simp)
      rw [List.singleton_append] at this
      rw [this, ih]
    simp only [h8, if_false]
    by_cases h9 : c = 32 ∨ c = 9 ∨ c = 10 ∨ c = 13
    · simp only [h9, if_true]
      rw [ih, hlit]
    · simp only [h9, if_false]
      rw [hlit, hlit, ih]

/-- C11: the pretty form is structurally identical to the compact form. For
every builder content and every indent size, removing the white space that
lies outside string literals from `ToPrettyString` gives `ToString` with its
outside-string white space removed, and the string literals of the two texts
are the same, byte for byte. -/
theorem pretty_matches_compact (b : JsonBuilder) (indent : Int) :
    stripOutside (b.ToPrettyString indent) = stripOutside b.ToString ∧
      stringLiterals (b.ToPrettyString indent) = stringLiterals b.ToString :=
  ⟨stripOutsideLoop_formatPrettyLoop indent b.ToString 0 false false 0,
    stringLiteralsLoop_formatPrettyLoop indent b.ToString 0 false false 0 []⟩

/-! ## The response map and `Build` -/

theorem strLt_irrefl (a : Bytes) : strLt a a = false := by
  induction a with
  | nil => rfl
  | cons x xs ih => simp [strLt, ih]

theorem strLt_trans (a b c : Bytes) (h1 : strLt a b = true) (h2 : strLt b c = true) :
    strLt a c = true := by
  induction a generalizing b c with
  | nil =>
    cases b with
    | nil => simp [strLt] at h1
    | cons y ys =>
      cases c with
      | nil => simp [strLt] at h2
      | cons z zs => rfl
  | cons x xs ih =>
    cases b with
    | nil => simp [strLt] at h1
    | cons y ys =>
      cases c with
      | nil => simp [strLt] at h2
      | cons z zs =>
        simp only [strLt, Bool.or_eq_true, decide_eq_true_eq, Bool.and_eq_true, beq_iff_eq]
          at h1 h2 ⊢
        rcases h1 with h1 | ⟨h1, h1'⟩
        · rcases h2 with h2 | ⟨h2, _⟩
          · left; omega
          · left; omega
        · rcases h2 with h2 | ⟨h2, h2'⟩
          · left; omega
          · right; exact ⟨by omega, ih ys zs h1' h2'⟩

theorem strLt_total (a b : Bytes) (hne : a ≠ b) (h : strLt a b = false) : strLt b a = true := by
  induction a generalizing b with
  | nil =>
    cases b with
    | nil => exact absurd rfl hne
    | cons y ys => simp [strLt] at h
  | cons x xs ih =>
    cases b with
    | nil => rfl
    | cons y ys =>
      simp only [strLt, Bool.or_eq_false_iff, decide_eq_false_iff_not, Bool.and_eq_false_iff,
        beq_eq_false_iff_ne] at h
      simp only [strLt, Bool.or_eq_true, decide_eq_true_eq, Bool.and_eq_true, beq_iff_eq]
      obtain ⟨h1, h2⟩ := h
      by_cases hxy : x = y
      · subst hxy
        right
        refine ⟨rfl, ih ys (fun e => hne (by rw [e])) ?_⟩
        rcases h2 with h2 | h2
        · exact absurd rfl h2
        · exact h2
      · left; omega

theorem mapInsert_head (k v : Bytes) (m : StrMap) :
    ∃ e rest, mapInsert k v m = e :: rest ∧ (e.1 = k ∨ ∃ e0 rest0, m = e0 :: rest0 ∧ e.1 = e0.1) := by
  cases m with
  | nil => exact ⟨(k, v), [], rfl, Or.inl rfl⟩
  | cons e0 rest0 =>
    obtain ⟨k0, v0⟩ := e0
    unfold mapInsert
    split
    · exact ⟨(k, v), rest0, rfl, Or.inl rfl⟩
    · split
      · exact ⟨(k, v), (k0, v0) :: rest0, rfl, Or.inl rfl⟩
      · exact ⟨(k0, v0), mapInsert k v rest0, rfl, Or.inr ⟨(k0, v0), rest0, rfl, rfl⟩⟩

theorem keysAscending_cons (e : Bytes × Bytes) (m : StrMap) :
    keysAscending (e :: m) = true ↔
      keysAscending m = true ∧ ∀ e1 rest, m = e1 :: rest → strLt e.1 e1.1 = true := by
  cases m with
  | nil => simp [keysAscending]
  | cons e1 rest =>
    simp only [keysAscending, Bool.and_eq_true]
    constructor
    · rintro ⟨h1, h2⟩
      exact ⟨h2, fun e' r' he => by injection he with he1 _; rw [← he1]; exact h1⟩
    · rintro ⟨h1, h2⟩
      exact ⟨h2 e1 rest rfl, h1⟩

theorem keysAscending_mapInsert (k v : Bytes) (m : StrMap) (h : keysAscending m = true) :
    keysAscending (mapInsert k v m) = true := by
  induction m with
  | nil => rfl
  | cons e m ih =>
    obtain ⟨k0, v0⟩ := e
    obtain ⟨hm, hhead⟩ := (keysAscending_cons _ _).1 h
    unfold mapInsert
    by_cases h1 : k = k0
    · simp only [h1, if_true]
      exact (keysAscending_cons _ _).2 ⟨hm, hhead⟩
    · simp only [h1, if_false]
      by_cases h2 : strLt k k0 = true
      · simp only [h2, if_true]
        exact (keysAscending_cons _ _).2 ⟨h, fun e1 rest he => by
          injection he with he1 _
          rw [← he1]
          exact h2⟩
      · simp only [h2]
        have h3 : strLt k0 k = true := strLt_total k k0 h1 (by simpa using h2)
        refine (keysAscending_cons _ _).2 ⟨ih hm, fun e1 rest he => ?_⟩
        obtain ⟨e', rest', he', hor⟩ := mapInsert_head k v m
        rw [he'] at he
        injection he with he1 _
        subst he1
        rcases hor with hk | ⟨e0, rest0, hm0, hk0⟩
        · show strLt k0 e'.1 = true
          rw [hk]; exact h3
        · show strLt k0 e'.1 = true
          rw [hk0]
          exact hhead e0 rest0 hm0

theorem keysAscending_apply (r : HttpResponse) (op : ResponseOp)
    (h : keysAscending r.m_headers = true) :
    keysAscending (op.apply r).m_headers = true := by
  have hnew : keysAscending HttpResponse.new.m_headers = true := by decide
  cases op <;>
    simp only [ResponseOp.apply, HttpResponse.SetStatus, HttpResponse.SetHeader,
      HttpResponse.SetContentType, HttpResponse.SetContentLength, HttpResponse.EnableCORS,
      HttpResponse.SetCacheControl, HttpResponse.DisableCache, HttpResponse.SetBody,
      HttpResponse.AppendBody, HttpResponse.SendHTML, HttpResponse.SendJSON,
      HttpResponse.SendText, HttpResponse.SendError, HttpResponse.Redirect,
      HttpResponse.Clear] <;>
    first
      | exact h
      | exact hnew
      | exact keysAscending_mapInsert _ _ _ h
      | exact keysAscending_mapInsert _ _ _ (keysAscending_mapInsert _ _ _ h)
      | exact keysAscending_mapInsert _ _ _
          (keysAscending_mapInsert _ _ _ (keysAscending_mapInsert _ _ _ h))

theorem keysAscending_foldl (ops : List ResponseOp) (r : HttpResponse)
    (h : keysAscending r.m_headers = true) :
    keysAscending (ops.foldl ResponseOp.apply r).m_headers = true := by
  induction ops generalizing r with
  | nil => exact h
  | cons op ops ih => exact ih _ (keysAscending_apply r op h)

theorem keysAscending_responseAfter (ops : List ResponseOp) :
    keysAscending (responseAfter ops).m_headers = true :=
  keysAscending_foldl ops _ (by decide)

theorem keysAscending_lt_all (e : Bytes × Bytes) (m : StrMap)
    (h : keysAscending (e :: m) = true) : ∀ x ∈ m, strLt e.1 x.1 = true := by
  induction m generalizing e with
  | nil => intro x hx; simp at hx
  | cons e1 rest ih =>
    obtain ⟨hm, hhead⟩ := (keysAscending_cons _ _).1 h
    have h01 := hhead e1 rest rfl
    intro x hx
    rw [List.mem_cons] at hx
    rcases hx with hx | hx
    · rw [hx]; exact h01
    · exact strLt_trans _ _ _ h01 (ih e1 hm x hx)

theorem keysAscending_nodup (m : StrMap) (h : keysAscending m = true) :
    (m.map Prod.fst).Nodup := by
  induction m with
  | nil => simp
  | cons e m ih =>
    obtain ⟨hm, _⟩ := (keysAscending_cons _ _).1 h
    rw [List.map_cons, List.nodup_cons]
    refine ⟨?_, ih hm⟩
    intro hmem
    obtain ⟨x, hx, hxe⟩ := List.mem_map.1 hmem
    have := keysAscending_lt_all e m h x hx
    rw [hxe, strLt_irrefl] at this
    exact absurd this (by decide)

theorem mapFind_iff_mem (m : StrMap) (h : keysAscending m = true) (k v : Bytes) :
    mapFind k m = some v ↔ (k, v) ∈ m := by
  induction m with
  | nil => simp [mapFind]
  | cons e m ih =>
    obtain ⟨k0, v0⟩ := e
    obtain ⟨hm, _⟩ := (keysAscending_cons _ _).1 h
    rw [mapFind, List.mem_cons]
    by_cases hk : k = k0
    · subst hk
      simp only [if_true, Option.some.injEq, Prod.mk.injEq, true_and]
      constructor
      · intro hv; left; exact hv.symm
      · rintro (hv | hmem)
        · exact hv.symm
        · have := keysAscending_lt_all (k, v0) m h (k, v) hmem
          rw [strLt_irrefl] at this
          exact absurd this (by decide)
    · simp only [hk, if_false, Prod.mk.injEq, false_and, false_or]
      exact ih hm

theorem foldl_header_lines (m : StrMap) (acc : Bytes) :
    m.foldl (fun response header => response ++ header.1 ++ str ": " ++ header.2 ++ str "\r\n")
        acc = acc ++ encodeHeaders m := by
  induction m generalizing acc with
  | nil => simp [encodeHeaders]
  | cons e m ih =>
    obtain ⟨n, v⟩ := e
    rw [List.foldl_cons, ih, encodeHeaders]
    have e1 : str ": " = [58, 32] := by decide
    rw [e1, str_crlf]
    simp [List.append_assoc]

theorem encodeHeaders_append (a b : List (Bytes × Bytes)) :
    encodeHeaders (a ++ b) = encodeHeaders a ++ encodeHeaders b := by
  induction a with
  | nil => rfl
  | cons e a ih =>
    obtain ⟨n, v⟩ := e
    rw [List.cons_append, encodeHeaders, encodeHeaders, ih]
    simp [List.append_assoc]

theorem Build_eq (r : HttpResponse) (now : Bytes) :
    r.Build now =
      str "HTTP/1.1 " ++ JsonBuilder.decimal r.m_statusCode ++ str " " ++ r.m_statusReason ++
        str "\r\n" ++ encodeHeaders (responseFields r now) ++ str "\r\n" ++ r.m_body := by
  unfold HttpResponse.Build responseFields
  simp only [foldl_header_lines, List.nil_append]
  have e1 : str ": " = [58, 32] := by decide
  have e2 : str "Date: " = str "Date" ++ [58, 32] := by decide
  have e3 : str "Content-Length: " = str "Content-Length" ++ [58, 32] := by decide
  rw [encodeHeaders, encodeHeaders_append, str_crlf, e2, e3]
  split
  · simp [encodeHeaders, List.append_assoc]
  · simp [encodeHeaders, List.append_assoc]

/-- C18: serialization order. For every response (the constructed object
after any sequence of mutator calls) and every current time `now`, `Build`
returns the status line `HTTP/1.1 <code> <reason>` and CRLF, then the header
fields of `responseFields` as `name: value` lines (the `Date` line first, the
computed `Content-Length` line of C19 if there is one, then the stored
headers), an empty line, and the body with nothing after it; the stored
headers stand in strictly ascending key order, so each key once, and they
are exactly the entries the map answers for. -/
theorem build_serialization_order (ops : List ResponseOp) (now : Bytes) :
    (responseAfter ops).Build now =
        str "HTTP/1.1 " ++ JsonBuilder.decimal (responseAfter ops).m_statusCode ++ str " " ++
          (responseAfter ops).m_statusReason ++ str "\r\n" ++
          encodeHeaders (responseFields (responseAfter ops) now) ++ str "\r\n" ++
          (responseAfter ops).m_body ∧
      (∃ auto, responseFields (responseAfter ops) now =
        (str "Date", now) :: (auto ++ (responseAfter ops).m_headers)) ∧
      keysAscending (responseAfter ops).m_headers = true ∧
      ((responseAfter ops).m_headers.map Prod.fst).Nodup ∧
      (∀ k v, mapFind k (responseAfter ops).m_headers = some v ↔
        (k, v) ∈ (responseAfter ops).m_headers) := by
  have hs := keysAscending_responseAfter ops
  exact ⟨Build_eq _ now, ⟨_, rfl⟩, hs, keysAscending_nodup _ hs, mapFind_iff_mem _ hs⟩

theorem handleRequestData_nonempty (h : Option RequestHandler) (now data : Bytes)
    (hd : data ≠ []) :
    ∃ d, handleRequestData h now data = [.SendResponse d, .CloseSocket] := by
  have hne : data.isEmpty = false := by
    cases data with
    | nil => exact absurd rfl hd
    | cons c cs => rfl
  unfold handleRequestData
  simp only [hne, Bool.false_eq_true, if_false]
  generalize Parse data = res
  obtain ⟨ok, request⟩ := res
  cases ok with
  | false => exact ⟨_, rfl⟩
  | true =>
    simp only []
    split
    · exact ⟨_, rfl⟩
    · exact ⟨_, rfl⟩

/-- When `ReadRequest` returns a text, `HandleClient` goes on with it. -/
theorem HandleClient_of_read (h : Option RequestHandler) (now : Bytes) (events : List RecvEvent)
    (data : Bytes)
    (hread : ReadRequest (64 * 1024) (2 ^ 64 - 1) (2 ^ 64) events [] = .ok data) :
    HandleClient h now events = .ok (handleRequestData h now data) := by
  unfold HandleClient
  rw [hread]

/-- C20, counterexample: when nothing was read from the connection (the
client closed it, or the wait timed out), `HandleClient` closes it and sends
no response, here with a handler that would answer every request. And when
the text after `Content-Length:` is no number, `std::stoul` throws in
`ReadRequest`: no response is sent and the connection is not closed. -/
theorem handleClient_closes_unanswered_or_throws :
    HandleClient (some okHandler) (str "T") [.closed] = .ok [.CloseSocket] ∧
      HandleClient (some okHandler) (str "T") [] = .ok [.CloseSocket] ∧
      HandleClient (some okHandler) (str "T")
          [.received (str "GET / HTTP/1.1\r\nContent-Length: abc\r\n\r\n")] =
        .error .invalid_argument := by
  refine ⟨by rfl, by rfl, by rfl⟩

/-- C20, amended: client handling answers every non-empty read and then
closes. For all events of a connection on which `ReadRequest` returns a text
`data` (it throws instead when a `Content-Length` value is no number
`std::stoul` accepts) and every handler (set or not, returning or throwing):
if `data` is not empty, `HandleClient` sends exactly one response and then
closes the connection; if it is empty, it closes the connection without
sending. -/
theorem handleClient_answers_and_closes (h : Option RequestHandler) (now : Bytes)
    (events : List RecvEvent) (data : Bytes)
    (hread : ReadRequest (64 * 1024) (2 ^ 64 - 1) (2 ^ 64) events [] = .ok data) :
    (data ≠ [] → ∃ d, HandleClient h now events = .ok [.SendResponse d, .CloseSocket]) ∧
      (data = [] → HandleClient h now events = .ok [.CloseSocket]) := by
  rw [HandleClient_of_read h now events data hread]
  refine ⟨fun hd => ?_, fun hd => ?_⟩
  · obtain ⟨d, hd'⟩ := handleRequestData_nonempty h now data hd
    exact ⟨d, by rw [hd']⟩
  · subst hd
    rfl

/-- Witness for C20, amended: a request answered by a handler that throws. -/
theorem handleClient_answers_and_closes_witness :
    ReadRequest (64 * 1024) (2 ^ 64 - 1) (2 ^ 64) [.received (str "GET /x HTTP/1.1\r\n\r\n")] [] =
        .ok (str "GET /x HTTP/1.1\r\n\r\n") ∧
      str "GET /x HTTP/1.1\r\n\r\n" ≠ [] ∧
      ∃ d, HandleClient (some throwingHandler) (str "T")
        [.received (str "GET /x HTTP/1.1\r\n\r\n")] = .ok [.SendResponse d, .CloseSocket] :=
  ⟨by rfl, by decide,
    (handleClient_answers_and_closes (some throwingHandler) (str "T")
      [.received (str "GET /x HTTP/1.1\r\n\r\n")] (str "GET /x HTTP/1.1\r\n\r\n") (by rfl)).1
      (by decide)⟩

/-! ## Templates -/

theorem str_open : str "\x7b\x7b" = [123, 123] := by decide

theorem str_close : str "\x7d\x7d" = [125, 125] := by decide

theorem str_openArray : str "\x7b\x7b#" = [123, 123, 35] := by decide

theorem str_openCond : str "\x7b\x7b?" = [123, 123, 63] := by decide

theorem str_openNeg : str "\x7b\x7b!" = [123, 123, 33] := by decide

theorem str_openPartialTag : str "\x7b\x7b>" = [123, 123, 62] := by decide

theorem str_openEnd : str "\x7b\x7b/" = [123, 123, 47] := by decide

theorem hasOpen_cons (c : Nat) (cs : Bytes) (h : hasOpen (c :: cs) = false) :
    hasOpen cs = false := by
  cases cs with
  | nil => rfl
  | cons d ds =>
    rw [hasOpen] at h
    simp only [Bool.or_eq_false_iff] at h
    exact h.2

/-- A tag start `{{k` is not found inside a literal text without `{{`. -/
theorem find_lit_shift (k : Nat) (p lit s : Bytes) (hk : k ≠ 123)
    (hl : hasOpen lit = false) (hs : tagSafe s = true) :
    find (123 :: 123 :: k :: p) (lit ++ s) =
      (find (123 :: 123 :: k :: p) s).map (· + lit.length) := by
  induction lit with
  | nil => simp
  | cons c cs ih =>
    have hno : startsWith (123 :: 123 :: k :: p) (c :: (cs ++ s)) = false := by
      cases cs with
      | nil =>
        simp only [List.nil_append]
        rcases s with _ | ⟨a, _ | ⟨b, t⟩⟩
        · simp [startsWith]
        · simp [startsWith]
        · simp only [tagSafe, Bool.or_eq_true, bne_iff_ne, beq_iff_eq] at hs
          simp only [startsWith, Bool.and_eq_false_iff, beq_eq_false_iff_ne]
          by_cases ha : a = 123
          · rcases hs with hs | hs
            · exact absurd ha hs
            · right; right; left
              rw [hs]; exact hk
          · right; left; exact fun e => ha e.symm
      | cons d ds =>
        rw [hasOpen] at hl
        simp only [Bool.or_eq_false_iff, Bool.and_eq_false_iff, beq_eq_false_iff_ne] at hl
        simp only [List.cons_append, startsWith, Bool.and_eq_false_iff, beq_eq_false_iff_ne]
        rcases hl.1 with h1 | h1
        · left; exact fun e => h1 e.symm
        · right; left; exact fun e => h1 e.symm
    rw [List.cons_append, find, hno, ih (hasOpen_cons c cs hl)]
    cases find (123 :: 123 :: k :: p) s <;> simp
    omega

/-- The first `{{` of a literal text without `{{` followed by `s` is in `s`,
unless the literal ends with `{` and `s` starts with `{`. -/
theorem find_open_lit (lit s : Bytes) (hl : hasOpen lit = false)
    (hs : lit.getLast? ≠ some 123 ∨ s.head? ≠ some 123) :
    find [123, 123] (lit ++ s) = (find [123, 123] s).map (· + lit.length) := by
  induction lit with
  | nil => simp
  | cons c cs ih =>
    have hno : startsWith [123, 123] (c :: (cs ++ s)) = false := by
      cases cs with
      | nil =>
        simp only [List.nil_append]
        cases s with
        | nil => simp [startsWith]
        | cons a t =>
          simp only [startsWith, Bool.and_true, Bool.and_eq_false_iff, beq_eq_false_iff_ne]
          rcases hs with hs | hs
          · left
            intro e
            exact hs (by simp [← e])
          · right
            intro e
            exact hs (by simp [← e])
      | cons d ds =>
        rw [hasOpen] at hl
        simp only [Bool.or_eq_false_iff, Bool.and_eq_false_iff, beq_eq_false_iff_ne] at hl
        simp only [List.cons_append, startsWith, Bool.and_true, Bool.and_eq_false_iff,
          beq_eq_false_iff_ne]
        rcases hl.1 with h1 | h1
        · left; exact fun e => h1 e.symm
        · right; exact fun e => h1 e.symm
    have hs' : cs.getLast? ≠ some 123 ∨ s.head? ≠ some 123 := by
      rcases hs with hs | hs
      · cases cs with
        | nil => left; simp
        | cons d ds =>
          left
          rw [List.getLast?_cons_cons] at hs
          exact hs
      · right; exact hs
    rw [List.cons_append, find, hno, ih (hasOpen_cons c cs hl) hs']
    cases find [123, 123] s <;> simp
    omega

theorem find_open_none (lit : Bytes) (hl : hasOpen lit = false) :
    find [123, 123] lit = none := by
  have h := find_open_lit lit [] hl (Or.inr (by simp))
  rw [List.append_nil] at h
  rw [h]
  rfl

theorem braceFree_iff (s : Bytes) : braceFree s = true ↔ 123 ∉ s ∧ 125 ∉ s := by
  unfold braceFree
  simp only [List.all_eq_true, Bool.and_eq_true, bne_iff_ne]
  constructor
  · intro h
    exact ⟨fun e => (h 123 e).1 rfl, fun e => (h 125 e).2 rfl⟩
  · rintro ⟨h1, h2⟩ x hx
    exact ⟨fun e => h1 (e ▸ hx), fun e => h2 (e ▸ hx)⟩

/-- No pattern that starts with `{` is found in a text without `{` before
the text that follows it. -/
theorem find_skip_no_brace (p body s : Bytes) (hb : 123 ∉ body) :
    find (123 :: p) (body ++ s) = (find (123 :: p) s).map (· + body.length) := by
  induction body with
  | nil => simp
  | cons c cs ih =>
    have hc : c ≠ 123 := fun e => hb (by simp [e])
    have hno : startsWith (123 :: p) (c :: (cs ++ s)) = false := by
      simp [startsWith, Ne.symm hc]
    rw [List.cons_append, find, hno, ih (fun e => hb (List.mem_cons_of_mem _ e))]
    cases find (123 :: p) s <;> simp
    omega

/-- A tag start `{{k` is not found in a marker whose name does not start with `k`. -/
theorem find_marker_shift (k : Nat) (p body s : Bytes) (hk' : k ≠ 125)
    (hb : braceFree body = true) (hh : body.head? ≠ some k) :
    find (123 :: 123 :: k :: p) (markerText body ++ s) =
      (find (123 :: 123 :: k :: p) s).map (· + (markerText body).length) := by
  obtain ⟨hb1, hb2⟩ := (braceFree_iff body).1 hb
  have h0 : startsWith (123 :: 123 :: k :: p) (markerText body ++ s) = false := by
    cases body with
    | nil => simp [markerText, startsWith, hk']
    | cons c cs =>
      have : k ≠ c := fun e => hh (by simp [e])
      simp [markerText, startsWith, this]
  have h1 : startsWith (123 :: 123 :: k :: p) (123 :: (body ++ [125, 125] ++ s)) = false := by
    cases body with
    | nil => simp [startsWith]
    | cons c cs =>
      have : c ≠ 123 := fun e => hb1 (by simp [e])
      simp [startsWith, Ne.symm this]
  have e : markerText body ++ s = 123 :: 123 :: (body ++ (125 :: 125 :: s)) := by
    simp [markerText]
  have h1' : startsWith (123 :: 123 :: k :: p) (123 :: (body ++ (125 :: 125 :: s))) = false := by
    simpa using h1
  rw [e] at h0 ⊢
  rw [find, h0, find, h1', find_skip_no_brace _ body _ hb1]
  have h2 : startsWith (123 :: 123 :: k :: p) (125 :: 125 :: s) = false := by simp [startsWith]
  have h3 : startsWith (123 :: 123 :: k :: p) (125 :: s) = false := by simp [startsWith]
  rw [find, h2, find, h3]
  cases find (123 :: 123 :: k :: p) s <;> simp [markerText]
  omega

theorem find_open_marker (body s : Bytes) : find [123, 123] (markerText body ++ s) = some 0 := by
  simp [markerText, find, startsWith]

theorem find_close_skip (body s : Bytes) (hb : 125 ∉ body) :
    find [125, 125] (body ++ 125 :: 125 :: s) = some body.length := by
  induction body with
  | nil => simp [find, startsWith]
  | cons c cs ih =>
    have hc : c ≠ 125 := fun e => hb (by simp [e])
    have hno : startsWith [125, 125] (c :: (cs ++ 125 :: 125 :: s)) = false := by
      simp [startsWith, Ne.symm hc]
    rw [List.cons_append, find, hno, ih (fun e => hb (List.mem_cons_of_mem _ e))]
    simp

/-- The first `}}` of a marker with a name without braces is its own. -/
theorem find_close_marker (body s : Bytes) (hb : braceFree body = true) :
    find [125, 125] (markerText body ++ s) = some (body.length + 2) := by
  obtain ⟨_, hb2⟩ := (braceFree_iff body).1 hb
  have e : markerText body ++ s = 123 :: 123 :: (body ++ (125 :: 125 :: s)) := by
    simp [markerText]
  rw [e, find, find, find_close_skip _ _ hb2]
  simp [startsWith]

theorem startsWith_self_append (p s : Bytes) : startsWith p (p ++ s) = true := by
  induction p with
  | nil => cases s <;> rfl
  | cons c cs ih => simp [startsWith, ih]

theorem find_self (p s : Bytes) (hp : p ≠ []) : find p (p ++ s) = some 0 := by
  cases p with
  | nil => exact absurd rfl hp
  | cons c cs =>
    rw [List.cons_append, find]
    have := startsWith_self_append (c :: cs) s
    rw [List.cons_append] at this
    rw [this]
    rfl

namespace SimpleTemplate

/-- Trimming keeps a first character that is not blank. -/
theorem Trim_cons_head (c : Nat) (rest : Bytes) (hc : isBlank c = false) :
    ∃ r, Trim (c :: rest) = c :: r := by
  unfold Trim
  rw [List.dropWhile_cons, hc]
  simp only [Bool.false_eq_true, ↓reduceIte, List.reverse_cons]
  rw [dropWhile_append_singleton]
  split
  · rw [hc]
    exact ⟨[], by simp⟩
  · rw [List.reverse_append]
    exact ⟨(List.dropWhile isBlank rest.reverse).reverse, by simp⟩

/-- A name that is no block tag after trimming does not start with a block character. -/
theorem head_ne_of_not_blockTag (body : Bytes) (k : Nat) (hk : isBlockTag [k] = true)
    (h : isBlockTag (Trim body) = false) : body.head? ≠ some k := by
  intro e
  cases body with
  | nil => simp at e
  | cons c rest =>
    simp only [List.head?_cons, Option.some.injEq] at e
    subst e
    have hb : isBlank c = false := by
      simp only [isBlockTag, Bool.or_eq_true, beq_iff_eq] at hk
      rcases hk with (((hk | hk) | hk) | hk) | hk <;> subst hk <;> rfl
    obtain ⟨r, hr⟩ := Trim_cons_head c rest hb
    rw [hr] at h
    simp only [isBlockTag] at h hk
    rw [h] at hk
    exact absurd hk (by decide)

end SimpleTemplate

namespace SimpleTemplate

theorem plainPieces_cons (lit name : Bytes) (ps : Pieces) :
    plainPieces ((lit, name) :: ps) = true ↔
      hasOpen lit = false ∧ lit.getLast? ≠ some 123 ∧ braceFree name = true ∧
        isBlockTag (Trim name) = false ∧ plainPieces ps = true := by
  unfold plainPieces
  simp only [List.all_cons, Bool.and_eq_true, Bool.not_eq_true', bne_iff_ne, ne_eq]
  tauto

theorem tagSafe_markerText (body s : Bytes) : tagSafe (markerText body ++ s) = true := by
  simp [markerText, tagSafe]

theorem blockTag_ne (k : Nat) (hk : isBlockTag [k] = true) : k ≠ 123 ∧ k ≠ 125 := by
  simp only [isBlockTag, Bool.or_eq_true, beq_iff_eq] at hk
  omega

/-- A tag start `{{k` for a block character `k` is not found in a text of
literal texts and plain variable markers. -/
theorem find_pieces_shift (k : Nat) (p : Bytes) (hk : isBlockTag [k] = true) (last s : Bytes)
    (hl : hasOpen last = false) (hs : tagSafe s = true) :
    ∀ ps : Pieces, plainPieces ps = true →
      find (123 :: 123 :: k :: p) (piecesText ps last ++ s) =
        (find (123 :: 123 :: k :: p) s).map (· + (piecesText ps last).length)
  | [], _ => find_lit_shift k p last s (blockTag_ne k hk).1 hl hs
  | (lit, name) :: ps, hp => by
    obtain ⟨h1, _, h3, h4, h5⟩ := (plainPieces_cons lit name ps).1 hp
    have ih := find_pieces_shift k p hk last s hl hs ps h5
    simp only [piecesText, List.append_assoc]
    rw [find_lit_shift k p lit _ (blockTag_ne k hk).1 h1 (tagSafe_markerText _ _),
      find_marker_shift k p name _ (blockTag_ne k hk).2 h3 (head_ne_of_not_blockTag name k hk h4),
      ih]
    cases find (123 :: 123 :: k :: p) s <;> simp
    omega

theorem find_pieces_none (k : Nat) (p : Bytes) (hk : isBlockTag [k] = true) (ps : Pieces)
    (last : Bytes) (hp : plainPieces ps = true) (hl : hasOpen last = false) :
    find (123 :: 123 :: k :: p) (piecesText ps last) = none := by
  have h := find_pieces_shift k p hk last [] hl rfl ps hp
  rw [List.append_nil] at h
  rw [h]
  rfl

theorem processPartialsLoop_none (provider : Bytes → Bytes) (render : Renderer) (ctx : StrMap)
    (fuel : Nat) (rest result err : Bytes) (h : find [123, 123, 62] rest = none) :
    processPartialsLoop provider render ctx (fuel + 1) rest result err =
      some (result ++ rest, err) := by
  rw [processPartialsLoop, str_openPartialTag, h]
  cases rest <;> simp

theorem processArraysLoop_none (t : SimpleTemplate) (render : Renderer) (ctx : StrMap)
    (fuel : Nat) (rest result err : Bytes) (h : find [123, 123, 35] rest = none) :
    processArraysLoop t render ctx (fuel + 1) rest result err = some (result ++ rest, err) := by
  rw [processArraysLoop, str_openArray, h]
  cases rest <;> simp

theorem processConditionsLoop_none (t : SimpleTemplate) (render : Renderer) (ctx : StrMap)
    (negated : Bool) (fuel : Nat) (rest done err : Bytes)
    (h : find (if negated then [123, 123, 33] else [123, 123, 63]) rest = none) :
    processConditionsLoop t render ctx negated (fuel + 1) rest done err =
      some (done ++ rest, err) := by
  rw [processConditionsLoop, str_openNeg, str_openCond, h]
  simp

theorem ProcessPartials_none (t : SimpleTemplate) (render : Renderer) (ctx : StrMap)
    (text err : Bytes) (h : find [123, 123, 62] text = none) :
    ProcessPartials t render text ctx err = some (text, err) := by
  unfold ProcessPartials
  cases t.m_partialProvider with
  | none => rfl
  | some provider =>
    simp only
    rw [processPartialsLoop_none _ _ _ _ _ _ _ h]
    rfl

theorem ProcessArrays_none (t : SimpleTemplate) (render : Renderer) (ctx : StrMap)
    (text err : Bytes) (h : find [123, 123, 35] text = none) :
    ProcessArrays t render text ctx err = some (text, err) := by
  unfold ProcessArrays
  rw [processArraysLoop_none _ _ _ _ _ _ _ h]
  rfl

theorem ProcessConditions_none (t : SimpleTemplate) (render : Renderer) (ctx : StrMap)
    (text err : Bytes) (h1 : find [123, 123, 63] text = none)
    (h2 : find [123, 123, 33] text = none) :
    ProcessConditions t render text ctx err = some (text, err) := by
  unfold ProcessConditions
  rw [processConditionsLoop_none t render ctx false _ _ _ _ h1]
  simp only [List.nil_append]
  rw [processConditionsLoop_none t render ctx true _ _ _ _ h2]
  rfl

/-- The value the variables pass writes for a marker. -/
theorem processVariablesLoop_marker (vars : StrMap) (fuel : Nat) (lit name rest result : Bytes)
    (hl : hasOpen lit = false) (hl2 : lit.getLast? ≠ some 123) (hb : braceFree name = true) :
    processVariablesLoop vars (fuel + 1) (lit ++ markerText name ++ rest) result =
      processVariablesLoop vars fuel rest
        (result ++ lit ++
          (if isBlockTag (Trim name) then markerText name
            else (mapFind (Trim name) vars).getD [])) := by
  have hne : (lit ++ markerText name ++ rest).isEmpty = false := by
    cases lit <;> simp [markerText]
  have hfind : find [123, 123] (lit ++ markerText name ++ rest) = some lit.length := by
    rw [List.append_assoc, find_open_lit lit _ hl (Or.inl hl2), find_open_marker]
    simp
  have hdrop : (lit ++ markerText name ++ rest).drop lit.length = markerText name ++ rest := by
    rw [List.append_assoc, List.drop_left]
  have htake : (lit ++ markerText name ++ rest).take lit.length = lit := by
    rw [List.append_assoc, List.take_left]
  have hname : ((lit ++ markerText name ++ rest).drop (lit.length + 2)).take
      (name.length + 2 - 2) = name := by
    rw [List.append_assoc, drop_append_length_add]
    simp [markerText]
  have hrest : (lit ++ markerText name ++ rest).drop (lit.length + (name.length + 2) + 2) =
      rest := by
    rw [List.append_assoc, Nat.add_assoc, drop_append_length_add]
    have : name.length + 2 + 2 = (markerText name).length := by simp [markerText]
    rw [this, List.drop_left]
  have htag : (markerText name ++ rest).take (name.length + 2 + 2) = markerText name := by
    have : name.length + 2 + 2 = (markerText name).length := by simp [markerText]
    rw [this, List.take_left]
  rw [processVariablesLoop, hne, str_open, str_close, hfind]
  simp only [Bool.false_eq_true, ↓reduceIte]
  rw [hdrop, find_close_marker name rest hb]
  simp only
  rw [hname, hrest, htake, htag]
  by_cases hbt : isBlockTag (Trim name) = true
  · simp only [hbt, ↓reduceIte]
  · simp only [hbt, Bool.false_eq_true, ↓reduceIte]
    cases mapFind (Trim name) vars <;> simp

theorem processVariablesLoop_pieces (vars : StrMap) (last : Bytes) (hl : hasOpen last = false) :
    ∀ (ps : Pieces) (fuel : Nat) (result : Bytes), plainPieces ps = true → ps.length < fuel →
      processVariablesLoop vars fuel (piecesText ps last) result =
        some (result ++ substPieces vars ps last)
  | [], 0, _, _, hf => absurd hf (by simp)
  | [], fuel + 1, result, _, _ => by
    rw [piecesText, substPieces, processVariablesLoop, str_open, find_open_none last hl]
    cases last <;> simp
  | (lit, name) :: ps, 0, _, _, hf => absurd hf (by simp)
  | (lit, name) :: ps, fuel + 1, result, hp, hf => by
    obtain ⟨h1, h2, h3, h4, h5⟩ := (plainPieces_cons lit name ps).1 hp
    rw [piecesText, substPieces, processVariablesLoop_marker vars fuel lit name _ result h1 h2 h3,
      processVariablesLoop_pieces vars last hl ps fuel _ h5 (by simpa using hf), h4]
    simp

theorem pieces_length_le (last : Bytes) :
    ∀ ps : Pieces, ps.length ≤ (piecesText ps last).length
  | [] => Nat.zero_le _
  | (lit, name) :: ps => by
    have := pieces_length_le last ps
    simp only [piecesText, List.length_cons, List.length_append, markerText]
    omega

theorem ProcessVariables_pieces (vars : StrMap) (ps : Pieces) (last : Bytes)
    (hp : plainPieces ps = true) (hl : hasOpen last = false) :
    ProcessVariables (piecesText ps last) vars = some (substPieces vars ps last) := by
  unfold ProcessVariables
  rw [processVariablesLoop_pieces vars last hl ps _ [] hp
    (Nat.lt_succ_of_le (pieces_length_le last ps))]
  rfl

/-- The four passes on a text of literal texts and plain variable markers:
the block passes leave it as it is, the variables pass substitutes. -/
theorem renderPasses_pieces (t : SimpleTemplate) (render : Renderer) (vars : StrMap)
    (err : Bytes) (ps : Pieces) (last : Bytes) (hp : plainPieces ps = true)
    (hl : hasOpen last = false) :
    renderPasses t render (piecesText ps last) vars err =
      some (substPieces vars ps last, err) := by
  unfold renderPasses
  rw [ProcessPartials_none t render vars _ err (find_pieces_none 62 [] rfl ps last hp hl)]
  simp only
  rw [ProcessArrays_none t render vars _ err (find_pieces_none 35 [] rfl ps last hp hl)]
  simp only
  rw [ProcessConditions_none t render vars _ err (find_pieces_none 63 [] rfl ps last hp hl)
    (find_pieces_none 33 [] rfl ps last hp hl)]
  simp only
  rw [ProcessVariables_pieces vars ps last hp hl]

theorem RenderInternal_pieces (t : SimpleTemplate) (fuel : Nat) (vars : StrMap)
    (err : Bytes) (ps : Pieces) (last : Bytes) (hp : plainPieces ps = true)
    (hl : hasOpen last = false) :
    RenderInternal t (fuel + 1) (piecesText ps last) vars err =
      some (substPieces vars ps last, err) := by
  rw [RenderInternal]
  exact renderPasses_pieces t _ vars err ps last hp hl

/-- C12. Variable substitution: for every template made of literal texts and
plain variable markers, `Render` returns, at every depth of calls from one
on, the literal texts unchanged with every marker replaced by the value bound
to its name, by nothing if the name is unbound; the object stays as it was. -/
theorem render_substitutes_variables (t : SimpleTemplate) (ps : Pieces) (last : Bytes)
    (fuel : Nat) (hp : plainPieces ps = true) (hl : hasOpen last = false)
    (ht : t.m_template = piecesText ps last) :
    Render (fuel + 1) t = some (substPieces t.m_variables ps last, t) := by
  obtain ⟨tpl, vars, arrays, conds, provider, err⟩ := t
  simp only at ht
  subst ht
  unfold Render
  rw [RenderInternal_pieces _ fuel _ _ ps last hp hl]

/-- C12, the scenario of the specification: `Hi {{n}}` renders `Hi Bob` with
`n` bound to `Bob`. -/
theorem render_substitutes_variables_witness :
    plainPieces [(str "Hi ", str "n")] = true ∧ hasOpen [] = false ∧
      Render 1 { m_template := str "Hi \x7b\x7bn\x7d\x7d", m_variables := [(str "n", str "Bob")] } =
        some (str "Hi Bob",
          { m_template := str "Hi \x7b\x7bn\x7d\x7d", m_variables := [(str "n", str "Bob")] }) :=
  ⟨by decide, by decide,
    render_substitutes_variables
      { m_template := str "Hi \x7b\x7bn\x7d\x7d", m_variables := [(str "n", str "Bob")] }
      [(str "Hi ", str "n")] [] 0 (by decide) (by decide) (by decide)⟩

end SimpleTemplate

namespace SimpleTemplate

theorem take_prefix (a b : Bytes) (n : Nat) (h : n = a.length) : (a ++ b).take n = a := by
  subst h
  exact List.take_left _ _

theorem drop_prefix (a b : Bytes) (n : Nat) (h : n = a.length) : (a ++ b).drop n = b := by
  subst h
  exact List.drop_left _ _

theorem tagText_length (k : Nat) (name : Bytes) : (tagText k name).length = name.length + 5 := by
  simp [tagText, markerText]

theorem tagText_eq (k : Nat) (name : Bytes) :
    tagText k name = 123 :: 123 :: k :: (name ++ [125, 125]) := by
  simp [tagText, markerText]

theorem endTag_eq (name : Bytes) :
    str "\x7b\x7b/" ++ name ++ str "\x7d\x7d" = tagText 47 name := by
  rw [str_openEnd, str_close, tagText_eq]
  simp

theorem openTag1_eq (name : Bytes) :
    str "\x7b\x7b#" ++ name ++ str "\x7d\x7d" = tagText 35 name := by
  rw [str_openArray, str_close, tagText_eq]
  simp

theorem openTag2_eq (name : Bytes) :
    str "\x7b\x7b?" ++ name ++ str "\x7d\x7d" = tagText 63 name := by
  rw [str_openCond, str_close, tagText_eq]
  simp

theorem openTag3_eq (name : Bytes) :
    str "\x7b\x7b!" ++ name ++ str "\x7d\x7d" = tagText 33 name := by
  rw [str_openNeg, str_close, tagText_eq]
  simp

theorem posMin_ge (e : Nat) (a b : Option Nat) (ha : ∀ o, a = some o → e ≤ o)
    (hb : ∀ o, b = some o → e ≤ o) : ∀ o, posMin a b = some o → e ≤ o := by
  intro o h
  cases a with
  | none => exact hb o (by simpa [posMin] using h)
  | some x =>
    cases b with
    | none =>
      simp only [posMin, Option.some.injEq] at h
      exact h ▸ ha x rfl
    | some y =>
      simp only [posMin, Option.some.injEq] at h
      have h1 := ha x rfl
      have h2 := hb y rfl
      omega

/-- One iteration of `FindEndTag` at depth 1 when no open tag stands before
the first close tag. -/
theorem findEndTagLoop_found (endTag o1 o2 o3 : Bytes) (fuel pos : Nat) (rest : Bytes) (e : Nat)
    (he : find endTag rest = some e)
    (h1 : ∀ o, find o1 rest = some o → e ≤ o) (h2 : ∀ o, find o2 rest = some o → e ≤ o)
    (h3 : ∀ o, find o3 rest = some o → e ≤ o) (hne : rest ≠ []) :
    findEndTagLoop endTag o1 o2 o3 (fuel + 1) pos rest 1 = some (some (pos + e)) := by
  rw [findEndTagLoop, he]
  have hne' : rest.isEmpty = false := by cases rest <;> simp_all
  simp only [hne', Bool.false_eq_true, one_ne_zero, or_self, ↓reduceIte, Nat.sub_self]
  have hge := posMin_ge e _ _ h1 (posMin_ge e _ _ h2 h3)
  cases hm : posMin (find o1 rest) (posMin (find o2 rest) (find o3 rest)) with
  | none => rfl
  | some o =>
    have := hge o hm
    simp only
    rw [if_neg (by omega)]

theorem findEndTagLoop_none (endTag o1 o2 o3 : Bytes) (fuel pos : Nat) (rest : Bytes)
    (depth : Nat) (he : find endTag rest = none) :
    findEndTagLoop endTag o1 o2 o3 (fuel + 1) pos rest depth = some none := by
  rw [findEndTagLoop, he]
  simp

theorem find_map_ge (p s : Bytes) (n : Nat) (r : Option Nat)
    (h : find p s = r.map (· + n)) : ∀ o, find p s = some o → n ≤ o := by
  intro o ho
  rw [h] at ho
  cases r with
  | none => simp at ho
  | some x =>
    simp only [Option.map_some', Option.some.injEq] at ho
    omega

theorem find_pieces_tag (k : Nat) (name : Bytes) (hk : isBlockTag [k] = true) (last s : Bytes)
    (hl : hasOpen last = false) (hs : tagSafe s = true) (ps : Pieces)
    (hp : plainPieces ps = true) :
    find (tagText k name) (piecesText ps last ++ s) =
      (find (tagText k name) s).map (· + (piecesText ps last).length) := by
  rw [tagText_eq]
  exact find_pieces_shift k _ hk last s hl hs ps hp

/-- The close tag that follows a body of literal texts and plain variable
markers is the one `FindEndTag` returns. -/
theorem FindEndTag_pieces_closed (X R n : Bytes) (ps : Pieces) (last : Bytes)
    (hp : plainPieces ps = true) (hl : hasOpen last = false) :
    FindEndTag (X ++ (piecesText ps last ++ (tagText 47 n ++ R))) X.length n =
      some (some (X.length + (piecesText ps last).length)) := by
  unfold FindEndTag
  rw [endTag_eq, openTag1_eq, openTag2_eq, openTag3_eq, List.drop_left]
  have hs : tagSafe (tagText 47 n ++ R) = true := tagSafe_markerText _ _
  apply findEndTagLoop_found
  · rw [find_pieces_tag 47 n rfl last _ hl hs ps hp, find_self _ _ (by simp [tagText_eq])]
    simp
  · exact find_map_ge _ _ _ _ (find_pieces_tag 35 n rfl last _ hl hs ps hp)
  · exact find_map_ge _ _ _ _ (find_pieces_tag 63 n rfl last _ hl hs ps hp)
  · exact find_map_ge _ _ _ _ (find_pieces_tag 33 n rfl last _ hl hs ps hp)
  · simp [tagText_eq]

/-- Without a close tag after the body `FindEndTag` returns `npos`. -/
theorem FindEndTag_pieces_unclosed (X n : Bytes) (ps : Pieces) (last : Bytes)
    (hp : plainPieces ps = true) (hl : hasOpen last = false) :
    FindEndTag (X ++ piecesText ps last) X.length n = some none := by
  unfold FindEndTag
  rw [endTag_eq, List.drop_left]
  apply findEndTagLoop_none
  rw [tagText_eq]
  exact find_pieces_none 47 _ rfl ps last hp hl

/-- The first tag start `{{k` of a text of literal texts and plain variable
markers followed by a tag of kind `k` is that of the tag. -/
theorem find_tag_after_pieces (k : Nat) (hk : isBlockTag [k] = true) (ps : Pieces)
    (last name s : Bytes) (hp : plainPieces ps = true) (hl : hasOpen last = false) :
    find [123, 123, k] (piecesText ps last ++ (tagText k name ++ s)) =
      some (piecesText ps last).length := by
  rw [find_pieces_shift k [] hk last (tagText k name ++ s) hl (tagSafe_markerText _ _) ps hp]
  have : find [123, 123, k] (tagText k name ++ s) = some 0 := by
    simp [tagText_eq, find, startsWith]
  rw [this]
  simp

theorem braceFree_cons (k : Nat) (name : Bytes) (hk : isBlockTag [k] = true)
    (hn : braceFree name = true) : braceFree (k :: name) = true := by
  have := blockTag_ne k hk
  unfold braceFree at hn ⊢
  simp only [List.all_cons, Bool.and_eq_true, bne_iff_ne, ne_eq]
  exact ⟨⟨this.1, this.2⟩, hn⟩

theorem find_close_tag (k : Nat) (name s : Bytes) (hk : isBlockTag [k] = true)
    (hn : braceFree name = true) : find [125, 125] (tagText k name ++ s) = some (name.length + 3) := by
  unfold tagText
  rw [find_close_marker _ _ (braceFree_cons k name hk hn)]
  simp

end SimpleTemplate

namespace SimpleTemplate

theorem conditionValue_eq_truth (t : SimpleTemplate) (vars : StrMap) (c : Bytes) :
    conditionValue t vars c = truth t.m_conditions vars c := by
  unfold conditionValue truth
  cases assocFind c t.m_conditions with
  | some b => rfl
  | none =>
    cases mapFind c vars with
    | none => rfl
    | some v => rfl

/-- One iteration of a loop of `ProcessConditions` at a closed block. -/
theorem processConditionsLoop_block (t : SimpleTemplate) (render : Renderer) (ctx : StrMap)
    (negated : Bool) (k : Nat) (hk : k = if negated then 33 else 63) (fuel : Nat)
    (pre c B R done err : Bytes) (hc : braceFree c = true) (htrim : Trim c = c)
    (hpre : find [123, 123, k] (pre ++ (tagText k c ++ (B ++ (tagText 47 c ++ R)))) =
      some pre.length)
    (hB : FindEndTag ((pre ++ tagText k c) ++ (B ++ (tagText 47 c ++ R)))
      (pre ++ tagText k c).length c = some (some ((pre ++ tagText k c).length + B.length))) :
    processConditionsLoop t render ctx negated (fuel + 1)
        (pre ++ (tagText k c ++ (B ++ (tagText 47 c ++ R)))) done err =
      if conditionValue t ctx c != negated then
        match render B ctx err with
        | none => none
        | some (rendered, err) =>
          processConditionsLoop t render ctx negated fuel R (done ++ pre ++ rendered) err
      else processConditionsLoop t render ctx negated fuel R (done ++ pre) err := by
  have hkb : isBlockTag [k] = true := by subst hk; cases negated <;> rfl
  have hpat : (if negated then str "\x7b\x7b!" else str "\x7b\x7b?") = [123, 123, k] := by
    subst hk; cases negated <;> simp [str_openNeg, str_openCond]
  have hne : (pre ++ (tagText k c ++ (B ++ (tagText 47 c ++ R)))).isEmpty = false := by
    cases pre <;> simp [tagText_eq]
  have hdrop : (pre ++ (tagText k c ++ (B ++ (tagText 47 c ++ R)))).drop pre.length =
      tagText k c ++ (B ++ (tagText 47 c ++ R)) := List.drop_left _ _
  have hname : ((pre ++ (tagText k c ++ (B ++ (tagText 47 c ++ R)))).drop
      (pre.length + 3)).take (c.length + 3 - 3) = c := by
    rw [drop_append_length_add, tagText_eq]
    simp
  have hstart : pre.length + (c.length + 3) + 2 = (pre ++ tagText k c).length := by
    rw [List.length_append, tagText_length]
    omega
  have hassoc : pre ++ (tagText k c ++ (B ++ (tagText 47 c ++ R))) =
      (pre ++ tagText k c) ++ (B ++ (tagText 47 c ++ R)) := by
    rw [List.append_assoc]
  have hcontent : ((pre ++ (tagText k c ++ (B ++ (tagText 47 c ++ R)))).drop
      (pre ++ tagText k c).length).take
        ((pre ++ tagText k c).length + B.length - (pre ++ tagText k c).length) = B := by
    rw [hassoc, List.drop_left, Nat.add_sub_cancel_left, List.take_left]
  have hend : (pre ++ (tagText k c ++ (B ++ (tagText 47 c ++ R)))).drop
      ((pre ++ tagText k c).length + B.length) = tagText 47 c ++ R := by
    rw [hassoc, ← List.append_assoc, ← List.length_append, List.drop_left]
  have hfull : (pre ++ (tagText k c ++ (B ++ (tagText 47 c ++ R)))).drop
      ((pre ++ tagText k c).length + B.length + (c.length + 3) + 2) = R := by
    have e : (pre ++ tagText k c).length + B.length + (c.length + 3) + 2 =
        ((pre ++ tagText k c) ++ B ++ tagText 47 c).length := by
      simp only [List.length_append, tagText_length]
      omega
    rw [e]
    simp only [← List.append_assoc]
    exact List.drop_left _ _
  have htake : (pre ++ (tagText k c ++ (B ++ (tagText 47 c ++ R)))).take pre.length = pre :=
    List.take_left _ _
  rw [processConditionsLoop, hne, hpat, hpre]
  simp only [Bool.false_eq_true, ↓reduceIte]
  rw [hdrop, str_close, find_close_tag k c _ hkb hc]
  simp only
  rw [hname, htrim, hstart, hassoc, hB, ← hassoc]
  simp only
  rw [hcontent, hend, find_close_tag 47 c _ rfl hc]
  simp only
  rw [hfull, htake]

theorem tagSafe_tagText (k : Nat) (name s : Bytes) : tagSafe (tagText k name ++ s) = true := by
  simp [tagText_eq, tagSafe]

theorem tagSafe_tagText_end (k : Nat) (name : Bytes) : tagSafe (tagText k name) = true := by
  simp [tagText_eq, tagSafe]

theorem exists_add_one (n : Nat) (h : 0 < n) : ∃ m, n = m + 1 := ⟨n - 1, by omega⟩

theorem ProcessVariables_lit (vars : StrMap) (P : Bytes) (hP : hasOpen P = false) :
    ProcessVariables P vars = some P :=
  ProcessVariables_pieces vars [] P rfl hP

theorem RenderInternal_lit (t : SimpleTemplate) (fuel : Nat) (vars : StrMap) (err P : Bytes)
    (hP : hasOpen P = false) : RenderInternal t (fuel + 1) P vars err = some (P, err) :=
  RenderInternal_pieces t fuel vars err [] P rfl hP

/-- A tag start `{{k` is not found in a tag of another kind. -/
theorem find_tag_shift (k k' : Nat) (p name s : Bytes) (hk : isBlockTag [k] = true)
    (hk' : isBlockTag [k'] = true) (hne : k' ≠ k) (hn : braceFree name = true) :
    find (123 :: 123 :: k :: p) (tagText k' name ++ s) =
      (find (123 :: 123 :: k :: p) s).map (· + (tagText k' name).length) := by
  unfold tagText
  exact find_marker_shift k p (k' :: name) s (blockTag_ne k hk).2 (braceFree_cons k' name hk' hn)
    (by simpa using hne)

theorem find_nil (p : Bytes) (hp : p ≠ []) : find p [] = none := by
  cases p with
  | nil => exact absurd rfl hp
  | cons c cs => simp [find, startsWith]

/-- The template of the claim on conditional blocks. -/
theorem find_conditions_text (k : Nat) (hk : k = 35 ∨ k = 62) (c P N : Bytes)
    (hc : braceFree c = true) (hP : hasOpen P = false) (hN : hasOpen N = false) :
    find [123, 123, k]
      (tagText 63 c ++ (P ++ (tagText 47 c ++ (tagText 33 c ++ (N ++ tagText 47 c))))) = none := by
  have hkb : isBlockTag [k] = true := by rcases hk with h | h <;> subst h <;> rfl
  have h1 : (63 : Nat) ≠ k := by rcases hk with h | h <;> subst h <;> decide
  have h2 : (47 : Nat) ≠ k := by rcases hk with h | h <;> subst h <;> decide
  have h3 : (33 : Nat) ≠ k := by rcases hk with h | h <;> subst h <;> decide
  have hlast : find [123, 123, k] (tagText 47 c) = none := by
    have := find_tag_shift k 47 [] c [] hkb rfl h2 hc
    rw [List.append_nil] at this
    rw [this, find_nil _ (by simp)]
    rfl
  rw [find_tag_shift k 63 [] c _ hkb rfl h1 hc,
    find_lit_shift k [] P _ (blockTag_ne k hkb).1 hP (tagSafe_tagText _ _ _),
    find_tag_shift k 47 [] c _ hkb rfl h2 hc, find_tag_shift k 33 [] c _ hkb rfl h3 hc,
    find_lit_shift k [] N _ (blockTag_ne k hkb).1 hN (tagSafe_tagText_end _ _), hlast]
  rfl

theorem find_negated_rest (c N : Bytes) (hc : braceFree c = true) (hN : hasOpen N = false) :
    find [123, 123, 63] (tagText 33 c ++ (N ++ tagText 47 c)) = none := by
  have hlast : find [123, 123, 63] (tagText 47 c) = none := by
    have := find_tag_shift 63 47 [] c [] rfl rfl (by decide) hc
    rw [List.append_nil] at this
    rw [this, find_nil _ (by simp)]
    rfl
  rw [find_tag_shift 63 33 [] c _ rfl rfl (by decide) hc,
    find_lit_shift 63 [] N _ (by decide) hN (tagSafe_tagText_end _ _), hlast]
  rfl

theorem processConditionsLoop_nil (t : SimpleTemplate) (render : Renderer) (ctx : StrMap)
    (negated : Bool) (fuel : Nat) (done err : Bytes) :
    processConditionsLoop t render ctx negated (fuel + 1) [] done err = some (done, err) := by
  rw [processConditionsLoop]
  simp

/-- The conditions pass on the template of the claim. -/
theorem ProcessConditions_complementary (t : SimpleTemplate) (render : Renderer) (ctx : StrMap)
    (c P N err : Bytes) (hc : braceFree c = true) (htrim : Trim c = c)
    (hP : hasOpen P = false) (hN : hasOpen N = false)
    (hrP : render P ctx err = some (P, err)) (hrN : render N ctx err = some (N, err)) :
    ProcessConditions t render
        (tagText 63 c ++ (P ++ (tagText 47 c ++ (tagText 33 c ++ (N ++ tagText 47 c))))) ctx err =
      some (if conditionValue t ctx c then P else N, err) := by
  unfold ProcessConditions
  have hpos := processConditionsLoop_block t render ctx false 63 rfl
    (tagText 63 c ++ (P ++ (tagText 47 c ++ (tagText 33 c ++ (N ++ tagText 47 c))))).length
    [] c P (tagText 33 c ++ (N ++ tagText 47 c)) [] err hc htrim
    (by simp [tagText_eq, find, startsWith])
    (FindEndTag_pieces_closed ([] ++ tagText 63 c) _ c [] P rfl hP)
  simp only [List.nil_append, List.append_nil] at hpos
  rw [hpos]
  obtain ⟨n, hn⟩ : ∃ n, (tagText 63 c ++ (P ++ (tagText 47 c ++
      (tagText 33 c ++ (N ++ tagText 47 c))))).length = n + 1 :=
    exists_add_one _ (by simp only [List.length_append, tagText_length]; omega)
  rw [hn]
  have hnone := find_negated_rest c N hc hN
  by_cases hv : conditionValue t ctx c = true
  · simp only [hv, bne_self_eq_false, Bool.false_eq_true, ↓reduceIte, Bool.true_bne,
      Bool.not_false, hrP]
    rw [processConditionsLoop_none t render ctx false n _ _ _ hnone]
    simp only
    have hneg := processConditionsLoop_block t render ctx true 33 rfl
      (P ++ (tagText 33 c ++ (N ++ tagText 47 c))).length
      P c N [] [] err hc htrim
      (find_tag_after_pieces 33 rfl [] P c _ rfl hP)
      (FindEndTag_pieces_closed (P ++ tagText 33 c) [] c [] N rfl hN)
    simp only [List.nil_append, List.append_nil] at hneg
    rw [hneg]
    simp only [hv, bne_self_eq_false, Bool.false_eq_true, ↓reduceIte]
    obtain ⟨m, hm⟩ : ∃ m, (P ++ (tagText 33 c ++ (N ++ tagText 47 c))).length = m + 1 :=
      exists_add_one _ (by simp only [List.length_append, tagText_length]; omega)
    rw [hm, processConditionsLoop_nil]
  · have hv' : conditionValue t ctx c = false := by
      cases h : conditionValue t ctx c
      · rfl
      · exact absurd h hv
    simp only [hv', bne_self_eq_false, Bool.false_eq_true, ↓reduceIte]
    rw [processConditionsLoop_none t render ctx false n _ _ _ hnone]
    simp only [List.nil_append]
    have hneg := processConditionsLoop_block t render ctx true 33 rfl
      (tagText 33 c ++ (N ++ tagText 47 c)).length
      [] c N [] [] err hc htrim
      (by simp [tagText_eq, find, startsWith])
      (FindEndTag_pieces_closed ([] ++ tagText 33 c) [] c [] N rfl hN)
    simp only [List.nil_append, List.append_nil] at hneg
    rw [hneg]
    simp only [hv', Bool.false_bne, ↓reduceIte, hrN]
    obtain ⟨m, hm⟩ : ∃ m, (tagText 33 c ++ (N ++ tagText 47 c)).length = m + 1 :=
      exists_add_one _ (by simp only [List.length_append, tagText_length]; omega)
    rw [hm, processConditionsLoop_nil]

theorem renderPasses_conditions (t : SimpleTemplate) (fuel : Nat) (vars : StrMap)
    (c P N err : Bytes) (hc : braceFree c = true) (htrim : Trim c = c)
    (hP : hasOpen P = false) (hN : hasOpen N = false) :
    RenderInternal t (fuel + 2)
        (tagText 63 c ++ (P ++ (tagText 47 c ++ (tagText 33 c ++ (N ++ tagText 47 c))))) vars err =
      some (if truth t.m_conditions vars c then P else N, err) := by
  rw [RenderInternal]
  unfold renderPasses
  rw [ProcessPartials_none t _ vars _ err (find_conditions_text 62 (Or.inr rfl) c P N hc hP hN)]
  simp only
  rw [ProcessArrays_none t _ vars _ err (find_conditions_text 35 (Or.inl rfl) c P N hc hP hN)]
  simp only
  rw [ProcessConditions_complementary t _ vars c P N err hc htrim hP hN
    (RenderInternal_lit t fuel vars err P hP) (RenderInternal_lit t fuel vars err N hN)]
  simp only
  rw [conditionValue_eq_truth]
  by_cases hv : truth t.m_conditions vars c = true
  · simp only [hv, ↓reduceIte]
    rw [ProcessVariables_lit vars P hP]
  · simp only [hv, Bool.false_eq_true, ↓reduceIte]
    rw [ProcessVariables_lit vars N hN]

/-- C14. Conditional blocks are complementary: for every name `c` without
brace and without blank at its ends and all texts `P` and `N` without `{{`,
the template `{{?c}}P{{/c}}{{!c}}N{{/c}}` renders, at every depth of calls
from two on, exactly `P` when the truth of `c` holds (the explicitly set
condition, otherwise whether the variable `c` exists, is not empty and is
neither `false` nor `0`) and exactly `N` otherwise. -/
theorem render_conditions_complementary (t : SimpleTemplate) (c P N : Bytes) (fuel : Nat)
    (hc : braceFree c = true) (htrim : Trim c = c) (hP : hasOpen P = false)
    (hN : hasOpen N = false)
    (ht : t.m_template =
      tagText 63 c ++ (P ++ (tagText 47 c ++ (tagText 33 c ++ (N ++ tagText 47 c))))) :
    Render (fuel + 2) t =
      some (if truth t.m_conditions t.m_variables c then P else N, t) := by
  obtain ⟨tpl, vars, arrays, conds, provider, err⟩ := t
  simp only at ht
  subst ht
  unfold Render
  rw [renderPasses_conditions _ fuel _ c P N _ hc htrim hP hN]

/-- C14 at the template of the tests: the emulator is running. -/
theorem render_conditions_complementary_witness :
    braceFree (str "running") = true ∧ Trim (str "running") = str "running" ∧
      hasOpen (str "Emulator is running") = false ∧
      hasOpen (str "Emulator is stopped") = false ∧
      Render 2
        { m_template := str "\x7b\x7b?running\x7d\x7dEmulator is running\x7b\x7b/running\x7d\x7d\x7b\x7b!running\x7d\x7dEmulator is stopped\x7b\x7b/running\x7d\x7d",
          m_conditions := [(str "running", true)] } =
        some (str "Emulator is running",
          { m_template := str "\x7b\x7b?running\x7d\x7dEmulator is running\x7b\x7b/running\x7d\x7d\x7b\x7b!running\x7d\x7dEmulator is stopped\x7b\x7b/running\x7d\x7d",
            m_conditions := [(str "running", true)] }) :=
  ⟨by decide, by decide, by decide, by decide,
    render_conditions_complementary
      { m_template := str "\x7b\x7b?running\x7d\x7dEmulator is running\x7b\x7b/running\x7d\x7d\x7b\x7b!running\x7d\x7dEmulator is stopped\x7b\x7b/running\x7d\x7d",
        m_conditions := [(str "running", true)] }
      (str "running") (str "Emulator is running") (str "Emulator is stopped") 0
      (by decide) (by decide) (by decide) (by decide) (by decide)⟩

end SimpleTemplate

namespace SimpleTemplate

theorem substPieces_eq_substWith (vars : StrMap) (last : Bytes) :
    ∀ ps : Pieces, substPieces vars ps last = substWith (fun k => mapFind k vars) ps last
  | [] => rfl
  | (lit, name) :: ps => by
    rw [substPieces, substWith, substPieces_eq_substWith vars last ps]

theorem substWith_congr (l1 l2 : Bytes → Option Bytes) (h : ∀ k, l1 k = l2 k) (last : Bytes) :
    ∀ ps : Pieces, substWith l1 ps last = substWith l2 ps last
  | [] => rfl
  | (lit, name) :: ps => by
    rw [substWith, substWith, h, substWith_congr l1 l2 h last ps]

/-- Overlaying a map by the entries of an item: the entries of the item win. -/
theorem mapFind_overlay (key : Bytes) :
    ∀ (item context : StrMap), keysAscending item = true →
      mapFind key (item.foldl (fun m kv => mapInsert kv.1 kv.2 m) context) =
        match mapFind key item with
        | some v => some v
        | none => mapFind key context
  | [], _, _ => rfl
  | (k0, v0) :: rest, context, h => by
    obtain ⟨hrest, _⟩ := (keysAscending_cons _ _).1 h
    rw [List.foldl_cons, mapFind_overlay key rest _ hrest, mapFind, mapFind_mapInsert]
    by_cases hk : key = k0
    · subst hk
      have hnone : mapFind key rest = none := by
        cases hf : mapFind key rest with
        | none => rfl
        | some v =>
          have hmem := (mapFind_iff_mem rest hrest key v).1 hf
          have hlt := keysAscending_lt_all _ _ h _ hmem
          simp only at hlt
          rw [strLt_irrefl] at hlt
          exact absurd hlt (by simp)
      rw [hnone]
      simp
    · simp only [hk, ↓reduceIte]

/-- The map `itemVars` of `ProcessArrays` answers as the context of the specification. -/
theorem mapFind_itemVars (context item : StrMap) (i size : Nat) (key : Bytes)
    (h : keysAscending item = true) :
    mapFind key
        (mapInsert (str "_last") (if i = size - 1 then str "true" else [])
          (mapInsert (str "_first") (if i = 0 then str "true" else [])
            (mapInsert (str "_index1") (JsonBuilder.decimal (i + 1))
              (mapInsert (str "_index") (JsonBuilder.decimal i)
                (item.foldl (fun m kv => mapInsert kv.1 kv.2 m) context))))) =
      itemContext context item i size key := by
  have e1 : str "_last" ≠ str "_index" := by decide
  have e2 : str "_last" ≠ str "_index1" := by decide
  have e3 : str "_last" ≠ str "_first" := by decide
  have e4 : str "_first" ≠ str "_index" := by decide
  have e5 : str "_first" ≠ str "_index1" := by decide
  have e6 : str "_index1" ≠ str "_index" := by decide
  rw [mapFind_mapInsert, mapFind_mapInsert, mapFind_mapInsert, mapFind_mapInsert,
    mapFind_overlay key item context h]
  unfold itemContext
  by_cases h1 : key = str "_last"
  · subst h1
    simp only [↓reduceIte, e1, e2, e3]
  · by_cases h2 : key = str "_first"
    · subst h2
      simp only [↓reduceIte, e4, e5, h1]
    · by_cases h3 : key = str "_index1"
      · subst h3
        simp only [↓reduceIte, e6, h1, h2]
      · simp only [h1, h2, h3, ↓reduceIte]

/-- The loop over the items when every call of `RenderInternal` on the block
body returns the body with its markers substituted. -/
theorem renderItems_pieces (render : Renderer) (context : StrMap) (size : Nat) (ps : Pieces)
    (last : Bytes)
    (hr : ∀ vars err, render (piecesText ps last) vars err = some (substPieces vars ps last, err)) :
    ∀ (items : List StrMap) (i : Nat) (result err : Bytes), items.all keysAscending = true →
      renderItems render (piecesText ps last) context size items i result err =
        some (result ++ renderingsFrom context size ps last items i, err)
  | [], _, _, _, _ => by simp [renderItems, renderingsFrom]
  | item :: items, i, result, err, h => by
    rw [List.all_cons, Bool.and_eq_true] at h
    rw [renderItems]
    simp only [hr]
    rw [renderItems_pieces render context size ps last hr items (i + 1) _ err h.2,
      renderingsFrom, substPieces_eq_substWith,
      substWith_congr _ _ (fun k => mapFind_itemVars context item i size k h.1)]
    simp

theorem processArraysLoop_nil (t : SimpleTemplate) (render : Renderer) (ctx : StrMap)
    (fuel : Nat) (result err : Bytes) :
    processArraysLoop t render ctx (fuel + 1) [] result err = some (result, err) := by
  rw [processArraysLoop]
  simp

/-- One iteration of the loop of `ProcessArrays` at a closed block. -/
theorem processArraysLoop_block (t : SimpleTemplate) (render : Renderer) (ctx : StrMap)
    (fuel : Nat) (pre name B R result err : Bytes) (hn : braceFree name = true)
    (htrim : Trim name = name)
    (hpre : find [123, 123, 35] (pre ++ (tagText 35 name ++ (B ++ (tagText 47 name ++ R)))) =
      some pre.length)
    (hB : FindEndTag ((pre ++ tagText 35 name) ++ (B ++ (tagText 47 name ++ R)))
      (pre ++ tagText 35 name).length name =
        some (some ((pre ++ tagText 35 name).length + B.length))) :
    processArraysLoop t render ctx (fuel + 1)
        (pre ++ (tagText 35 name ++ (B ++ (tagText 47 name ++ R)))) result err =
      (renderItems render B ctx ((assocFind name t.m_arrays).getD []).length
          ((assocFind name t.m_arrays).getD []) 0 (result ++ pre) err).bind
        (fun p => processArraysLoop t render ctx fuel R p.1 p.2) := by
  have hne : (pre ++ (tagText 35 name ++ (B ++ (tagText 47 name ++ R)))).isEmpty = false := by
    cases pre <;> simp [tagText_eq]
  have hdrop : (pre ++ (tagText 35 name ++ (B ++ (tagText 47 name ++ R)))).drop pre.length =
      tagText 35 name ++ (B ++ (tagText 47 name ++ R)) := List.drop_left _ _
  have hname : ((pre ++ (tagText 35 name ++ (B ++ (tagText 47 name ++ R)))).drop
      (pre.length + 3)).take (name.length + 3 - 3) = name := by
    rw [drop_append_length_add, tagText_eq]
    simp
  have hstart : pre.length + (name.length + 3) + 2 = (pre ++ tagText 35 name).length := by
    rw [List.length_append, tagText_length]
    omega
  have hassoc : pre ++ (tagText 35 name ++ (B ++ (tagText 47 name ++ R))) =
      (pre ++ tagText 35 name) ++ (B ++ (tagText 47 name ++ R)) := by
    rw [List.append_assoc]
  have hcontent : ((pre ++ (tagText 35 name ++ (B ++ (tagText 47 name ++ R)))).drop
      (pre ++ tagText 35 name).length).take
        ((pre ++ tagText 35 name).length + B.length - (pre ++ tagText 35 name).length) = B := by
    rw [hassoc, List.drop_left, Nat.add_sub_cancel_left, List.take_left]
  have hend : (pre ++ (tagText 35 name ++ (B ++ (tagText 47 name ++ R)))).drop
      ((pre ++ tagText 35 name).length + B.length) = tagText 47 name ++ R := by
    rw [hassoc, ← List.append_assoc, ← List.length_append, List.drop_left]
  have hfull : (pre ++ (tagText 35 name ++ (B ++ (tagText 47 name ++ R)))).drop
      ((pre ++ tagText 35 name).length + B.length + (name.length + 3) + 2) = R := by
    have e : (pre ++ tagText 35 name).length + B.length + (name.length + 3) + 2 =
        ((pre ++ tagText 35 name) ++ B ++ tagText 47 name).length := by
      simp only [List.length_append, tagText_length]
      omega
    rw [e]
    simp only [← List.append_assoc]
    exact List.drop_left _ _
  have htake : (pre ++ (tagText 35 name ++ (B ++ (tagText 47 name ++ R)))).take pre.length =
      pre := List.take_left _ _
  rw [processArraysLoop, hne, str_openArray, hpre]
  simp only [Bool.false_eq_true, ↓reduceIte]
  rw [hdrop, str_close, find_close_tag 35 name _ rfl hn]
  simp only
  rw [hname, htrim, hstart, hassoc, hB, ← hassoc]
  simp only
  rw [hcontent, hend, find_close_tag 47 name _ rfl hn]
  simp only
  rw [hfull, htake]
  cases hfind : assocFind name t.m_arrays with
  | none => simp [renderItems]
  | some items =>
    cases items with
    | nil => simp [renderItems]
    | cons item items =>
      simp only [List.isEmpty_cons, Bool.false_eq_true, ↓reduceIte, Option.getD_some]
      cases renderItems render B ctx (item :: items).length (item :: items) 0 (result ++ pre)
        err <;> rfl

theorem find_tagstart_none (k : Nat) (hk : k ≠ 123) (s : Bytes) (h : hasOpen s = false) :
    find [123, 123, k] s = none := by
  have := find_lit_shift k [] s [] hk h rfl
  rw [List.append_nil] at this
  rw [this, find_nil _ (by simp)]
  rfl

theorem find_array_text (name : Bytes) (ps : Pieces) (last : Bytes)
    (hn : braceFree name = true) (hp : plainPieces ps = true) (hl : hasOpen last = false) :
    find [123, 123, 62] (tagText 35 name ++ (piecesText ps last ++ tagText 47 name)) = none := by
  have hlast : find [123, 123, 62] (tagText 47 name) = none := by
    have := find_tag_shift 62 47 [] name [] rfl rfl (by decide) hn
    rw [List.append_nil] at this
    rw [this, find_nil _ (by simp)]
    rfl
  rw [find_tag_shift 62 35 [] name _ rfl rfl (by decide) hn,
    find_pieces_shift 62 [] rfl last _ hl (tagSafe_tagText_end _ _) ps hp, hlast]
  rfl

/-- The passes on an array block with a body of literal texts and plain
variable markers, when the renderings have no `{{`. -/
theorem RenderInternal_array (t : SimpleTemplate) (fuel : Nat) (vars : StrMap)
    (name err : Bytes) (ps : Pieces) (last : Bytes) (hn : braceFree name = true)
    (htrim : Trim name = name) (hp : plainPieces ps = true) (hl : hasOpen last = false)
    (hitems : ((assocFind name t.m_arrays).getD []).all keysAscending = true)
    (hout : hasOpen (arrayRendering vars ((assocFind name t.m_arrays).getD []) ps last) = false) :
    RenderInternal t (fuel + 2)
        (tagText 35 name ++ (piecesText ps last ++ tagText 47 name)) vars err =
      some (arrayRendering vars ((assocFind name t.m_arrays).getD []) ps last, err) := by
  rw [RenderInternal]
  unfold renderPasses
  rw [ProcessPartials_none t _ vars _ err (find_array_text name ps last hn hp hl)]
  simp only
  have hstep := processArraysLoop_block t (RenderInternal t (fuel + 1)) vars
    (tagText 35 name ++ (piecesText ps last ++ tagText 47 name)).length
    [] name (piecesText ps last) [] [] err hn htrim
    (by simp [tagText_eq, find, startsWith])
    (FindEndTag_pieces_closed ([] ++ tagText 35 name) [] name ps last hp hl)
  simp only [List.nil_append, List.append_nil] at hstep
  unfold ProcessArrays
  rw [hstep, renderItems_pieces (RenderInternal t (fuel + 1)) vars _ ps last
    (fun v e => RenderInternal_pieces t fuel v e ps last hp hl) _ 0 [] err hitems]
  simp only [List.nil_append, Option.some_bind]
  obtain ⟨n, hn'⟩ := exists_add_one
    (tagText 35 name ++ (piecesText ps last ++ tagText 47 name)).length
    (by simp only [List.length_append, tagText_length]; omega)
  rw [hn', processArraysLoop_nil]
  simp only
  have hout' : hasOpen (renderingsFrom vars ((assocFind name t.m_arrays).getD []).length ps last
      ((assocFind name t.m_arrays).getD []) 0) = false := hout
  rw [ProcessConditions_none t _ vars _ err (find_tagstart_none 63 (by decide) _ hout')
    (find_tagstart_none 33 (by decide) _ hout')]
  simp only
  rw [ProcessVariables_lit vars _ hout']
  rfl

/-- C13, amended. Array blocks: for every name without brace and without
blank at its ends, every block body of literal texts and plain variable
markers and every array whose items are maps, if the renderings of the body,
one after the other, contain no `{{`, then `{{#name}}B{{/name}}` renders, at
every depth of calls from two on, exactly these renderings in item order, the
one numbered `i` in the enclosing context overlaid by the variables of item
`i` and the loop variables; an unbound array and an array without items
render nothing. -/
theorem render_array_block (t : SimpleTemplate) (name : Bytes) (ps : Pieces) (last : Bytes)
    (fuel : Nat) (hn : braceFree name = true) (htrim : Trim name = name)
    (hp : plainPieces ps = true) (hl : hasOpen last = false)
    (hitems : ((assocFind name t.m_arrays).getD []).all keysAscending = true)
    (hout : hasOpen (arrayRendering t.m_variables ((assocFind name t.m_arrays).getD []) ps last) =
      false)
    (ht : t.m_template = tagText 35 name ++ (piecesText ps last ++ tagText 47 name)) :
    Render (fuel + 2) t =
      some (arrayRendering t.m_variables ((assocFind name t.m_arrays).getD []) ps last, t) := by
  obtain ⟨tpl, vars, arrays, conds, provider, err⟩ := t
  simp only at ht
  subst ht
  unfold Render
  rw [RenderInternal_array _ fuel _ name _ ps last hn htrim hp hl hitems hout]

/-- C13 at an array of two items. -/
theorem render_array_block_witness :
    braceFree (str "regs") = true ∧ Trim (str "regs") = str "regs" ∧
      plainPieces [([], str "name"), (str "=", str "value")] = true ∧
      hasOpen (str ";") = false ∧
      Render 2 registersTemplate = some (str "A=$00;X=$01;", registersTemplate) :=
  ⟨by decide, by decide, by decide, by decide,
    render_array_block registersTemplate (str "regs") [([], str "name"), (str "=", str "value")]
      (str ";") 0 (by decide) (by decide) (by decide) (by decide) (by decide) (by decide)
      (by decide)⟩

/-- C13, counterexample. The body `{{u}}{x}}` is the plain variable marker
`{{u}}` and the literal text `{x}}`; the item binds `u` to `{`, and no value
contains `{{`. The rendering of the body according to the claim is `{{x}}`,
but the output of the array pass is scanned again by the variables pass, and
`Render` returns the value of `x`. -/
theorem array_block_output_is_scanned_again :
    plainPieces [([], str "u")] = true ∧ hasOpen (str "\x7bx\x7d\x7d") = false ∧
      rescannedTemplate.m_template =
        tagText 35 (str "a") ++
          (piecesText [([], str "u")] (str "\x7bx\x7d\x7d") ++ tagText 47 (str "a")) ∧
      hasOpen (str "\x7b") = false ∧ hasOpen (str "INJECTED") = false ∧
      arrayRendering rescannedTemplate.m_variables [[(str "u", str "\x7b")]] [([], str "u")]
        (str "\x7bx\x7d\x7d") = str "\x7b\x7bx\x7d\x7d" ∧
      (Render 2 rescannedTemplate).map Prod.fst = some (str "INJECTED") := by
  refine ⟨by decide, by decide, by decide, by decide, by decide, by decide, by decide⟩

end SimpleTemplate

namespace SimpleTemplate

/-- One iteration of the loop of `ProcessArrays` at a block that is not closed. -/
theorem processArraysLoop_unclosed (t : SimpleTemplate) (render : Renderer) (ctx : StrMap)
    (fuel : Nat) (pre name after result err : Bytes) (hn : braceFree name = true)
    (hpre : find [123, 123, 35] (pre ++ (tagText 35 name ++ after)) = some pre.length)
    (hU : FindEndTag ((pre ++ tagText 35 name) ++ after) (pre ++ tagText 35 name).length
      (Trim name) = some none) :
    processArraysLoop t render ctx (fuel + 1) (pre ++ (tagText 35 name ++ after)) result err =
      some (result ++ (pre ++ (tagText 35 name ++ after)),
        str "Unclosed array block: " ++ Trim name) := by
  have hne : (pre ++ (tagText 35 name ++ after)).isEmpty = false := by
    cases pre <;> simp [tagText_eq]
  have hdrop : (pre ++ (tagText 35 name ++ after)).drop pre.length =
      tagText 35 name ++ after := List.drop_left _ _
  have hname : ((pre ++ (tagText 35 name ++ after)).drop (pre.length + 3)).take
      (name.length + 3 - 3) = name := by
    rw [drop_append_length_add, tagText_eq]
    simp
  have hstart : pre.length + (name.length + 3) + 2 = (pre ++ tagText 35 name).length := by
    rw [List.length_append, tagText_length]
    omega
  have hassoc : pre ++ (tagText 35 name ++ after) = (pre ++ tagText 35 name) ++ after := by
    rw [List.append_assoc]
  have htake : (pre ++ (tagText 35 name ++ after)).take pre.length = pre := List.take_left _ _
  rw [processArraysLoop, hne, str_openArray, hpre]
  simp only [Bool.false_eq_true, ↓reduceIte]
  rw [hdrop, str_close, find_close_tag 35 name _ rfl hn]
  simp only
  rw [hname, hstart, hassoc, hU, ← hassoc, htake]
  simp only [List.append_assoc]

/-- One iteration of a loop of `ProcessConditions` at a block that is not closed. -/
theorem processConditionsLoop_unclosed (t : SimpleTemplate) (render : Renderer) (ctx : StrMap)
    (negated : Bool) (k : Nat) (hk : k = if negated then 33 else 63) (fuel : Nat)
    (pre name after done err : Bytes) (hn : braceFree name = true)
    (hpre : find [123, 123, k] (pre ++ (tagText k name ++ after)) = some pre.length)
    (hU : FindEndTag ((pre ++ tagText k name) ++ after) (pre ++ tagText k name).length
      (Trim name) = some none) :
    processConditionsLoop t render ctx negated (fuel + 1) (pre ++ (tagText k name ++ after))
        done err =
      processConditionsLoop t render ctx negated fuel after (done ++ (pre ++ tagText k name))
        ((if negated then str "Unclosed negated condition block: "
          else str "Unclosed condition block: ") ++ Trim name) := by
  have hkb : isBlockTag [k] = true := by subst hk; cases negated <;> rfl
  have hpat : (if negated then str "\x7b\x7b!" else str "\x7b\x7b?") = [123, 123, k] := by
    subst hk; cases negated <;> simp [str_openNeg, str_openCond]
  have hne : (pre ++ (tagText k name ++ after)).isEmpty = false := by
    cases pre <;> simp [tagText_eq]
  have hdrop : (pre ++ (tagText k name ++ after)).drop pre.length =
      tagText k name ++ after := List.drop_left _ _
  have hname : ((pre ++ (tagText k name ++ after)).drop (pre.length + 3)).take
      (name.length + 3 - 3) = name := by
    rw [drop_append_length_add, tagText_eq]
    simp
  have hstart : pre.length + (name.length + 3) + 2 = (pre ++ tagText k name).length := by
    rw [List.length_append, tagText_length]
    omega
  have hassoc : pre ++ (tagText k name ++ after) = (pre ++ tagText k name) ++ after := by
    rw [List.append_assoc]
  rw [processConditionsLoop, hne, hpat, hpre]
  simp only [Bool.false_eq_true, ↓reduceIte]
  rw [hdrop, str_close, find_close_tag k name _ hkb hn]
  simp only
  rw [hname, hstart, hassoc, hU, List.drop_left, List.take_left]

end SimpleTemplate

namespace SimpleTemplate

/-- Two results with the same text are both `none` or carry the same text. -/
theorem sameText_cases (a b : Option (Bytes × Bytes))
    (h : a.map Prod.fst = b.map Prod.fst) :
    (a = none ∧ b = none) ∨ ∃ x e e', a = some (x, e) ∧ b = some (x, e') := by
  cases a with
  | none =>
    cases b with
    | none => exact Or.inl ⟨rfl, rfl⟩
    | some q => simp at h
  | some p =>
    cases b with
    | none => simp at h
    | some q =>
      obtain ⟨x, e⟩ := p
      obtain ⟨y, e'⟩ := q
      simp only [Option.map_some', Option.some.injEq] at h
      subst h
      exact Or.inr ⟨x, e, e', rfl, rfl⟩

theorem renderItems_sameText (r1 r2 : Renderer)
    (hr : ∀ x v e e', (r1 x v e).map Prod.fst = (r2 x v e').map Prod.fst)
    (B : Bytes) (ctx : StrMap) (size : Nat) :
    ∀ (items : List StrMap) (i : Nat) (result e e' : Bytes),
      (renderItems r1 B ctx size items i result e).map Prod.fst =
        (renderItems r2 B ctx size items i result e').map Prod.fst
  | [], _, _, _, _ => rfl
  | item :: items, i, result, e, e' => by
    rw [renderItems, renderItems]
    rcases sameText_cases _ _ (hr B
      (mapInsert (str "_last") (if i = size - 1 then str "true" else [])
        (mapInsert (str "_first") (if i = 0 then str "true" else [])
          (mapInsert (str "_index1") (JsonBuilder.decimal (i + 1))
            (mapInsert (str "_index") (JsonBuilder.decimal i)
              (item.foldl (fun m kv => mapInsert kv.1 kv.2 m) ctx))))) e e')
      with ⟨h1, h2⟩ | ⟨x, a, b, h1, h2⟩
    · rw [h1, h2]
    · rw [h1, h2]
      exact renderItems_sameText r1 r2 hr B ctx size items (i + 1) (result ++ x) a b

theorem processPartialsLoop_sameText (provider : Bytes → Bytes) (r1 r2 : Renderer)
    (hr : ∀ x v e e', (r1 x v e).map Prod.fst = (r2 x v e').map Prod.fst) (ctx : StrMap) :
    ∀ (fuel : Nat) (rest result e e' : Bytes),
      (processPartialsLoop provider r1 ctx fuel rest result e).map Prod.fst =
        (processPartialsLoop provider r2 ctx fuel rest result e').map Prod.fst
  | 0, _, _, _, _ => rfl
  | fuel + 1, rest, result, e, e' => by
    rw [processPartialsLoop, processPartialsLoop]
    by_cases h0 : rest.isEmpty = true
    · simp only [h0, ↓reduceIte, Option.map_some']
    · simp only [h0, Bool.false_eq_true, ↓reduceIte]
      cases find (str "\x7b\x7b>") rest with
      | none => rfl
      | some start =>
        simp only
        cases find (str "\x7d\x7d") (rest.drop start) with
        | none => rfl
        | some tagLen =>
          simp only
          by_cases hc : (provider (Trim ((rest.drop (start + 3)).take (tagLen - 3)))).isEmpty = true
          · simp only [hc, Bool.not_true, Bool.false_eq_true, ↓reduceIte]
            exact processPartialsLoop_sameText provider r1 r2 hr ctx fuel _ _ e e'
          · simp only [hc, Bool.not_false, ↓reduceIte]
            rcases sameText_cases _ _
              (hr (provider (Trim ((rest.drop (start + 3)).take (tagLen - 3)))) ctx e e')
              with ⟨h1, h2⟩ | ⟨x, a, b, h1, h2⟩
            · rw [h1, h2]
            · rw [h1, h2]
              exact processPartialsLoop_sameText provider r1 r2 hr ctx fuel _ _ a b

theorem processArraysLoop_sameText (t1 t2 : SimpleTemplate) (ha : t1.m_arrays = t2.m_arrays)
    (r1 r2 : Renderer)
    (hr : ∀ x v e e', (r1 x v e).map Prod.fst = (r2 x v e').map Prod.fst) (ctx : StrMap) :
    ∀ (fuel : Nat) (rest result e e' : Bytes),
      (processArraysLoop t1 r1 ctx fuel rest result e).map Prod.fst =
        (processArraysLoop t2 r2 ctx fuel rest result e').map Prod.fst
  | 0, _, _, _, _ => rfl
  | fuel + 1, rest, result, e, e' => by
    rw [processArraysLoop, processArraysLoop, ha]
    by_cases h0 : rest.isEmpty = true
    · simp only [h0, ↓reduceIte, Option.map_some']
    · simp only [h0, Bool.false_eq_true, ↓reduceIte]
      cases find (str "\x7b\x7b#") rest with
      | none => rfl
      | some start =>
        simp only
        cases find (str "\x7d\x7d") (rest.drop start) with
        | none => rfl
        | some tagLen =>
          simp only
          cases FindEndTag rest (start + tagLen + 2)
              (Trim ((rest.drop (start + 3)).take (tagLen - 3))) with
          | none => rfl
          | some r =>
            cases r with
            | none => rfl
            | some blockEnd =>
              simp only
              have hitems : ∀ items : List StrMap,
                  (renderItems r1 ((rest.drop (start + tagLen + 2)).take
                      (blockEnd - (start + tagLen + 2))) ctx items.length items 0
                      (result ++ rest.take start) e).map Prod.fst =
                    (renderItems r2 ((rest.drop (start + tagLen + 2)).take
                      (blockEnd - (start + tagLen + 2))) ctx items.length items 0
                      (result ++ rest.take start) e').map Prod.fst :=
                fun items => renderItems_sameText r1 r2 hr _ ctx _ items 0 _ e e'
              cases assocFind (Trim ((rest.drop (start + 3)).take (tagLen - 3))) t2.m_arrays with
              | none =>
                simp only
                exact processArraysLoop_sameText t1 t2 ha r1 r2 hr ctx fuel _ _ e e'
              | some items =>
                simp only
                by_cases hi : items.isEmpty = true
                · simp only [hi, ↓reduceIte]
                  exact processArraysLoop_sameText t1 t2 ha r1 r2 hr ctx fuel _ _ e e'
                · simp only [hi, Bool.false_eq_true, ↓reduceIte]
                  rcases sameText_cases _ _ (hitems items) with ⟨h1, h2⟩ | ⟨x, a, b, h1, h2⟩
                  · rw [h1, h2]
                  · rw [h1, h2]
                    exact processArraysLoop_sameText t1 t2 ha r1 r2 hr ctx fuel _ _ a b

theorem conditionValue_congr (t1 t2 : SimpleTemplate) (hc : t1.m_conditions = t2.m_conditions)
    (ctx : StrMap) (c : Bytes) : conditionValue t1 ctx c = conditionValue t2 ctx c := by
  unfold conditionValue
  rw [hc]

theorem processConditionsLoop_sameText (t1 t2 : SimpleTemplate)
    (hc : t1.m_conditions = t2.m_conditions) (r1 r2 : Renderer)
    (hr : ∀ x v e e', (r1 x v e).map Prod.fst = (r2 x v e').map Prod.fst) (ctx : StrMap)
    (negated : Bool) :
    ∀ (fuel : Nat) (rest done e e' : Bytes),
      (processConditionsLoop t1 r1 ctx negated fuel rest done e).map Prod.fst =
        (processConditionsLoop t2 r2 ctx negated fuel rest done e').map Prod.fst
  | 0, _, _, _, _ => rfl
  | fuel + 1, rest, done, e, e' => by
    rw [processConditionsLoop, processConditionsLoop]
    by_cases h0 : rest.isEmpty = true
    · simp only [h0, ↓reduceIte, Option.map_some']
    · simp only [h0, Bool.false_eq_true, ↓reduceIte]
      cases find (if negated then str "\x7b\x7b!" else str "\x7b\x7b?") rest with
      | none => rfl
      | some start =>
        simp only
        cases find (str "\x7d\x7d") (rest.drop start) with
        | none => rfl
        | some tagLen =>
          simp only
          cases FindEndTag rest (start + tagLen + 2)
              (Trim ((rest.drop (start + 3)).take (tagLen - 3))) with
          | none => rfl
          | some r =>
            cases r with
            | none =>
              simp only
              exact processConditionsLoop_sameText t1 t2 hc r1 r2 hr ctx negated fuel _ _ _ _
            | some blockEnd =>
              simp only
              rw [conditionValue_congr t1 t2 hc]
              by_cases hv : (conditionValue t2 ctx
                  (Trim ((rest.drop (start + 3)).take (tagLen - 3))) != negated) = true
              · simp only [hv, ↓reduceIte]
                rcases sameText_cases _ _ (hr ((rest.drop (start + tagLen + 2)).take
                    (blockEnd - (start + tagLen + 2))) ctx e e') with ⟨h1, h2⟩ | ⟨x, a, b, h1, h2⟩
                · rw [h1, h2]
                · rw [h1, h2]
                  exact processConditionsLoop_sameText t1 t2 hc r1 r2 hr ctx negated fuel _ _ a b
              · simp only [hv, Bool.false_eq_true, ↓reduceIte]
                exact processConditionsLoop_sameText t1 t2 hc r1 r2 hr ctx negated fuel _ _ e e'

theorem ProcessPartials_sameText (t1 t2 : SimpleTemplate)
    (hp : t1.m_partialProvider = t2.m_partialProvider) (r1 r2 : Renderer)
    (hr : ∀ x v e e', (r1 x v e).map Prod.fst = (r2 x v e').map Prod.fst)
    (text : Bytes) (ctx : StrMap) (e e' : Bytes) :
    (ProcessPartials t1 r1 text ctx e).map Prod.fst =
      (ProcessPartials t2 r2 text ctx e').map Prod.fst := by
  unfold ProcessPartials
  rw [hp]
  cases t2.m_partialProvider with
  | none => rfl
  | some provider => exact processPartialsLoop_sameText provider r1 r2 hr ctx _ _ _ e e'

theorem ProcessConditions_sameText (t1 t2 : SimpleTemplate)
    (hc : t1.m_conditions = t2.m_conditions) (r1 r2 : Renderer)
    (hr : ∀ x v e e', (r1 x v e).map Prod.fst = (r2 x v e').map Prod.fst)
    (text : Bytes) (ctx : StrMap) (e e' : Bytes) :
    (ProcessConditions t1 r1 text ctx e).map Prod.fst =
      (ProcessConditions t2 r2 text ctx e').map Prod.fst := by
  unfold ProcessConditions
  rcases sameText_cases _ _
    (processConditionsLoop_sameText t1 t2 hc r1 r2 hr ctx false (text.length + 1) text [] e e')
    with ⟨h1, h2⟩ | ⟨x, a, b, h1, h2⟩
  · rw [h1, h2]
  · rw [h1, h2]
    exact processConditionsLoop_sameText t1 t2 hc r1 r2 hr ctx true _ _ _ a b

/-- The text the passes return depends neither on `m_lastError` nor on the
template text and the variables stored in the object. -/
theorem renderPasses_sameText (t1 t2 : SimpleTemplate) (ha : t1.m_arrays = t2.m_arrays)
    (hc : t1.m_conditions = t2.m_conditions)
    (hp : t1.m_partialProvider = t2.m_partialProvider) (r1 r2 : Renderer)
    (hr : ∀ x v e e', (r1 x v e).map Prod.fst = (r2 x v e').map Prod.fst)
    (text : Bytes) (vars : StrMap) (e e' : Bytes) :
    (renderPasses t1 r1 text vars e).map Prod.fst =
      (renderPasses t2 r2 text vars e').map Prod.fst := by
  unfold renderPasses
  rcases sameText_cases _ _ (ProcessPartials_sameText t1 t2 hp r1 r2 hr text vars e e')
    with ⟨h1, h2⟩ | ⟨x, a, b, h1, h2⟩
  · rw [h1, h2]
  · rw [h1, h2]
    simp only
    rcases sameText_cases _ _
      (processArraysLoop_sameText t1 t2 ha r1 r2 hr vars (x.length + 1) x [] a b)
      with ⟨h3, h4⟩ | ⟨y, a2, b2, h3, h4⟩
    · unfold ProcessArrays
      rw [h3, h4]
    · unfold ProcessArrays
      rw [h3, h4]
      simp only
      rcases sameText_cases _ _ (ProcessConditions_sameText t1 t2 hc r1 r2 hr y vars a2 b2)
        with ⟨h5, h6⟩ | ⟨z, a3, b3, h5, h6⟩
      · rw [h5, h6]
      · rw [h5, h6]
        simp only
        cases ProcessVariables z vars <;> rfl

theorem RenderInternal_sameText (t1 t2 : SimpleTemplate) (ha : t1.m_arrays = t2.m_arrays)
    (hc : t1.m_conditions = t2.m_conditions)
    (hp : t1.m_partialProvider = t2.m_partialProvider) :
    ∀ (fuel : Nat) (text : Bytes) (vars : StrMap) (e e' : Bytes),
      (RenderInternal t1 fuel text vars e).map Prod.fst =
        (RenderInternal t2 fuel text vars e').map Prod.fst
  | 0, _, _, _, _ => rfl
  | fuel + 1, text, vars, e, e' => by
    rw [RenderInternal, RenderInternal]
    exact renderPasses_sameText t1 t2 ha hc hp _ _
      (fun x v a b => RenderInternal_sameText t1 t2 ha hc hp fuel x v a b) text vars e e'

/-- C17. Rendering is stateless: when `Render` returns an output, the object
afterwards has the same template text, variables, arrays, conditions and
partial resolver as before, and a second `Render` on it returns the same
output. -/
theorem render_is_stateless (fuel : Nat) (t t' : SimpleTemplate) (out : Bytes)
    (h : Render fuel t = some (out, t')) :
    t'.m_template = t.m_template ∧ t'.m_variables = t.m_variables ∧
      t'.m_arrays = t.m_arrays ∧ t'.m_conditions = t.m_conditions ∧
      t'.m_partialProvider = t.m_partialProvider ∧
      (Render fuel t').map Prod.fst = some out := by
  unfold Render at h
  cases hr : RenderInternal t fuel t.m_template t.m_variables t.m_lastError with
  | none => rw [hr] at h; simp at h
  | some p =>
    obtain ⟨o, err⟩ := p
    rw [hr] at h
    simp only [Option.some.injEq, Prod.mk.injEq] at h
    obtain ⟨ho, ht⟩ := h
    subst ho
    subst ht
    refine ⟨rfl, rfl, rfl, rfl, rfl, ?_⟩
    have hsame := RenderInternal_sameText { t with m_lastError := err } t rfl rfl rfl fuel
      t.m_template t.m_variables err t.m_lastError
    rw [hr] at hsame
    unfold Render
    simp only
    rcases sameText_cases _ _ hsame with ⟨_, h2⟩ | ⟨x, a, b, h1, h2⟩
    · simp at h2
    · simp only [Option.some.injEq, Prod.mk.injEq] at h2
      rw [h1]
      simp only [Option.map_some']
      rw [h2.1]

/-- C17 at the template `Hi {{n}}`. -/
theorem render_is_stateless_witness :
    Render 1 greetingTemplate = some (str "Hi Bob", greetingTemplate) ∧
      (Render 1 greetingTemplate).map Prod.fst = some (str "Hi Bob") :=
  ⟨by rfl,
    (render_is_stateless 1 greetingTemplate greetingTemplate (str "Hi Bob") (by rfl)).2.2.2.2.2⟩

end SimpleTemplate

namespace SimpleTemplate

/-- A pattern without `{` that stands at the front of `u` followed by `{`
stands at the front of `u`. -/
theorem startsWith_before_brace (q : Bytes) (hq : 123 ∉ q) (s : Bytes) :
    ∀ u : Bytes, startsWith q (u ++ 123 :: s) = true → startsWith q u = true
  | [], h => by
    cases q with
    | nil => rfl
    | cons c q' =>
      have hc : c ≠ 123 := fun e => hq (by simp [e])
      simp [startsWith, hc] at h
  | x :: u, h => by
    cases q with
    | nil => rfl
    | cons c q' =>
      simp only [List.cons_append, startsWith, Bool.and_eq_true] at h ⊢
      exact ⟨h.1, startsWith_before_brace q' (fun e => hq (List.mem_cons_of_mem _ e)) s u h.2⟩

/-- A tag does not start in a text and end in the `{{` that follows the text. -/
theorem startsWith_straddle (k : Nat) (p : Bytes) (hk : k ≠ 123) (hp : 123 ∉ p) (s : Bytes)
    (x : Nat) (u : Bytes) (h : startsWith (123 :: 123 :: k :: p) (x :: u) = false) :
    startsWith (123 :: 123 :: k :: p) (x :: u ++ 123 :: 123 :: s) = false := by
  cases u with
  | nil => simp [startsWith, hk]
  | cons y u' =>
    cases hs : startsWith (123 :: 123 :: k :: p) (x :: y :: u' ++ 123 :: 123 :: s) with
    | false => rfl
    | true =>
      simp only [List.cons_append, startsWith, Bool.and_eq_true] at hs
      have hq : 123 ∉ k :: p := by
        simp only [List.mem_cons, not_or]
        exact ⟨fun e => hk e.symm, hp⟩
      have := startsWith_before_brace (k :: p) hq (123 :: s) u' hs.2.2
      simp only [startsWith, hs.1, hs.2.1, this, Bool.and_self] at h
      exact absurd h (by simp)

/-- A tag that does not occur in a text is not found before the `{{` that follows the text. -/
theorem find_piece_shift (k : Nat) (p : Bytes) (hk : k ≠ 123) (hp : 123 ∉ p) (s : Bytes) :
    ∀ t : Bytes, find (123 :: 123 :: k :: p) t = none →
      find (123 :: 123 :: k :: p) (t ++ 123 :: 123 :: s) =
        (find (123 :: 123 :: k :: p) (123 :: 123 :: s)).map (· + t.length)
  | [], _ => by simp
  | x :: u, h => by
    rw [find] at h
    by_cases hs : startsWith (123 :: 123 :: k :: p) (x :: u) = true
    · rw [if_pos hs] at h
      simp at h
    · rw [if_neg hs] at h
      have hu : find (123 :: 123 :: k :: p) u = none := by
        cases hf : find (123 :: 123 :: k :: p) u with
        | none => rfl
        | some i => rw [hf] at h; simp at h
      have hs' : startsWith (123 :: 123 :: k :: p) (x :: u) = false := by
        cases h' : startsWith (123 :: 123 :: k :: p) (x :: u)
        · rfl
        · exact absurd h' hs
      have hno := startsWith_straddle k p hk hp s x u hs'
      rw [List.cons_append] at hno ⊢
      rw [find, hno, find_piece_shift k p hk hp s u hu]
      cases find (123 :: 123 :: k :: p) (123 :: 123 :: s) <;> simp
      omega

/-- A pattern that stands after a text is found at or before its place. -/
theorem find_append_some (P s : Bytes) :
    ∀ a : Bytes, ∃ i, find P (a ++ (P ++ s)) = some i ∧ i ≤ a.length
  | [] => by
    cases P with
    | nil =>
      cases s with
      | nil => exact ⟨0, by simp [find], Nat.le_refl _⟩
      | cons c cs => exact ⟨0, by simp [find, startsWith], Nat.le_refl _⟩
    | cons c cs => exact ⟨0, by rw [List.nil_append, find_self _ _ (by simp)], Nat.le_refl _⟩
  | x :: a => by
    obtain ⟨i, hi, hle⟩ := find_append_some P s a
    rw [List.cons_append, find]
    by_cases hs : startsWith P (x :: (a ++ (P ++ s))) = true
    · exact ⟨0, by rw [if_pos hs], Nat.zero_le _⟩
    · refine ⟨i + 1, ?_, by simpa using hle⟩
      rw [if_neg hs, hi]
      rfl

theorem posMin_first (x : Nat) (a1 a2 a3 : Option Nat) (h1 : ∀ o, a1 = some o → x ≤ o)
    (h2 : ∀ o, a2 = some o → x ≤ o) (h3 : ∀ o, a3 = some o → x ≤ o)
    (hex : a1 = some x ∨ a2 = some x ∨ a3 = some x) :
    posMin a1 (posMin a2 a3) = some x := by
  have e1 : ∀ o, a1 = some o → x ≤ o := h1
  rcases a1 with _ | v1 <;> rcases a2 with _ | v2 <;> rcases a3 with _ | v3 <;>
    simp only [posMin, Option.some.injEq, false_or, or_false, reduceCtorEq] at hex ⊢
  · exact hex
  · exact hex
  · have := h2 v2 rfl
    have := h3 v3 rfl
    omega
  · exact hex
  · have := h1 v1 rfl
    have := h3 v3 rfl
    omega
  · have := h1 v1 rfl
    have := h2 v2 rfl
    omega
  · have := h1 v1 rfl
    have := h2 v2 rfl
    have := h3 v3 rfl
    omega

/-- A tag of a name without brace that does not occur in a text is not found
before the tag that follows the text. -/
theorem find_piece_tag (k k' : Nat) (n n' t s : Bytes) (hk : isBlockTag [k] = true)
    (hn : braceFree n = true) (h : find (tagText k n) t = none) :
    find (tagText k n) (t ++ (tagText k' n' ++ s)) =
      (find (tagText k n) (tagText k' n' ++ s)).map (· + t.length) := by
  have hp : 123 ∉ n ++ [125, 125] := by
    have := ((braceFree_iff n).1 hn).1
    simp [this]
  rw [tagText_eq k n] at h ⊢
  rw [tagText_eq k' n']
  exact find_piece_shift k _ (blockTag_ne k hk).1 hp _ t h

/-- One iteration of `FindEndTag` when no open tag stands before the first close tag. -/
theorem findEndTagLoop_close (endTag o1 o2 o3 : Bytes) (fuel pos : Nat) (rest : Bytes)
    (e d : Nat) (hd : 1 ≤ d) (hne : rest ≠ []) (he : find endTag rest = some e)
    (h1 : ∀ o, find o1 rest = some o → e ≤ o) (h2 : ∀ o, find o2 rest = some o → e ≤ o)
    (h3 : ∀ o, find o3 rest = some o → e ≤ o) :
    findEndTagLoop endTag o1 o2 o3 (fuel + 1) pos rest d =
      if d = 1 then some (some (pos + e))
      else findEndTagLoop endTag o1 o2 o3 fuel (pos + (e + endTag.length))
        (rest.drop (e + endTag.length)) (d - 1) := by
  rw [findEndTagLoop, he]
  have hne' : rest.isEmpty = false := by cases rest <;> simp_all
  have hd0 : ¬ d = 0 := by omega
  have hd1 : (d - 1 = 0) ↔ d = 1 := by omega
  simp only [hne', Bool.false_eq_true, hd0, or_self, ↓reduceIte, hd1]
  have hge := posMin_ge e _ _ h1 (posMin_ge e _ _ h2 h3)
  cases hm : posMin (find o1 rest) (posMin (find o2 rest) (find o3 rest)) with
  | none => rfl
  | some o =>
    have := hge o hm
    simp only
    rw [if_neg (by omega)]

/-- One iteration of `FindEndTag` when an open tag stands before the first close tag. -/
theorem findEndTagLoop_open (endTag o1 o2 o3 : Bytes) (fuel pos : Nat) (rest : Bytes)
    (e o te d : Nat) (hd : 1 ≤ d) (hne : rest ≠ []) (he : find endTag rest = some e)
    (hmin : posMin (find o1 rest) (posMin (find o2 rest) (find o3 rest)) = some o)
    (hlt : o < e) (hte : find [125, 125] (rest.drop o) = some te) :
    findEndTagLoop endTag o1 o2 o3 (fuel + 1) pos rest d =
      findEndTagLoop endTag o1 o2 o3 fuel (pos + (o + te + 2)) (rest.drop (o + te + 2))
        (d + 1) := by
  rw [findEndTagLoop, he, hmin, str_close]
  have hne' : rest.isEmpty = false := by cases rest <;> simp_all
  have hd0 : ¬ d = 0 := by omega
  simp only [hne', Bool.false_eq_true, hd0, or_self, ↓reduceIte, hlt, hte]

theorem tagFree_iff (n t : Bytes) :
    tagFree n t = true ↔
      find (tagText 47 n) t = none ∧ find (tagText 35 n) t = none ∧
        find (tagText 63 n) t = none ∧ find (tagText 33 n) t = none := by
  unfold tagFree
  simp only [Bool.and_eq_true, Option.isNone_iff_eq_none]
  tauto

theorem tagText_ne_nil (k : Nat) (n : Bytes) : tagText k n ≠ [] := by
  simp [tagText_eq]

/-- The loop of `FindEndTag` over a well formed block body and the close tag
after it: at depth 1 it returns the place of that close tag, at a greater
depth it goes on behind it, one level up. -/
theorem findEndTagLoop_body (n : Bytes) (hn : braceFree n = true) :
    ∀ b : Body, b.wellFormed n = true → ∀ (fuel pos : Nat) (s : Bytes) (d : Nat), 1 ≤ d →
      b.iterations ≤ fuel →
      findEndTagLoop (tagText 47 n) (tagText 35 n) (tagText 63 n) (tagText 33 n) fuel pos
          (b.flatten n ++ (tagText 47 n ++ s)) d =
        if d = 1 then some (some (pos + (b.flatten n).length))
        else findEndTagLoop (tagText 47 n) (tagText 35 n) (tagText 63 n) (tagText 33 n)
          (fuel - b.iterations) (pos + ((b.flatten n).length + (tagText 47 n).length)) s (d - 1)
  | .plain t, hw, fuel, pos, s, d, hd, hf => by
    simp only [Body.wellFormed] at hw
    obtain ⟨f0, f1, f2, f3⟩ := (tagFree_iff n t).1 hw
    simp only [Body.iterations] at hf ⊢
    obtain ⟨fuel', rfl⟩ := exists_add_one fuel (by omega)
    simp only [Body.flatten]
    have he : find (tagText 47 n) (t ++ (tagText 47 n ++ s)) = some t.length := by
      rw [find_piece_tag 47 47 n n t s rfl hn f0, find_self _ _ (tagText_ne_nil _ _)]
      simp
    have hne : t ++ (tagText 47 n ++ s) ≠ [] := by simp [tagText_eq]
    rw [findEndTagLoop_close _ _ _ _ fuel' pos _ t.length d hd hne he
      (find_map_ge _ _ _ _ (find_piece_tag 35 47 n n t s rfl hn f1))
      (find_map_ge _ _ _ _ (find_piece_tag 63 47 n n t s rfl hn f2))
      (find_map_ge _ _ _ _ (find_piece_tag 33 47 n n t s rfl hn f3))]
    have hdrop : (t ++ (tagText 47 n ++ s)).drop (t.length + (tagText 47 n).length) = s := by
      rw [← List.append_assoc, ← List.length_append, List.drop_left]
    rw [hdrop, Nat.add_sub_cancel]
  | .block t k inner restB, hw, fuel, pos, s, d, hd, hf => by
    simp only [Body.wellFormed, Bool.and_eq_true, Bool.or_eq_true, beq_iff_eq] at hw
    obtain ⟨⟨⟨hw0, hk⟩, hwi⟩, hwr⟩ := hw
    obtain ⟨f0, f1, f2, f3⟩ := (tagFree_iff n t).1 hw0
    have hkb : isBlockTag [k] = true := by
      rcases hk with (h | h) | h <;> subst h <;> rfl
    have hk47 : k ≠ 47 := by rcases hk with (h | h) | h <;> subst h <;> decide
    simp only [Body.iterations] at hf ⊢
    obtain ⟨fuel', rfl⟩ := exists_add_one fuel (by omega)
    simp only [Body.flatten, List.append_assoc]
    generalize hZ : inner.flatten n ++ (tagText 47 n ++ (restB.flatten n ++ (tagText 47 n ++ s)))
      = Z
    -- the first close tag stands behind the open tag
    obtain ⟨i, hi, _⟩ := find_append_some (tagText 47 n)
      (restB.flatten n ++ (tagText 47 n ++ s)) (inner.flatten n)
    rw [hZ] at hi
    have he : find (tagText 47 n) (t ++ (tagText k n ++ Z)) =
        some (i + (tagText k n).length + t.length) := by
      have h2 := find_tag_shift 47 k (n ++ [125, 125]) n Z rfl hkb hk47 hn
      rw [← tagText_eq] at h2
      rw [find_piece_tag 47 k n n t Z rfl hn f0, h2, hi]
      rfl
    have hopen : ∀ j, isBlockTag [j] = true → find (tagText j n) t = none →
        ∀ o, find (tagText j n) (t ++ (tagText k n ++ Z)) = some o → t.length ≤ o :=
      fun j hj hfree => find_map_ge _ _ _ _ (find_piece_tag j k n n t Z hj hn hfree)
    have hself : find (tagText k n) (t ++ (tagText k n ++ Z)) = some t.length := by
      have hfree : find (tagText k n) t = none := by
        rcases hk with (h | h) | h <;> subst h <;> assumption
      rw [find_piece_tag k k n n t Z hkb hn hfree, find_self _ _ (tagText_ne_nil _ _)]
      simp
    have hmin : posMin (find (tagText 35 n) (t ++ (tagText k n ++ Z)))
        (posMin (find (tagText 63 n) (t ++ (tagText k n ++ Z)))
          (find (tagText 33 n) (t ++ (tagText k n ++ Z)))) = some t.length := by
      apply posMin_first _ _ _ _ (hopen 35 rfl f1) (hopen 63 rfl f2) (hopen 33 rfl f3)
      rcases hk with (h | h) | h <;> subst h
      · exact Or.inl hself
      · exact Or.inr (Or.inl hself)
      · exact Or.inr (Or.inr hself)
    have hte : find [125, 125] ((t ++ (tagText k n ++ Z)).drop t.length) =
        some (n.length + 3) := by
      rw [List.drop_left, find_close_tag k n Z hkb hn]
    have hne : t ++ (tagText k n ++ Z) ≠ [] := by simp [tagText_eq]
    rw [findEndTagLoop_open _ _ _ _ fuel' pos _ _ t.length (n.length + 3) d hd hne he hmin
      (by rw [tagText_length]; omega) hte]
    have hdrop : (t ++ (tagText k n ++ Z)).drop (t.length + (n.length + 3) + 2) = Z := by
      have e : t.length + (n.length + 3) + 2 = (t ++ tagText k n).length := by
        rw [List.length_append, tagText_length]
        omega
      rw [e, ← List.append_assoc, List.drop_left]
    rw [hdrop, ← hZ,
      findEndTagLoop_body n hn inner hwi fuel' _ _ (d + 1) (by omega) (by omega),
      if_neg (by omega), Nat.add_sub_cancel,
      findEndTagLoop_body n hn restB hwr (fuel' - inner.iterations) _ s d hd (by omega)]
    simp only [List.length_append, tagText_length]
    by_cases hd1 : d = 1
    · simp only [hd1, ↓reduceIte, Option.some.injEq]
      omega
    · simp only [hd1, ↓reduceIte]
      congr 1
      · omega
      · omega

theorem iterations_le (n : Bytes) : ∀ b : Body, b.iterations ≤ (b.flatten n).length + 1
  | .plain _ => by simp [Body.iterations]
  | .block t k inner restB => by
    have h1 := iterations_le n inner
    have h2 := iterations_le n restB
    simp only [Body.iterations, Body.flatten, List.length_append, tagText_length]
    omega

/-- C15. Depth tracking pairs tags correctly: for every tag name `n` without
brace, every block body `B` in which the blocks of name `n` (open tags of the
kinds `#`, `?`, `!`, close tags `{{/n}}`) are properly nested, and all texts
`X` and `R`, `FindEndTag` started at the beginning of `B` in `X B {{/n}} R`
returns the offset of the close tag that follows `B`. -/
theorem findEndTag_pairs_nested_blocks (n X R : Bytes) (b : Body) (hn : braceFree n = true)
    (hb : b.wellFormed n = true) :
    FindEndTag (X ++ (b.flatten n ++ (tagText 47 n ++ R))) X.length n =
      some (some (X.length + (b.flatten n).length)) := by
  unfold FindEndTag
  rw [endTag_eq, openTag1_eq, openTag2_eq, openTag3_eq, List.drop_left,
    findEndTagLoop_body n hn b hb _ X.length R 1 (Nat.le_refl 1) (by
      have := iterations_le n b
      simp only [List.length_append]
      omega)]
  rfl

/-- C15 at a block that holds a block of the same name: in
`a{{?c}}b{{/c}}c{{/c}}d` the close tag of the outer block is at offset 15,
the close tag of the nested block at offset 8. -/
theorem findEndTag_pairs_nested_blocks_witness :
    braceFree (str "c") = true ∧
      (Body.block (str "a") 63 (Body.plain (str "b")) (Body.plain (str "c"))).wellFormed
        (str "c") = true ∧
      FindEndTag (str "a\x7b\x7b?c\x7d\x7db\x7b\x7b/c\x7d\x7dc\x7b\x7b/c\x7d\x7dd") 0 (str "c") =
        some (some 15) :=
  ⟨by decide, by decide,
    findEndTag_pairs_nested_blocks (str "c") [] (str "d")
      (Body.block (str "a") 63 (Body.plain (str "b")) (Body.plain (str "c")))
      (by decide) (by decide)⟩

end SimpleTemplate

/-! ## Percent-decoding of what is no escape -/

/-- C29, the code at inputs where `%` is followed by two characters that
are not both hexadecimal digits: `strtol` accepts a sign or a blank before
the digits and consumes both characters, so `UrlDecode` decodes `%+1` and
`% 1` to the byte 1 and `%-1` to the byte 255 instead of copying them. -/
theorem urlDecode_decodes_signed_escape :
    UrlDecode (str "%+1") = [1] ∧ UrlDecode (str "% 1") = [1] ∧ UrlDecode (str "%-1") = [255] ∧
      UrlDecode (str "a%+1b") = [97, 1, 98] := by
  decide

namespace SimpleTemplate

/-- C27, amended. A value substituted at top level is data: for every
template made of a literal text, one plain variable marker and a literal
text, and every value bound to the name of the marker, whatever it contains,
`Render` returns the two literal texts with the value between them,
unchanged. -/
theorem render_top_level_value_verbatim (t : SimpleTemplate) (lit0 name lit1 v : Bytes)
    (fuel : Nat) (h0 : hasOpen lit0 = false) (h0' : lit0.getLast? ≠ some 123)
    (hn : braceFree name = true) (hb : isBlockTag (Trim name) = false)
    (h1 : hasOpen lit1 = false) (hv : mapFind (Trim name) t.m_variables = some v)
    (ht : t.m_template = lit0 ++ markerText name ++ lit1) :
    Render (fuel + 1) t = some (lit0 ++ v ++ lit1, t) := by
  obtain ⟨tpl, vars, arrays, conds, provider, err⟩ := t
  simp only at ht hv
  subst ht
  have hp : plainPieces [(lit0, name)] = true :=
    (plainPieces_cons lit0 name []).2 ⟨h0, h0', hn, hb, rfl⟩
  have h := RenderInternal_pieces
    { m_template := lit0 ++ markerText name ++ lit1, m_variables := vars, m_arrays := arrays,
      m_conditions := conds, m_partialProvider := provider, m_lastError := err }
    fuel vars err [(lit0, name)] lit1 hp h1
  simp only [piecesText, substPieces, hv, Option.getD_some] at h
  unfold Render
  simp only
  rw [h]

/-- C27 at top level: the value `{{x}}` of `v` appears unchanged in the
output of `v={{v}}.`, although `x` is bound. -/
theorem render_top_level_value_verbatim_witness :
    hasOpen (str "v=") = false ∧ (str "v=").getLast? ≠ some 123 ∧ braceFree (str "v") = true ∧
      isBlockTag (Trim (str "v")) = false ∧ hasOpen (str ".") = false ∧
      Render 1 topLevelValueTemplate =
        some (str "v=\x7b\x7bx\x7d\x7d.", topLevelValueTemplate) :=
  ⟨by decide, by decide, by decide, by decide, by decide,
    render_top_level_value_verbatim topLevelValueTemplate (str "v=") (str "v") (str ".")
      (str "\x7b\x7bx\x7d\x7d") 0 (by decide) (by decide) (by decide) (by decide) (by decide)
      (by decide) (by decide)⟩

/-- C27, counterexample. The item value of `v` is the marker text `{{x}}`;
inside the array block `{{#a}}{{v}}{{/a}}` it does not appear unchanged in
the output: the variables pass of the enclosing level substitutes it, and
`Render` returns the value `X!` of `x`. -/
theorem array_item_value_is_interpreted :
    markerValueTemplate.m_arrays = [(str "a", [[(str "v", str "\x7b\x7bx\x7d\x7d")]])] ∧
      (Render 2 markerValueTemplate).map Prod.fst = some (str "X!") ∧
      (Render 3 markerValueTemplate).map Prod.fst = some (str "X!") := by
  refine ⟨by decide, by decide, by decide⟩

end SimpleTemplate

namespace SimpleTemplate

theorem drop_length_lt (rest : Bytes) (k : Nat) (hk : 1 ≤ k) (hne : rest.isEmpty = false) :
    (rest.drop k).length < rest.length := by
  have : 0 < rest.length := by
    cases rest with
    | nil => simp at hne
    | cons c cs => simp
  rw [List.length_drop]
  omega

/-- The loop of `FindEndTag` ends: every iteration moves on by at least one character. -/
theorem findEndTagLoop_isSome (endTag o1 o2 o3 : Bytes) (hE : 1 ≤ endTag.length) :
    ∀ (fuel pos : Nat) (rest : Bytes) (depth : Nat), rest.length < fuel →
      (findEndTagLoop endTag o1 o2 o3 fuel pos rest depth).isSome = true
  | 0, _, _, _, h => absurd h (by omega)
  | fuel + 1, pos, rest, depth, h => by
    rw [findEndTagLoop]
    by_cases h0 : rest.isEmpty = true ∨ depth = 0
    · rw [if_pos h0]
      rfl
    · rw [if_neg h0]
      have hne : rest.isEmpty = false := by
        cases hr : rest.isEmpty
        · rfl
        · exact absurd (Or.inl hr) h0
      cases find endTag rest with
      | none => rfl
      | some nextEnd =>
        have hfound : (if depth - 1 = 0 then some (some (pos + nextEnd))
            else findEndTagLoop endTag o1 o2 o3 fuel (pos + (nextEnd + endTag.length))
              (rest.drop (nextEnd + endTag.length)) (depth - 1)).isSome = true := by
          split
          · rfl
          · exact findEndTagLoop_isSome endTag o1 o2 o3 hE fuel _ _ _ (by
              have := drop_length_lt rest (nextEnd + endTag.length) (by omega) hne
              omega)
        simp only
        cases posMin (find o1 rest) (posMin (find o2 rest) (find o3 rest)) with
        | none => exact hfound
        | some nextOpen =>
          simp only
          by_cases hlt : nextOpen < nextEnd
          · rw [if_pos hlt]
            cases find (str "\x7d\x7d") (rest.drop nextOpen) with
            | none =>
              simp only
              apply findEndTagLoop_isSome endTag o1 o2 o3 hE fuel
              have := drop_length_lt rest (nextOpen + 4) (by omega) hne
              omega
            | some tagEnd =>
              simp only
              apply findEndTagLoop_isSome endTag o1 o2 o3 hE fuel
              have := drop_length_lt rest (nextOpen + tagEnd + 2) (by omega) hne
              omega
          · rw [if_neg hlt]
            exact hfound

theorem FindEndTag_isSome (text : Bytes) (startPos : Nat) (tagName : Bytes) :
    (FindEndTag text startPos tagName).isSome = true := by
  unfold FindEndTag
  apply findEndTagLoop_isSome
  · rw [endTag_eq, tagText_length]
    omega
  · rw [List.length_drop]
    omega

end SimpleTemplate

namespace SimpleTemplate

theorem processVariablesLoop_isSome (vars : StrMap) :
    ∀ (fuel : Nat) (rest result : Bytes), rest.length < fuel →
      (processVariablesLoop vars fuel rest result).isSome = true
  | 0, _, _, h => absurd h (by omega)
  | fuel + 1, rest, result, h => by
    rw [processVariablesLoop]
    by_cases h0 : rest.isEmpty = true
    · rw [if_pos h0]
      rfl
    · rw [if_neg h0]
      have hne : rest.isEmpty = false := by
        cases hr : rest.isEmpty
        · rfl
        · exact absurd hr h0
      cases find (str "\x7b\x7b") rest with
      | none => rfl
      | some start =>
        simp only
        cases find (str "\x7d\x7d") (rest.drop start) with
        | none => rfl
        | some tagLen =>
          simp only
          have hlt : (rest.drop (start + tagLen + 2)).length < fuel := by
            have := drop_length_lt rest (start + tagLen + 2) (by omega) hne
            omega
          split
          · exact processVariablesLoop_isSome vars fuel _ _ hlt
          · exact processVariablesLoop_isSome vars fuel _ _ hlt

theorem isSome_cases (a : Option (Bytes × Bytes)) (h : a.isSome = true) :
    ∃ x e, a = some (x, e) := by
  cases a with
  | none => simp at h
  | some p => exact ⟨p.1, p.2, rfl⟩

theorem renderItems_isSome (render : Renderer) (hr : ∀ x v e, (render x v e).isSome = true)
    (B : Bytes) (ctx : StrMap) (size : Nat) :
    ∀ (items : List StrMap) (i : Nat) (result err : Bytes),
      (renderItems render B ctx size items i result err).isSome = true
  | [], _, _, _ => rfl
  | item :: items, i, result, err => by
    rw [renderItems]
    obtain ⟨x, e, hx⟩ := isSome_cases _ (hr B
      (mapInsert (str "_last") (if i = size - 1 then str "true" else [])
        (mapInsert (str "_first") (if i = 0 then str "true" else [])
          (mapInsert (str "_index1") (JsonBuilder.decimal (i + 1))
            (mapInsert (str "_index") (JsonBuilder.decimal i)
              (item.foldl (fun m kv => mapInsert kv.1 kv.2 m) ctx))))) err)
    rw [hx]
    exact renderItems_isSome render hr B ctx size items (i + 1) _ e

theorem processPartialsLoop_isSome (provider : Bytes → Bytes) (render : Renderer)
    (hr : ∀ x v e, (render x v e).isSome = true) (ctx : StrMap) :
    ∀ (fuel : Nat) (rest result err : Bytes), rest.length < fuel →
      (processPartialsLoop provider render ctx fuel rest result err).isSome = true
  | 0, _, _, _, h => absurd h (by omega)
  | fuel + 1, rest, result, err, h => by
    rw [processPartialsLoop]
    by_cases h0 : rest.isEmpty = true
    · rw [if_pos h0]
      rfl
    · rw [if_neg h0]
      have hne : rest.isEmpty = false := by
        cases hr : rest.isEmpty
        · rfl
        · exact absurd hr h0
      cases find (str "\x7b\x7b>") rest with
      | none => rfl
      | some start =>
        simp only
        cases find (str "\x7d\x7d") (rest.drop start) with
        | none => rfl
        | some tagLen =>
          simp only
          have hlt : (rest.drop (start + tagLen + 2)).length < fuel := by
            have := drop_length_lt rest (start + tagLen + 2) (by omega) hne
            omega
          by_cases hc : (provider (Trim ((rest.drop (start + 3)).take (tagLen - 3)))).isEmpty = true
          · simp only [hc, Bool.not_true, Bool.false_eq_true, ↓reduceIte]
            exact processPartialsLoop_isSome provider render hr ctx fuel _ _ _ hlt
          · simp only [hc, Bool.not_false, ↓reduceIte]
            obtain ⟨x, e, hx⟩ := isSome_cases _
              (hr (provider (Trim ((rest.drop (start + 3)).take (tagLen - 3)))) ctx err)
            rw [hx]
            exact processPartialsLoop_isSome provider render hr ctx fuel _ _ _ hlt

theorem processArraysLoop_isSome (t : SimpleTemplate) (render : Renderer)
    (hr : ∀ x v e, (render x v e).isSome = true) (ctx : StrMap) :
    ∀ (fuel : Nat) (rest result err : Bytes), rest.length < fuel →
      (processArraysLoop t render ctx fuel rest result err).isSome = true
  | 0, _, _, _, h => absurd h (by omega)
  | fuel + 1, rest, result, err, h => by
    rw [processArraysLoop]
    by_cases h0 : rest.isEmpty = true
    · rw [if_pos h0]
      rfl
    · rw [if_neg h0]
      have hne : rest.isEmpty = false := by
        cases hr : rest.isEmpty
        · rfl
        · exact absurd hr h0
      have hlen : 0 < rest.length := by
        cases rest with
        | nil => simp at hne
        | cons c cs => simp
      cases find (str "\x7b\x7b#") rest with
      | none => rfl
      | some start =>
        simp only
        cases find (str "\x7d\x7d") (rest.drop start) with
        | none => rfl
        | some tagLen =>
          simp only
          have hfe := FindEndTag_isSome rest (start + tagLen + 2)
            (Trim ((rest.drop (start + 3)).take (tagLen - 3)))
          cases hf : FindEndTag rest (start + tagLen + 2)
              (Trim ((rest.drop (start + 3)).take (tagLen - 3))) with
          | none => rw [hf] at hfe; simp at hfe
          | some r =>
            cases r with
            | none => rfl
            | some blockEnd =>
              simp only
              have hnext : ∀ (res e : Bytes), (processArraysLoop t render ctx fuel
                  (rest.drop (match find (str "\x7d\x7d") (rest.drop blockEnd) with
                    | some endTagPos => blockEnd + endTagPos + 2
                    | none => rest.length)) res e).isSome = true := by
                intro res e
                apply processArraysLoop_isSome t render hr ctx fuel
                cases find (str "\x7d\x7d") (rest.drop blockEnd) with
                | none =>
                  simp only [List.drop_length, List.length_nil]
                  omega
                | some endTagPos =>
                  simp only
                  have := drop_length_lt rest (blockEnd + endTagPos + 2) (by omega) hne
                  omega
              cases assocFind (Trim ((rest.drop (start + 3)).take (tagLen - 3))) t.m_arrays with
              | none => exact hnext _ _
              | some items =>
                simp only
                by_cases hi : items.isEmpty = true
                · simp only [hi, ↓reduceIte]
                  exact hnext _ _
                · simp only [hi, Bool.false_eq_true, ↓reduceIte]
                  obtain ⟨x, e, hx⟩ := isSome_cases _ (renderItems_isSome render hr
                    ((rest.drop (start + tagLen + 2)).take (blockEnd - (start + tagLen + 2)))
                    ctx items.length items 0 (result ++ rest.take start) err)
                  rw [hx]
                  exact hnext _ _

theorem processConditionsLoop_isSome (t : SimpleTemplate) (render : Renderer)
    (hr : ∀ x v e, (render x v e).isSome = true) (ctx : StrMap) (negated : Bool) :
    ∀ (fuel : Nat) (rest done err : Bytes), rest.length < fuel →
      (processConditionsLoop t render ctx negated fuel rest done err).isSome = true
  | 0, _, _, _, h => absurd h (by omega)
  | fuel + 1, rest, done, err, h => by
    rw [processConditionsLoop]
    by_cases h0 : rest.isEmpty = true
    · rw [if_pos h0]
      rfl
    · rw [if_neg h0]
      have hne : rest.isEmpty = false := by
        cases hr : rest.isEmpty
        · rfl
        · exact absurd hr h0
      have hlen : 0 < rest.length := by
        cases rest with
        | nil => simp at hne
        | cons c cs => simp
      cases find (if negated then str "\x7b\x7b!" else str "\x7b\x7b?") rest with
      | none => rfl
      | some start =>
        simp only
        cases find (str "\x7d\x7d") (rest.drop start) with
        | none => rfl
        | some tagLen =>
          simp only
          have hfe := FindEndTag_isSome rest (start + tagLen + 2)
            (Trim ((rest.drop (start + 3)).take (tagLen - 3)))
          cases hf : FindEndTag rest (start + tagLen + 2)
              (Trim ((rest.drop (start + 3)).take (tagLen - 3))) with
          | none => rw [hf] at hfe; simp at hfe
          | some r =>
            cases r with
            | none =>
              simp only
              apply processConditionsLoop_isSome t render hr ctx negated fuel
              have := drop_length_lt rest (start + tagLen + 2) (by omega) hne
              omega
            | some blockEnd =>
              simp only
              have hnext : ∀ (res e : Bytes), (processConditionsLoop t render ctx negated fuel
                  (rest.drop (match find (str "\x7d\x7d") (rest.drop blockEnd) with
                    | some endTagEnd => blockEnd + endTagEnd + 2
                    | none => rest.length)) res e).isSome = true := by
                intro res e
                apply processConditionsLoop_isSome t render hr ctx negated fuel
                cases find (str "\x7d\x7d") (rest.drop blockEnd) with
                | none =>
                  simp only [List.drop_length, List.length_nil]
                  omega
                | some endTagEnd =>
                  simp only
                  have := drop_length_lt rest (blockEnd + endTagEnd + 2) (by omega) hne
                  omega
              split
              · obtain ⟨x, e, hx⟩ := isSome_cases _ (hr
                  ((rest.drop (start + tagLen + 2)).take (blockEnd - (start + tagLen + 2)))
                  ctx err)
                rw [hx]
                exact hnext _ _
              · exact hnext _ _

/-- The passes end when the nested calls end: for every renderer that
returns on every call, one round of the four passes over a text returns;
each loop moves on by at least one character per iteration, so the
iterations given to it suffice. -/
theorem renderPasses_isSome (t : SimpleTemplate) (render : Renderer)
    (text : Bytes) (vars : StrMap) (err : Bytes)
    (hr : ∀ x v e, (render x v e).isSome = true) :
    (renderPasses t render text vars err).isSome = true := by
  unfold renderPasses
  have hpart : (ProcessPartials t render text vars err).isSome = true := by
    unfold ProcessPartials
    cases t.m_partialProvider with
    | none => rfl
    | some provider =>
      exact processPartialsLoop_isSome provider render hr vars _ _ _ _ (Nat.lt_succ_self _)
  obtain ⟨x1, e1, h1⟩ := isSome_cases _ hpart
  rw [h1]
  simp only
  obtain ⟨x2, e2, h2⟩ := isSome_cases _
    (processArraysLoop_isSome t render hr vars (x1.length + 1) x1 [] e1 (Nat.lt_succ_self _))
  unfold ProcessArrays
  rw [h2]
  simp only
  obtain ⟨x3, e3, h3⟩ := isSome_cases _
    (processConditionsLoop_isSome t render hr vars false (x2.length + 1) x2 [] e2
      (Nat.lt_succ_self _))
  obtain ⟨x4, e4, h4⟩ := isSome_cases _
    (processConditionsLoop_isSome t render hr vars true (x3.length + 1) x3 [] e3
      (Nat.lt_succ_self _))
  unfold ProcessConditions
  rw [h3]
  simp only
  rw [h4]
  simp only
  have h5 := processVariablesLoop_isSome vars (x4.length + 1) x4 [] (Nat.lt_succ_self _)
  unfold ProcessVariables
  cases h6 : processVariablesLoop vars (x4.length + 1) x4 [] with
  | none => rw [h6] at h5; simp at h5
  | some r => rfl

end SimpleTemplate

namespace SimpleTemplate

theorem inertValues_iff (vars : StrMap) :
    inertValues vars = true ↔ ∀ kv ∈ vars, braceFree kv.2 = true := by
  unfold inertValues
  rw [List.all_eq_true]

end SimpleTemplate

/-! ## Faults of the handler -/

theorem Parse_true_nonempty (data : Bytes) (request : HttpRequest)
    (h : Parse data = (true, request)) : data.isEmpty = false := by
  cases data with
  | nil => simp [Parse] at h
  | cons c cs => rfl

theorem SendError_fields (r : HttpResponse) (code : Int) (message : Bytes) :
    (r.SendError code message).m_statusCode = code ∧
      (r.SendError code message).m_statusReason = HttpResponse.GetStatusText code ∧
      ∃ before after, (r.SendError code message).m_body = before ++ message ++ after := by
  refine ⟨rfl, ?_, ?_⟩
  · simp [HttpResponse.SendError, HttpResponse.SetBody, HttpResponse.SetContentType,
      HttpResponse.SetHeader, HttpResponse.SetStatus]
  · refine ⟨str "<!DOCTYPE html>\n" ++ str "<html>\n" ++
      str "<head><title>" ++ JsonBuilder.decimal code ++ str " " ++
        HttpResponse.GetStatusText code ++ str "</title></head>\n" ++
      str "<body>\n" ++
      str "<h1>" ++ JsonBuilder.decimal code ++ str " " ++ HttpResponse.GetStatusText code ++
        str "</h1>\n" ++ str "<p>",
      str "</p>\n" ++ str "<hr>\n" ++ str "<p><small>AppleWin Debug Server</small></p>\n" ++
        str "</body>\n" ++ str "</html>\n", ?_⟩
    simp [HttpResponse.SendError, HttpResponse.SetBody, List.append_assoc]

/-- C23. Handler faults become a server-error response: for every request
that `ReadRequest` returned, that parses and whose method is not `OPTIONS`,
if the handler throws a `std::exception` with the message `m`, `HandleClient`
sends one response and closes the connection (nothing is thrown further);
the response has status 500 with the reason `Internal Server Error`, the
content type of HTML and a body that contains `Internal error: ` followed by
`m`. -/
theorem handler_fault_becomes_server_error (handler : RequestHandler) (now data m : Bytes)
    (events : List RecvEvent) (request : HttpRequest) (resp : HttpResponse)
    (hread : ReadRequest (64 * 1024) (2 ^ 64 - 1) (2 ^ 64) events [] = .ok data)
    (hparse : Parse data = (true, request))
    (hopt : request.m_method ≠ str "OPTIONS")
    (hthrow : handler request ((HttpResponse.new.EnableCORS (str "*")).DisableCache) =
      .threwStd m resp) :
    ∃ sent : HttpResponse,
      HandleClient (some handler) now events =
          .ok [.SendResponse (sent.Build now), .CloseSocket] ∧
        sent.m_statusCode = 500 ∧ sent.m_statusReason = str "Internal Server Error" ∧
        mapFind (str "Content-Type") sent.m_headers = some (str "text/html; charset=utf-8") ∧
        (∃ before after, sent.m_body = before ++ (str "Internal error: " ++ m) ++ after) ∧
        ∃ rest, sent.Build now = str "HTTP/1.1 500 Internal Server Error\r\n" ++ rest := by
  refine ⟨resp.SendError 500 (str "Internal error: " ++ m), ?_, rfl, ?_, ?_, ?_, ?_⟩
  · rw [HandleClient_of_read (some handler) now events data hread]
    unfold handleRequestData
    rw [Parse_true_nonempty data request hparse, hparse]
    simp only [Bool.false_eq_true, ↓reduceIte, hopt, hthrow]
  · exact (SendError_fields resp 500 _).2.1
  · simp only [HttpResponse.SendError, HttpResponse.SetBody, HttpResponse.SetContentType,
      HttpResponse.SetHeader, mapFind_mapInsert, ↓reduceIte]
  · exact (SendError_fields resp 500 _).2.2
  · have hreason : (resp.SendError 500 (str "Internal error: " ++ m)).m_statusReason =
        str "Internal Server Error" := (SendError_fields resp 500 _).2.1
    have hcode : (resp.SendError 500 (str "Internal error: " ++ m)).m_statusCode = 500 := rfl
    refine ⟨encodeHeaders (responseFields (resp.SendError 500 (str "Internal error: " ++ m)) now)
      ++ str "\r\n" ++ (resp.SendError 500 (str "Internal error: " ++ m)).m_body, ?_⟩
    rw [Build_eq, hreason, hcode]
    have hd : str "HTTP/1.1 " ++ JsonBuilder.decimal 500 ++ str " " ++
        str "Internal Server Error" ++ str "\r\n" =
        str "HTTP/1.1 500 Internal Server Error\r\n" := by decide
    rw [← hd]
    simp only [List.append_assoc]

/-- C23 at a handler that throws `boom`. -/
theorem handler_fault_becomes_server_error_witness :
    ReadRequest (64 * 1024) (2 ^ 64 - 1) (2 ^ 64) [.received (str "GET /x HTTP/1.1\r\n\r\n")] [] =
        .ok (str "GET /x HTTP/1.1\r\n\r\n") ∧
      (Parse (str "GET /x HTTP/1.1\r\n\r\n")).1 = true ∧
      ∃ sent : HttpResponse,
        HandleClient (some throwingHandler) (str "T")
            [.received (str "GET /x HTTP/1.1\r\n\r\n")] =
          .ok [.SendResponse (sent.Build (str "T")), .CloseSocket] ∧ sent.m_statusCode = 500 :=
  ⟨by rfl, by decide,
    (handler_fault_becomes_server_error throwingHandler (str "T") (str "GET /x HTTP/1.1\r\n\r\n")
      (str "boom") [.received (str "GET /x HTTP/1.1\r\n\r\n")]
      (Parse (str "GET /x HTTP/1.1\r\n\r\n")).2
      ((HttpResponse.new.EnableCORS (str "*")).DisableCache) (by rfl) (by decide) (by decide)
      rfl).elim
      (fun sent h => ⟨sent, h.1, h.2.1⟩)⟩

/-! ## Protocol errors -/

/-- C21, the code at a request whose `Content-Length` is no number:
`std::stoul` throws `std::invalid_argument` in `ReadRequest`, nothing catches
it, and no response is sent; with a number the request is served. -/
theorem content_length_text_throws :
    HandleClient (some okHandler) (str "T")
        [.received (str "GET / HTTP/1.1\r\nContent-Length: abc\r\n\r\n")] =
      .error .invalid_argument ∧
    HandleClient (some okHandler) (str "T")
        [.received (str "GET / HTTP/1.1\r\nContent-Length: 99999999999999999999\r\n\r\n")] =
      .error .out_of_range ∧
    (HandleClient (some okHandler) (str "T")
        [.received (str "GET / HTTP/1.1\r\nContent-Length: 0\r\n\r\n")]).toOption.isSome = true := by
  refine ⟨by rfl, by rfl, by rfl⟩

/-! ## Start and stop of the listeners -/

theorem startServer_eq (name : Bytes) (lastError : Bytes) (init : InitOutcome) :
    DebugServerManager.startServer name none lastError init =
      match init with
      | .ok socket =>
        ({ m_serverSocket := some socket, m_running := true, m_acceptThread := true },
          lastError, true, [.listening socket])
      | .failed error =>
        ({ m_lastError := error.getD [] }, lastError ++ failureLine name (.failed error), false,
          []) := by
  cases init with
  | ok socket => rfl
  | failed error =>
    simp [DebugServerManager.startServer, HttpServer.Start, failureLine, destroyServer]

theorem destroyServer_fresh (s : HttpServer) (h : s.m_running = false) :
    destroyServer (some s) = [] := by
  simp [destroyServer, HttpServer.Stop, h]

theorem HttpServer_Stop_not_running (s : HttpServer) (h : s.m_running = false) :
    s.Stop = (s, []) := by
  simp [HttpServer.Stop, h]

theorem HttpServer_Stop_running (s : HttpServer) : s.Stop.1.m_running = false := by
  unfold HttpServer.Stop HttpServer.CleanupSocket
  cases h : s.m_running <;> cases hs : s.m_serverSocket <;> simp [h]

/-- The effects of stopping the server a step of `Start` made. -/
theorem stopServer_started (name lastError : Bytes) (init : InitOutcome) :
    DebugServerManager.stopServer
        (some (DebugServerManager.startServer name none lastError init).1) =
      (startedSockets [init]).map ServerEffect.closed := by
  rw [startServer_eq]
  cases init with
  | ok socket =>
    simp [DebugServerManager.stopServer, HttpServer.Stop, HttpServer.CleanupSocket,
      destroyServer, startedSockets]
  | failed error =>
    simp [DebugServerManager.stopServer, HttpServer.Stop, destroyServer, startedSockets]

/-- C24. Group start is all-or-nothing: for an enabled manager that is not
running and holds no listener, and every combination of start outcomes of the
four listeners, `Start` returns true exactly when all four started; then the
group is running with four running listeners. If a listener fails, `Start`
returns false, no listener is left (every socket that was left listening has
been closed), `m_running` is false and `m_lastError` holds one line for each
listener that failed, in the order machine, CPU, IO, memory. -/
theorem start_is_all_or_nothing (m : DebugServerManager) (machine cpu io memory : InitOutcome)
    (he : m.m_enabled = true) (hr : m.m_running = false)
    (hs : m.m_machineServer = none ∧ m.m_cpuServer = none ∧ m.m_ioServer = none ∧
      m.m_memoryServer = none) :
    ((m.Start machine cpu io memory).1 = true ↔
        machine.started = true ∧ cpu.started = true ∧ io.started = true ∧
          memory.started = true) ∧
      ((m.Start machine cpu io memory).1 = true →
        (m.Start machine cpu io memory).2.1.m_running = true ∧
          (m.Start machine cpu io memory).2.1.m_lastError = [] ∧
          (∀ s ∈ [(m.Start machine cpu io memory).2.1.m_machineServer,
              (m.Start machine cpu io memory).2.1.m_cpuServer,
              (m.Start machine cpu io memory).2.1.m_ioServer,
              (m.Start machine cpu io memory).2.1.m_memoryServer],
            ∃ server : HttpServer, s = some server ∧ server.m_running = true)) ∧
      ((m.Start machine cpu io memory).1 = false →
        (m.Start machine cpu io memory).2.1.m_running = false ∧
          (m.Start machine cpu io memory).2.1.m_machineServer = none ∧
          (m.Start machine cpu io memory).2.1.m_cpuServer = none ∧
          (m.Start machine cpu io memory).2.1.m_ioServer = none ∧
          (m.Start machine cpu io memory).2.1.m_memoryServer = none ∧
          (m.Start machine cpu io memory).2.1.m_lastError =
            failureLine (str "Machine") machine ++ failureLine (str "CPU") cpu ++
              failureLine (str "IO") io ++ failureLine (str "Memory") memory ∧
          (m.Start machine cpu io memory).2.2 =
            (startedSockets [machine, cpu, io, memory]).map ServerEffect.listening ++
              (startedSockets [machine, cpu, io, memory]).map ServerEffect.closed ++
              [.printed (str "AppleWin Debug Server stopped.")]) := by
  obtain ⟨enabled, bind, running, lastError, s1, s2, s3, s4⟩ := m
  simp only at he hr hs
  obtain ⟨h1, h2, h3, h4⟩ := hs
  subst he hr h1 h2 h3 h4
  cases machine <;> cases cpu <;> cases io <;> cases memory <;>
    simp [DebugServerManager.Start, DebugServerManager.startServer, DebugServerManager.Stop,
      DebugServerManager.stopServer, HttpServer.Start, HttpServer.Stop,
      HttpServer.CleanupSocket, destroyServer, InitOutcome.started, failureLine,
      startedSockets]

/-- C24 when the second listener cannot bind its port: the sockets 3, 5
and 6 of the other listeners are closed again and the group is not running. -/
theorem start_is_all_or_nothing_witness :
    ({} : DebugServerManager).m_enabled = true ∧ ({} : DebugServerManager).m_running = false ∧
      (({} : DebugServerManager).Start (.ok 3)
          (.failed (some (str "Failed to bind socket: 98"))) (.ok 5) (.ok 6)).1 = false ∧
      (({} : DebugServerManager).Start (.ok 3)
          (.failed (some (str "Failed to bind socket: 98"))) (.ok 5) (.ok 6)).2.1.m_lastError =
        str "CPU server failed: Failed to bind socket: 98\n" ∧
      (({} : DebugServerManager).Start (.ok 3)
          (.failed (some (str "Failed to bind socket: 98"))) (.ok 5) (.ok 6)).2.2 =
        [.listening 3, .listening 5, .listening 6, .closed 3, .closed 5, .closed 6,
          .printed (str "AppleWin Debug Server stopped.")] :=
  ⟨rfl, rfl, by decide,
    ((start_is_all_or_nothing {} (.ok 3) (.failed (some (str "Failed to bind socket: 98")))
      (.ok 5) (.ok 6) rfl rfl ⟨rfl, rfl, rfl, rfl⟩).2.2 (by decide)).2.2.2.2.2.1,
    ((start_is_all_or_nothing {} (.ok 3) (.failed (some (str "Failed to bind socket: 98")))
      (.ok 5) (.ok 6) rfl rfl ⟨rfl, rfl, rfl, rfl⟩).2.2 (by decide)).2.2.2.2.2.2⟩

/-- C25. `Stop` is idempotent and safe without `Start`: for a listener and
for the group, `Stop` on an object that is not running (and, for the group,
holds no listener) changes nothing and has no effect, and a second `Stop`
after a first one changes nothing and has no effect. -/
theorem stop_is_idempotent :
    (∀ s : HttpServer, s.m_running = false → s.Stop = (s, [])) ∧
      (∀ s : HttpServer, s.Stop.1.Stop = (s.Stop.1, [])) ∧
      (∀ m : DebugServerManager, m.m_running = false → m.m_machineServer = none →
        m.m_cpuServer = none → m.m_ioServer = none → m.m_memoryServer = none →
        m.Stop = (m, [])) ∧
      (∀ m : DebugServerManager, m.Stop.1.Stop = (m.Stop.1, [])) := by
  have hgroup : ∀ m : DebugServerManager, m.m_running = false → m.m_machineServer = none →
      m.m_cpuServer = none → m.m_ioServer = none → m.m_memoryServer = none →
      m.Stop = (m, []) := by
    intro m h0 h1 h2 h3 h4
    simp [DebugServerManager.Stop, h0, h1, h2, h3, h4]
  refine ⟨HttpServer_Stop_not_running, fun s => ?_, hgroup, fun m => ?_⟩
  · exact HttpServer_Stop_not_running _ (HttpServer_Stop_running s)
  · apply hgroup <;>
      · unfold DebugServerManager.Stop
        split <;> simp_all

/-! ## Debug stream lines -/

/-- C26, the code at the error text `a"b`: `GetErrorMessage` writes the text
between the quotes of `val` as it is, so the quote inside it ends the string
early and the line is no JSON object; the text between the quotes is no
content of a JSON string, and the line differs from the one `FormatLine`
gives for the value `EscapeJson` makes of the text, which decodes to `a"b`. -/
theorem error_message_is_not_escaped :
    DebugStreamProvider.GetErrorMessage (str "a\"b") =
        str "\x7b\"emu\":\"apple\",\"cat\":\"sys\",\"sec\":\"error\",\"fld\":\"msg\",\"val\":\"a\"b\"\x7d" ∧
      jsonUnescape (str "a\"b") = none ∧
      DebugStreamProvider.FormatLine (str "sys") (str "error") (str "msg")
          (DebugStreamProvider.EscapeJson (str "a\"b")) [] =
        str "\x7b\"emu\":\"apple\",\"cat\":\"sys\",\"sec\":\"error\",\"fld\":\"msg\",\"val\":\"a\\\"b\"\x7d" ∧
      jsonUnescape (DebugStreamProvider.EscapeJson (str "a\"b")) = some (str "a\"b") := by
  refine ⟨by decide, by decide, by decide, by decide⟩

/-! ## Disassembly -/

/-- C30, the code at the start address 0xFFFF with the opcode of a relative
branch there: the two guarded reads of the operand are skipped, but the code
for relative branches reads `mem[addr + 1]` without the guard, at index
0x10000, outside the 64 KiB image. -/
theorem disassembly_reads_past_the_image :
    (CPUInfoProvider.GetDisassembly branchAtTop 0 (fun _ => false) 0xFFFF 1).2 =
        [0xFFFF, 0x10000] ∧
      ((CPUInfoProvider.GetDisassembly branchAtTop 0 (fun _ => false) 0xFFFF 1).1.map
        (fun line => (line.mnemonic, line.bytes))) = [(str "BPL", str "10")] := by
  refine ⟨by decide, by decide⟩

namespace SimpleTemplate

theorem skippable_iff (k : Nat) (pre : Bytes) :
    skippable k pre = true ↔ find [123, 123, k] pre = none ∧ pre.getLast? ≠ some 123 := by
  unfold skippable
  rw [Bool.and_eq_true, Option.isNone_iff_eq_none, bne_iff_ne]

theorem getLast?_append_ne (a b : Bytes) (ha : a.getLast? ≠ some 123)
    (hb : b.getLast? ≠ some 123) : (a ++ b).getLast? ≠ some 123 := by
  cases b with
  | nil => rw [List.append_nil]; exact ha
  | cons c cs =>
    rw [List.getLast?_append_of_ne_nil _ (by simp)]
    exact hb

theorem find_none_append (k : Nat) (b : Bytes) (hb : find [123, 123, k] b = none) :
    ∀ a : Bytes, find [123, 123, k] a = none → a.getLast? ≠ some 123 →
      find [123, 123, k] (a ++ b) = none
  | [], _, _ => hb
  | [x], _, h2 => by
    have hx : x ≠ 123 := fun e => h2 (by rw [e]; rfl)
    show find [123, 123, k] (x :: b) = none
    rw [find]
    simp only [startsWith, beq_iff_eq]
    rw [if_neg (by intro h; simp at h; exact hx h.1.symm), hb]
    rfl
  | [x, y], h1, h2 => by
    have hy : y ≠ 123 := fun e => h2 (by rw [e]; rfl)
    have ih := find_none_append k b hb [y] (by
      rw [find] at h1
      split at h1
      · simp at h1
      · simpa using h1) (by simpa using hy)
    show find [123, 123, k] (x :: ([y] ++ b)) = none
    rw [find, ih]
    have : startsWith [123, 123, k] (x :: ([y] ++ b)) = false := by
      simp only [List.singleton_append, startsWith, beq_iff_eq, Bool.and_eq_false_iff,
        beq_eq_false_iff_ne, ne_eq]
      right; left
      exact fun e => hy e.symm
    rw [this]
    rfl
  | x :: y :: z :: a, h1, h2 => by
    rw [find] at h1
    have hs : startsWith [123, 123, k] (x :: y :: z :: a) = false := by
      cases h : startsWith [123, 123, k] (x :: y :: z :: a)
      · rfl
      · rw [h] at h1; simp at h1
    rw [hs] at h1
    have h1' : find [123, 123, k] (y :: z :: a) = none := by simpa using h1
    have ih := find_none_append k b hb (y :: z :: a) h1' (by
      rw [List.getLast?_cons_cons] at h2
      exact h2)
    show find [123, 123, k] (x :: ((y :: z :: a) ++ b)) = none
    rw [find, ih]
    have : startsWith [123, 123, k] (x :: ((y :: z :: a) ++ b)) = false := by
      simp only [List.cons_append, startsWith, Bool.and_true] at hs ⊢
      exact hs
    rw [this]
    rfl

theorem skippable_append (k : Nat) (a b : Bytes) (ha : skippable k a = true)
    (hb : skippable k b = true) : skippable k (a ++ b) = true := by
  rw [skippable_iff] at ha hb ⊢
  exact ⟨find_none_append k b hb.1 a ha.1 ha.2, getLast?_append_ne a b ha.2 hb.2⟩

theorem skippable_nil (k : Nat) : skippable k [] = true := rfl

/-- After a text that is passed over, the tag start is found at the tag. -/
theorem find_after_skippable (k : Nat) (hk : k ≠ 123) (pre name s : Bytes)
    (h : skippable k pre = true) :
    find [123, 123, k] (pre ++ (tagText k name ++ s)) = some pre.length := by
  rw [skippable_iff] at h
  rw [tagText_eq]
  have := find_piece_shift k [] hk (by simp) (k :: (name ++ [125, 125]) ++ s) pre h.1
  simp only [List.cons_append] at this ⊢
  rw [this]
  simp [find, startsWith]

theorem find_skippable_last (k : Nat) (hk : k ≠ 123) (pre last : Bytes)
    (h : skippable k pre = true) (hl : hasOpen last = false) :
    find [123, 123, k] (pre ++ last) = none := by
  rw [skippable_iff] at h
  exact find_none_append k last (find_tagstart_none k hk last hl) pre h.1 h.2

theorem okLiteral_iff (lit : Bytes) :
    okLiteral lit = true ↔ hasOpen lit = false ∧ lit.getLast? ≠ some 123 := by
  unfold okLiteral
  rw [Bool.and_eq_true, Bool.not_eq_true', bne_iff_ne]

theorem skippable_literal (k : Nat) (hk : k ≠ 123) (lit : Bytes) (h : okLiteral lit = true) :
    skippable k lit = true := by
  rw [okLiteral_iff] at h
  rw [skippable_iff]
  exact ⟨find_tagstart_none k hk lit h.1, h.2⟩

theorem hasOpen_braceFree (X : Bytes) (h : braceFree X = true) : hasOpen X = false := by
  have h1 := ((braceFree_iff X).1 h).1
  induction X with
  | nil => rfl
  | cons a rest ih =>
    cases rest with
    | nil => rfl
    | cons b rest' =>
      have ha : a ≠ 123 := fun e => h1 (by simp [e])
      unfold hasOpen
      rw [ih (by
        rw [braceFree_iff] at h ⊢
        exact ⟨fun e => h.1 (List.mem_cons_of_mem _ e), fun e => h.2 (List.mem_cons_of_mem _ e)⟩)
        (fun e => h1 (List.mem_cons_of_mem _ e))]
      simp [ha]

theorem okLiteral_braceFree (X : Bytes) (h : braceFree X = true) : okLiteral X = true := by
  rw [okLiteral_iff]
  refine ⟨hasOpen_braceFree X h, ?_⟩
  intro e
  have : (123 : Nat) ∈ X := List.mem_of_mem_getLast? (by rw [e]; rfl)
  exact ((braceFree_iff X).1 h).1 this

theorem skippable_markerText (k : Nat) (hk' : k ≠ 125) (body : Bytes)
    (hb : braceFree body = true) (hh : body.head? ≠ some k) :
    skippable k (markerText body) = true := by
  rw [skippable_iff]
  constructor
  · have := find_marker_shift k [] body [] hk' hb hh
    rw [List.append_nil] at this
    rw [this]
    rfl
  · have e : markerText body = (123 :: 123 :: body) ++ [125, 125] := rfl
    rw [e, List.getLast?_append_of_ne_nil _ (by simp)]
    simp


theorem hasOpen_append (b : Bytes) (hb : hasOpen b = false) :
    ∀ a : Bytes, hasOpen a = false → a.getLast? ≠ some 123 → hasOpen (a ++ b) = false
  | [], _, _ => hb
  | [x], _, h2 => by
    have hx : x ≠ 123 := fun e => h2 (by rw [e]; rfl)
    cases b with
    | nil => rfl
    | cons y b' =>
      show hasOpen (x :: y :: b') = false
      unfold hasOpen
      rw [hb]
      simp [hx]
  | x :: y :: a, h1, h2 => by
    unfold hasOpen at h1
    rw [Bool.or_eq_false_iff] at h1
    have ih := hasOpen_append b hb (y :: a) h1.2 (by
      rw [List.getLast?_cons_cons] at h2
      exact h2)
    show hasOpen (x :: y :: (a ++ b)) = false
    unfold hasOpen
    rw [Bool.or_eq_false_iff]
    exact ⟨h1.1, ih⟩

theorem okLiteral_append (a b : Bytes) (ha : okLiteral a = true) (hb : okLiteral b = true) :
    okLiteral (a ++ b) = true := by
  rw [okLiteral_iff] at ha hb ⊢
  exact ⟨hasOpen_append b hb.1 a ha.1 ha.2, getLast?_append_ne a b ha.2 hb.2⟩

theorem mem_Trim (x : Nat) (s : Bytes) (h : x ∈ Trim s) : x ∈ s := by
  unfold Trim at h
  rw [List.mem_reverse] at h
  have h1 := (List.dropWhile_sublist _).subset h
  rw [List.mem_reverse] at h1
  exact (List.dropWhile_sublist _).subset h1

theorem braceFree_Trim (s : Bytes) (h : braceFree s = true) : braceFree (Trim s) = true := by
  rw [braceFree_iff] at h ⊢
  exact ⟨fun e => h.1 (mem_Trim _ _ e), fun e => h.2 (mem_Trim _ _ e)⟩

theorem startsWith_append_left (p q : Bytes) :
    ∀ s : Bytes, startsWith (p ++ q) s = true → startsWith p s = true := by
  induction p with
  | nil => intro s _; cases s <;> rfl
  | cons c p ih =>
    intro s h
    cases s with
    | nil => simp [startsWith] at h
    | cons x s =>
      simp only [List.cons_append, startsWith, Bool.and_eq_true] at h ⊢
      exact ⟨h.1, ih s h.2⟩

/-- A pattern whose beginning does not occur does not occur. -/
theorem find_none_of_start (p q : Bytes) (hp : p ≠ []) :
    ∀ s : Bytes, find p s = none → find (p ++ q) s = none
  | [], _ => by
    rw [find]
    cases p with
    | nil => exact absurd rfl hp
    | cons c p => rfl
  | x :: s, h => by
    rw [find] at h ⊢
    by_cases hs : startsWith p (x :: s) = true
    · rw [if_pos hs] at h
      simp at h
    · rw [if_neg hs] at h
      have hs' : ¬ startsWith (p ++ q) (x :: s) = true :=
        fun e => hs (startsWith_append_left p q _ e)
      rw [if_neg hs']
      have : find p s = none := by
        cases hf : find p s with
        | none => rfl
        | some i => rw [hf] at h; simp at h
      rw [find_none_of_start p q hp s this]
      rfl

theorem startsWith_other_name (s : Bytes) :
    ∀ m c : Bytes, braceFree m = true → braceFree c = true → m ≠ c →
      startsWith (m ++ [125, 125]) (c ++ 125 :: 125 :: s) = false
  | [], [], _, _, h => absurd rfl h
  | [], y :: c, _, hc, _ => by
    have hy : y ≠ 125 := fun e => ((braceFree_iff _).1 hc).2 (by simp [e])
    simp only [List.nil_append, List.cons_append, startsWith, Bool.and_eq_false_iff,
      beq_eq_false_iff_ne, ne_eq]
    left
    exact fun e => hy e.symm
  | x :: m, [], hm, _, _ => by
    have hx : x ≠ 125 := fun e => ((braceFree_iff _).1 hm).2 (by simp [e])
    simp only [List.cons_append, List.nil_append, startsWith, Bool.and_eq_false_iff,
      beq_eq_false_iff_ne, ne_eq]
    left
    exact hx
  | x :: m, y :: c, hm, hc, h => by
    simp only [List.cons_append, startsWith, Bool.and_eq_false_iff, beq_eq_false_iff_ne, ne_eq]
    by_cases hxy : x = y
    · right
      subst hxy
      have hm' : braceFree m = true := by
        rw [braceFree_iff] at hm ⊢
        exact ⟨fun e => hm.1 (List.mem_cons_of_mem _ e), fun e => hm.2 (List.mem_cons_of_mem _ e)⟩
      have hc' : braceFree c = true := by
        rw [braceFree_iff] at hc ⊢
        exact ⟨fun e => hc.1 (List.mem_cons_of_mem _ e), fun e => hc.2 (List.mem_cons_of_mem _ e)⟩
      exact startsWith_other_name s m c hm' hc' (fun e => h (by rw [e]))
    · left
      exact hxy

/-- The close tag of a name is not found in the close tag of another name. -/
theorem find_endtag_other (m c s : Bytes) (hm : braceFree m = true) (hc : braceFree c = true)
    (hne : m ≠ c) :
    find (tagText 47 m) (tagText 47 c ++ s) =
      (find (tagText 47 m) s).map (· + (tagText 47 c).length) := by
  have hbody : (123 : Nat) ∉ 47 :: (c ++ [125, 125]) := by
    simp only [List.mem_cons, List.mem_append, List.mem_singleton, not_or]
    exact ⟨by decide, ((braceFree_iff _).1 hc).1, by decide, by decide, List.not_mem_nil _⟩
  have h3 := find_skip_no_brace (123 :: 47 :: (m ++ [125, 125])) (47 :: (c ++ [125, 125])) s hbody
  have e : tagText 47 c ++ s = 123 :: 123 :: ((47 :: (c ++ [125, 125])) ++ s) := by
    simp [tagText_eq]
  have hsw := startsWith_other_name s m c hm hc hne
  rw [e, tagText_eq, find, find, h3]
  have h0 : startsWith (123 :: 123 :: 47 :: (m ++ [125, 125]))
      (123 :: 123 :: ((47 :: (c ++ [125, 125])) ++ s)) = false := by
    simp only [List.cons_append, List.append_assoc, startsWith, beq_self_eq_true, Bool.true_and]
    simpa using hsw
  have h1 : startsWith (123 :: 123 :: 47 :: (m ++ [125, 125]))
      (123 :: ((47 :: (c ++ [125, 125])) ++ s)) = false := by
    simp [startsWith]
  rw [h0, h1]
  cases find (123 :: 123 :: 47 :: (m ++ [125, 125])) s with
  | none => rfl
  | some i =>
    simp only [Bool.false_eq_true, ↓reduceIte, Option.map_some', List.length_cons,
      List.length_append, List.length_nil, Option.some.injEq, tagText_length]
    omega


theorem openTag_wellFormed (k : Nat) (name : Bytes)
    (h : (Part.openTag k name).wellFormed = true) :
    (k = 35 ∨ k = 63 ∨ k = 33) ∧ isBlockTag [k] = true ∧ braceFree name = true ∧
      braceFree (k :: name) = true := by
  simp only [Part.wellFormed, Bool.and_eq_true, Bool.or_eq_true, beq_iff_eq] at h
  have hk : isBlockTag [k] = true := by
    rcases h.1 with (h1 | h1) | h1 <;> subst h1 <;> rfl
  refine ⟨?_, hk, h.2, braceFree_cons k name hk h.2⟩
  rcases h.1 with (h1 | h1) | h1
  · exact Or.inl h1
  · exact Or.inr (Or.inl h1)
  · exact Or.inr (Or.inr h1)

theorem block_wellFormed (k : Nat) (c X : Bytes) (h : (Part.block k c X).wellFormed = true) :
    (k = 35 ∨ k = 63 ∨ k = 33) ∧ isBlockTag [k] = true ∧ braceFree c = true ∧ Trim c = c ∧
      braceFree X = true := by
  simp only [Part.wellFormed, Bool.and_eq_true, Bool.or_eq_true, beq_iff_eq] at h
  obtain ⟨⟨⟨hk, hc⟩, ht⟩, hX⟩ := h
  have hk' : k = 35 ∨ k = 63 ∨ k = 33 := by
    rcases hk with (h1 | h1) | h1
    · exact Or.inl h1
    · exact Or.inr (Or.inl h1)
    · exact Or.inr (Or.inr h1)
  refine ⟨hk', ?_, hc, ht, hX⟩
  rcases hk' with h1 | h1 | h1 <;> subst h1 <;> rfl

theorem marker_wellFormed (name : Bytes) (h : (Part.marker name).wellFormed = true) :
    braceFree name = true ∧ isBlockTag (Trim name) = false := by
  simp only [Part.wellFormed, Bool.and_eq_true, Bool.not_eq_true'] at h
  exact h

theorem skippable_marker (k : Nat) (hk : isBlockTag [k] = true) (name : Bytes)
    (h : (Part.marker name).wellFormed = true) : skippable k (markerText name) = true := by
  obtain ⟨h1, h2⟩ := marker_wellFormed name h
  exact skippable_markerText k (blockTag_ne k hk).2 name h1 (head_ne_of_not_blockTag name k hk h2)

theorem skippable_openTag (k : Nat) (hk : isBlockTag [k] = true) (k' : Nat) (name : Bytes)
    (h : (Part.openTag k' name).wellFormed = true) (hne : k' ≠ k) :
    skippable k (tagText k' name) = true := by
  obtain ⟨_, _, _, h4⟩ := openTag_wellFormed k' name h
  exact skippable_markerText k (blockTag_ne k hk).2 (k' :: name) h4
    (by simp only [List.head?_cons, ne_eq, Option.some.injEq]; exact hne)

theorem skippable_tag (k : Nat) (hk : isBlockTag [k] = true) (k' : Nat) (name : Bytes)
    (hk' : isBlockTag [k'] = true) (hn : braceFree name = true) (hne : k' ≠ k) :
    skippable k (tagText k' name) = true :=
  skippable_markerText k (blockTag_ne k hk).2 (k' :: name) (braceFree_cons k' name hk' hn)
    (by simp only [List.head?_cons, ne_eq, Option.some.injEq]; exact hne)

/-- A loop passes over a closed block of another kind. -/
theorem skippable_block (j : Nat) (hj : isBlockTag [j] = true) (h47 : j ≠ 47) (k : Nat)
    (c X : Bytes) (h : (Part.block k c X).wellFormed = true) (hne : k ≠ j) :
    skippable j (tagText k c ++ (X ++ tagText 47 c)) = true := by
  obtain ⟨_, hk, h1, _, h3⟩ := block_wellFormed k c X h
  apply skippable_append
  · exact skippable_tag j hj k c hk h1 hne
  · apply skippable_append
    · exact skippable_literal j (blockTag_ne j hj).1 X (okLiteral_braceFree X h3)
    · exact skippable_tag j hj 47 c rfl h1 (fun e => h47 e.symm)

theorem braceFree_append (a b : Bytes) (ha : braceFree a = true) (hb : braceFree b = true) :
    braceFree (a ++ b) = true := by
  unfold braceFree at ha hb ⊢
  rw [List.all_append, ha, hb]
  rfl

theorem braceFree_copies (X : Bytes) (h : braceFree X = true) :
    ∀ n : Nat, braceFree (copies X n) = true
  | 0 => rfl
  | n + 1 => braceFree_append X _ h (braceFree_copies X h n)

theorem braceFree_blockValue (t : SimpleTemplate) (vars : StrMap) (k : Nat) (c X : Bytes)
    (h : braceFree X = true) : braceFree (blockValue t vars k c X) = true := by
  unfold blockValue
  by_cases h1 : k = 35
  · rw [if_pos h1]
    exact braceFree_copies X h _
  · rw [if_neg h1]
    by_cases h2 : k = 63
    · rw [if_pos h2]
      cases truth t.m_conditions vars c
      · rfl
      · exact h
    · rw [if_neg h2]
      cases truth t.m_conditions vars c
      · exact h
      · rfl

theorem okLiteral_blockValue (t : SimpleTemplate) (vars : StrMap) (k : Nat) (c X : Bytes)
    (h : (Part.block k c X).wellFormed = true) : okLiteral (blockValue t vars k c X) = true := by
  obtain ⟨_, _, _, _, h3⟩ := block_wellFormed k c X h
  exact okLiteral_braceFree _ (braceFree_blockValue t vars k c X h3)

theorem passOf_pos (k : Nat) : 1 ≤ passOf k := by
  unfold passOf
  split
  · omega
  · split <;> omega

theorem passOf_le (k : Nat) : passOf k ≤ 3 := by
  unfold passOf
  split
  · omega
  · split <;> omega

theorem staged_block_done (t : SimpleTemplate) (vars : StrMap) (s : Nat) (live : Bool)
    (k : Nat) (c X : Bytes) (h : passOf k ≤ s ∧ (k ≠ 35 ∨ live = true)) :
    Part.staged t vars s live (.block k c X) = blockValue t vars k c X := if_pos h

theorem staged_block_raw (t : SimpleTemplate) (vars : StrMap) (s : Nat) (live : Bool)
    (k : Nat) (c X : Bytes) (h : ¬ (passOf k ≤ s ∧ (k ≠ 35 ∨ live = true))) :
    Part.staged t vars s live (.block k c X) = tagText k c ++ (X ++ tagText 47 c) := if_neg h

theorem staged_zero (t : SimpleTemplate) (vars : StrMap) (live : Bool) (x : Part) :
    x.staged t vars 0 live = x.text := by
  cases x with
  | marker name => rfl
  | openTag k name => rfl
  | block k c X =>
    have := passOf_pos k
    exact staged_block_raw t vars 0 live k c X (fun h => absurd h.1 (by omega))

theorem stagedText_zero (t : SimpleTemplate) (vars : StrMap) (last : Bytes) :
    ∀ (ps : Parts) (live : Bool), stagedText t vars 0 live ps last = partsText ps last
  | [], _ => rfl
  | (lit, x) :: ps, live => by
    rw [stagedText, partsText, staged_zero, stagedText_zero t vars last ps]

theorem staged_one_false (t : SimpleTemplate) (vars : StrMap) (x : Part) :
    x.staged t vars 1 false = x.text := by
  cases x with
  | marker name => rfl
  | openTag k name => rfl
  | block k c X =>
    apply staged_block_raw
    rintro ⟨h1, h2⟩
    rcases h2 with h2 | h2
    · unfold passOf at h1
      rw [if_neg h2] at h1
      split at h1 <;> omega
    · exact absurd h2 (by decide)

theorem stagedText_one_false (t : SimpleTemplate) (vars : StrMap) (last : Bytes) :
    ∀ ps : Parts, stagedText t vars 1 false ps last = partsText ps last
  | [] => rfl
  | (lit, x) :: ps => by
    rw [stagedText, partsText, staged_one_false, Bool.false_and,
      stagedText_one_false t vars last ps]

theorem tagSafe_partText (x : Part) (s : Bytes) : tagSafe (x.text ++ s) = true := by
  cases x with
  | marker name => exact tagSafe_markerText _ _
  | openTag k name => exact tagSafe_tagText _ _ _
  | block k c X =>
    unfold Part.text
    rw [List.append_assoc]
    exact tagSafe_tagText _ _ _

/-- A pattern that starts with `{{` does not occur in a text without `{{`. -/
theorem find_pattern_none (k : Nat) (hk : k ≠ 123) (p s : Bytes) (h : hasOpen s = false) :
    find (123 :: 123 :: k :: p) s = none := by
  have := find_lit_shift k p s [] hk h rfl
  rw [List.append_nil] at this
  rw [this, find_nil _ (by simp)]
  rfl

/-- The close tag of a name that no closed block bears does not occur, at
any stage. -/
theorem find_close_staged_none (t : SimpleTemplate) (vars : StrMap) (s : Nat) (m : Bytes)
    (hm : braceFree m = true) (last : Bytes) (hl : hasOpen last = false) :
    ∀ (ps : Parts) (live : Bool) (carry : Bytes),
      (∀ p ∈ ps, okLiteral p.1 = true ∧ p.2.wellFormed = true) →
      m ∉ blockNames ps → okLiteral carry = true →
      find (tagText 47 m) (carry ++ stagedText t vars s live ps last) = none
  | [], _, carry, _, _, hc => by
    rw [okLiteral_iff] at hc
    rw [tagText_eq]
    exact find_pattern_none 47 (by decide) _ _ (hasOpen_append last hl carry hc.1 hc.2)
  | (lit, x) :: ps, live, carry, hw, hb, hc => by
    have hlit := (hw (lit, x) (List.mem_cons_self _ _)).1
    have hx := (hw (lit, x) (List.mem_cons_self _ _)).2
    have hw' : ∀ p ∈ ps, okLiteral p.1 = true ∧ p.2.wellFormed = true :=
      fun p hp => hw p (List.mem_cons_of_mem _ hp)
    have hcl := (okLiteral_iff _).1 (okLiteral_append carry lit hc hlit)
    have e : carry ++ stagedText t vars s live ((lit, x) :: ps) last =
        (carry ++ lit) ++ (x.staged t vars s live ++
          stagedText t vars s (live && !x.stops) ps last) := by
      rw [stagedText, List.append_assoc]
    have raw : x.staged t vars s live = x.text →
        find (tagText 47 m) (x.text ++ stagedText t vars s (live && !x.stops) ps last) = none →
        find (tagText 47 m) (carry ++ stagedText t vars s live ((lit, x) :: ps) last) = none := by
      intro hx' hf
      rw [tagText_eq] at hf ⊢
      rw [e, hx', find_lit_shift 47 (m ++ [125, 125]) _ _ (by decide) hcl.1
        (tagSafe_partText x _), hf]
      rfl
    cases x with
    | marker name =>
      obtain ⟨h1, h2⟩ := marker_wellFormed name hx
      have ih := find_close_staged_none t vars s m hm last hl ps (live && !(Part.marker name).stops)
        [] hw' (by simpa [blockNames] using hb) rfl
      rw [List.nil_append, tagText_eq] at ih
      apply raw rfl
      rw [tagText_eq, Part.text, find_marker_shift 47 _ name _ (by decide) h1
        (head_ne_of_not_blockTag name 47 rfl h2), ih]
      rfl
    | openTag k name =>
      obtain ⟨h1, h2, h3, _⟩ := openTag_wellFormed k name hx
      have ih := find_close_staged_none t vars s m hm last hl ps
        (live && !(Part.openTag k name).stops) [] hw' (by simpa [blockNames] using hb) rfl
      rw [List.nil_append, tagText_eq] at ih
      apply raw rfl
      rw [tagText_eq, Part.text, find_tag_shift 47 k _ name _ rfl h2
        (by rcases h1 with h | h | h <;> subst h <;> decide) h3, ih]
      rfl
    | block k c X =>
      obtain ⟨hk, hkb, h1, _, h3⟩ := block_wellFormed k c X hx
      have hmc : m ≠ c := by
        intro e
        apply hb
        rw [e]
        simp [blockNames]
      have hb' : m ∉ blockNames ps :=
        fun e => hb (by simp only [blockNames, List.mem_cons]; exact Or.inr e)
      by_cases hd : passOf k ≤ s ∧ (k ≠ 35 ∨ live = true)
      · rw [e, staged_block_done t vars s live k c X hd, ← List.append_assoc]
        exact find_close_staged_none t vars s m hm last hl ps _ _ hw' hb'
          (okLiteral_append _ _ (okLiteral_append carry lit hc hlit)
            (okLiteral_blockValue t vars k c X hx))
      · have ih := find_close_staged_none t vars s m hm last hl ps
          (live && !(Part.block k c X).stops) [] hw' hb' rfl
        rw [List.nil_append] at ih
        apply raw (staged_block_raw t vars s live k c X hd)
        have hend := find_endtag_other m c
          (stagedText t vars s (live && !(Part.block k c X).stops) ps last) hm h1 hmc
        rw [tagText_eq 47 m] at ih hend ⊢
        have e2 : (Part.block k c X).text ++
              stagedText t vars s (live && !(Part.block k c X).stops) ps last =
            tagText k c ++ (X ++ (tagText 47 c ++
              stagedText t vars s (live && !(Part.block k c X).stops) ps last)) := by
          simp [Part.text, List.append_assoc]
        rw [e2, find_tag_shift 47 k _ c _ rfl hkb
            (by rcases hk with h | h | h <;> subst h <;> decide) h1,
          find_lit_shift 47 _ X _ (by decide) (hasOpen_braceFree X h3) (tagSafe_tagText _ _ _),
          hend, ih]
        rfl

theorem FindEndTag_unclosed (X after m : Bytes) (h : find (tagText 47 m) after = none) :
    FindEndTag (X ++ after) X.length m = some none := by
  unfold FindEndTag
  rw [endTag_eq, List.drop_left]
  exact findEndTagLoop_none _ _ _ _ _ _ _ _ h

/-- No tag of a partial occurs in a template of parts. -/
theorem find_partial_parts (last : Bytes) (hl : hasOpen last = false) :
    ∀ (ps : Parts) (pre : Bytes),
      (∀ p ∈ ps, okLiteral p.1 = true ∧ p.2.wellFormed = true) → skippable 62 pre = true →
      find [123, 123, 62] (pre ++ partsText ps last) = none
  | [], pre, _, hpre => find_skippable_last 62 (by decide) pre last hpre hl
  | (lit, x) :: ps, pre, hw, hpre => by
    have hlit := (hw (lit, x) (List.mem_cons_self _ _)).1
    have hx := (hw (lit, x) (List.mem_cons_self _ _)).2
    have hw' : ∀ p ∈ ps, okLiteral p.1 = true ∧ p.2.wellFormed = true :=
      fun p hp => hw p (List.mem_cons_of_mem _ hp)
    have e : pre ++ partsText ((lit, x) :: ps) last =
        (pre ++ (lit ++ x.text)) ++ partsText ps last := by
      simp [partsText, List.append_assoc]
    rw [e]
    apply find_partial_parts last hl ps _ hw'
    apply skippable_append _ _ _ hpre
    apply skippable_append _ _ _ (skippable_literal 62 (by decide) lit hlit)
    cases x with
    | marker name => exact skippable_marker 62 rfl name hx
    | openTag k name =>
      obtain ⟨h1, _⟩ := openTag_wellFormed k name hx
      exact skippable_openTag 62 rfl k name hx (by rcases h1 with h | h | h <;> subst h <;> decide)
    | block k c X =>
      obtain ⟨h1, _⟩ := block_wellFormed k c X hx
      exact skippable_block 62 rfl (by decide) k c X hx
        (by rcases h1 with h | h | h <;> subst h <;> decide)

/-- The loop over the items of an array block around a literal text. -/
theorem renderItems_literal (render : Renderer) (X : Bytes) (ctx : StrMap) (size : Nat)
    (hr : ∀ v e, render X v e = some (X, e)) :
    ∀ (items : List StrMap) (i : Nat) (result err : Bytes),
      renderItems render X ctx size items i result err =
        some (result ++ copies X items.length, err)
  | [], _, _, _ => by simp [renderItems, copies]
  | item :: items, i, result, err => by
    rw [renderItems]
    simp only [hr]
    rw [renderItems_literal render X ctx size hr items (i + 1) _ err]
    simp [copies, List.append_assoc]

/-- The arrays pass over a template of parts: it renders the array blocks up
to the first open tag of kind `#`, records that tag and leaves the text from
it on as it is. -/
theorem processArraysLoop_parts (t : SimpleTemplate) (render : Renderer) (vars : StrMap)
    (last : Bytes) (hl : hasOpen last = false)
    (hr : ∀ X v e, braceFree X = true → render X v e = some (X, e)) :
    ∀ (ps : Parts) (pre : Bytes) (fuel : Nat) (result err : Bytes),
      (∀ p ∈ ps, okLiteral p.1 = true ∧ p.2.wellFormed = true) →
      (∀ n ∈ openNames ps, n ∉ blockNames ps) → skippable 35 pre = true →
      (pre ++ partsText ps last).length < fuel →
      processArraysLoop t render vars fuel (pre ++ partsText ps last) result err =
        some (result ++ (pre ++ stagedText t vars 1 true ps last), arrayError ps err)
  | _, _, 0, _, _, _, _, _, hf => absurd hf (by omega)
  | [], pre, fuel + 1, result, err, _, _, hpre, _ =>
    processArraysLoop_none t render vars fuel _ result err
      (find_skippable_last 35 (by decide) pre last hpre hl)
  | (lit, x) :: ps, pre, fuel + 1, result, err, hw, hu, hpre, hf => by
    have hlit := (hw (lit, x) (List.mem_cons_self _ _)).1
    have hx := (hw (lit, x) (List.mem_cons_self _ _)).2
    have hw' : ∀ p ∈ ps, okLiteral p.1 = true ∧ p.2.wellFormed = true :=
      fun p hp => hw p (List.mem_cons_of_mem _ hp)
    have hplit : skippable 35 (pre ++ lit) = true :=
      skippable_append _ _ _ hpre (skippable_literal 35 (by decide) lit hlit)
    have e : pre ++ partsText ((lit, x) :: ps) last =
        ((pre ++ lit) ++ x.text) ++ partsText ps last := by
      simp [partsText, List.append_assoc]
    have step : skippable 35 x.text = true → (∀ n ∈ openNames ps, n ∉ blockNames ps) →
        arrayError ((lit, x) :: ps) err = arrayError ps err →
        x.staged t vars 1 true = x.text → x.stops = false →
        processArraysLoop t render vars (fuel + 1) (pre ++ partsText ((lit, x) :: ps) last)
            result err =
          some (result ++ (pre ++ stagedText t vars 1 true ((lit, x) :: ps) last),
            arrayError ((lit, x) :: ps) err) := by
      intro hs hu' he hst hstop
      have e' : pre ++ stagedText t vars 1 true ((lit, x) :: ps) last =
          ((pre ++ lit) ++ x.text) ++ stagedText t vars 1 true ps last := by
        rw [stagedText, hst, hstop]
        simp [List.append_assoc]
      rw [e', he]
      have hf' : (((pre ++ lit) ++ x.text) ++ partsText ps last).length < fuel + 1 := by
        rw [← e]
        exact hf
      rw [e]
      exact processArraysLoop_parts t render vars last hl hr ps _ (fuel + 1) result err hw' hu'
        (skippable_append _ _ _ hplit hs) hf'
    cases x with
    | marker name =>
      exact step (skippable_marker 35 rfl name hx) (by simpa [openNames, blockNames] using hu) rfl
        rfl rfl
    | openTag k name =>
      obtain ⟨_, _, h3, _⟩ := openTag_wellFormed k name hx
      have hu' : ∀ n ∈ openNames ps, n ∉ blockNames ps := fun n hn hb =>
        hu n (by simp only [openNames, List.mem_cons]; exact Or.inr hn)
          (by simpa [blockNames] using hb)
      by_cases hk : k = 35
      · subst hk
        have e2 : pre ++ partsText ((lit, .openTag 35 name) :: ps) last =
            (pre ++ lit) ++ (tagText 35 name ++ partsText ps last) := by
          simp [partsText, Part.text, List.append_assoc]
        have hnb : Trim name ∉ blockNames ps := fun hb =>
          hu (Trim name) (by simp [openNames]) (by simpa [blockNames] using hb)
        have hnone := find_close_staged_none t vars 0 (Trim name) (braceFree_Trim name h3) last hl
          ps true [] hw' hnb rfl
        rw [List.nil_append, stagedText_zero] at hnone
        rw [e2, processArraysLoop_unclosed t render vars fuel (pre ++ lit) name
          (partsText ps last) result err h3
          (find_after_skippable 35 (by decide) _ name _ hplit)
          (FindEndTag_unclosed _ _ _ hnone)]
        have e3 : stagedText t vars 1 true ((lit, .openTag 35 name) :: ps) last =
            lit ++ (tagText 35 name ++ partsText ps last) := by
          rw [stagedText]
          simp only [Part.staged, Part.stops, beq_self_eq_true, Bool.not_true, Bool.and_false]
          rw [stagedText_one_false]
        rw [e3]
        simp [arrayError, unclosedError, List.append_assoc]
      · exact step (skippable_openTag 35 rfl k name hx hk) hu' (by simp [arrayError, hk]) rfl
          (by simp [Part.stops, hk])
    | block k c X =>
      obtain ⟨hk3, hkb, h1, h2, h3⟩ := block_wellFormed k c X hx
      have hu' : ∀ n ∈ openNames ps, n ∉ blockNames ps := fun n hn hb =>
        hu n (by simpa [openNames] using hn)
          (by simp only [blockNames, List.mem_cons]; exact Or.inr hb)
      by_cases hk : k = 35
      · subst hk
        have e2 : pre ++ partsText ((lit, .block 35 c X) :: ps) last =
            (pre ++ lit) ++ (tagText 35 c ++ (X ++ (tagText 47 c ++ partsText ps last))) := by
          simp [partsText, Part.text, List.append_assoc]
        have hstep := processArraysLoop_block t render vars fuel (pre ++ lit) c X
          (partsText ps last) result err h1 h2
          (find_after_skippable 35 (by decide) _ c _ hplit)
          (FindEndTag_pieces_closed ((pre ++ lit) ++ tagText 35 c) (partsText ps last) c [] X rfl
            (hasOpen_braceFree X h3))
        have hf' : ([] ++ partsText ps last).length < fuel := by
          rw [e2] at hf
          simp only [List.length_append, tagText_length, List.nil_append] at hf ⊢
          omega
        have ih := processArraysLoop_parts t render vars last hl hr ps [] fuel
          (result ++ (pre ++ lit) ++ copies X ((assocFind c t.m_arrays).getD []).length) err
          hw' hu' rfl hf'
        simp only [List.nil_append] at ih
        rw [e2, hstep, renderItems_literal render X vars _ (fun v e => hr X v e h3)]
        simp only [Option.some_bind]
        rw [ih]
        have e3 : stagedText t vars 1 true ((lit, .block 35 c X) :: ps) last =
            lit ++ (copies X ((assocFind c t.m_arrays).getD []).length ++
              stagedText t vars 1 true ps last) := by
          rw [stagedText, staged_block_done t vars 1 true 35 c X ⟨by decide, Or.inr rfl⟩]
          simp [blockValue, Part.stops]
        rw [e3]
        simp [arrayError, List.append_assoc]
      · exact step (skippable_block 35 rfl (by decide) k c X hx hk) hu' rfl
          (staged_block_raw t vars 1 true k c X (by
            rintro ⟨h4, _⟩
            unfold passOf at h4
            rw [if_neg hk] at h4
            split at h4 <;> omega)) rfl

/-- What the two loops of the conditions pass have in common. -/
theorem passOf_cases (negated : Bool) (K s : Nat) (hK : K = if negated then 33 else 63)
    (hs : s = if negated then 2 else 1) :
    isBlockTag [K] = true ∧ K ≠ 47 ∧ K ≠ 35 ∧ K ≠ 123 ∧ passOf K = s + 1 ∧
      (if negated then [123, 123, 33] else [123, 123, 63]) = [123, 123, K] ∧
      ((if negated then str "Unclosed negated condition block: "
        else str "Unclosed condition block: ") = unclosedError K) ∧
      (∀ k, (k = 35 ∨ k = 63 ∨ k = 33) → k ≠ K → (passOf k ≤ s + 1 ↔ passOf k ≤ s)) := by
  cases negated
  · simp only [Bool.false_eq_true, ↓reduceIte] at hK hs ⊢
    subst hK
    subst hs
    refine ⟨rfl, by decide, by decide, by decide, rfl, rfl, rfl, ?_⟩
    intro k hk hne
    rcases hk with h | h | h
    · subst h; decide
    · exact absurd h hne
    · subst h; decide
  · simp only [↓reduceIte] at hK hs ⊢
    subst hK
    subst hs
    refine ⟨rfl, by decide, by decide, by decide, rfl, rfl, rfl, ?_⟩
    intro k hk hne
    rcases hk with h | h | h
    · subst h; decide
    · subst h; decide
    · exact absurd h hne

theorem blockValue_cond (t : SimpleTemplate) (vars : StrMap) (negated : Bool) (K : Nat)
    (hK : K = if negated then 33 else 63) (c X : Bytes) :
    blockValue t vars K c X =
      if (truth t.m_conditions vars c != negated) = true then X else [] := by
  cases negated
  · simp only [Bool.false_eq_true, ↓reduceIte] at hK
    subst hK
    cases h : truth t.m_conditions vars c <;> simp [blockValue, h]
  · simp only [↓reduceIte] at hK
    subst hK
    cases h : truth t.m_conditions vars c <;> simp [blockValue, h]

/-- A loop of the conditions pass on the text the pass before it leaves: it
renders the closed blocks of its kind and records each open tag of its
kind. -/
theorem processConditionsLoop_parts (t : SimpleTemplate) (render : Renderer) (vars : StrMap)
    (last : Bytes) (hl : hasOpen last = false)
    (hr : ∀ X v e, braceFree X = true → render X v e = some (X, e))
    (negated : Bool) (K s : Nat) (hK : K = if negated then 33 else 63)
    (hs : s = if negated then 2 else 1) :
    ∀ (ps : Parts) (live : Bool) (pre : Bytes) (fuel : Nat) (done err : Bytes),
      (∀ p ∈ ps, okLiteral p.1 = true ∧ p.2.wellFormed = true) →
      (∀ n ∈ openNames ps, n ∉ blockNames ps) → skippable K pre = true →
      (pre ++ stagedText t vars s live ps last).length < fuel →
      processConditionsLoop t render vars negated fuel (pre ++ stagedText t vars s live ps last)
          done err =
        some (done ++ (pre ++ stagedText t vars (s + 1) live ps last), errorAfter K ps err)
  | _, _, _, 0, _, _, _, _, _, hf => absurd hf (by omega)
  | [], live, pre, fuel + 1, done, err, _, _, hpre, _ => by
    obtain ⟨_, _, _, hK123, _, hpat, _, _⟩ := passOf_cases negated K s hK hs
    exact processConditionsLoop_none t render vars negated fuel _ done err (by
      rw [hpat]
      exact find_skippable_last K hK123 pre last hpre hl)
  | (lit, x) :: ps, live, pre, fuel + 1, done, err, hw, hu, hpre, hf => by
    obtain ⟨hKb, hK47, hK35, hK123, hpass, _, herr, hother⟩ := passOf_cases negated K s hK hs
    have hlit := (hw (lit, x) (List.mem_cons_self _ _)).1
    have hx := (hw (lit, x) (List.mem_cons_self _ _)).2
    have hw' : ∀ p ∈ ps, okLiteral p.1 = true ∧ p.2.wellFormed = true :=
      fun p hp => hw p (List.mem_cons_of_mem _ hp)
    have hplit : skippable K (pre ++ lit) = true :=
      skippable_append _ _ _ hpre (skippable_literal K hK123 lit hlit)
    have e : pre ++ stagedText t vars s live ((lit, x) :: ps) last =
        ((pre ++ lit) ++ x.staged t vars s live) ++
          stagedText t vars s (live && !x.stops) ps last := by
      rw [stagedText]
      simp only [List.append_assoc]
    have step : skippable K (x.staged t vars s live) = true →
        x.staged t vars (s + 1) live = x.staged t vars s live →
        (∀ n ∈ openNames ps, n ∉ blockNames ps) →
        errorAfter K ((lit, x) :: ps) err = errorAfter K ps err →
        processConditionsLoop t render vars negated (fuel + 1)
            (pre ++ stagedText t vars s live ((lit, x) :: ps) last) done err =
          some (done ++ (pre ++ stagedText t vars (s + 1) live ((lit, x) :: ps) last),
            errorAfter K ((lit, x) :: ps) err) := by
      intro hsk hres hu' he
      have e' : pre ++ stagedText t vars (s + 1) live ((lit, x) :: ps) last =
          ((pre ++ lit) ++ x.staged t vars s live) ++
            stagedText t vars (s + 1) (live && !x.stops) ps last := by
        rw [stagedText, hres]
        simp only [List.append_assoc]
      have hf' : (((pre ++ lit) ++ x.staged t vars s live) ++
          stagedText t vars s (live && !x.stops) ps last).length < fuel + 1 := by
        rw [← e]
        exact hf
      rw [e', he, e]
      exact processConditionsLoop_parts t render vars last hl hr negated K s hK hs ps _ _
        (fuel + 1) done err hw' hu' (skippable_append _ _ _ hplit hsk) hf'
    cases x with
    | marker name =>
      exact step (skippable_marker K hKb name hx) rfl
        (by simpa [openNames, blockNames] using hu) rfl
    | openTag k name =>
      obtain ⟨_, _, h3, _⟩ := openTag_wellFormed k name hx
      have hu' : ∀ n ∈ openNames ps, n ∉ blockNames ps := fun n hn hb =>
        hu n (by simp only [openNames, List.mem_cons]; exact Or.inr hn)
          (by simpa [blockNames] using hb)
      by_cases hk : k = K
      · subst hk
        have e2 : pre ++ stagedText t vars s live ((lit, .openTag k name) :: ps) last =
            (pre ++ lit) ++ (tagText k name ++
              stagedText t vars s (live && !(Part.openTag k name).stops) ps last) := by
          rw [stagedText]
          simp only [Part.staged, List.append_assoc]
        have hnb : Trim name ∉ blockNames ps := fun hb =>
          hu (Trim name) (by simp [openNames]) (by simpa [blockNames] using hb)
        have hnone := find_close_staged_none t vars s (Trim name) (braceFree_Trim name h3) last hl
          ps (live && !(Part.openTag k name).stops) [] hw' hnb rfl
        rw [List.nil_append] at hnone
        have hf' : ([] ++ stagedText t vars s (live && !(Part.openTag k name).stops) ps
            last).length < fuel := by
          rw [e2] at hf
          simp only [List.length_append, tagText_length, List.nil_append] at hf ⊢
          omega
        have ih := processConditionsLoop_parts t render vars last hl hr negated k s hK hs ps
          (live && !(Part.openTag k name).stops) [] fuel
          (done ++ ((pre ++ lit) ++ tagText k name)) (unclosedError k ++ Trim name) hw' hu' rfl hf'
        simp only [List.nil_append] at ih
        rw [e2, processConditionsLoop_unclosed t render vars negated k hK fuel (pre ++ lit) name
          _ done err h3 (find_after_skippable k hK123 _ name _ hplit)
          (FindEndTag_unclosed _ _ _ hnone), herr, ih]
        have e3 : stagedText t vars (s + 1) live ((lit, .openTag k name) :: ps) last =
            lit ++ (tagText k name ++
              stagedText t vars (s + 1) (live && !(Part.openTag k name).stops) ps last) := by
          rw [stagedText]
          simp only [Part.staged]
        rw [e3]
        simp [errorAfter, List.append_assoc]
      · exact step (skippable_openTag K hKb k name hx hk) rfl hu' (by simp [errorAfter, hk])
    | block k c X =>
      obtain ⟨hk3, hkb, h1, h2, h3⟩ := block_wellFormed k c X hx
      have hu' : ∀ n ∈ openNames ps, n ∉ blockNames ps := fun n hn hb =>
        hu n (by simpa [openNames] using hn)
          (by simp only [blockNames, List.mem_cons]; exact Or.inr hb)
      have hstops : (live && !(Part.block k c X).stops) = live := by simp [Part.stops]
      by_cases hk : k = K
      · subst hk
        have hraw := staged_block_raw t vars s live k c X
          (fun h => absurd h.1 (by rw [hpass]; omega))
        have hdone := staged_block_done t vars (s + 1) live k c X
          ⟨by rw [hpass], Or.inl hK35⟩
        have e2 : pre ++ stagedText t vars s live ((lit, .block k c X) :: ps) last =
            (pre ++ lit) ++ (tagText k c ++ (X ++ (tagText 47 c ++
              stagedText t vars s live ps last))) := by
          rw [stagedText, hraw, hstops]
          simp only [List.append_assoc]
        have e3 : stagedText t vars (s + 1) live ((lit, .block k c X) :: ps) last =
            lit ++ ((if (truth t.m_conditions vars c != negated) = true then X else []) ++
              stagedText t vars (s + 1) live ps last) := by
          rw [stagedText, hdone, hstops, blockValue_cond t vars negated k hK]
        have hstep := processConditionsLoop_block t render vars negated k hK fuel (pre ++ lit) c X
          (stagedText t vars s live ps last) done err h1 h2
          (find_after_skippable k hK123 _ c _ hplit)
          (FindEndTag_pieces_closed ((pre ++ lit) ++ tagText k c) (stagedText t vars s live ps last)
            c [] X rfl (hasOpen_braceFree X h3))
        have hf' : ([] ++ stagedText t vars s live ps last).length < fuel := by
          rw [e2] at hf
          simp only [List.length_append, tagText_length, List.nil_append] at hf ⊢
          omega
        rw [e2, hstep, conditionValue_eq_truth, hr X vars err h3, e3]
        by_cases hv : (truth t.m_conditions vars c != negated) = true
        · have ih := processConditionsLoop_parts t render vars last hl hr negated k s hK hs ps
            live [] fuel (done ++ (pre ++ lit) ++ X) err hw' hu' rfl hf'
          simp only [List.nil_append] at ih
          rw [if_pos hv, if_pos hv]
          simp only
          rw [ih]
          simp [errorAfter, List.append_assoc]
        · have ih := processConditionsLoop_parts t render vars last hl hr negated k s hK hs ps
            live [] fuel (done ++ (pre ++ lit)) err hw' hu' rfl hf'
          simp only [List.nil_append] at ih
          rw [if_neg hv, if_neg hv, ih]
          simp [errorAfter, List.append_assoc]
      · by_cases hd : passOf k ≤ s ∧ (k ≠ 35 ∨ live = true)
        · have h1' := staged_block_done t vars s live k c X hd
          have h2' := staged_block_done t vars (s + 1) live k c X ⟨by omega, hd.2⟩
          exact step (by
              rw [h1']
              exact skippable_literal K hK123 _ (okLiteral_blockValue t vars k c X hx))
            (by rw [h1', h2']) hu' rfl
        · have h1' := staged_block_raw t vars s live k c X hd
          have h2' := staged_block_raw t vars (s + 1) live k c X
            (fun h => hd ⟨(hother k hk3 hk).1 h.1, h.2⟩)
          exact step (by
              rw [h1']
              exact skippable_block K hKb hK47 k c X hx hk)
            (by rw [h1', h2']) hu' rfl

theorem processVariablesLoop_literal (vars : StrMap) (fuel : Nat) (text result : Bytes)
    (h : hasOpen text = false) :
    processVariablesLoop vars (fuel + 1) text result = some (result ++ text) := by
  have := processVariablesLoop_pieces vars text h [] (fuel + 1) result rfl (by simp)
  simpa [piecesText, substPieces] using this

theorem blockTag_Trim_cons (k : Nat) (hk : isBlockTag [k] = true) (name : Bytes) :
    isBlockTag (Trim (k :: name)) = true := by
  obtain ⟨r, hr⟩ := Trim_cons_head k name (by
    simp only [isBlockTag, Bool.or_eq_true, beq_iff_eq] at hk
    rcases hk with (((hk | hk) | hk) | hk) | hk <;> subst hk <;> rfl)
  rw [hr]
  exact hk

/-- The variables pass on the text the conditions pass leaves: it
substitutes the markers and leaves the tags in place. -/
theorem processVariablesLoop_parts (t : SimpleTemplate) (vars : StrMap)
    (last : Bytes) (hl : hasOpen last = false) :
    ∀ (ps : Parts) (live : Bool) (carry : Bytes) (fuel : Nat) (result : Bytes),
      (∀ p ∈ ps, okLiteral p.1 = true ∧ p.2.wellFormed = true) →
      okLiteral carry = true → (carry ++ stagedText t vars 3 live ps last).length < fuel →
      processVariablesLoop vars fuel (carry ++ stagedText t vars 3 live ps last) result =
        some (result ++ (carry ++ partsOutput t vars live ps last))
  | _, _, _, 0, _, _, _, hf => absurd hf (by omega)
  | [], _, carry, fuel + 1, result, _, hc, _ => by
    rw [okLiteral_iff] at hc
    exact processVariablesLoop_literal vars fuel _ result (hasOpen_append last hl carry hc.1 hc.2)
  | (lit, x) :: ps, live, carry, fuel + 1, result, hw, hc, hf => by
    have hlit := (hw (lit, x) (List.mem_cons_self _ _)).1
    have hx := (hw (lit, x) (List.mem_cons_self _ _)).2
    have hw' : ∀ p ∈ ps, okLiteral p.1 = true ∧ p.2.wellFormed = true :=
      fun p hp => hw p (List.mem_cons_of_mem _ hp)
    have hcl := (okLiteral_iff _).1 (okLiteral_append carry lit hc hlit)
    cases x with
    | marker name =>
      obtain ⟨h1, h2⟩ := marker_wellFormed name hx
      have e : carry ++ stagedText t vars 3 live ((lit, .marker name) :: ps) last =
          (carry ++ lit) ++ markerText name ++
            stagedText t vars 3 (live && !(Part.marker name).stops) ps last := by
        rw [stagedText]
        simp only [Part.staged, List.append_assoc]
      have hf' : ([] ++ stagedText t vars 3 (live && !(Part.marker name).stops) ps
          last).length < fuel := by
        rw [e] at hf
        simp only [List.length_append, List.nil_append, markerText, List.length_cons] at hf ⊢
        omega
      have ih := processVariablesLoop_parts t vars last hl ps
        (live && !(Part.marker name).stops) [] fuel
        (result ++ (carry ++ lit) ++
          (if isBlockTag (Trim name) then markerText name else (mapFind (Trim name) vars).getD []))
        hw' rfl hf'
      simp only [List.nil_append] at ih
      rw [e, processVariablesLoop_marker vars fuel (carry ++ lit) name _ result hcl.1 hcl.2 h1, ih,
        h2]
      simp [partsOutput, Part.output, List.append_assoc]
    | openTag k name =>
      obtain ⟨_, hkb, h3, h4⟩ := openTag_wellFormed k name hx
      have e : carry ++ stagedText t vars 3 live ((lit, .openTag k name) :: ps) last =
          (carry ++ lit) ++ markerText (k :: name) ++
            stagedText t vars 3 (live && !(Part.openTag k name).stops) ps last := by
        rw [stagedText]
        simp only [Part.staged, tagText, List.append_assoc]
      have hf' : ([] ++ stagedText t vars 3 (live && !(Part.openTag k name).stops) ps
          last).length < fuel := by
        rw [e] at hf
        simp only [List.length_append, List.nil_append, markerText, List.length_cons] at hf ⊢
        omega
      have ih := processVariablesLoop_parts t vars last hl ps
        (live && !(Part.openTag k name).stops) [] fuel
        (result ++ (carry ++ lit) ++
          (if isBlockTag (Trim (k :: name)) then markerText (k :: name)
            else (mapFind (Trim (k :: name)) vars).getD []))
        hw' rfl hf'
      simp only [List.nil_append] at ih
      rw [e, processVariablesLoop_marker vars fuel (carry ++ lit) (k :: name) _ result hcl.1 hcl.2
        h4, ih, blockTag_Trim_cons k hkb name]
      simp [partsOutput, Part.output, tagText, List.append_assoc]
    | block k c X =>
      obtain ⟨hk3, hkb, h1, h2, h3⟩ := block_wellFormed k c X hx
      have hstops : (live && !(Part.block k c X).stops) = live := by simp [Part.stops]
      by_cases hd : k ≠ 35 ∨ live = true
      · have e : carry ++ stagedText t vars 3 live ((lit, .block k c X) :: ps) last =
            ((carry ++ lit) ++ blockValue t vars k c X) ++ stagedText t vars 3 live ps last := by
          rw [stagedText, staged_block_done t vars 3 live k c X ⟨passOf_le k, hd⟩, hstops]
          simp only [List.append_assoc]
        have hf' : (((carry ++ lit) ++ blockValue t vars k c X) ++
            stagedText t vars 3 live ps last).length < fuel + 1 := by
          rw [← e]
          exact hf
        rw [e, processVariablesLoop_parts t vars last hl ps live _ (fuel + 1) result hw'
          (okLiteral_append _ _ (okLiteral_append carry lit hc hlit)
            (okLiteral_blockValue t vars k c X hx)) hf']
        rw [partsOutput, hstops]
        simp only [Part.output, if_pos hd, List.append_assoc]
      · have e : carry ++ stagedText t vars 3 live ((lit, .block k c X) :: ps) last =
            (carry ++ lit) ++ markerText (k :: c) ++
              (X ++ markerText (47 :: c) ++ stagedText t vars 3 live ps last) := by
          rw [stagedText, staged_block_raw t vars 3 live k c X (fun h => hd h.2), hstops]
          simp only [tagText, List.append_assoc]
        have hX := (okLiteral_iff X).1 (okLiteral_braceFree X h3)
        rw [e] at hf
        simp only [List.length_append, markerText, List.length_cons, List.length_nil] at hf
        obtain ⟨fuel', rfl⟩ := exists_add_one fuel (by omega)
        have hf' : ([] ++ stagedText t vars 3 live ps last).length < fuel' := by
          simp only [List.length_append, List.nil_append]
          omega
        have ih := processVariablesLoop_parts t vars last hl ps live [] fuel'
          (result ++ (carry ++ lit) ++
            (if isBlockTag (Trim (k :: c)) then markerText (k :: c)
              else (mapFind (Trim (k :: c)) vars).getD []) ++ X ++
            (if isBlockTag (Trim (47 :: c)) then markerText (47 :: c)
              else (mapFind (Trim (47 :: c)) vars).getD []))
          hw' rfl hf'
        simp only [List.nil_append] at ih
        rw [e, processVariablesLoop_marker vars (fuel' + 1) (carry ++ lit) (k :: c) _ result
            hcl.1 hcl.2 (braceFree_cons k c hkb h1),
          processVariablesLoop_marker vars fuel' X (47 :: c) _ _ hX.1 hX.2
            (braceFree_cons 47 c rfl h1), ih, blockTag_Trim_cons k hkb c,
          blockTag_Trim_cons 47 rfl c]
        rw [partsOutput, hstops]
        simp only [Part.output, if_neg hd, tagText, if_true, List.append_assoc]


/-- The passes on a template of parts. -/
theorem RenderInternal_parts (t : SimpleTemplate) (fuel : Nat) (vars : StrMap) (err : Bytes)
    (ps : Parts) (last : Bytes)
    (hw : ∀ p ∈ ps, okLiteral p.1 = true ∧ p.2.wellFormed = true)
    (hu : ∀ n ∈ openNames ps, n ∉ blockNames ps) (hl : hasOpen last = false) :
    RenderInternal t (fuel + 2) (partsText ps last) vars err =
      some (partsOutput t vars true ps last, partsError ps err) := by
  have hr : ∀ X v e, braceFree X = true → RenderInternal t (fuel + 1) X v e = some (X, e) :=
    fun X v e hX => RenderInternal_lit t fuel v e X (hasOpen_braceFree X hX)
  have hpart := find_partial_parts last hl ps [] hw rfl
  have harr := processArraysLoop_parts t (RenderInternal t (fuel + 1)) vars last hl hr ps []
    ((partsText ps last).length + 1) [] err hw hu rfl (Nat.lt_succ_self _)
  have hpos := processConditionsLoop_parts t (RenderInternal t (fuel + 1)) vars last hl hr
    false 63 1 rfl rfl ps true [] ((stagedText t vars 1 true ps last).length + 1) []
    (arrayError ps err) hw hu rfl (Nat.lt_succ_self _)
  have hneg := processConditionsLoop_parts t (RenderInternal t (fuel + 1)) vars last hl hr
    true 33 2 rfl rfl ps true [] ((stagedText t vars 2 true ps last).length + 1) []
    (errorAfter 63 ps (arrayError ps err)) hw hu rfl (Nat.lt_succ_self _)
  have hvar := processVariablesLoop_parts t vars last hl ps true []
    ((stagedText t vars 3 true ps last).length + 1) [] hw rfl (Nat.lt_succ_self _)
  simp only [List.nil_append] at hpart harr hpos hneg hvar
  rw [RenderInternal]
  unfold renderPasses
  rw [ProcessPartials_none t _ vars _ err hpart]
  simp only
  unfold ProcessArrays
  rw [harr]
  simp only
  unfold ProcessConditions
  rw [hpos]
  simp only
  rw [hneg]
  simp only
  unfold ProcessVariables
  rw [hvar]
  rfl

theorem wellFormedParts_iff (ps : Parts) :
    wellFormedParts ps = true ↔
      (∀ p ∈ ps, okLiteral p.1 = true ∧ p.2.wellFormed = true) ∧
        ∀ n ∈ openNames ps, n ∉ blockNames ps := by
  unfold wellFormedParts
  simp only [Bool.and_eq_true, List.all_eq_true, Bool.not_eq_true', List.contains_eq_any_beq,
    List.any_eq_false, beq_iff_eq]
  constructor
  · rintro ⟨h1, h2⟩
    exact ⟨h1, fun n hn hb => h2 n hn n hb rfl⟩
  · rintro ⟨h1, h2⟩
    exact ⟨h1, fun n hn x hx e => h2 n hn (e ▸ hx)⟩

/-- C16, amended. Blocks that are never closed: for every template made of
literal texts, plain variable markers, open tags of the kinds `#`, `?` and
`!` that are never closed, and closed blocks `{{#c}}X{{/c}}`,
`{{?c}}X{{/c}}`, `{{!c}}X{{/c}}` around a literal text, `Render` returns a
result at every depth of calls from two on. Each open tag is emitted
unchanged, and the text around and after it is still processed: every marker
is substituted and every conditional or negated block rendered, wherever it
stands. Only the arrays pass stops at its first open tag: the array blocks
before the first open tag of kind `#` are rendered once for each item, those
after it are emitted as they are written. `m_lastError` afterwards names one
of the open tags, with its kind and trimmed name: the last one of kind `!` if
there is one, otherwise the last one of kind `?`, otherwise the first one of
kind `#`; without an open tag it is left as it was. -/
theorem render_unclosed_block (t : SimpleTemplate) (ps : Parts) (last : Bytes) (fuel : Nat)
    (hw : wellFormedParts ps = true) (hl : hasOpen last = false)
    (ht : t.m_template = partsText ps last) :
    Render (fuel + 2) t =
      some (partsOutput t t.m_variables true ps last,
        { t with m_lastError := partsError ps t.m_lastError }) := by
  obtain ⟨h1, h2⟩ := (wellFormedParts_iff ps).1 hw
  unfold Render
  rw [ht, RenderInternal_parts t fuel t.m_variables t.m_lastError ps last h1 h2 hl]

/-- C16 at the template
`{{#r}}ab{{/r}}{{#a}}Hi {{n}}{{?c}}!{{/c}}{{#r}}ab{{/r}}{{!d}}.` with an
array `r` of two items, `n` bound to `Bob` and the condition `c` set. -/
theorem render_unclosed_block_witness :
    wellFormedParts unclosedBlocksParts = true ∧ hasOpen (str ".") = false ∧
      unclosedBlocksTemplate.m_template = partsText unclosedBlocksParts (str ".") ∧
      Render 2 unclosedBlocksTemplate =
        some (str "abab\x7b\x7b#a\x7d\x7dHi Bob!\x7b\x7b#r\x7d\x7dab\x7b\x7b/r\x7d\x7d\x7b\x7b!d\x7d\x7d.",
          { unclosedBlocksTemplate with
            m_lastError := str "Unclosed negated condition block: d" }) :=
  ⟨by decide, by decide, by decide,
    render_unclosed_block unclosedBlocksTemplate unclosedBlocksParts (str ".") 0
      (by decide) (by decide) (by decide)⟩

/-- C16, counterexample. The block `{{#a}}` of the template `{{#a}}Hi {{n}}`
is never closed; with `n` bound to `Bob` the output from the open tag on is
`{{#a}}Hi Bob`, not the remaining template text `{{#a}}Hi {{n}}`: the
variables pass still substitutes after the open tag. In `{{#a}}{{?c}}X{{/c}}`
the conditional block after the open tag is rendered as well. And of the two
open tags of `{{?a}}{{#b}}` only the one the later pass meets is named. -/
theorem unclosed_block_text_is_processed :
    unclosedTemplate.m_template = str "\x7b\x7b#a\x7d\x7dHi \x7b\x7bn\x7d\x7d" ∧
      (Render 1 unclosedTemplate).map Prod.fst = some (str "\x7b\x7b#a\x7d\x7dHi Bob") ∧
      (Render 1 unclosedTemplate).map (fun r => r.2.m_lastError) =
        some (str "Unclosed array block: a") ∧
      str "\x7b\x7b#a\x7d\x7dHi Bob" ≠ str "\x7b\x7b#a\x7d\x7dHi \x7b\x7bn\x7d\x7d" ∧
      (Render 2 unclosedThenBlockTemplate).map Prod.fst = some (str "\x7b\x7b#a\x7d\x7dX") ∧
      (Render 1 twoUnclosedTemplate).map Prod.fst = some (str "\x7b\x7b?a\x7d\x7d\x7b\x7b#b\x7d\x7d") ∧
      (Render 1 twoUnclosedTemplate).map (fun r => r.2.m_lastError) =
        some (str "Unclosed condition block: a") := by
  refine ⟨by decide, by decide, by decide, by decide, by decide, by decide, by decide⟩

end SimpleTemplate

end DebugServer
